import Mathlib

/-!
# Map-algebra runtime: Fusioner and Task / Job engine

A shallow embedding of `runtime/visitor/Fusioner.cpp` and `src/backend/Task.cpp`
together with the properties proved about them.  Pointers to nodes and clusters
are replaced by natural-number identities; maps are total functions into
`Option`; assertion failures and undefined reads make a function return `none`.
-/

namespace MapRT

/-! ## Pattern algebra -/

/-- Tags of the pattern algebra. -/
inductive PatternTag
  | FREE | INPUT | LOCAL | FOCAL | ZONAL | RADIAL | SPREAD | STATS | LOOP | HEAD | TAIL
  deriving DecidableEq, Repr

/-- Modelled from the spec: the class `Pattern` (Pattern.hpp is not among the sources) is a
set of tags; `a.is(t)` tests that the tag is present and `==` is equality of the tag sets.
The sum `a + b` is `Pattern.add`. -/
abbrev Pattern := Finset PatternTag

/-- Modelled from the spec: `pat.is(t)`. -/
def Pattern.is (p : Pattern) (t : PatternTag) : Bool := decide (t ∈ p)

/-- The pattern made of the single tag FREE. -/
def FREE : Pattern := {PatternTag.FREE}

/-- The pattern made of the single tag INPUT. -/
def INPUT : Pattern := {PatternTag.INPUT}

/-- Modelled from the spec: `a + b`, the union of the tag sets, for which FREE is the
identity (the sum is commutative and idempotent). -/
def Pattern.add (a b : Pattern) : Pattern :=
  if a = FREE then b else if b = FREE then a else a ∪ b

/-! ## Nodes, coordinates, masks -/

/-- The dimensionality `D0` of scalars. -/
def D0 : Nat := 0

/-- A node of the DAG.  Neighbours are referred to by their id, which stands for the
pointer identity of the C++ object. -/
structure Node where
  id : Nat
  pattern : Pattern
  numdim : Nat
  prevList : List Nat
  nextList : List Nat
  canForward : Bool
  deriving DecidableEq

/-- Block coordinates and block offsets: one integer per dimension. -/
abbrev Coord := List Int

/-- Number of blocks per dimension. -/
abbrev NumBlock := List Int

/-- Modelled from the spec: `Coord + Coord`, the component-wise sum. -/
def Coord.add (a b : Coord) : Coord := List.zipWith (· + ·) a b

/-- Modelled from the spec: `all(in_range(c, numblock))`, every component of `c` lies in
`[0, numblock_i)`. -/
def inRange (c : Coord) (nb : NumBlock) : Bool :=
  c.length == nb.length && (List.zip c nb).all (fun p => decide (0 ≤ p.1) && decide (p.1 < p.2))

/-- Modelled from the spec: `prod(numblock)`. -/
def prod (nb : NumBlock) : Int := nb.foldl (· * ·) 1

/-- Modelled from the spec: `iterSpace(0, numblock)`, every coordinate of `[0, numblock)`. -/
def iterSpace : NumBlock → List Coord
  | [] => [[]]
  | n :: ns => (iterSpace ns).flatMap (fun rest => (List.range n.toNat).map (fun (x : Nat) => Int.ofNat x :: rest))

/-- Modelled from the spec: a spatial reach (`Mask`) is represented by the block offsets that
`blockSpace(blocksize)` materialises for it. -/
abbrev Mask := List Coord

/-- Modelled from the spec: `Mask::blockSpace`, the offsets of the reach in block space. -/
def Mask.blockSpace (m : Mask) : List Coord := m

/-- Modelled from the spec: `Mask::invert`, the coordinate reflection of a reach. -/
def Mask.invert (m : Mask) : Mask := m.map (fun o => o.map (fun x => -x))

/-! ## Utilities of `util.cpp` -/

/-- The `is_included` of util.cpp. -/
def is_included {α : Type} [DecidableEq α] (x : α) (l : List α) : Bool := decide (x ∈ l)

/-- The `inner_join` of util.cpp: the elements of `lhs` that occur in `rhs`. -/
def inner_join {α : Type} [DecidableEq α] (lhs rhs : List α) : List α :=
  lhs.filter (fun x => is_included x rhs)

/-- The `full_join` of util.cpp: concatenation. -/
def full_join {α : Type} (lhs rhs : List α) : List α := lhs ++ rhs

/-- The `full_unique_join` of util.cpp: `lhs` followed by the elements of `rhs` not yet
present. -/
def full_unique_join {α : Type} [DecidableEq α] (lhs rhs : List α) : List α :=
  rhs.foldl (fun join right => if is_included right join then join else join ++ [right]) lhs

/-- The `left_join` of util.cpp: the elements of `lhs` that do not occur in `rhs`. -/
def left_join {α : Type} [DecidableEq α] (lhs rhs : List α) : List α :=
  lhs.filter (fun x => !is_included x rhs)

/-- The `remove_value` of util.cpp. -/
def remove_value {α : Type} [DecidableEq α] (x : α) (l : List α) : List α :=
  l.filter (fun y => !decide (y = x))

/-! ## Task factory -/

/-- The kinds of task that `Task::Factory` can construct. -/
inductive TaskKind
  | LoopTask | RadialTask | ScalarTask | TailTask | Task
  deriving DecidableEq, Repr

/-- The dispatch of `Task::Factory` on the pattern and dimensionality of the cluster.  The
SPREAD branch is `assert(0)`: no task is constructed. -/
def Factory (pat : Pattern) (numdim : Nat) : Option TaskKind :=
  if pat.is PatternTag.LOOP then some TaskKind.LoopTask
  else if pat.is PatternTag.SPREAD then none
  else if pat.is PatternTag.RADIAL then some TaskKind.RadialTask
  else if numdim = D0 then some TaskKind.ScalarTask
  else if pat.is PatternTag.TAIL then some TaskKind.TailTask
  else some TaskKind.Task

/-! ## Task and job engine -/

/-- A job: task, block coordinate and iteration. -/
structure Job where
  task : Nat
  coord : Coord
  iter : Int
  deriving DecidableEq

/-- The data of a task that the job engine reads: identity, the cluster's input and output
lists, the number of blocks, and the accumulated input reach of every node (the constructor
fills `accu_in_reach_of` for every node of the cluster, so the lookup of `accuInputReach`
is total here). -/
structure Task where
  id : Nat
  inputList : List Node
  outputList : List Node
  nodeList : List Node
  numblock : NumBlock
  accu_in_reach_of : Node → Mask
  blocksize : List Int := []

/-- The mutable state of a task guarded by its mutex, with the vector of emitted jobs. -/
structure TaskState where
  dep_hash : Coord → Option Int
  self_jobs_count : Int → Option Int
  job_vec : List Job

/-- The accessor `Task::accuInputReach`; the coordinate is not used. -/
def Task.accuInputReach (T : Task) (node : Node) (_coord : Coord) : Mask :=
  T.accu_in_reach_of node

/-- The count of `Task::prevInterDepends`. -/
def Task.prevInterDepends (T : Task) (node : Node) (coord : Coord) : Int :=
  let reach := T.accuInputReach node coord
  let space := reach.blockSpace
  space.foldl (fun dep offset =>
    let nbc := Coord.add coord offset
    if inRange nbc T.numblock then
      dep + (if node.pattern = INPUT ∨ node.pattern = FREE then 0 else 1)
    else dep) 0

/-- The count of `Task::prevIntraDepends` of the generic task. -/
def Task.prevIntraDepends (_T : Task) (_node : Node) (_coord : Coord) : Int := 0

/-- The count of `Task::prevDependencies`. -/
def Task.prevDependencies (T : Task) (coord : Coord) : Int :=
  let dep := T.inputList.foldl (fun dep node => dep + T.prevInterDepends node coord) 0
  T.outputList.foldl (fun dep node => dep + T.prevIntraDepends node coord) dep

/-- The method `Task::notify`.  The result is `none` when the assertion
`it->second >= 0` fails. -/
def Task.notify (T : Task) (s : TaskState) (new_job : Job) : Option TaskState :=
  let coord := new_job.coord
  let iter := new_job.iter
  let dep := match s.dep_hash coord with
    | some d => d
    | none => T.prevDependencies coord
  let dep1 := dep - 1
  if dep1 < 0 then none
  else if dep1 = 0 then
    some { dep_hash := Function.update s.dep_hash coord none
           self_jobs_count :=
             if s.self_jobs_count iter = none then
               Function.update s.self_jobs_count iter (some (prod T.numblock))
             else s.self_jobs_count
           job_vec := s.job_vec ++ [new_job] }
  else
    some { s with dep_hash := Function.update s.dep_hash coord (some dep1) }

/-- A sequence of calls of `notify`, one per job of the list, in order. -/
def Task.notifySeq (T : Task) (s : TaskState) : List Job → Option TaskState
  | [] => some s
  | j :: js => (T.notify s j).bind (fun s1 => T.notifySeq s1 js)

/-- The jobs for which `Task::nextJobs` calls `notify`, in call order, when `done_job` of the
producer task `P` (`done_job.task`) has completed.  A shared D0 node notifies every coordinate
(`notifyAll`) when `isEnd` holds and nothing otherwise; any other shared node notifies the
in-range coordinates `done_job.coord + offset` over the inverted accumulated input reach that
this task holds for the node. -/
def Task.nextJobsTargets (T P : Task) (done_job : Job) (isEnd : Bool) : List Job :=
  let iter := done_job.iter
  let prev_nodes := P.outputList
  let common_nodes := inner_join T.inputList prev_nodes
  common_nodes.flatMap (fun node =>
    if node.numdim = D0 then
      if !isEnd then []
      else (iterSpace T.numblock).map (fun coord => (⟨T.id, coord, iter⟩ : Job))
    else
      let reach := T.accuInputReach node done_job.coord
      let inver := reach.invert
      let space := inver.blockSpace
      (space.filter (fun offset => inRange (Coord.add done_job.coord offset) T.numblock)).map
        (fun offset => (⟨T.id, Coord.add done_job.coord offset, iter⟩ : Job)))

/-- The method `Task::nextJobs`: the calls of `notify` are made one after the other. -/
def Task.nextJobs (T P : Task) (s : TaskState) (done_job : Job) (isEnd : Bool) :
    Option TaskState :=
  T.notifySeq s (T.nextJobsTargets P done_job isEnd)

/-- The sum over the block coordinates of the task of their initial `prevDependencies`. -/
def Task.totalPrevDependencies (T : Task) : Int :=
  ((iterSpace T.numblock).map (fun c => T.prevDependencies c)).sum

/-- The number of `notify` calls that `nextJobs` issues to `T` when every job of every task of
`preds` completes once (`isEnd` tells for which jobs the caller was the last worker). -/
def Task.totalNotifies (T : Task) (preds : List Task) (isEnd : Task → Coord → Bool) : Int :=
  (preds.map (fun P => ((iterSpace P.numblock).map (fun d =>
      ((T.nextJobsTargets P ⟨P.id, d, 0⟩ (isEnd P d)).length : Int))).sum)).sum

/-- The weight that `prevInterDepends` gives to an in-range offset of a node. -/
def Node.dependWeight (node : Node) : Int :=
  if node.pattern = INPUT ∨ node.pattern = FREE then 0 else 1

/-! ## Clusters (groups) -/

/-- A cluster: identity given by sorting, pattern, the three node lists, and the lists of
prev and next clusters with the pattern annotation of each edge.  Nodes and clusters are
referred to by their identity. -/
structure Group where
  id : Nat
  pattern : Pattern
  node_list : List Nat
  in_list : List Nat
  out_list : List Nat
  prev_list : List (Nat × Pattern)
  next_list : List (Nat × Pattern)
  deriving DecidableEq

/-- The cluster made by `new Group()`: every list empty, and the pattern is the identity of
the sum of patterns. -/
def Group.empty : Group :=
  { id := 0, pattern := FREE, node_list := [], in_list := [], out_list := [], prev_list := [],
    next_list := [] }

/-- The accessor `Group::nodeList`. -/
def Group.nodeList (g : Group) : List Nat := g.node_list

/-- The accessor `Group::inputList`. -/
def Group.inputList (g : Group) : List Nat := g.in_list

/-- The accessor `Group::outputList`. -/
def Group.outputList (g : Group) : List Nat := g.out_list

/-- The accessor `Group::prevList`: the prev clusters without their annotation. -/
def Group.prevList (g : Group) : List Nat := g.prev_list.map Prod.fst

/-- The accessor `Group::nextList`: the next clusters without their annotation. -/
def Group.nextList (g : Group) : List Nat := g.next_list.map Prod.fst

/-- Modelled from the spec: `Group::addNode` (Group.cpp is not among the sources) appends the
node to the body and accumulates its pattern into the pattern of the cluster. -/
def Group.addNode (g : Group) (node : Nat) (pat : Pattern) : Group :=
  { g with node_list := g.node_list ++ [node], pattern := g.pattern.add pat }

/-- Modelled from the spec: `Group::addAutoNode` adds the node to the body (node_list). -/
def Group.addAutoNode (g : Group) (node : Nat) (pat : Pattern) : Group := g.addNode node pat

/-- Modelled from the spec: `Group::removeNode` removes the node from the body. -/
def Group.removeNode (g : Group) (node : Nat) : Group :=
  { g with node_list := remove_value node g.node_list }

/-- Modelled from the spec: `Group::removeAutoNode` removes the node from the body. -/
def Group.removeAutoNode (g : Group) (node : Nat) : Group := g.removeNode node

/-- Modelled from the spec: `Group::addInputNode` marks the node as an input of the cluster
(once). -/
def Group.addInputNode (g : Group) (node : Nat) : Group :=
  if is_included node g.in_list then g else { g with in_list := g.in_list ++ [node] }

/-- Modelled from the spec: `Group::addOutputNode` marks the node as an output of the cluster
(once). -/
def Group.addOutputNode (g : Group) (node : Nat) : Group :=
  if is_included node g.out_list then g else { g with out_list := g.out_list ++ [node] }

/-- Adding an annotated edge to an edge list: the annotation of an existing edge is combined
with the new one, a new edge is appended. -/
def addEdge (l : List (Nat × Pattern)) (group : Nat) (pat : Pattern) : List (Nat × Pattern) :=
  if is_included group (l.map Prod.fst) then
    l.map (fun e => if e.1 = group then (e.1, e.2.add pat) else e)
  else l ++ [(group, pat)]

/-- Modelled from the spec: `Group::addPrev(group, pattern)`. -/
def Group.addPrev (g : Group) (group : Nat) (pat : Pattern) : Group :=
  { g with prev_list := addEdge g.prev_list group pat }

/-- Modelled from the spec: `Group::addNext(group, pattern)`. -/
def Group.addNext (g : Group) (group : Nat) (pat : Pattern) : Group :=
  { g with next_list := addEdge g.next_list group pat }

/-- Modelled from the spec: `Group::removePrev(group)`. -/
def Group.removePrev (g : Group) (group : Nat) : Group :=
  { g with prev_list := g.prev_list.filter (fun e => !decide (e.1 = group)) }

/-- Modelled from the spec: `Group::removeNext(group)`. -/
def Group.removeNext (g : Group) (group : Nat) : Group :=
  { g with next_list := g.next_list.filter (fun e => !decide (e.1 = group)) }

/-- The annotation of an edge in an edge list (the empty pattern when the edge is absent). -/
def edgePattern (l : List (Nat × Pattern)) (group : Nat) : Pattern :=
  match l.find? (fun e => decide (e.1 = group)) with
  | some e => e.2
  | none => ∅

/-- Modelled from the spec: `Group::prevPattern(group)`. -/
def Group.prevPattern (g : Group) (group : Nat) : Pattern := edgePattern g.prev_list group

/-- Modelled from the spec: `Group::nextPattern(group)`. -/
def Group.nextPattern (g : Group) (group : Nat) : Pattern := edgePattern g.next_list group

/-- The `all_nodes` of `Fusioner::forwarding`: inputs, body and outputs of a cluster. -/
def Group.all_nodes (g : Group) : List Nat :=
  full_join g.inputList (full_join g.nodeList g.outputList)

/-! ## Fusioner -/

/-- What the Fusioner reads from its environment: the node graph (node of an identity), the
option `code_fusion`, and the parts that are not among the sources: the pattern-level
predicates `detail::canPipeFuse` and `detail::canFlatFuse` and the dimensionality
`Group::numdim` of a cluster. -/
structure Env where
  dag : Nat → Node
  code_fusion : Bool
  patPipeFuse : Pattern → Pattern → Bool
  patFlatFuse : Pattern → Pattern → Bool
  groupNumdim : Group → Nat

/-- The state of the Fusioner: the clusters owned by the runtime (by identity, `num_groups`
of them allocated so far), the cluster list, the clusters of every node, the visited set of
the bottom-up phase and the counter `Group::id_count`. -/
structure Fusioner where
  groups : Nat → Group
  num_groups : Nat
  group_list : List Nat
  group_list_of : Nat → List Nat
  visited : List Nat
  id_count : Nat

/-- The state after `Fusioner::clear` with no cluster allocated. -/
def Fusioner.init : Fusioner :=
  { groups := fun _ => Group.empty, num_groups := 0, group_list := [],
    group_list_of := fun _ => [], visited := [], id_count := 0 }

/-- Replaces the cluster of identity `g` by its image under `f`. -/
def Fusioner.modify (s : Fusioner) (g : Nat) (f : Group → Group) : Fusioner :=
  { s with groups := Function.update s.groups g (f (s.groups g)) }

/-- The method `Fusioner::newGroup`: a fresh empty cluster at the end of the cluster list. -/
def Fusioner.newGroup (s : Fusioner) : Fusioner × Nat :=
  ({ s with groups := Function.update s.groups s.num_groups Group.empty
            num_groups := s.num_groups + 1
            group_list := s.group_list ++ [s.num_groups] }, s.num_groups)

/-- The method `Fusioner::removeGroup`. -/
def Fusioner.removeGroup (s : Fusioner) (group : Nat) : Fusioner :=
  { s with group_list := s.group_list.filter (fun g => !decide (g = group)) }

/-- Reachability along next edges within `fuel` steps. -/
def isNextFuel (groups : Nat → Group) : Nat → Nat → Nat → Bool
  | 0, _, _ => false
  | fuel + 1, a, b =>
    is_included b (groups a).nextList || (groups a).nextList.any (fun n => isNextFuel groups fuel n b)

/-- Reachability along prev edges within `fuel` steps. -/
def isPrevFuel (groups : Nat → Group) : Nat → Nat → Nat → Bool
  | 0, _, _ => false
  | fuel + 1, a, b =>
    is_included b (groups a).prevList || (groups a).prevList.any (fun n => isPrevFuel groups fuel n b)

/-- Modelled from the spec: `a->isNext(b)`, `b` is a transitive successor of `a`.  The search
depth is the number of allocated clusters, which is enough on an acyclic graph. -/
def Fusioner.isNext (s : Fusioner) (a b : Nat) : Bool := isNextFuel s.groups s.num_groups a b

/-- Modelled from the spec: `a->isPrev(b)`, `b` is a transitive predecessor of `a`. -/
def Fusioner.isPrev (s : Fusioner) (a b : Nat) : Bool := isPrevFuel s.groups s.num_groups a b

/-- The method `Fusioner::canPipeFuse`. -/
def Fusioner.canPipeFuse (env : Env) (s : Fusioner) (top bot : Nat) : Bool :=
  if top = bot then false
  else if (s.groups top).nextList.any (fun next => !decide (next = bot) && s.isNext next bot) then
    false
  else
    env.patPipeFuse ((s.groups bot).prevPattern top) ((s.groups top).nextPattern bot)
      && env.patFlatFuse (s.groups top).pattern (s.groups bot).pattern

/-- The method `Fusioner::canFlatFuse`. -/
def Fusioner.canFlatFuse (env : Env) (s : Fusioner) (left right : Nat) : Bool :=
  if left = right then false
  else if s.isNext left right || s.isNext right left then false
  else env.patFlatFuse (s.groups left).pattern (s.groups right).pattern

/-- One step of the loops that move a node of `src` to `dst`: `add` puts the node into a list
of `dst`, then `src` is removed from the clusters of the node and `dst` is appended. -/
def Fusioner.moveNode (s : Fusioner) (src dst : Nat) (add : Group → Nat → Group) (node : Nat) :
    Fusioner :=
  let s1 := s.modify dst (fun g => add g node)
  { s1 with
    group_list_of :=
      Function.update s1.group_list_of node (remove_value src (s1.group_list_of node) ++ [dst]) }

/-- The three loops at the start of `pipeFuseGroup` and `flatFuseGroup`: the body, input and
output nodes of `src` are moved to `dst`. -/
def Fusioner.moveNodes (env : Env) (s : Fusioner) (src dst : Nat) : Fusioner :=
  let s1 := (s.groups src).nodeList.foldl
    (fun s node => s.moveNode src dst (fun g n => g.addNode n (env.dag n).pattern) node) s
  let s2 := (s1.groups src).inputList.foldl
    (fun s node => s.moveNode src dst (fun g n => g.addInputNode n) node) s1
  (s2.groups src).outputList.foldl
    (fun s node => s.moveNode src dst (fun g n => g.addOutputNode n) node) s2

/-- The loop of `pipeFuseGroup` that moves the prev clusters of `bot` to `top`. -/
def Fusioner.pipeMovePrevs (s : Fusioner) (top bot : Nat) : Fusioner :=
  (s.groups bot).prevList.foldl (fun s prev =>
    if prev = top then s
    else
      let s1 := s.modify prev (fun g => g.addNext top (g.nextPattern bot))
      let s2 := s1.modify top (fun g => g.addPrev prev ((s1.groups bot).prevPattern prev))
      s2.modify prev (fun g => g.removeNext bot)) s

/-- The loop of `pipeFuseGroup` that moves the next clusters of `bot` to `top`; `none` when
the assertion `next != top` fails. -/
def Fusioner.pipeMoveNexts (s : Fusioner) (top bot : Nat) : Option Fusioner :=
  (s.groups bot).nextList.foldlM (fun s next =>
    if next = top then none
    else
      let s1 := s.modify next
        (fun g => g.addPrev top ((g.prevPattern bot).add ((s.groups bot).prevPattern top)))
      let s2 := s1.modify top (fun g => g.addNext next ((s1.groups bot).nextPattern next))
      some (s2.modify next (fun g => g.removePrev bot))) s

/-- The loop of `pipeFuseGroup` that updates the prev clusters of `top` with the pattern that
`top` had towards `bot`. -/
def Fusioner.pipeUpdatePrevs (s : Fusioner) (top bot : Nat) : Fusioner :=
  (s.groups top).prevList.foldl (fun s prev =>
    s.modify prev (fun g => g.addNext top ((s.groups top).nextPattern bot))) s

/-- The method `Fusioner::pipeFuseGroup`; `none` when an assertion fails or when `top` or
`bot` is no longer in the cluster list (the cluster has been destroyed by `removeGroup`, the
pointer dangles).  The result holds the state and the returned cluster (`top`). -/
def Fusioner.pipeFuseGroup (env : Env) (s : Fusioner) (top bot : Nat) : Option (Fusioner × Nat) :=
  if !is_included top s.group_list || !is_included bot s.group_list then none
  else if !s.canPipeFuse env top bot then none
  else
    let s1 := s.moveNodes env bot top
    let s2 := s1.pipeMovePrevs top bot
    match s2.pipeMoveNexts top bot with
    | none => none
    | some s3 =>
      let s4 := s3.pipeUpdatePrevs top bot
      let s5 := s4.modify top (fun g => g.removeNext bot)
      let s6 := s5.modify top (fun g => { g with pattern := g.pattern.add (s5.groups bot).pattern })
      some (s6.removeGroup bot, top)

/-- The loop of `flatFuseGroup` that moves the prev clusters of `right` to `left`; `none` when
the assertion `prev != left` fails. -/
def Fusioner.flatMovePrevs (s : Fusioner) (left right : Nat) : Option Fusioner :=
  (s.groups right).prevList.foldlM (fun s prev =>
    if prev = left then none
    else
      let s1 := s.modify prev (fun g => g.addNext left (g.nextPattern right))
      let s2 := s1.modify left (fun g => g.addPrev prev ((s1.groups right).prevPattern prev))
      some (s2.modify prev (fun g => g.removeNext right))) s

/-- The loop of `flatFuseGroup` that moves the next clusters of `right` to `left`; `none` when
the assertion `next != left` fails. -/
def Fusioner.flatMoveNexts (s : Fusioner) (left right : Nat) : Option Fusioner :=
  (s.groups right).nextList.foldlM (fun s next =>
    if next = left then none
    else
      let s1 := s.modify next (fun g => g.addPrev left (g.prevPattern right))
      let s2 := s1.modify left (fun g => g.addNext next ((s1.groups right).nextPattern next))
      some (s2.modify next (fun g => g.removePrev right))) s

/-- The method `Fusioner::flatFuseGroup`; `none` when an assertion fails or when `left` or
`right` is no longer in the cluster list (the pointer dangles).  The result holds the state
and the returned cluster (`left`). -/
def Fusioner.flatFuseGroup (env : Env) (s : Fusioner) (left right : Nat) :
    Option (Fusioner × Nat) :=
  if !is_included left s.group_list || !is_included right s.group_list then none
  else if !s.canFlatFuse env left right then none
  else
    let s1 := s.moveNodes env right left
    match s1.flatMovePrevs left right with
    | none => none
    | some s2 =>
      match s2.flatMoveNexts left right with
      | none => none
      | some s3 =>
        let s4 := s3.modify left
          (fun g => { g with pattern := g.pattern.add (s3.groups right).pattern })
        some (s4.removeGroup right, left)

/-- The state of `Fusioner::process` before its loop over the predecessors: a new cluster with
the node in its body, appended to the clusters of the node. -/
def Fusioner.processNew (env : Env) (s : Fusioner) (node : Nat) : Fusioner :=
  let s1 := s.newGroup.1.modify s.newGroup.2 (fun g => g.addAutoNode node (env.dag node).pattern)
  { s1 with
    group_list_of :=
      Function.update s1.group_list_of node (s1.group_list_of node ++ [s.newGroup.2]) }

/-- The step of the loop of `Fusioner::process` over the predecessors of the node. -/
def processLink (new_group : Nat) (s : Fusioner) (prev : Nat) : Option Fusioner :=
  match (s.group_list_of prev).head? with
  | none => none
  | some prev_group =>
    let s3 := s.modify prev_group (fun g => g.addNext new_group (s.groups new_group).pattern)
    some (s3.modify new_group (fun g => g.addPrev prev_group (s3.groups prev_group).pattern))

/-- The method `Fusioner::process(Node*)`: a new cluster for the node, linked to the first
cluster of every predecessor; `none` when a predecessor has no cluster yet (`front()` of an
empty list). -/
def Fusioner.process (env : Env) (s : Fusioner) (node : Nat) : Option Fusioner :=
  (env.dag node).prevList.foldlM (processLink s.newGroup.2) (s.processNew env node)

/-- The test `isFreeOrLocal` of `pipeGently` and `flatGently`. -/
def isFreeOrLocal (g : Group) : Bool :=
  g.pattern.is PatternTag.FREE || g.pattern.is PatternTag.LOCAL

/-- The loop of `Fusioner::pipeGently` from index `i`, with at most `fuel` iterations. -/
def Fusioner.pipeGentlyLoop (env : Env) : Nat → Fusioner → Nat → Nat → Option Fusioner
  | 0, _, _, _ => none
  | fuel + 1, s, new_group, i =>
    match (s.groups new_group).prevList.get? i with
    | none => some s
    | some prev_group =>
      let fuse_free := isFreeOrLocal (s.groups new_group) && isFreeOrLocal (s.groups prev_group)
      let fuse_dnd0 := !(decide (env.groupNumdim (s.groups new_group) ≠ D0)
        && decide (env.groupNumdim (s.groups prev_group) = D0)
        && decide ((s.groups prev_group).pattern ≠ FREE))
      if fuse_free && fuse_dnd0 && decide ((s.groups prev_group).nextList.length = 1)
          && s.canPipeFuse env prev_group new_group then
        match s.pipeFuseGroup env prev_group new_group with
        | none => none
        | some (s1, ret) => Fusioner.pipeGentlyLoop env fuel s1 ret 0
      else Fusioner.pipeGentlyLoop env fuel s new_group (i + 1)

/-- The method `Fusioner::pipeGently`. -/
def Fusioner.pipeGently (env : Env) (fuel : Nat) (s : Fusioner) (node : Nat) : Option Fusioner :=
  if !env.code_fusion then some s
  else
    match (s.group_list_of node).head? with
    | none => none
    | some new_group => s.pipeGentlyLoop env fuel new_group 0

/-- The inner loop of `Fusioner::flatGently` over the successors `rights` of the node that
follow `left`. -/
def Fusioner.flatGentlyInner (env : Env) (node_group : Nat) :
    List Nat → Fusioner → Nat → Option (Fusioner × Nat)
  | [], s, left_group => some (s, left_group)
  | right :: rest, s, left_group =>
    match (s.group_list_of right).head? with
    | none => none
    | some right_group =>
      if !isFreeOrLocal (s.groups right_group) || decide (right_group = node_group)
          || decide (right_group = left_group) then
        Fusioner.flatGentlyInner env node_group rest s left_group
      else if s.canFlatFuse env left_group right_group then
        match s.flatFuseGroup env left_group right_group with
        | none => none
        | some (s1, ret) => Fusioner.flatGentlyInner env node_group rest s1 ret
      else Fusioner.flatGentlyInner env node_group rest s left_group

/-- The outer loop of `Fusioner::flatGently` over the successors of the node. -/
def Fusioner.flatGentlyOuter (env : Env) (node_group : Nat) : List Nat → Fusioner → Option Fusioner
  | [], s => some s
  | left :: rest, s =>
    match (s.group_list_of left).head? with
    | none => none
    | some left_group =>
      if !isFreeOrLocal (s.groups left_group) || decide (left_group = node_group) then
        Fusioner.flatGentlyOuter env node_group rest s
      else
        match Fusioner.flatGentlyInner env node_group rest s left_group with
        | none => none
        | some (s1, _) => Fusioner.flatGentlyOuter env node_group rest s1

/-- The method `Fusioner::flatGently`. -/
def Fusioner.flatGently (env : Env) (s : Fusioner) (node : Nat) : Option Fusioner :=
  if !env.code_fusion then some s
  else
    match (s.group_list_of node).head? with
    | none => none
    | some node_group =>
      if (s.groups node_group).nextList.length < 2 then some s
      else Fusioner.flatGentlyOuter env node_group (env.dag node).nextList s

/-- The pipe-fusion loop of `Fusioner::processBU` from index `i`, with at most `fuel`
iterations; the result holds the state and the current cluster. -/
def Fusioner.pipeLoopBU (env : Env) : Nat → Fusioner → Nat → Nat → Option (Fusioner × Nat)
  | 0, _, _, _ => none
  | fuel + 1, s, group, i =>
    match (s.groups group).prevList.get? i with
    | none => some (s, group)
    | some top =>
      let bot := group
      let d0dn := !(decide ((s.groups top).pattern ≠ FREE)
        && decide (env.groupNumdim (s.groups top) = D0)
        && decide (env.groupNumdim (s.groups bot) ≠ D0))
      if d0dn && s.canPipeFuse env top bot then
        match s.pipeFuseGroup env top bot with
        | none => none
        | some (s1, ret) => Fusioner.pipeLoopBU env fuel s1 ret 0
      else Fusioner.pipeLoopBU env fuel s group (i + 1)

/-- The going-up loop of `Fusioner::processBU` from index `i` with remembered size `sz`;
`recur` is the recursive call of `processBU`. -/
def Fusioner.upLoopBU (recur : Fusioner → Nat → Option Fusioner) (group : Nat) :
    Nat → Fusioner → Nat → Nat → Option Fusioner
  | 0, _, _, _ => none
  | fuel + 1, s, i, sz =>
    if i < sz then
      match (s.groups group).prevList.get? i with
      | none => none
      | some prev =>
        match recur s prev with
        | none => none
        | some s1 =>
          if sz ≠ (s1.groups group).prevList.length then
            Fusioner.upLoopBU recur group fuel s1 0 (s1.groups group).prevList.length
          else Fusioner.upLoopBU recur group fuel s1 (i + 1) sz
    else some s

/-- The method `Fusioner::processBU`, with recursion depth and loop lengths bounded by
`fuel`. -/
def Fusioner.processBU (env : Env) : Nat → Fusioner → Nat → Option Fusioner
  | fuel, s, group =>
    if !env.code_fusion then some s
    else if is_included group s.visited then some s
    else
      match fuel with
      | 0 => none
      | fuel + 1 =>
        let s1 := { s with visited := group :: s.visited }
        match s1.pipeLoopBU env fuel group 0 with
        | none => none
        | some (s2, group2) =>
          Fusioner.upLoopBU (Fusioner.processBU env fuel) group2 fuel s2 0
            (s2.groups group2).prevList.length

/-- The map `forward` of `Fusioner::forwarding`: for a pair (cluster, next cluster) the nodes
forwarded from the first into the second. -/
abbrev FwdLinks := List ((Nat × Nat) × List Nat)

/-- The statement `forward[{group,next_group}].push_back(node)`. -/
def FwdLinks.push (forward : FwdLinks) (key : Nat × Nat) (node : Nat) : FwdLinks :=
  if is_included key (forward.map Prod.fst) then
    forward.map (fun e => if e.1 = key then (e.1, e.2 ++ [node]) else e)
  else forward ++ [(key, [node])]

/-- The state of the node forwarding phase: the Fusioner, the map `forward` and the flag
`forwarded` of the node being treated. -/
structure FwdState where
  fus : Fusioner
  forward : FwdLinks
  forwarded : Bool

/-- The innermost step of the node forwarding phase: `node` of `group` is forwarded into
`next_group` unless it is already among the nodes of `next_group`. -/
def forwardInto (env : Env) (group node : Nat) (st : FwdState) (next_group : Nat) : FwdState :=
  if !is_included node (st.fus.groups next_group).all_nodes then
    let s1 := st.fus.modify next_group (fun g => g.addAutoNode node (env.dag node).pattern)
    let s2 := { s1 with
      group_list_of :=
        Function.update s1.group_list_of node (s1.group_list_of node ++ [next_group]) }
    { fus := s2, forward := st.forward.push (group, next_group) node, forwarded := true }
  else st

/-- The two inner loops of the node forwarding phase for one node of `group`: the node is
forwarded into every cluster of every successor. -/
def forwardNexts (env : Env) (group node : Nat) (st : FwdState) : FwdState :=
  (env.dag node).nextList.foldl (fun st next_node =>
    (st.fus.group_list_of next_node).foldl (forwardInto env group node) st)
    { st with forwarded := false }

/-- The end of the treatment of one node of `group`: when it was forwarded and all its
successors are outside the body of `group`, it is removed from `group`. -/
def forwardRemove (env : Env) (group node : Nat) (st1 : FwdState) : FwdState :=
  if st1.forwarded then
    if (env.dag node).nextList.all
        (fun n => !is_included n (st1.fus.groups group).nodeList) then
      let s1 := st1.fus.modify group (fun g => g.removeAutoNode node)
      { st1 with
        fus := { s1 with
          group_list_of :=
            Function.update s1.group_list_of node (remove_value group (s1.group_list_of node)) } }
    else st1
  else st1

/-- The treatment of one node of `group` in the node forwarding phase: a node that satisfies
the predicate is forwarded into every cluster of every successor, and removed from `group`
when it was forwarded and all its successors are outside the body of `group`. -/
def forwardNode (env : Env) (for_pred : Nat → Bool) (group : Nat) (st : FwdState) (node : Nat) :
    FwdState :=
  if !for_pred node then st
  else forwardRemove env group node (forwardNexts env group node st)

/-- The node forwarding phase of `Fusioner::forwarding`. -/
def Fusioner.forwardNodes (env : Env) (for_pred : Nat → Bool) (s : Fusioner) : FwdState :=
  s.group_list.foldl (fun st group =>
    (st.fus.groups group).all_nodes.foldl (forwardNode env for_pred group) st)
    { fus := s, forward := [], forwarded := false }

/-- The group-to-group unlinking phase of `Fusioner::forwarding`. -/
def Fusioner.unlinkGroups (env : Env) (s : Fusioner) (forward : FwdLinks) : Fusioner :=
  forward.foldl (fun s f =>
    let group := f.1.1
    let next_group := f.1.2
    let linked := (left_join (s.groups group).nodeList f.2).any (fun node =>
      decide ((env.dag node).pattern ≠ FREE) &&
        (env.dag node).nextList.any (fun next_node =>
          is_included next_node (s.groups next_group).nodeList))
    if !linked then
      (s.modify group (fun g => g.removeNext next_group)).modify next_group
        (fun g => g.removePrev group)
    else s) s

/-- The method `Fusioner::forwarding`. -/
def Fusioner.forwarding (env : Env) (for_pred : Nat → Bool) (s : Fusioner) : Fusioner :=
  let st := s.forwardNodes env for_pred
  let s1 := st.fus.unlinkGroups env st.forward
  { s1 with group_list := s1.group_list.filter (fun g => !(s1.groups g).all_nodes.isEmpty) }

/-- The innermost step of the first loop of `Fusioner::linking`: when the body of
`next_group` does not contain `node`, the node becomes an output of `group` and an input of
`next_group`; `none` when the assertion on the body of `next_group` fails. -/
def linkInto (group node : Nat) (s : Fusioner) (next_group : Nat) : Option Fusioner :=
  if (s.groups next_group).nodeList.isEmpty then none
  else if !is_included node (s.groups next_group).nodeList then
    some ((s.modify group (fun g => g.addOutputNode node)).modify next_group
      (fun g => g.addInputNode node))
  else some s

/-- The treatment of one body node of `group` in the first loop of `Fusioner::linking`: every
cluster of every successor of the node is visited. -/
def linkNode (env : Env) (group : Nat) (s : Fusioner) (node : Nat) : Option Fusioner :=
  (env.dag node).nextList.foldlM (fun s next_node =>
    (s.group_list_of next_node).foldlM (linkInto group node) s) s

/-- The treatment of one cluster in the first loop of `Fusioner::linking`; `none` when the
assertion on its body fails. -/
def linkGroup (env : Env) (s : Fusioner) (group : Nat) : Option Fusioner :=
  if (s.groups group).nodeList.isEmpty then none
  else (s.groups group).nodeList.foldlM (linkNode env group) s

/-- The first loop of `Fusioner::linking`: a body node with a successor in a cluster whose
body does not contain it becomes an output of its cluster and an input of that cluster;
`none` when an assertion on a non-empty body fails. -/
def Fusioner.linkBoundary (env : Env) (s : Fusioner) : Option Fusioner :=
  s.group_list.foldlM (linkGroup env) s

/-- The second loop of `Fusioner::linking`: the RADIAL or SPREAD nodes of a RADIAL or SPREAD
cluster become outputs of the cluster. -/
def Fusioner.linkIntra (env : Env) (s : Fusioner) : Fusioner :=
  s.group_list.foldl (fun s group =>
    let pat := (s.groups group).pattern
    if !pat.is PatternTag.RADIAL && !pat.is PatternTag.SPREAD then s
    else
      (s.groups group).nodeList.foldl (fun s node =>
        let pat := (env.dag node).pattern
        if !pat.is PatternTag.RADIAL && !pat.is PatternTag.SPREAD then s
        else s.modify group (fun g => g.addOutputNode node)) s) s

/-- The while loop of the third part of `Fusioner::linking` on one cluster, following the
body as it was when the loop started: a node that is still in the body and is D0 and FREE is
removed from the body (all its occurrences) and added to the inputs. -/
def moveD0Free (env : Env) : List Nat → Group → Group
  | [], g => g
  | node :: rest, g =>
    if is_included node g.nodeList && decide ((env.dag node).numdim = D0)
        && decide ((env.dag node).pattern = FREE) then
      moveD0Free env rest ((g.removeNode node).addInputNode node)
    else moveD0Free env rest g

/-- The third loop of `Fusioner::linking`. -/
def Fusioner.linkD0Free (env : Env) (s : Fusioner) : Fusioner :=
  s.group_list.foldl (fun s group =>
    s.modify group (fun g => moveD0Free env g.nodeList g)) s

/-- The method `Fusioner::linking`; `none` when an assertion fails. -/
def Fusioner.linking (env : Env) (s : Fusioner) : Option Fusioner :=
  match s.linkBoundary env with
  | none => none
  | some s1 => some ((s1.linkIntra env).linkD0Free env)

/-- Modelled from the spec: `std::sort` is library code; it is represented by insertion with
the comparator, which may be undefined (`none`) on some pairs. -/
def insertBy {α : Type} (lt : α → α → Option Bool) (x : α) : List α → Option (List α)
  | [] => some [x]
  | y :: ys =>
    match lt x y with
    | none => none
    | some true => some (x :: y :: ys)
    | some false =>
      match insertBy lt x ys with
      | none => none
      | some r => some (y :: r)

/-- Modelled from the spec: `std::sort(begin, end, lt)` by repeated insertion. -/
def sortBy {α : Type} (lt : α → α → Option Bool) : List α → Option (List α)
  | [] => some []
  | x :: xs =>
    match sortBy lt xs with
    | none => none
    | some r => insertBy lt x r

/-- The comparator `node_id_less` of util.cpp. -/
def node_id_less (env : Env) (lhs rhs : Nat) : Bool :=
  decide ((env.dag lhs).id < (env.dag rhs).id)

/-- The id of the last body node of a cluster, `nodeList().back()->id`; undefined on an empty
body. -/
def Group.lastId (env : Env) (g : Group) : Option Nat :=
  g.nodeList.getLast?.map (fun n => (env.dag n).id)

/-- The comparator `less` of `Fusioner::sorting`. -/
def Fusioner.less (env : Env) (s : Fusioner) (a b : Nat) : Option Bool :=
  if s.isNext a b then some true
  else if s.isPrev a b then some false
  else
    match (s.groups a).lastId env, (s.groups b).lastId env with
    | some x, some y => some (decide (x < y))
    | _, _ => none

/-- The step of the numbering loop of `Fusioner::sorting`: `group->id = Group::id_count++`. -/
def numerateStep (s : Fusioner) (group : Nat) : Fusioner :=
  { s.modify group (fun g => { g with id := s.id_count }) with id_count := s.id_count + 1 }

/-- The numbering loop of `Fusioner::sorting`: the clusters receive consecutive ids in list
order. -/
def Fusioner.numerate (s : Fusioner) : Fusioner :=
  s.group_list.foldl numerateStep s

/-- The sorting of the three node lists of a cluster by node id. -/
def Group.sortNodes (env : Env) (g : Group) : Option Group :=
  match sortBy (fun a b => some (node_id_less env a b)) g.node_list,
        sortBy (fun a b => some (node_id_less env a b)) g.in_list,
        sortBy (fun a b => some (node_id_less env a b)) g.out_list with
  | some n, some i, some o => some { g with node_list := n, in_list := i, out_list := o }
  | _, _, _ => none

/-- The method `Fusioner::sorting`; `none` when the comparator reads the last node of an empty
body. -/
def Fusioner.sorting (env : Env) (s : Fusioner) : Option Fusioner :=
  match s.group_list.foldlM (fun s group =>
      ((s.groups group).sortNodes env).map (fun g => s.modify group (fun _ => g))) s with
  | none => none
  | some s1 =>
    match sortBy (s1.less env) s1.group_list with
    | none => none
    | some sorted => some ({ s1 with group_list := sorted }).numerate

/-- The method `Fusioner::clear`. -/
def Fusioner.clear (s : Fusioner) : Fusioner :=
  { s with visited := [], group_list := [], group_list_of := fun _ => [] }

/-- The first loop of `Fusioner::fuse`: `process` and `pipeGently` on every node. -/
def Fusioner.fuseGently (env : Env) (fuel : Nat) (s : Fusioner) (list : List Nat) :
    Option Fusioner :=
  list.foldlM (fun s node =>
    match s.process env node with
    | none => none
    | some s1 => s1.pipeGently env fuel node) s

/-- The second loop of `Fusioner::fuse`: `flatGently` on every node. -/
def Fusioner.fuseFlat (env : Env) (s : Fusioner) (list : List Nat) : Option Fusioner :=
  list.foldlM (fun s node => s.flatGently env node) s

/-- The third loop of `Fusioner::fuse`: `processBU` on the cluster of every node, in reverse
order; `none` when the assertion that the node has exactly one cluster fails. -/
def Fusioner.fuseBU (env : Env) (fuel : Nat) (s : Fusioner) (list : List Nat) : Option Fusioner :=
  list.reverse.foldlM (fun s node =>
    match s.group_list_of node with
    | [group] => s.processBU env fuel group
    | _ => none) s

/-- The method `Fusioner::fuse` on a node list; loops and recursion are bounded by `fuel`,
and the result is `none` when an assertion fails, an undefined read happens or the fuel runs
out. -/
def Fusioner.fuse (env : Env) (fuel : Nat) (s : Fusioner) (list : List Nat) : Option Fusioner :=
  match s.clear.fuseGently env fuel list with
  | none => none
  | some s1 =>
    match s1.fuseFlat env list with
    | none => none
    | some s2 =>
      match s2.fuseBU env fuel list with
      | none => none
      | some s3 =>
        match (s3.forwarding env (fun n => decide ((env.dag n).pattern = FREE))).linking env with
        | none => none
        | some s5 => s5.sorting env

/-- The test of the third loop of `Fusioner::linking`: the node is D0 and FREE. -/
def isD0Free (env : Env) (node : Nat) : Bool :=
  decide ((env.dag node).numdim = D0) && decide ((env.dag node).pattern = FREE)

/-- The way `linking` may change a cluster: the body only loses nodes and keeps every node
that is not D0 and FREE, inputs and outputs only grow. -/
def GroupStep (env : Env) (g h : Group) : Prop :=
  (∀ n ∈ h.node_list, n ∈ g.node_list) ∧
  (∀ n ∈ g.node_list, isD0Free env n = false → n ∈ h.node_list) ∧
  (∀ n ∈ g.in_list, n ∈ h.in_list) ∧
  (∀ n ∈ g.out_list, n ∈ h.out_list)

/-- The way `linking` may change the state: the cluster list and the clusters of a node are
kept, and every cluster changes by `GroupStep`. -/
def LinkStep (env : Env) (s t : Fusioner) : Prop :=
  t.group_list = s.group_list ∧ t.group_list_of = s.group_list_of ∧
  ∀ g, GroupStep env (s.groups g) (t.groups g)

/-- The id of the last body node of a cluster, 0 on an empty body. -/
def Group.lastIdD (env : Env) (g : Group) : Nat := (g.lastId env).getD 0

/-- The largest node id of the body of a cluster, 0 on an empty body. -/
def Group.maxId (env : Env) (g : Group) : Nat :=
  g.node_list.foldl (fun m n => max m (env.dag n).id) 0

/-- The order that the spec claims for a cluster list `l`: a transitive predecessor appears
before its successors, and of two unrelated clusters the one with the smaller last body node
id appears first. -/
def Fusioner.TopoOrdered (env : Env) (s : Fusioner) (l : List Nat) : Prop :=
  ∀ a ∈ l, ∀ b ∈ l,
    (s.isNext a b = true → l.indexOf a < l.indexOf b) ∧
    (s.isNext a b = false → s.isNext b a = false →
      (s.groups a).lastIdD env < (s.groups b).lastIdD env → l.indexOf a < l.indexOf b)

/-- The ids of the clusters increase along the list `l`. -/
def Fusioner.IdsIncrease (s : Fusioner) (l : List Nat) : Prop :=
  ∀ a ∈ l, ∀ b ∈ l, l.indexOf a < l.indexOf b → (s.groups a).id < (s.groups b).id

/-- The way the sorting of node lists and the numbering may change the state: the cluster
list, the counters and all edges are kept; a body is permuted, and stays sorted by node id if
it was. -/
def SortStep (env : Env) (s t : Fusioner) : Prop :=
  t.group_list = s.group_list ∧ t.num_groups = s.num_groups ∧
  ∀ g, (t.groups g).next_list = (s.groups g).next_list ∧
    (t.groups g).prev_list = (s.groups g).prev_list ∧
    (t.groups g).node_list.Perm (s.groups g).node_list ∧
    ((s.groups g).node_list.Pairwise (fun a b => (env.dag a).id ≤ (env.dag b).id) →
      (t.groups g).node_list.Pairwise (fun a b => (env.dag a).id ≤ (env.dag b).id))

/-- Two states with the same cluster list, allocation counter, edges and bodies. -/
def SameLists (s t : Fusioner) : Prop :=
  t.group_list = s.group_list ∧ t.num_groups = s.num_groups ∧
  ∀ g, (t.groups g).next_list = (s.groups g).next_list ∧
    (t.groups g).prev_list = (s.groups g).prev_list ∧
    (t.groups g).node_list = (s.groups g).node_list

/-- The node `n` is among the nodes of every cluster of `m` that has `m` in its body. -/
def ReplicatedInto (n m : Nat) (s : Fusioner) : Prop :=
  ∀ H ∈ s.group_list_of m, m ∈ (s.groups H).node_list → n ∈ (s.groups H).all_nodes

/-- The way the node forwarding phase may change the state: the clusters of a node outside
the predicate and its membership in bodies are kept, inputs and outputs are kept, and a node
of a cluster stays in it as long as one of its successors outside the predicate is in the
body of that cluster. -/
def FwdStep (env : Env) (for_pred : Nat → Bool) (s t : Fusioner) : Prop :=
  (∀ x, for_pred x = false → t.group_list_of x = s.group_list_of x) ∧
  (∀ g x, for_pred x = false → (x ∈ (t.groups g).node_list ↔ x ∈ (s.groups g).node_list)) ∧
  (∀ g x y, x ∈ (s.groups g).all_nodes → y ∈ (env.dag x).nextList → for_pred y = false →
    y ∈ (s.groups g).node_list → x ∈ (t.groups g).all_nodes)

/-- The step `FwdStep` together with the fate of node `n` of cluster `G`: it stays in `G`
unless it has been replicated into the clusters of its successor `m`. -/
def FwdTrack (env : Env) (for_pred : Nat → Bool) (n m G : Nat) (s t : Fusioner) : Prop :=
  FwdStep env for_pred s t ∧
  (n ∈ (s.groups G).all_nodes → n ∈ (t.groups G).all_nodes ∨ ReplicatedInto n m t)

/-- The step `FwdStep` in which no cluster loses a node. -/
def FwdGrow (env : Env) (for_pred : Nat → Bool) (s t : Fusioner) : Prop :=
  FwdStep env for_pred s t ∧
  ∀ g x, x ∈ (s.groups g).all_nodes → x ∈ (t.groups g).all_nodes

/-- Two states with the same clusters of every node and the same three node lists in every
cluster. -/
def SameNodes (s t : Fusioner) : Prop :=
  t.group_list_of = s.group_list_of ∧
  ∀ g, (t.groups g).node_list = (s.groups g).node_list ∧
    (t.groups g).in_list = (s.groups g).in_list ∧ (t.groups g).out_list = (s.groups g).out_list

/-- The test that every predecessor of a node of the list appears earlier in the list (after
the nodes of `seen`). -/
def prevsBefore (env : Env) : List Nat → List Nat → Bool
  | _, [] => true
  | seen, n :: rest =>
    (env.dag n).prevList.all (fun p => is_included p seen) && prevsBefore env (seen ++ [n]) rest

/-- One cluster per node of `l`: the cluster list is as long as `l`, every node of `l` has
exactly one cluster, which is in the cluster list and has the node alone as its body, and
every cluster of the list is the cluster of a node of `l`. -/
def Singletons (s : Fusioner) (l : List Nat) : Prop :=
  s.group_list.length = l.length ∧
  (∀ n ∈ l, ∃ g ∈ s.group_list, s.group_list_of n = [g] ∧ (s.groups g).node_list = [n]) ∧
  (∀ g ∈ s.group_list, ∃ n ∈ l, s.group_list_of n = [g])

/-- The state after `process` on the nodes of `l` without fusion: one cluster per node, no
cluster for the other nodes, no input or output marked, every listed cluster allocated. -/
def ProcInv (s : Fusioner) (l : List Nat) : Prop :=
  Singletons s l ∧ (∀ n, n ∉ l → s.group_list_of n = []) ∧
  (∀ g ∈ s.group_list, g < s.num_groups ∧ (s.groups g).in_list = [] ∧ (s.groups g).out_list = [])

/-- Two states that differ only in the edges between clusters: same cluster list, same
allocation counter, same clusters of every node and same three node lists in every cluster. -/
def EdgeOnly (s t : Fusioner) : Prop :=
  SameNodes s t ∧ t.group_list = s.group_list ∧ t.num_groups = s.num_groups

/-- Two states with the same cluster list, the same clusters of every node and the same body
in every cluster. -/
def SameBodies (s t : Fusioner) : Prop :=
  t.group_list = s.group_list ∧ t.group_list_of = s.group_list_of ∧
  ∀ g, (t.groups g).node_list = (s.groups g).node_list

/-- The invariant of the fusion phases: a cluster of a node is in the cluster list and has the
node in its body; a listed cluster is among the clusters of each of its body nodes, has a
non-empty body, no input or output marked yet, and has been allocated. -/
def CoverInv (s : Fusioner) : Prop :=
  (∀ n g, g ∈ s.group_list_of n → g ∈ s.group_list ∧ n ∈ (s.groups g).node_list) ∧
  (∀ g ∈ s.group_list, ∀ n ∈ (s.groups g).node_list, g ∈ s.group_list_of n) ∧
  (∀ g ∈ s.group_list, (s.groups g).node_list ≠ []) ∧
  (∀ g ∈ s.group_list, (s.groups g).in_list = [] ∧ (s.groups g).out_list = []) ∧
  (∀ g ∈ s.group_list, g < s.num_groups)

/-- A step that keeps the invariant `CoverInv` and never leaves a node without cluster. -/
def CoverStep (s t : Fusioner) : Prop :=
  CoverInv s → CoverInv t ∧ ∀ n, s.group_list_of n ≠ [] → t.group_list_of n ≠ []

/-- The way the loop that moves the nodes `L` of cluster `src` to cluster `dst` may change
the state. -/
def MoveRel (src dst : Nat) (L : List Nat) (u v : Fusioner) : Prop :=
  v.group_list = u.group_list ∧ v.num_groups = u.num_groups ∧
  (∀ g, g ≠ dst → v.groups g = u.groups g) ∧
  ((v.groups dst).in_list = (u.groups dst).in_list ∧
    (v.groups dst).out_list = (u.groups dst).out_list) ∧
  (∀ x ∈ (u.groups dst).node_list, x ∈ (v.groups dst).node_list) ∧
  (∀ x ∈ (v.groups dst).node_list, x ∈ (u.groups dst).node_list ∨ x ∈ L) ∧
  (∀ n g, g ∈ v.group_list_of n → g ∈ u.group_list_of n ∨ (g = dst ∧ n ∈ L)) ∧
  (∀ n g, g ∈ u.group_list_of n → g ≠ src → g ∈ v.group_list_of n) ∧
  (∀ n, n ∉ L → v.group_list_of n = u.group_list_of n) ∧
  (∀ n, u.group_list_of n ≠ [] → v.group_list_of n ≠ [])

/-- Every cluster of a node is in the cluster list and has the node in its body. -/
def InBodies (s : Fusioner) : Prop :=
  ∀ n g, g ∈ s.group_list_of n → g ∈ s.group_list ∧ n ∈ (s.groups g).node_list

/-- The way the replication of `node` into the clusters of its successors may change the
state: bodies and the clusters of a node only grow, and when the flag `forwarded` is raised
the node has a cluster whose body holds one of its successors. -/
def NextsRel (env : Env) (node : Nat) (a b : FwdState) : Prop :=
  (InBodies a.fus → InBodies b.fus) ∧
  (∀ n, a.fus.group_list_of n ≠ [] → b.fus.group_list_of n ≠ []) ∧
  (∀ g x, x ∈ (a.fus.groups g).node_list → x ∈ (b.fus.groups g).node_list) ∧
  (∀ n g, g ∈ a.fus.group_list_of n → g ∈ b.fus.group_list_of n) ∧
  (InBodies a.fus → b.forwarded = true → a.forwarded = true ∨
    ∃ h y, y ∈ (env.dag node).nextList ∧ y ∈ (b.fus.groups h).node_list ∧
      h ∈ b.fus.group_list_of node)

/-- A step of the node forwarding phase that keeps `InBodies` and never leaves a node without
cluster. -/
def FwdCover (a b : FwdState) : Prop :=
  InBodies a.fus → InBodies b.fus ∧
    ∀ n, a.fus.group_list_of n ≠ [] → b.fus.group_list_of n ≠ []

/-- The cluster cover of the spec, apart from the nodes: every cluster of a node is in the
cluster list and every cluster of the cluster list has a node among its inputs, body and
outputs. -/
def Covered (s : Fusioner) : Prop :=
  (∀ n g, g ∈ s.group_list_of n → g ∈ s.group_list) ∧
  (∀ g ∈ s.group_list, (s.groups g).all_nodes ≠ [])

/-- A step that keeps the cluster list and the clusters of every node, and in which no
cluster loses a node. -/
def AllGrow (s t : Fusioner) : Prop :=
  t.group_list = s.group_list ∧ t.group_list_of = s.group_list_of ∧
  ∀ g x, x ∈ (s.groups g).all_nodes → x ∈ (t.groups g).all_nodes

/-- An edge of the cluster graph: `b` is a next cluster of `a`, both in the cluster list. -/
def Fusioner.nextEdge (s : Fusioner) (a b : Nat) : Prop :=
  a ∈ s.group_list ∧ b ∈ s.group_list ∧ b ∈ (s.groups a).nextList

/-- The cluster graph has no cycle. -/
def Fusioner.Acyclic (s : Fusioner) : Prop :=
  ∀ g, ¬ Relation.TransGen s.nextEdge g g

/-- The prev and next lists describe one graph on the cluster list: every listed cluster has
been allocated, its prev and next clusters are listed, and `b` is a next cluster of `a`
exactly when `a` is a prev cluster of `b`. -/
def Fusioner.WellLinked (s : Fusioner) : Prop :=
  (∀ a ∈ s.group_list, a < s.num_groups) ∧
  (∀ a ∈ s.group_list, ∀ b ∈ (s.groups a).nextList,
    b ∈ s.group_list ∧ a ∈ (s.groups b).prevList) ∧
  (∀ a ∈ s.group_list, ∀ b ∈ (s.groups a).prevList,
    b ∈ s.group_list ∧ a ∈ (s.groups b).nextList)

/-- Every edge that a cluster of the list `gl` has in state `u`, in its next list or in its
prev list, is allowed by `A`; the cluster list is `gl`. -/
def EdgesWithin (gl : List Nat) (A : Nat → Nat → Prop) (u : Fusioner) : Prop :=
  u.group_list = gl ∧
  ∀ a ∈ gl, (∀ b ∈ (u.groups a).nextList, A a b) ∧ (∀ b ∈ (u.groups a).prevList, A b a)

/-- Relates a cluster before and after the scalar FREE nodes are moved out of its body. -/
def D0FreeMoved (env : Env) (g0 g1 : Group) : Prop :=
  g1.node_list = g0.node_list.filter (fun n => !isD0Free env n) ∧
  ∀ n ∈ g0.node_list, isD0Free env n = true → n ∈ g1.in_list

/-- What holds of the state while one node of `group` is being forwarded, relative to the
state `st0` before: nothing has changed as long as the flag is unset, the clusters of the
other nodes and the cluster `group` itself are untouched, and `group` is a cluster of the
node exactly when it was. -/
def FwdKeeps (group node : Nat) (st0 : Fusioner) (u : FwdState) : Prop :=
  (u.forwarded = false → u.fus = st0) ∧
  (∀ y, y ≠ node → u.fus.group_list_of y = st0.group_list_of y) ∧
  u.fus.groups group = st0.groups group ∧
  (group ∈ u.fus.group_list_of node ↔ group ∈ st0.group_list_of node)

/-- The condition under which the node forwarding phase replicates `node`: some cluster of
some successor does not hold the node yet. -/
def Replicable (env : Env) (st0 : Fusioner) (node : Nat) : Prop :=
  ∃ y ∈ (env.dag node).nextList, ∃ h ∈ st0.group_list_of y,
    node ∉ (st0.groups h).all_nodes

/-- The way the loops that move the nodes of `src` to `dst` may change the state: the cluster
list, all edges and the cluster `src` are kept, the three node lists of `dst` only grow, and a
node that has `dst` and not `src` among its clusters keeps that. -/
def MoveGrow (src dst : Nat) (u v : Fusioner) : Prop :=
  v.group_list = u.group_list ∧
  (∀ g, (v.groups g).next_list = (u.groups g).next_list ∧
    (v.groups g).prev_list = (u.groups g).prev_list) ∧
  v.groups src = u.groups src ∧
  (∀ x ∈ (u.groups dst).node_list, x ∈ (v.groups dst).node_list) ∧
  (∀ x ∈ (u.groups dst).in_list, x ∈ (v.groups dst).in_list) ∧
  (∀ x ∈ (u.groups dst).out_list, x ∈ (v.groups dst).out_list) ∧
  (∀ n, dst ∈ u.group_list_of n ∧ src ∉ u.group_list_of n →
    dst ∈ v.group_list_of n ∧ src ∉ v.group_list_of n)

/-- The way the edge loops of `pipeFuseGroup(top, bot)` may change the state: the cluster list,
the clusters of every node, the cluster `bot` and all node lists are kept, and a cluster that
is new in a next or prev list is not `bot`, and not `top` when the list is one of `top`. -/
def EdgeMove (top bot : Nat) (u v : Fusioner) : Prop :=
  v.group_list = u.group_list ∧ v.group_list_of = u.group_list_of ∧
  v.groups bot = u.groups bot ∧
  (∀ g, (v.groups g).node_list = (u.groups g).node_list ∧
    (v.groups g).in_list = (u.groups g).in_list ∧
    (v.groups g).out_list = (u.groups g).out_list) ∧
  (∀ g x, x ∈ (v.groups g).nextList →
    x ∈ (u.groups g).nextList ∨ (x ≠ bot ∧ (g = top → x ≠ top))) ∧
  (∀ g x, x ∈ (v.groups g).prevList →
    x ∈ (u.groups g).prevList ∨ (x ≠ bot ∧ (g = top → x ≠ top)))

/-- The union (Pattern `+`) of the patterns of the nodes of a body, as the specification
words the pattern of a cluster; the sum over no node is FREE, the identity of `+`. -/
def patSum (env : Env) (l : List Nat) : Pattern :=
  l.foldl (fun p n => p.add (env.dag n).pattern) FREE

/-- Pattern composition for one cluster: its pattern is the union of the patterns of its body
nodes. -/
def PatOk (env : Env) (g : Group) : Prop := g.pattern = patSum env g.node_list

/-- Pattern composition for every listed cluster. -/
def PatInv (env : Env) (s : Fusioner) : Prop := ∀ g ∈ s.group_list, PatOk env (s.groups g)

/-- A step that keeps pattern composition. -/
def PatStep (env : Env) (s t : Fusioner) : Prop := PatInv env s → PatInv env t

/-- A step that keeps the cluster list and the pattern and body of every cluster. -/
def PatSame (s t : Fusioner) : Prop :=
  t.group_list = s.group_list ∧
  ∀ g, (t.groups g).pattern = (s.groups g).pattern ∧
    (t.groups g).node_list = (s.groups g).node_list

/-- A step that lists no new cluster, keeps the pattern of every cluster and keeps pattern
composition cluster by cluster. -/
def PatKeep (env : Env) (s t : Fusioner) : Prop :=
  (∀ g ∈ t.group_list, g ∈ s.group_list) ∧
  ∀ g, (t.groups g).pattern = (s.groups g).pattern ∧
    (PatOk env (s.groups g) → PatOk env (t.groups g))

/-- What a fusion of `bot` into `top` does to bodies and patterns: `bot` leaves the cluster
list, the other clusters keep body and pattern, the body of `top` receives the body of `bot`,
and the pattern of `top` receives the pattern of every moved node and then that of `bot`. -/
def Fused (env : Env) (s t : Fusioner) (top bot : Nat) : Prop :=
  top ≠ bot ∧ top ∈ s.group_list ∧ bot ∈ s.group_list ∧
  (∀ g ∈ t.group_list, g ∈ s.group_list ∧ g ≠ bot) ∧
  (∀ g, g ≠ top → (t.groups g).pattern = (s.groups g).pattern ∧
    (t.groups g).node_list = (s.groups g).node_list) ∧
  (t.groups top).node_list = (s.groups top).node_list ++ (s.groups bot).node_list ∧
  (t.groups top).pattern =
    Pattern.add (Pattern.add (s.groups top).pattern (patSum env (s.groups bot).node_list))
      (s.groups bot).pattern

/-- The way the loops of `pipeFuseGroup(top, bot)` change the prev and next lists, relative to
the state `s` at the call: a cluster that is new in a next list is `top` (in the list of a prev
of `bot` or of `top`) or a next of `bot` (in the list of `top`); a cluster that is new in a prev
list is a prev of `bot` (in the list of `top`) or `top` (in the list of a next of `bot`); the
lists lose no cluster other than `bot`; the visited set and the number of allocated clusters
are kept. -/
def LinkMove (s : Fusioner) (top bot : Nat) (u v : Fusioner) : Prop :=
  (∀ g x, x ∈ (v.groups g).nextList → x ∈ (u.groups g).nextList ∨
    (x = top ∧ g ≠ top ∧ (g ∈ (s.groups bot).prevList ∨ g ∈ (s.groups top).prevList)) ∨
    (g = top ∧ x ∈ (s.groups bot).nextList)) ∧
  (∀ g x, x ∈ (v.groups g).prevList → x ∈ (u.groups g).prevList ∨
    (g = top ∧ x ≠ top ∧ x ∈ (s.groups bot).prevList) ∨
    (x = top ∧ g ∈ (s.groups bot).nextList)) ∧
  (∀ g x, x ∈ (u.groups g).nextList → x ≠ bot → x ∈ (v.groups g).nextList) ∧
  (∀ g x, x ∈ (u.groups g).prevList → x ≠ bot → x ∈ (v.groups g).prevList) ∧
  v.visited = u.visited ∧ v.num_groups = u.num_groups

/-- A set of clusters closed under predecessors: with a cluster it holds the listed clusters
that have an edge to it. -/
def Closed (s : Fusioner) (R : Nat → Prop) : Prop :=
  ∀ a b, s.nextEdge a b → R b → R a

/-- The number of allocated clusters that are not in the visited set. -/
def Fusioner.unvisited (s : Fusioner) : Nat :=
  ((List.range s.num_groups).filter (fun x => !is_included x s.visited)).length

/-- What a run of the bottom-up phase from cluster `g` keeps: mirrored links, acyclicity, the
number of allocated clusters, the visited clusters, and every predecessor-closed set that holds
`g`, outside of which no cluster leaves the cluster list. -/
def BUPost (s t : Fusioner) (g : Nat) : Prop :=
  t.WellLinked ∧ t.Acyclic ∧ t.num_groups = s.num_groups ∧
  (∀ x ∈ s.visited, x ∈ t.visited) ∧
  (∀ R : Nat → Prop, Closed s R → R g →
    Closed t R ∧ ∀ x ∈ s.group_list, ¬ R x → x ∈ t.group_list)

/-- Every node has at most one cluster and the body of a listed cluster has no repetition. -/
def OneInv (s : Fusioner) : Prop :=
  (∀ n, (s.group_list_of n).length ≤ 1) ∧
  (∀ g ∈ s.group_list, (s.groups g).node_list.Nodup)

/-- A step that keeps `CoverInv`, keeps `OneInv` and gives no cluster to a node without
cluster. -/
def SingleStep (s t : Fusioner) : Prop :=
  CoverStep s t ∧
  (CoverInv s → OneInv s → OneInv t ∧ ∀ n, s.group_list_of n = [] → t.group_list_of n = [])

/-! ## Forwarding prediction -/

/-- How a block is held: null, scalar or full buffer. -/
inductive HoldType
  | HOLD_0 | HOLD_1 | HOLD_N
  deriving DecidableEq, Repr

/-- The attributes of a block that `preForward` reads and writes. -/
structure Block where
  node : Node
  coord : Coord
  holdtype : HoldType
  fixed : Bool
  forward : Bool
  deriving DecidableEq

/-- The thread-local forward map of a worker: node identity to input block. -/
abbrev ForwardMap := List (Nat × Block)

/-- The lookup `forward.find(node)`. -/
def ForwardMap.find (forward : ForwardMap) (node : Nat) : Option Block :=
  (List.find? (fun p => decide (p.1 = node)) forward).map Prod.snd

/-- The assignment `forward[node] = blk`. -/
def ForwardMap.set (forward : ForwardMap) (node : Nat) (blk : Block) : ForwardMap :=
  (node, blk) :: forward.filter (fun p => !decide (p.1 = node))

/-- The first loop of `Task::preForward`: an input block that is HOLD_N, not fixed and whose
node has no successor outside `body_out` is registered in the forward map. -/
def preForwardInputs (body_out : List Node) (in_blk : List Block) (forward : ForwardMap) :
    ForwardMap :=
  in_blk.foldl (fun forward iblk =>
    if iblk.holdtype ≠ HoldType.HOLD_N ∨ iblk.fixed then forward
    else
      let next_list := iblk.node.nextList
      let outside := left_join next_list (body_out.map (fun n => n.id))
      if outside.isEmpty then forward.set iblk.node.id iblk else forward) forward

/-- The second loop of `Task::preForward`: a node that can forward inherits the mapping of its
first predecessor.  The result is `none` when `prevList().front()` reads an empty list. -/
def preForwardBody (body_out : List Node) (forward : ForwardMap) : Option ForwardMap :=
  body_out.foldlM (fun forward node =>
    if node.canForward then
      match node.prevList.head? with
      | none => none
      | some prev =>
        match forward.find prev with
        | some blk => some (forward.set node.id blk)
        | none => some forward
    else some forward) forward

/-- The third loop of `Task::preForward`: an output block whose node is in the forward map and
not yet in `taken` is marked forward and its node is taken.  The result is the list of output
blocks with their updated forward flag. -/
def preForwardOutputs (forward : ForwardMap) : List Block → List Nat → List Block
  | [], _ => []
  | oblk :: rest, taken =>
    let forw := (forward.find oblk.node.id).isSome
    let free := !is_included oblk.node.id taken
    if forw && free then
      { oblk with forward := true } :: preForwardOutputs forward rest (oblk.node.id :: taken)
    else oblk :: preForwardOutputs forward rest taken

/-- The method `Task::preForward` on the forward map of the calling worker.  The result is
`none` when the assertion `forward.empty()` fails or `front()` reads an empty list. -/
def Task.preForward (T : Task) (forward : ForwardMap) (in_blk out_blk : List Block) :
    Option (ForwardMap × List Block) :=
  if forward ≠ [] then none
  else
    let body_out := full_unique_join T.nodeList T.outputList
    let forward1 := preForwardInputs body_out in_blk forward
    match preForwardBody body_out forward1 with
    | none => none
    | some forward2 => some (forward2, preForwardOutputs forward2 out_blk [])

/-- The loop of `Task::postForward` over the output blocks: a block whose node is in the forward
map must pass the three assertions (its input block is among the input blocks, the statistics
agree or the node is STATS, the block is marked forward and not fixed; `none` otherwise) and
is then unmarked.  The statistics of blocks are not among the sources, their comparison is the
parameter `sameStats`, and the hand-over of the storage entry (`forwardEntry`) is not
represented. -/
def postForwardOutputs (sameStats : Block → Block → Bool) (forward : ForwardMap)
    (in_blk : List Block) : List Block → Option (List Block)
  | [] => some []
  | oblk :: rest =>
    match forward.find oblk.node.id with
    | some iblk =>
      if !is_included iblk in_blk then none
      else if !(sameStats oblk iblk || oblk.node.pattern.is PatternTag.STATS) then none
      else if !(oblk.forward && !oblk.fixed) then none
      else
        match postForwardOutputs sameStats forward in_blk rest with
        | none => none
        | some r => some ({ oblk with forward := false } :: r)
    | none =>
      match postForwardOutputs sameStats forward in_blk rest with
      | none => none
      | some r => some (oblk :: r)

/-- The method `Task::postForward` on the forward map of the calling worker: the loop over the
output blocks, then `forward.clear()`.  The result is `none` when an assertion fails. -/
def Task.postForward (_T : Task) (sameStats : Block → Block → Bool) (forward : ForwardMap)
    (in_blk out_blk : List Block) : Option (ForwardMap × List Block) :=
  match postForwardOutputs sameStats forward in_blk out_blk with
  | none => none
  | some r => some ([], r)

/-- What `postForward` does to an output block: the block is unmarked when its node is in the
forward map and left as it is otherwise. -/
def Block.unsetForwarded (forward : ForwardMap) (o : Block) : Block :=
  if (forward.find o.node.id).isSome then { o with forward := false } else o

/-- The assertions of `postForward` on the statistics and on the flags of an output block: when
its node is in the forward map, the statistics agree or the node is STATS, and the block is
marked forward and not fixed. -/
def PostAsserts (sameStats : Block → Block → Bool) (forward : ForwardMap) (o : Block) : Prop :=
  ∀ i, forward.find o.node.id = some i →
    (sameStats o i || o.node.pattern.is PatternTag.STATS) = true ∧ o.forward = true ∧
      o.fixed = false

/-- What `preForward` may do to an output block: nothing, or mark it forward when its node is
in the forward map. -/
def PreMarked (forward : ForwardMap) (o o1 : Block) : Prop :=
  o1 = o ∨ ((forward.find o.node.id).isSome = true ∧ o1 = { o with forward := true })

/-- The output blocks marked forward whose node the forward map sends to the input block. -/
def forwardedFrom (forward : ForwardMap) (out_blk : List Block) (iblk : Block) : List Block :=
  out_blk.filter (fun o => o.forward && decide (forward.find o.node.id = some iblk))

/-- The number of block coordinates `c` of the grid for which `c + o` is in range. -/
def shiftCount (nb : NumBlock) (o : Coord) : Int :=
  (((iterSpace nb).filter (fun c => inRange (Coord.add c o) nb)).length : Int)

/-- The number of pairs of a block coordinate and an offset of the accumulated input reach of
the node whose sum is in range. -/
def Task.reachCount (T : Task) (node : Node) : Int :=
  ((T.accu_in_reach_of node).map (fun o => shiftCount T.numblock o)).sum

/-! ## Job scheduling hooks -/

/-- The count of `Task::nextInterDepends` of the generic task. -/
def Task.nextInterDepends (T : Task) (node : Node) (coord : Coord) : Int :=
  T.prevInterDepends node coord

/-- The count of `Task::nextIntraDepends` of the generic task. -/
def Task.nextIntraDepends (_T : Task) (_node : Node) (_coord : Coord) : Int := 0

/-- The method `Task::notifyAll`: `notify` is called for every block coordinate of the task,
with the iteration of `new_job`. -/
def Task.notifyAll (T : Task) (s : TaskState) (new_job : Job) : Option TaskState :=
  T.notifySeq s ((iterSpace T.numblock).map (fun coord => (⟨T.id, coord, new_job.iter⟩ : Job)))

/-- The method `Task::nextInputDepends`, called on the task `T`.  The task list of the
program, the materialisation `Mask::blockSpace(blocksize)` and `Node::isInput` are not among
the sources and are parameters; `none` when the assertion `node->isInput()` fails. -/
def Task.nextInputDepends (T : Task) (prog : List Task)
    (blockSpaceAt : Mask → List Int → List Coord) (isInput : Node → Bool) (node : Node)
    (coord : Coord) : Option Int :=
  if !isInput node then none
  else
    some (prog.foldl (fun dep task =>
      if is_included node task.inputList then
        let reach := task.accuInputReach node coord
        let space := blockSpaceAt reach T.blocksize
        space.foldl (fun dep offset =>
          dep + (if inRange (Coord.add coord offset) T.numblock then 1 else 0)) dep
      else dep) 0)

/-- The fanout of an input node as the spec words it: the sum, over the tasks of the program
that consume the node, of the in-range offsets of their accumulated input reach, materialised
with the block size of the consuming task and tested against its block range. -/
def nextInputDependsSpec (prog : List Task) (blockSpaceAt : Mask → List Int → List Coord)
    (node : Node) (coord : Coord) : Int :=
  ((prog.filter (fun task => is_included node task.inputList)).map (fun task =>
    (((blockSpaceAt (task.accuInputReach node coord) task.blocksize).filter
      (fun offset => inRange (Coord.add coord offset) task.numblock)).length : Int))).sum

/-- Modelled from the spec: the constructor `Job(task, coord)` (Job.hpp is not among the
sources) makes a job of iteration 0. -/
def Job.ofCoord (task : Nat) (coord : Coord) : Job := ⟨task, coord, 0⟩

/-- The method `Task::initialJobs`: one job per block coordinate is pushed to `job_vec`. -/
def Task.initialJobs (T : Task) (job_vec : List Job) : List Job :=
  (iterSpace T.numblock).foldl (fun jv coord => jv ++ [Job.ofCoord T.id coord]) job_vec

/-- The map `self_jobs_count` as the constructor `Task::Task` leaves it: empty but for
`self_jobs_count[0] = prod(numblock())`. -/
def Task.selfJobsCount0 (T : Task) : Int → Option Int :=
  Function.update (fun _ => none) 0 (some (prod T.numblock))

/-- The identity of a worker thread. -/
abbrev ThreadId := Nat

/-- The part of the state of a task that the first block of `Task::postWork` reads and
writes under the mutex. -/
structure WorkState where
  self_jobs_count : Int → Option Int
  last : ThreadId

/-- The first block of `Task::postWork`, executed by thread `tid` for a job of iteration
`iter`: the count of the iteration is decremented, and when it reaches zero the thread becomes
`last` and the entry is erased.  `operator[]` reads 0 for a missing entry; the result is
`none` when the assertion `self_jobs_count[iter] > 0` fails.  The statistics and reduction
loops that follow do not touch this state. -/
def Task.postWork (s : WorkState) (iter : Int) (tid : ThreadId) : Option WorkState :=
  let cnt := (s.self_jobs_count iter).getD 0
  if cnt ≤ 0 then none
  else
    let cnt1 := cnt - 1
    if cnt1 = 0 then
      some { self_jobs_count := Function.update s.self_jobs_count iter none, last := tid }
    else
      some { s with self_jobs_count := Function.update s.self_jobs_count iter (some cnt1) }

/-- A sequence of calls of `postWork` for one iteration, one per thread of the list. -/
def Task.postWorkSeq (s : WorkState) (iter : Int) : List ThreadId → Option WorkState
  | [] => some s
  | tid :: rest => (Task.postWork s iter tid).bind (fun s1 => Task.postWorkSeq s1 iter rest)

/-- The counters of the clock that `Task::compute` and `Task::computeVersion` increment. -/
structure Clock where
  not_computed : Nat
  computed : Nat
  deriving DecidableEq

/-- What `Task::compute` does: the clock after the call and whether the kernel was
dispatched (`computeVersion` was called, which starts by incrementing `COMPUTED`). -/
structure ComputeResult where
  clock : Clock
  dispatched : Bool
  deriving DecidableEq

/-- The method `Task::compute`; `hasVersion` tells whether `getVersion` finds a version, and
the result is `none` when the assertion `ver != nullptr` fails. -/
def Task.compute (hasVersion : Bool) (clock : Clock) (out_blk : List Block) :
    Option ComputeResult :=
  if !hasVersion then none
  else if out_blk.all (fun b => b.fixed || b.forward) then
    some { clock := { clock with not_computed := clock.not_computed + 1 }, dispatched := false }
  else
    some { clock := { clock with computed := clock.computed + 1 }, dispatched := true }

/-! ## Loop tails -/

/-- The part of a node object that the constructor and the accessors of `LoopTail` touch. -/
structure DagNode where
  prev_list : List Nat
  next_list : List Nat
  owner_loop : Option Nat
  twin_head : Option Nat
  deriving DecidableEq

/-- The node objects on the heap: `count` objects have been allocated by `new`, the handle of
an object is its position. -/
structure Dag where
  objs : Nat → DagNode
  count : Nat

/-- Modelled from the spec: the base constructor `Node(meta)` (Node.cpp is not among the
sources) makes a node without predecessors and successors. -/
def DagNode.ofMeta : DagNode :=
  { prev_list := [], next_list := [], owner_loop := none, twin_head := none }

/-- Modelled from the spec: `Node::addPrev` appends a predecessor to `prev_list`. -/
def Dag.addPrev (d : Dag) (node prev : Nat) : Dag :=
  let obj := d.objs node
  { d with
    objs := Function.update d.objs node
      (DagNode.mk (obj.prev_list ++ [prev]) obj.next_list obj.owner_loop obj.twin_head) }

/-- Modelled from the spec: `Node::addNext` appends a successor to `next_list`. -/
def Dag.addNext (d : Dag) (node next : Nat) : Dag :=
  let obj := d.objs node
  { d with
    objs := Function.update d.objs node
      (DagNode.mk obj.prev_list (obj.next_list ++ [next]) obj.owner_loop obj.twin_head) }

/-- The function `LoopTail::Factory(prev)`, that is `new LoopTail(meta, prev)`: a new object
is allocated, `owner_loop` and `twin_head` are null, `prev` becomes its predecessor and the
new node a successor of `prev`.  The result holds the heap and the handle returned. -/
def LoopTail.Factory (d : Dag) (prev : Nat) : Dag × Nat :=
  let this := d.count
  let d1 : Dag := { objs := Function.update d.objs this DagNode.ofMeta, count := d.count + 1 }
  let d2 := d1.addPrev this prev
  (d2.addNext prev this, this)

/-- The accessor `LoopTail::prev`, `prev_list[1]`: `none` when the index is outside
`prev_list`. -/
def LoopTail.prev (d : Dag) (tail : Nat) : Option Nat := (d.objs tail).prev_list.get? 1

/-- The accessor `LoopTail::loop`. -/
def LoopTail.loop (d : Dag) (tail : Nat) : Option Nat := (d.objs tail).owner_loop

/-! ## Construction and the end of a job -/

/-- The loop of the constructor `Task::Task` that fills `prev_jobs_count[0]` (which starts at
0): for every prev task and every node shared between the inputs of this task and the outputs
of the prev task, 1 is added when the node is D0 and `prod(prev_task->numblock())`
otherwise. -/
def Task.prevJobsCount0 (T : Task) (prevList : List Task) : Int :=
  prevList.foldl (fun cnt prev_task =>
    (inner_join T.inputList prev_task.outputList).foldl (fun cnt node =>
      if node.numdim = D0 then cnt + 1 else cnt + prod prev_task.numblock) cnt) 0

/-- The sentinel `ThreadId()` that `askJobs` stores in `last`. -/
def ThreadId.sentinel : ThreadId := 0

/-- The state that `Task::askJobs` reads and writes: the dependency state of every task (by
task identity), the vector of emitted jobs and the field `last` of the task of the done job. -/
structure AskState where
  states : Nat → TaskState
  job_vec : List Job
  last : ThreadId

/-- The method `Task::selfJobs` of the generic task: nothing to do. -/
def Task.selfJobs (_T : Task) (_done_job : Job) (job_vec : List Job) : List Job := job_vec

/-- The call `next_task->nextJobs(done_job, job_vec, isEnd)` inside `askJobs`: the next task
works on its own dependency state and on the shared vector of jobs. -/
def AskState.nextJobs (st : AskState) (P next_task : Task) (done_job : Job) (isEnd : Bool) :
    Option AskState :=
  match next_task.nextJobs P { st.states next_task.id with job_vec := st.job_vec } done_job
      isEnd with
  | none => none
  | some ts =>
    some { st with states := Function.update st.states next_task.id ts, job_vec := ts.job_vec }

/-- The method `Task::askJobs` of task `T`, executed by thread `tid`, with the next and back
tasks of `T`; `none` when the assertion `done_job.task == this` fails or an assertion of
`notify` fails. -/
def Task.askJobs (T : Task) (nextList backList : List Task) (st : AskState) (done_job : Job)
    (tid : ThreadId) : Option AskState :=
  if done_job.task ≠ T.id then none
  else
    let st0 := { st with job_vec := T.selfJobs done_job st.job_vec }
    match (full_join nextList backList).foldlM (fun st next_task =>
        st.nextJobs T next_task done_job (decide (tid = st.last))) st0 with
    | none => none
    | some st1 =>
      if tid = st1.last then some { st1 with last := ThreadId.sentinel } else some st1

/-! ## Guards of the focal kernel -/

/-- The inner-part guard that `CpuFocalSkeleton::versionCode` emits around the focal core:
`GC0 > 1 && GC0 < GN0-1 && GC1 > 1 && GC1 < GN1-1`, on the coordinate `(GC0, GC1)` of a
work-group and the number `(GN0, GN1)` of work-groups. -/
def focalInnerGuard (GC0 GN0 GC1 GN1 : Int) : Bool :=
  decide (GC0 > 1) && decide (GC0 < GN0 - 1) && decide (GC1 > 1) && decide (GC1 < GN1 - 1)

/-- The outer-part guard that `CpuFocalSkeleton::versionCode` emits around the focal core:
`GC0 == 0 || GC0 == GN0-1 || GC1 == 0 || GC1 == GN1-1`. -/
def focalOuterGuard (GC0 GN0 GC1 GN1 : Int) : Bool :=
  decide (GC0 = 0) || decide (GC0 = GN0 - 1) || decide (GC1 = 0) || decide (GC1 = GN1 - 1)

/-! ## Accumulated input reach of the constructor of `Task` -/

/-- The map `accu_in_reach_of` while the constructor fills it: a node without entry has
`none`.  The type `M` stands for `Mask`. -/
abbrev ReachMap (M : Type) := Nat → Option M

/-- The call `accu_in_reach_of.insert({node, reach})`: an entry that exists is kept. -/
def ReachMap.insert {M : Type} (m : ReachMap M) (node : Nat) (reach : M) : ReachMap M :=
  if (m node).isSome then m else Function.update m node (some reach)

/-- The inner loop of the backward walk of the constructor of `Task`: the reach is combined
with the reach of every successor of the node that is in the body; `none` when a successor has
no entry yet (`find(next)->second` on the end iterator). -/
def accuInReach {M : Type} (flat pipe : M → M → M) (inputReach : Nat → M) (m : ReachMap M)
    (next_inside : List Nat) (reach : M) : Option M :=
  next_inside.foldlM (fun reach next =>
    match m next with
    | none => none
    | some next_accu => some (flat reach (pipe (inputReach next) next_accu))) reach

/-- One iteration of the backward walk of the constructor of `Task`, on `node`. -/
def accuInStep {M : Type} (unit : M) (flat pipe : M → M → M) (inputReach : Nat → M)
    (dag : Nat → Node) (nodeList : List Nat) (m : ReachMap M) (node : Nat) :
    Option (ReachMap M) :=
  match accuInReach flat pipe inputReach m (inner_join (dag node).nextList nodeList) unit with
  | none => none
  | some reach => some (m.insert node reach)

/-- The backward walk of the constructor of `Task` over `all_list`, the inputs followed by the
body and the outputs, from the empty map.  `unit` is `Mask(numdim().unitVec(), true)`, and
`flat`, `pipe` and `inputReach` are the operations of `Mask` and `Node` of the same names. -/
def Task.ctorAccuInReach {M : Type} (unit : M) (flat pipe : M → M → M) (inputReach : Nat → M)
    (dag : Nat → Node) (inputList nodeList outputList : List Nat) : Option (ReachMap M) :=
  (full_join inputList (full_unique_join nodeList outputList)).reverse.foldlM
    (accuInStep unit flat pipe inputReach dag nodeList) (fun _ => none)

/-- The accessor `Task::accuInputReach` on the map filled by the constructor; `none` when the
assertion that the node has an entry fails.  The coordinate is not used. -/
def ReachMap.accuInputReach {M : Type} (m : ReachMap M) (node : Nat) (_coord : Coord) :
    Option M :=
  m node

/-- Every successor of a node of the list that is in the body comes later in the list. -/
def reachOrdered (dag : Nat → Node) (nodeList : List Nat) : List Nat → Bool
  | [] => true
  | n :: l =>
    (inner_join (dag n).nextList nodeList).all (fun s => is_included s l)
      && reachOrdered dag nodeList l

/-- The state of the map after the backward walk has treated the nodes of `done`: the nodes
with an entry are those of `done`, and the entry of each is the combination of the entries of
its successors in the body. -/
def ReachInv {M : Type} (unit : M) (flat pipe : M → M → M) (inputReach : Nat → M)
    (dag : Nat → Node) (nodeList : List Nat) (done : List Nat) (m : ReachMap M) : Prop :=
  (∀ n, (m n).isSome = true ↔ n ∈ done) ∧
  ∀ n ∈ done, accuInReach flat pipe inputReach m (inner_join (dag n).nextList nodeList) unit
    = m n

/-! ## The pattern that a cluster imposes on an input: `isInputOf` of util.cpp -/

/-- Modelled from the spec: the default-constructed `Pattern` (Pattern.hpp is not among the
sources), the empty tag set. -/
def Pattern.empty : Pattern := ∅

/-- One iteration of the loop of `isInputOf` on the successor `next`, where `rec` is the
recursive call: for a successor in the body of the cluster, `pat += isInputOf(next, cluster)`
and then `pat += next->pattern()`. -/
def isInputOfStep (dag : Nat → Node) (nodeList : List Nat) (rec : Nat → Option Pattern)
    (pat : Pattern) (next : Nat) : Option Pattern :=
  if is_included next nodeList then
    match rec next with
    | none => none
    | some p => some ((pat.add p).add (dag next).pattern)
  else some pat

/-- The function `isInputOf(node, cluster)` of util.cpp, where `nodeList` is the body of the
cluster; the depth of the recursion is bounded by the fuel, `none` when it runs out. -/
def isInputOf (dag : Nat → Node) (nodeList : List Nat) : Nat → Nat → Option Pattern
  | 0, _ => none
  | fuel + 1, node =>
    (dag node).nextList.foldlM (isInputOfStep dag nodeList (isInputOf dag nodeList fuel))
      Pattern.empty

/-- An edge of the node graph that lands in the body of the cluster. -/
def bodyEdge (dag : Nat → Node) (nodeList : List Nat) (a b : Nat) : Prop :=
  b ∈ (dag a).nextList ∧ b ∈ nodeList

/-- The tag `t` comes from the node `m`, whose pattern is not the identity FREE of the sum. -/
def tagOf (dag : Nat → Node) (m : Nat) (t : PatternTag) : Prop :=
  (dag m).pattern ≠ FREE ∧ t ∈ (dag m).pattern

/-! ## Concrete instances used to exercise the theorems -/

/-- A two-dimensional node of pattern INPUT. -/
def exInputNode : Node :=
  { id := 2, pattern := INPUT, numdim := 2, prevList := [], nextList := [], canForward := false }

/-- A consumer over a 1x1 block grid whose only input is the INPUT node. -/
def exConsumer : Task :=
  { id := 8, inputList := [exInputNode], outputList := [], nodeList := [], numblock := [1, 1],
    accu_in_reach_of := fun _ => [[0, 0]] }

/-- A producer over a 1x1 block grid whose only output is the INPUT node. -/
def exProducer : Task :=
  { id := 9, inputList := [], outputList := [exInputNode], nodeList := [exInputNode],
    numblock := [1, 1], accu_in_reach_of := fun _ => [[0, 0]] }



/-- A two-dimensional node of pattern FREE. -/
def exFreeNode : Node :=
  { id := 4, pattern := FREE, numdim := 2, prevList := [], nextList := [], canForward := false }

/-- A two-dimensional LOCAL node. -/
def exLocalNode : Node :=
  { id := 1, pattern := {PatternTag.LOCAL}, numdim := 2, prevList := [], nextList := [],
    canForward := false }

/-- A task over a 1x1 block grid with one LOCAL input of identity reach. -/
def exTask : Task :=
  { id := 7, inputList := [exLocalNode], outputList := [], nodeList := [], numblock := [1, 1],
    accu_in_reach_of := fun _ => [[0, 0]] }

/-- A producer over a 1x1 block grid whose only output is the LOCAL node. -/
def exLocalProducer : Task :=
  { id := 10, inputList := [], outputList := [exLocalNode], nodeList := [exLocalNode],
    numblock := [1, 1], accu_in_reach_of := fun _ => [[0, 0]] }

/-- A consumer over a 1x1 block grid whose inputs are the FREE node and the LOCAL node. -/
def mixConsumer : Task :=
  { id := 14, inputList := [exFreeNode, exLocalNode], outputList := [], nodeList := [],
    numblock := [1, 1], accu_in_reach_of := fun _ => [[0, 0]] }

/-- A producer over a 1x1 block grid whose outputs are the FREE node and the LOCAL node. -/
def mixProducer : Task :=
  { id := 15, inputList := [], outputList := [exFreeNode, exLocalNode],
    nodeList := [exFreeNode, exLocalNode], numblock := [1, 1],
    accu_in_reach_of := fun _ => [[0, 0]] }

/-- The initial state of a task: no dependency entry, no job. -/
def emptyState : TaskState :=
  { dep_hash := fun _ => none, self_jobs_count := fun _ => none, job_vec := [] }

/-- An input node with two value-preserving unary successors. -/
def fwdIn : Node :=
  { id := 20, pattern := INPUT, numdim := 2, prevList := [], nextList := [21, 22],
    canForward := false }

/-- The first successor of `fwdIn`, an output node that can forward. -/
def fwdOutA : Node :=
  { id := 21, pattern := {PatternTag.LOCAL}, numdim := 2, prevList := [20], nextList := [],
    canForward := true }

/-- The second successor of `fwdIn`, an output node that can forward. -/
def fwdOutB : Node :=
  { id := 22, pattern := {PatternTag.LOCAL}, numdim := 2, prevList := [20], nextList := [],
    canForward := true }

/-- The task of the cluster with input `fwdIn` and body and outputs `fwdOutA`, `fwdOutB`. -/
def fwdTask : Task :=
  { id := 11, inputList := [fwdIn], outputList := [fwdOutA, fwdOutB],
    nodeList := [fwdOutA, fwdOutB], numblock := [1, 1], accu_in_reach_of := fun _ => [[0, 0]] }

/-- The input block of `fwdIn` at the origin: a full buffer, not fixed. -/
def fwdInBlk : Block :=
  { node := fwdIn, coord := [0, 0], holdtype := HoldType.HOLD_N, fixed := false,
    forward := false }

/-- The output block of `fwdOutA` at the origin. -/
def fwdOutBlkA : Block :=
  { node := fwdOutA, coord := [0, 0], holdtype := HoldType.HOLD_N, fixed := false,
    forward := false }

/-- A fixed output block of the node `exLocalNode`, which cannot forward. -/
def fwdOutBlkFixed : Block :=
  { node := exLocalNode, coord := [0, 0], holdtype := HoldType.HOLD_N, fixed := true,
    forward := false }

/-- The output block of `fwdOutB` at the origin. -/
def fwdOutBlkB : Block :=
  { node := fwdOutB, coord := [0, 0], holdtype := HoldType.HOLD_N, fixed := false,
    forward := false }

/-- A FREE node 0 feeding a LOCAL node 1; every other identity is an isolated LOCAL node. -/
def freeFeedsLocalDag : Nat → Node := fun n =>
  if n = 0 then
    { id := 0, pattern := FREE, numdim := 2, prevList := [], nextList := [1], canForward := false }
  else if n = 1 then
    { id := 1, pattern := {PatternTag.LOCAL}, numdim := 2, prevList := [0], nextList := [],
      canForward := false }
  else
    { id := n, pattern := {PatternTag.LOCAL}, numdim := 2, prevList := [], nextList := [],
      canForward := false }

/-- The environment of `freeFeedsLocalDag` with `code_fusion` off. -/
def noFusionEnv : Env :=
  { dag := freeFeedsLocalDag, code_fusion := false, patPipeFuse := fun _ _ => true,
    patFlatFuse := fun _ _ => true, groupNumdim := fun _ => 2 }

/-- The state whose clusters, in list order, are those of `gs`, with the given clusters of
every node. -/
def Fusioner.ofGroups (gs : List Group) (group_list_of : Nat → List Nat) : Fusioner :=
  { groups := fun i => gs.getD i Group.empty, num_groups := gs.length,
    group_list := List.range gs.length, group_list_of := group_list_of, visited := [],
    id_count := 0 }

/-- A cluster with the given pattern, body and prev and next clusters (annotated with the
empty pattern), without inputs and outputs. -/
def Group.ofBody (pat : Pattern) (body prevs nexts : List Nat) : Group :=
  { id := 0, pattern := pat, node_list := body, in_list := [], out_list := [],
    prev_list := prevs.map (fun g => (g, ∅)), next_list := nexts.map (fun g => (g, ∅)) }

/-- The environment of a node graph with fusion on and permissive pattern predicates. -/
def Env.ofDag (dag : Nat → Node) : Env :=
  { dag := dag, code_fusion := true, patPipeFuse := fun _ _ => true,
    patFlatFuse := fun _ _ => true, groupNumdim := fun _ => 2 }

/-- A node graph for linking: LOCAL node 0 feeds LOCAL node 1. -/
def linkDag : Nat → Node := fun n =>
  { id := n, pattern := {PatternTag.LOCAL}, numdim := 2,
    prevList := if n = 1 then [0] else [], nextList := if n = 0 then [1] else [],
    canForward := false }

/-- The environment of `linkDag` with `code_fusion` off. -/
def linkEnvOff : Env :=
  { dag := linkDag, code_fusion := false, patPipeFuse := fun _ _ => true,
    patFlatFuse := fun _ _ => true, groupNumdim := fun _ => 2 }

/-- Two clusters, one per node of `linkDag`, before linking. -/
def linkEx : Fusioner :=
  Fusioner.ofGroups
    [Group.ofBody {PatternTag.LOCAL} [0] [] [1], Group.ofBody {PatternTag.LOCAL} [1] [0] []]
    (fun n => if n = 0 then [0] else if n = 1 then [1] else [])

/-- The state `linkEx` after linking. -/
def linkedEx : Fusioner :=
  match linkEx.linking (Env.ofDag linkDag) with
  | some t => t
  | none => Fusioner.init

/-- A node graph in which the id of a node is its identity; node 1 feeds nodes 3 and 5. -/
def sortDag : Nat → Node := fun n =>
  { id := n, pattern := {PatternTag.FOCAL}, numdim := 2,
    prevList := if n = 3 ∨ n = 5 then [1] else [],
    nextList := if n = 1 then [3, 5] else [], canForward := false }

/-- Three clusters before sorting: cluster 0 with body {1, 5} is the predecessor of cluster 2
with body {3}; cluster 1 with body {4} is unrelated to both. -/
def sortEx : Fusioner :=
  Fusioner.ofGroups
    [Group.ofBody {PatternTag.FOCAL} [1, 5] [] [2], Group.ofBody {PatternTag.FOCAL} [4] [] [],
     Group.ofBody {PatternTag.FOCAL} [3] [0] []]
    (fun n => if n = 1 ∨ n = 5 then [0] else if n = 4 then [1] else if n = 3 then [2] else [])

/-- The clusters of `sortEx` with the cluster list in the order 2, 1, 0. -/
def sortExRev : Fusioner := { sortEx with group_list := [2, 1, 0] }

/-- Two clusters before sorting, listed successor first: cluster 0 with body {3} follows
cluster 1 with body {1}. -/
def sortOkEx : Fusioner :=
  Fusioner.ofGroups
    [Group.ofBody {PatternTag.FOCAL} [3] [1] [], Group.ofBody {PatternTag.FOCAL} [1] [] [0]]
    (fun n => if n = 3 then [0] else if n = 1 then [1] else [])

/-- A chain of two FREE nodes 0 and 1 followed by the FOCAL node 2. -/
def chainDag : Nat → Node := fun n =>
  { id := n, pattern := if n = 0 ∨ n = 1 then FREE else {PatternTag.FOCAL}, numdim := 2,
    prevList := if n = 1 then [0] else if n = 2 then [1] else [],
    nextList := if n = 0 then [1] else if n = 1 then [2] else [], canForward := false }

/-- The environment of `chainDag`: fusion is on, and clusters fuse when both patterns are made
of FREE and LOCAL only. -/
def chainEnv : Env :=
  { dag := chainDag, code_fusion := true, patPipeFuse := fun _ _ => true,
    patFlatFuse := fun p q =>
      decide (p ⊆ {PatternTag.FREE, PatternTag.LOCAL}) &&
        decide (q ⊆ {PatternTag.FREE, PatternTag.LOCAL}),
    groupNumdim := fun _ => 2 }

/-- The predicate `pattern == FREE` that `fuse` gives to `forwarding`. -/
def Env.isFree (env : Env) (n : Nat) : Bool := decide ((env.dag n).pattern = FREE)

/-- The state before forwarding in which the FREE nodes 0 and 1 of `chainDag` share cluster 0
(FREE clusters are pipe-fused in the first fusion stage) and the FOCAL node 2 has cluster 1. -/
def chainEx : Fusioner :=
  Fusioner.ofGroups
    [Group.ofBody FREE [0, 1] [] [1], Group.ofBody {PatternTag.FOCAL} [2] [0] []]
    (fun n => if n = 0 ∨ n = 1 then [0] else if n = 2 then [1] else [])

/-- A scalar (D0) node. -/
def exScalarNode : Node :=
  { id := 3, pattern := {PatternTag.LOCAL}, numdim := D0, prevList := [], nextList := [],
    canForward := false }

/-- A consumer over a 2x2 block grid whose only input is the scalar node. -/
def exScalarConsumer : Task :=
  { id := 11, inputList := [exScalarNode], outputList := [], nodeList := [],
    numblock := [2, 2], accu_in_reach_of := fun _ => [[0, 0]] }

/-- A producer whose only output is the scalar node. -/
def exScalarProducer : Task :=
  { id := 12, inputList := [], outputList := [exScalarNode], nodeList := [exScalarNode],
    numblock := [1, 1], accu_in_reach_of := fun _ => [[0, 0]] }

/-- A one-dimensional FOCAL node. -/
def exFocalNode : Node :=
  { id := 4, pattern := {PatternTag.FOCAL}, numdim := 1, prevList := [], nextList := [],
    canForward := false }

/-- A consumer of the FOCAL node over two blocks of size 4, with identity reach. -/
def exWideConsumer : Task :=
  { id := 15, inputList := [exFocalNode], outputList := [], nodeList := [], numblock := [2],
    accu_in_reach_of := fun _ => [[0]], blocksize := [4] }

/-- A task over a single block of size 8 that does not read the FOCAL node. -/
def exNarrowTask : Task :=
  { id := 16, inputList := [], outputList := [], nodeList := [], numblock := [1],
    accu_in_reach_of := fun _ => [[0]], blocksize := [8] }

/-- The state of a task with three jobs of iteration 0 left and no last thread yet
(thread 0 stands for the default `ThreadId()`). -/
def exWorkState : WorkState :=
  { self_jobs_count := Function.update (fun _ => none) 0 (some 3), last := 0 }

/-- A heap with one node, the switch node of handle 0. -/
def exDag : Dag := { objs := fun _ => DagNode.ofMeta, count := 1 }

/-- The state of `askJobs` in which no task has a dependency entry, no job has been emitted
and thread 5 is the last worker. -/
def exAskState : AskState :=
  { states := fun _ => emptyState, job_vec := [], last := 5 }

/-- An output node that is not in the body of its cluster. -/
def exOutOnlyNode : Node :=
  { id := 21, pattern := {PatternTag.LOCAL}, numdim := 2, prevList := [20], nextList := [],
    canForward := false }

/-- An input node whose only successor is `exOutOnlyNode`. -/
def exOutOnlyInput : Node :=
  { id := 20, pattern := INPUT, numdim := 2, prevList := [], nextList := [21],
    canForward := false }

/-- A task whose output list holds `exOutOnlyNode` and whose body is empty. -/
def exOutOnlyTask : Task :=
  { id := 17, inputList := [exOutOnlyInput], outputList := [exOutOnlyNode], nodeList := [],
    numblock := [1, 1], accu_in_reach_of := fun _ => [[0, 0]] }

/-- A full, not fixed block of `exOutOnlyInput`. -/
def exOutOnlyBlk : Block :=
  { node := exOutOnlyInput, coord := [0, 0], holdtype := HoldType.HOLD_N, fixed := false,
    forward := false }

/-- A node graph in which the scalar FREE node 0 feeds the LOCAL node 1. -/
def scalarFreeDag : Nat → Node := fun n =>
  if n = 0 then
    { id := 0, pattern := FREE, numdim := D0, prevList := [], nextList := [1],
      canForward := false }
  else
    { id := n, pattern := {PatternTag.LOCAL}, numdim := 2,
      prevList := if n = 1 then [0] else [], nextList := [], canForward := false }

/-- One cluster whose body holds both nodes of `scalarFreeDag`, before linking. -/
def scalarFreeEx : Fusioner :=
  Fusioner.ofGroups [Group.ofBody {PatternTag.LOCAL} [0, 1] [] []]
    (fun n => if n = 0 ∨ n = 1 then [0] else [])

/-- A node graph in which the FREE constant 0 feeds the LOCAL nodes 1, 2 and 3. -/
def constDag : Nat → Node := fun n =>
  { id := n, pattern := if n = 0 then FREE else {PatternTag.LOCAL}, numdim := 2,
    prevList := if n = 1 ∨ n = 2 ∨ n = 3 then [0] else [],
    nextList := if n = 0 then [1, 2, 3] else [], canForward := false }

/-- Four clusters, one per node of `constDag`: the constant in cluster 0, its three consumers in
the clusters 1, 2 and 3. -/
def constEx : Fusioner :=
  Fusioner.ofGroups
    [Group.ofBody FREE [0] [] [1, 2, 3], Group.ofBody {PatternTag.LOCAL} [1] [0] [],
      Group.ofBody {PatternTag.LOCAL} [2] [0] [], Group.ofBody {PatternTag.LOCAL} [3] [0] []]
    (fun n => if n < 4 then [n] else [])

/-- A consumer over a 2x1 block grid whose LOCAL input is read at the offsets (0,0) and
(1,0): the coordinate (0,0) has two dependencies. -/
def exTwoDepTask : Task :=
  { id := 13, inputList := [exLocalNode], outputList := [], nodeList := [], numblock := [2, 1],
    accu_in_reach_of := fun _ => [[0, 0], [1, 0]] }

/-- A second output block of `fwdOutA`, at the coordinate (0,1). -/
def fwdOutBlkA2 : Block :=
  { node := fwdOutA, coord := [0, 1], holdtype := HoldType.HOLD_N, fixed := false,
    forward := false }

/-- A node graph with an isolated scalar FREE node 0; every other node is an isolated LOCAL
node. -/
def loneScalarDag : Nat → Node := fun n =>
  { id := n, pattern := if n = 0 then FREE else {PatternTag.LOCAL},
    numdim := if n = 0 then D0 else 2, prevList := [], nextList := [], canForward := false }

/-- The state of `Fusioner::fuse` on the nodes 0 and 1 of `loneScalarDag` after `linking`, that
is right before `sorting`. -/
def loneScalarLinked : Option Fusioner :=
  match Fusioner.init.clear.fuseGently (Env.ofDag loneScalarDag) 4 [0, 1] with
  | none => none
  | some s1 =>
    match s1.fuseFlat (Env.ofDag loneScalarDag) [0, 1] with
    | none => none
    | some s2 =>
      match s2.fuseBU (Env.ofDag loneScalarDag) 4 [0, 1] with
      | none => none
      | some s3 =>
        (s3.forwarding (Env.ofDag loneScalarDag)
          (fun n => decide (((Env.ofDag loneScalarDag).dag n).pattern = FREE))).linking
          (Env.ofDag loneScalarDag)

/-! # Theorems -/

/-! ## Dependency counting of `notify` -/

theorem notify_of_dep {T : Task} {s : TaskState} {j : Job} {d : Int}
    (hd : (match s.dep_hash j.coord with | some d => d | none => T.prevDependencies j.coord) = d)
    (h1 : 1 < d) :
    T.notify s j = some { s with dep_hash := Function.update s.dep_hash j.coord (some (d - 1)) } := by
  unfold Task.notify
  simp only [hd]
  have h2 : ¬ (d - 1 < 0) := by omega
  have h3 : ¬ (d - 1 = 0) := by omega
  simp [h2, h3]

theorem notify_of_dep_one {T : Task} {s : TaskState} {j : Job}
    (hd : (match s.dep_hash j.coord with | some d => d | none => T.prevDependencies j.coord) = 1) :
    ∃ s1, T.notify s j = some s1 ∧ s1.dep_hash = Function.update s.dep_hash j.coord none ∧
      s1.job_vec = s.job_vec ++ [j] := by
  unfold Task.notify
  simp only [hd]
  simp

/-- While the counter of `c` stays above the number of calls, a run of calls for `c` only
decrements the counter. -/
theorem notifySeq_decrement (T : Task) (c : Coord) :
    ∀ (jobs : List Job) (s : TaskState) (d : Int),
      (∀ j ∈ jobs, j.coord = c) → s.dep_hash c = some d → (jobs.length : Int) < d →
      ∃ s1, T.notifySeq s jobs = some s1 ∧ s1.job_vec = s.job_vec ∧
        s1.dep_hash c = some (d - jobs.length) := by
  intro jobs
  induction jobs with
  | nil =>
    intro s d _ hs _
    exact ⟨s, rfl, rfl, by simpa using hs⟩
  | cons j js ih =>
    intro s d hc hs hlen
    have hj : j.coord = c := hc j (List.mem_cons_self _ _)
    have hlen1 : ((js.length : Int) + 1) < d := by simpa using hlen
    have hstep := notify_of_dep (T := T) (s := s) (j := j) (d := d) (by rw [hj, hs]) (by omega)
    obtain ⟨s1, h1, h2, h3⟩ := ih { s with dep_hash := Function.update s.dep_hash j.coord (some (d - 1)) }
      (d - 1) (fun x hx => hc x (List.mem_cons_of_mem _ hx))
      (by show Function.update s.dep_hash j.coord (some (d - 1)) c = some (d - 1)
          rw [hj, Function.update_same]) (by omega)
    refine ⟨s1, ?_, ?_, ?_⟩
    · simp [Task.notifySeq, hstep, h1]
    · simpa using h2
    · rw [h3]; simp; omega

/-- C1: for a coordinate `c` without entry in `dep_hash` and `k = prevDependencies(c) >= 1`,
a sequence of `k` calls of `notify` for `c` succeeds; after each of the first `k-1` calls
nothing has been pushed and `dep_hash[c]` is `k` minus the number of calls made; the `k`-th
call pushes exactly its job and leaves no entry for `c`. -/
theorem notify_pushes_once_on_kth_call (T : Task) (s : TaskState) (c : Coord) (jobs : List Job)
    (hc : ∀ j ∈ jobs, j.coord = c) (hmiss : s.dep_hash c = none)
    (hk : 1 ≤ T.prevDependencies c) (hlen : (jobs.length : Int) = T.prevDependencies c) :
    (∀ m, 1 ≤ m → m < jobs.length →
        ∃ sm, T.notifySeq s (jobs.take m) = some sm ∧ sm.job_vec = s.job_vec ∧
          sm.dep_hash c = some (T.prevDependencies c - m)) ∧
    (∃ sk last, T.notifySeq s jobs = some sk ∧ jobs.getLast? = some last ∧
        sk.job_vec = s.job_vec ++ [last] ∧ sk.dep_hash c = none) := by
  cases jobs with
  | nil => simp at hlen; omega
  | cons j js =>
    have hj : j.coord = c := hc j (List.mem_cons_self _ _)
    have hjs : ∀ x ∈ js, x.coord = c := fun x hx => hc x (List.mem_cons_of_mem _ hx)
    have hlen1 : (js.length : Int) + 1 = T.prevDependencies c := by simpa using hlen
    have hd0 : (match s.dep_hash j.coord with
        | some d => d | none => T.prevDependencies j.coord) = T.prevDependencies c := by
      rw [hj, hmiss]
    rcases js.eq_nil_or_concat with hnil | ⟨init, last, hcat⟩
    · subst hnil
      have h1 : T.prevDependencies c = 1 := by simpa using hlen1.symm
      obtain ⟨s1, e1, e2, e3⟩ := notify_of_dep_one (T := T) (s := s) (j := j) (by rw [hd0, h1])
      refine ⟨?_, s1, j, ?_, rfl, e3, ?_⟩
      · intro m hm1 hm2; simp at hm2; omega
      · simp [Task.notifySeq, e1]
      · rw [e2, hj, Function.update_same]
    · rw [List.concat_eq_append] at hcat
      subst hcat
      have hinit : ∀ x ∈ init, x.coord = c := fun x hx => hjs x (by simp [hx])
      have hlast : last.coord = c := hjs last (by simp)
      have hlen2 : (init.length : Int) + 2 = T.prevDependencies c := by
        have := hlen1; simp at this; omega
      have hstep := notify_of_dep (T := T) (s := s) (j := j) (d := T.prevDependencies c) hd0 (by omega)
      have key : ∀ l : List Job, (∀ x ∈ l, x.coord = c) →
          (l.length : Int) < T.prevDependencies c - 1 →
          ∃ s1, T.notifySeq s (j :: l) = some s1 ∧ s1.job_vec = s.job_vec ∧
            s1.dep_hash c = some (T.prevDependencies c - 1 - l.length) := by
        intro l hl hlt
        obtain ⟨s1, a1, a2, a3⟩ := notifySeq_decrement T c l
          { s with dep_hash := Function.update s.dep_hash j.coord (some (T.prevDependencies c - 1)) }
          (T.prevDependencies c - 1) hl
          (by show Function.update s.dep_hash j.coord (some (T.prevDependencies c - 1)) c = _
              rw [hj, Function.update_same]) hlt
        exact ⟨s1, by simp [Task.notifySeq, hstep, a1], by simpa using a2, a3⟩
      constructor
      · intro m hm1 hm2
        obtain ⟨m1, rfl⟩ : ∃ m1, m = m1 + 1 := ⟨m - 1, by omega⟩
        have hm3 : m1 ≤ init.length := by simp at hm2; omega
        obtain ⟨sm, b1, b2, b3⟩ := key ((init ++ [last]).take m1)
          (fun x hx => hjs x (List.mem_of_mem_take hx))
          (by simp [List.length_take]; omega)
        refine ⟨sm, by simpa using b1, b2, ?_⟩
        rw [b3]
        have hmin : (List.take m1 (init ++ [last])).length = m1 := by
          simp [List.length_take]; omega
        rw [hmin]; congr 1; push_cast; ring
      · obtain ⟨s1, b1, b2, b3⟩ := key init hinit (by omega)
        have hb3 : s1.dep_hash last.coord = some 1 := by
          rw [hlast, b3]; congr 1; omega
        obtain ⟨s2, e1, e2, e3⟩ := notify_of_dep_one (T := T) (s := s1) (j := last)
          (by rw [hb3])
        have hseq : ∀ (l : List Job) (t t1 : TaskState), T.notifySeq t l = some t1 →
            T.notifySeq t (l ++ [last]) = T.notify t1 last := by
          intro l
          induction l with
          | nil => intro t t1 h; simp [Task.notifySeq] at h; subst h; simp [Task.notifySeq]
          | cons x xs ih =>
            intro t t1 h
            simp only [Task.notifySeq, List.cons_append] at h ⊢
            cases hx : T.notify t x with
            | none => simp [hx] at h
            | some t2 => simp only [hx, Option.some_bind] at h ⊢; exact ih t2 t1 h
        refine ⟨s2, last, ?_, ?_, ?_, ?_⟩
        · have := hseq (j :: init) s s1 b1
          simpa [e1] using this
        · rw [← List.cons_append, List.getLast?_append]; simp
        · rw [e3, b2]
        · rw [e2, hlast, Function.update_same]

theorem notify_pushes_once_on_kth_call_witness :
    (∃ sk last, exTask.notifySeq emptyState [⟨7, [0, 0], 0⟩] = some sk ∧
        [(⟨7, [0, 0], 0⟩ : Job)].getLast? = some last ∧
        sk.job_vec = emptyState.job_vec ++ [last] ∧ sk.dep_hash [0, 0] = none) :=
  (notify_pushes_once_on_kth_call exTask emptyState [0, 0] [⟨7, [0, 0], 0⟩]
    (by decide) rfl (by decide) (by decide)).2

/-! ## Dependency conservation -/

theorem inRange_nil_nil : inRange [] [] = true := by simp [inRange]

theorem inRange_cons_cons (x : Int) (c : Coord) (n : Int) (nb : NumBlock) :
    inRange (x :: c) (n :: nb) = (decide (0 ≤ x) && decide (x < n) && inRange c nb) := by
  simp only [inRange, List.length_cons, List.zip_cons_cons, List.all_cons]
  by_cases h : c.length = nb.length <;> simp [h, Bool.and_comm, Bool.and_left_comm]

theorem inRange_length {c : Coord} {nb : NumBlock} (h : inRange c nb = true) :
    c.length = nb.length := by
  simp only [inRange, Bool.and_eq_true, beq_iff_eq] at h
  exact h.1

theorem mem_iterSpace : ∀ (nb : NumBlock) (c : Coord), c ∈ iterSpace nb ↔ inRange c nb = true := by
  intro nb
  induction nb with
  | nil =>
    intro c
    cases c with
    | nil => simp [iterSpace, inRange]
    | cons x xs => simp [iterSpace, inRange]
  | cons n ns ih =>
    intro c
    cases c with
    | nil => simp [iterSpace, inRange]
    | cons x xs =>
      rw [inRange_cons_cons]
      simp only [iterSpace, List.mem_flatMap, List.mem_map, List.mem_range, List.cons.injEq,
        Bool.and_eq_true, decide_eq_true_eq]
      constructor
      · rintro ⟨rest, hrest, k, hk, rfl, rfl⟩
        simp only [Int.ofNat_eq_coe]
        exact ⟨⟨by omega, by omega⟩, (ih _).1 hrest⟩
      · rintro ⟨⟨h0, h1⟩, h2⟩
        exact ⟨xs, (ih _).2 h2, x.toNat, by omega, by simp only [Int.ofNat_eq_coe]; omega, rfl⟩

theorem nodup_iterSpace : ∀ (nb : NumBlock), (iterSpace nb).Nodup := by
  intro nb
  induction nb with
  | nil => simp [iterSpace]
  | cons n ns ih =>
    simp only [iterSpace]
    rw [List.nodup_flatMap]
    refine ⟨?_, ?_⟩
    · intro rest _
      refine List.Nodup.map ?_ (List.nodup_range _)
      intro a b hab
      simpa using hab
    · refine List.Nodup.pairwise_of_forall_ne ih ?_
      intro a _ b _ hab
      simp only [Function.onFun, List.Disjoint, List.mem_map, List.mem_range]
      rintro x ⟨k, _, rfl⟩ ⟨k2, _, h2⟩
      simp at h2
      exact hab h2.2.symm

theorem Coord_add_length (a b : Coord) : (Coord.add a b).length = min a.length b.length := by
  simp [Coord.add]

theorem Coord_add_neg_cancel : ∀ (c o : Coord), c.length ≤ o.length →
    Coord.add (Coord.add c o) (o.map (fun x => -x)) = c := by
  intro c
  induction c with
  | nil => intro o _; simp [Coord.add]
  | cons x xs ih =>
    intro o h
    cases o with
    | nil => simp at h
    | cons y ys =>
      have h2 : xs.length ≤ ys.length := by simpa using h
      have := ih ys h2
      simp only [Coord.add] at this
      simp [Coord.add, this]

theorem Coord_neg_add_cancel : ∀ (d o : Coord), d.length ≤ o.length →
    Coord.add (Coord.add d (o.map (fun x => -x))) o = d := by
  intro d
  induction d with
  | nil => intro o _; simp [Coord.add]
  | cons x xs ih =>
    intro o h
    cases o with
    | nil => simp at h
    | cons y ys =>
      have h2 : xs.length ≤ ys.length := by simpa using h
      have := ih ys h2
      simp only [Coord.add] at this
      simp [Coord.add, this]

theorem inRange_add_length {c o : Coord} {nb : NumBlock} (h1 : inRange c nb = true)
    (h2 : inRange (Coord.add c o) nb = true) : c.length ≤ o.length := by
  have a := inRange_length h1
  have b := inRange_length h2
  rw [Coord_add_length] at b
  omega

/-- The number of block coordinates `c` with `c + o` in range equals the number of block
coordinates `d` with `d - o` in range. -/
theorem count_shift (nb : NumBlock) (o : Coord) :
    ((iterSpace nb).filter (fun c => inRange (Coord.add c o) nb)).length =
    ((iterSpace nb).filter
      (fun d => inRange (Coord.add d (o.map (fun x => -x))) nb)).length := by
  have hnd1 := (nodup_iterSpace nb).filter (fun c => inRange (Coord.add c o) nb)
  have hnd2 := (nodup_iterSpace nb).filter
    (fun d => inRange (Coord.add d (o.map (fun x => -x))) nb)
  have hinj : ((iterSpace nb).filter (fun c => inRange (Coord.add c o) nb)).map
      (fun c => Coord.add c o) |>.Nodup := by
    refine List.Nodup.map_on ?_ hnd1
    intro a ha b hb hab
    simp only [List.mem_filter, mem_iterSpace] at ha hb
    have e1 := Coord_add_neg_cancel a o (inRange_add_length ha.1 ha.2)
    have e2 := Coord_add_neg_cancel b o (inRange_add_length hb.1 hb.2)
    rw [← e1, ← e2, hab]
  have hperm : (((iterSpace nb).filter (fun c => inRange (Coord.add c o) nb)).map
      (fun c => Coord.add c o)).Perm
      ((iterSpace nb).filter (fun d => inRange (Coord.add d (o.map (fun x => -x))) nb)) := by
    rw [List.perm_ext_iff_of_nodup hinj hnd2]
    intro d
    simp only [List.mem_map, List.mem_filter, mem_iterSpace]
    constructor
    · rintro ⟨c, ⟨hc1, hc2⟩, rfl⟩
      refine ⟨hc2, ?_⟩
      rw [Coord_add_neg_cancel c o (inRange_add_length hc1 hc2)]
      exact hc1
    · rintro ⟨hd1, hd2⟩
      have hl : d.length ≤ o.length := by
        have := inRange_add_length hd1 hd2
        simpa using this
      refine ⟨Coord.add d (o.map (fun x => -x)), ⟨hd2, ?_⟩, Coord_neg_add_cancel d o hl⟩
      rw [Coord_neg_add_cancel d o hl]
      exact hd1
  have := hperm.length_eq
  simpa using this

theorem length_filter_eq_sum {α : Type} (p : α → Bool) (l : List α) :
    ((l.filter p).length : Int) = (l.map (fun x => if p x then (1 : Int) else 0)).sum := by
  induction l with
  | nil => simp
  | cons x xs ih =>
    by_cases h : p x = true
    · simp [List.filter_cons, h, ih]; ring
    · simp [List.filter_cons, h, ih]

theorem sum_map_sum_swap {α β : Type} (xs : List α) (ys : List β) (f : α → β → Int) :
    (xs.map (fun x => (ys.map (fun y => f x y)).sum)).sum =
    (ys.map (fun y => (xs.map (fun x => f x y)).sum)).sum := by
  induction xs with
  | nil => simp
  | cons x xs ih => simp [List.sum_map_add, ih]

theorem foldl_add_eq_sum {α : Type} (f : α → Int) (l : List α) :
    ∀ a : Int, l.foldl (fun acc x => acc + f x) a = a + (l.map f).sum := by
  induction l with
  | nil => intro a; simp
  | cons x xs ih => intro a; simp [ih]; ring

theorem prevInterDepends_eq (T : Task) (node : Node) (c : Coord) :
    T.prevInterDepends node c = node.dependWeight *
      ((T.accu_in_reach_of node).map
        (fun o => if inRange (Coord.add c o) T.numblock then (1 : Int) else 0)).sum := by
  have h : ∀ (l : List Coord) (a : Int),
      l.foldl (fun dep offset =>
        if inRange (Coord.add c offset) T.numblock then
          dep + (if node.pattern = INPUT ∨ node.pattern = FREE then 0 else 1)
        else dep) a =
      a + node.dependWeight *
        (l.map (fun o => if inRange (Coord.add c o) T.numblock then (1 : Int) else 0)).sum := by
    intro l
    induction l with
    | nil => intro a; simp
    | cons o os ih =>
      intro a
      simp only [List.foldl_cons, List.map_cons, List.sum_cons, ih]
      by_cases hr : inRange (Coord.add c o) T.numblock = true
      · simp only [hr, if_true, Node.dependWeight]; ring
      · simp only [hr, Node.dependWeight]; simp
  have := h (T.accu_in_reach_of node) 0
  simpa [Task.prevInterDepends, Task.accuInputReach, Mask.blockSpace] using this

theorem prevDependencies_eq (T : Task) (c : Coord) :
    T.prevDependencies c = (T.inputList.map (fun n => T.prevInterDepends n c)).sum := by
  unfold Task.prevDependencies
  simp only [foldl_add_eq_sum, Task.prevIntraDepends]
  simp

theorem sum_prevInterDepends (T : Task) (node : Node) :
    ((iterSpace T.numblock).map (fun c => T.prevInterDepends node c)).sum =
      node.dependWeight * T.reachCount node := by
  simp only [prevInterDepends_eq, List.sum_map_mul_left]
  congr 1
  rw [sum_map_sum_swap]
  simp only [Task.reachCount, shiftCount, length_filter_eq_sum]

theorem totalPrevDependencies_eq (T : Task) :
    T.totalPrevDependencies = (T.inputList.map (fun n => n.dependWeight * T.reachCount n)).sum := by
  unfold Task.totalPrevDependencies
  simp only [prevDependencies_eq]
  rw [sum_map_sum_swap]
  simp only [sum_prevInterDepends]

theorem sum_map_filter_eq {α : Type} (p : α → Bool) (g : α → Int) (l : List α) :
    ((l.filter p).map g).sum = (l.map (fun x => if p x then g x else 0)).sum := by
  induction l with
  | nil => simp
  | cons x xs ih =>
    by_cases h : p x = true
    · simp [List.filter_cons, h, ih]
    · simp [List.filter_cons, h, ih]

theorem length_flatMap_int {α β : Type} (f : α → List β) (l : List α) :
    (((l.flatMap f).length : Nat) : Int) = (l.map (fun x => ((f x).length : Int))).sum := by
  induction l with
  | nil => simp
  | cons x xs ih =>
    rw [List.flatMap_cons, List.length_append]
    push_cast
    rw [ih]
    simp

theorem nextJobsTargets_length (T P : Task) (done_job : Job) (isEnd : Bool)
    (hD0 : ∀ n ∈ inner_join T.inputList P.outputList, n.numdim ≠ D0) :
    ((T.nextJobsTargets P done_job isEnd).length : Int) =
      (T.inputList.map (fun n => if is_included n P.outputList then
        ((T.accu_in_reach_of n).map (fun o =>
          if inRange (Coord.add done_job.coord (o.map (fun x => -x))) T.numblock
          then (1 : Int) else 0)).sum else 0)).sum := by
  unfold Task.nextJobsTargets
  simp only [length_flatMap_int]
  rw [← sum_map_filter_eq]
  have : ∀ n ∈ inner_join T.inputList P.outputList,
      (((if n.numdim = D0 then
          if (!isEnd) = true then []
          else (iterSpace T.numblock).map (fun coord => (⟨T.id, coord, done_job.iter⟩ : Job))
        else
          (((T.accuInputReach n done_job.coord).invert.blockSpace).filter
            (fun offset => inRange (Coord.add done_job.coord offset) T.numblock)).map
            (fun offset => (⟨T.id, Coord.add done_job.coord offset, done_job.iter⟩ : Job))).length
          : Nat) : Int) =
      ((T.accu_in_reach_of n).map (fun o =>
          if inRange (Coord.add done_job.coord (o.map (fun x => -x))) T.numblock
          then (1 : Int) else 0)).sum := by
    intro n hn
    rw [if_neg (hD0 n hn), List.length_map, length_filter_eq_sum]
    simp [Task.accuInputReach, Mask.invert, Mask.blockSpace, Function.comp_def]
  unfold inner_join at this ⊢
  exact congrArg List.sum (List.map_congr_left this)

theorem sum_if_const {α : Type} (p : α → Bool) (q : Int) (l : List α) :
    (l.map (fun x => if p x then q else 0)).sum = ((l.filter p).length : Int) * q := by
  induction l with
  | nil => simp
  | cons x xs ih =>
    by_cases h : p x = true
    · simp [List.filter_cons, h, ih]; ring
    · simp [List.filter_cons, h, ih]

theorem sum_nextJobsTargets (T P : Task) (isEnd : Coord → Bool)
    (hnb : P.numblock = T.numblock)
    (hD0 : ∀ n ∈ inner_join T.inputList P.outputList, n.numdim ≠ D0) :
    ((iterSpace P.numblock).map (fun d =>
        ((T.nextJobsTargets P ⟨P.id, d, 0⟩ (isEnd d)).length : Int))).sum =
      (T.inputList.map (fun n =>
        if is_included n P.outputList then T.reachCount n else 0)).sum := by
  rw [hnb]
  have hfun : (fun d => ((T.nextJobsTargets P ⟨P.id, d, 0⟩ (isEnd d)).length : Int)) =
      (fun d => (T.inputList.map (fun n => if is_included n P.outputList then
        ((T.accu_in_reach_of n).map (fun o =>
          if inRange (Coord.add d (o.map (fun x => -x))) T.numblock
          then (1 : Int) else 0)).sum else 0)).sum) :=
    funext (fun d => nextJobsTargets_length T P ⟨P.id, d, 0⟩ (isEnd d) hD0)
  rw [hfun, sum_map_sum_swap]
  refine congrArg List.sum (List.map_congr_left ?_)
  intro n _
  by_cases h : is_included n P.outputList = true
  · simp only [h, if_true]
    rw [sum_map_sum_swap]
    unfold Task.reachCount
    refine congrArg List.sum (List.map_congr_left ?_)
    intro o _
    unfold shiftCount
    rw [count_shift]
    exact (length_filter_eq_sum _ _).symm
  · simp [h]

/-- C2 (failing input): a shared two-dimensional node of pattern INPUT or FREE makes the
producer notify the consumer although `prevInterDepends` gives the node weight 0.  With the
INPUT node as only shared node the dependencies sum to 0 against one `notify`, whose counter
drops below 0: the assertion of `notify` fails.  With a FREE and a LOCAL shared node the
dependencies sum to 1 against two calls of `notify`, and the job of the consumer is emitted
twice. -/
theorem shared_INPUT_node_unbalances_notify :
    exProducer.numblock = exConsumer.numblock ∧
    (∀ n ∈ inner_join exConsumer.inputList exProducer.outputList, n.numdim ≠ D0) ∧
    exConsumer.totalPrevDependencies = 0 ∧
    exConsumer.totalNotifies [exProducer] (fun _ _ => false) = 1 ∧
    exConsumer.nextJobs exProducer emptyState ⟨exProducer.id, [0, 0], 0⟩ false = none ∧
    mixProducer.numblock = mixConsumer.numblock ∧
    (∀ n ∈ inner_join mixConsumer.inputList mixProducer.outputList, n.numdim ≠ D0) ∧
    mixConsumer.totalPrevDependencies = 1 ∧
    mixConsumer.totalNotifies [mixProducer] (fun _ _ => false) = 2 ∧
    (mixConsumer.nextJobs mixProducer emptyState ⟨mixProducer.id, [0, 0], 0⟩ false).map
      (fun s => s.job_vec) = some [⟨mixConsumer.id, [0, 0], 0⟩, ⟨mixConsumer.id, [0, 0], 0⟩] := by
  refine ⟨?_, ?_, ?_, ?_, ?_, ?_, ?_, ?_, ?_, ?_⟩ <;> first | decide | rfl

/-- Dependency conservation where the counts agree: for a generic task `T` and predecessors
with the same block count whose shared nodes are non-D0, if every input node of `T` is an
output of as many predecessors as its weight in `prevInterDepends` (one when its pattern is
neither INPUT nor FREE, none otherwise), the sum of `prevDependencies` over the block
coordinates equals the number of `notify` calls that `nextJobs` issues to `T` when every job of
every predecessor completes once. -/
theorem dependency_conservation (T : Task) (preds : List Task) (isEnd : Task → Coord → Bool)
    (hnb : ∀ P ∈ preds, P.numblock = T.numblock)
    (hD0 : ∀ P ∈ preds, ∀ n ∈ inner_join T.inputList P.outputList, n.numdim ≠ D0)
    (hshare : ∀ n ∈ T.inputList,
      (((preds.filter (fun P => is_included n P.outputList)).length : Nat) : Int)
        = n.dependWeight) :
    T.totalPrevDependencies = T.totalNotifies preds isEnd := by
  rw [totalPrevDependencies_eq]
  unfold Task.totalNotifies
  have h1 : preds.map (fun P => ((iterSpace P.numblock).map (fun d =>
      ((T.nextJobsTargets P ⟨P.id, d, 0⟩ (isEnd P d)).length : Int))).sum) =
      preds.map (fun P => (T.inputList.map (fun n =>
        if is_included n P.outputList then T.reachCount n else 0)).sum) :=
    List.map_congr_left (fun P hP => sum_nextJobsTargets T P (isEnd P) (hnb P hP) (hD0 P hP))
  rw [h1, sum_map_sum_swap]
  refine congrArg List.sum (List.map_congr_left ?_)
  intro n hn
  have hc := sum_if_const (fun P : Task => is_included n P.outputList) (T.reachCount n) preds
  simp only at hc
  rw [hc, hshare n hn]

theorem dependency_conservation_witness :
    exTask.totalPrevDependencies = exTask.totalNotifies [exLocalProducer] (fun _ _ => false) :=
  dependency_conservation exTask [exLocalProducer] (fun _ _ => false)
    (by decide) (by decide) (by decide)

/-! ## Task factory -/

/-- C3 (as stated, refuted): a D0 cluster whose pattern is TAIL alone is dispatched to a
ScalarTask, not to a TailTask, so the rule TAIL does not precede the rule `numdim == D0`. -/
theorem Factory_tail_D0_is_scalar :
    ¬ (∀ (pat : Pattern) (numdim : Nat), pat.is PatternTag.TAIL = true →
        pat.is PatternTag.LOOP = false → pat.is PatternTag.SPREAD = false →
        pat.is PatternTag.RADIAL = false → Factory pat numdim = some TaskKind.TailTask) := by
  intro h
  have := h {PatternTag.TAIL} D0 (by decide) (by decide) (by decide) (by decide)
  revert this
  decide

/-- C3 (amended): `Task::Factory` takes the first matching rule in the order LOOP, SPREAD
(assertion failure, no task), RADIAL, `numdim == D0`, TAIL, generic; a cluster with TAIL and
without LOOP, SPREAD and RADIAL gives a ScalarTask when it is D0 and a TailTask otherwise. -/
theorem Factory_first_match (pat : Pattern) (numdim : Nat) :
    (pat.is PatternTag.LOOP = true → Factory pat numdim = some TaskKind.LoopTask) ∧
    (pat.is PatternTag.LOOP = false → pat.is PatternTag.SPREAD = true →
      Factory pat numdim = none) ∧
    (pat.is PatternTag.LOOP = false → pat.is PatternTag.SPREAD = false →
      (pat.is PatternTag.RADIAL = true → Factory pat numdim = some TaskKind.RadialTask) ∧
      (pat.is PatternTag.RADIAL = false →
        (numdim = D0 → Factory pat numdim = some TaskKind.ScalarTask) ∧
        (numdim ≠ D0 →
          (pat.is PatternTag.TAIL = true → Factory pat numdim = some TaskKind.TailTask) ∧
          (pat.is PatternTag.TAIL = false → Factory pat numdim = some TaskKind.Task)))) := by
  unfold Factory
  refine ⟨fun h => by simp [h], fun h1 h2 => by simp [h1, h2], fun h1 h2 => ⟨fun h3 => by simp [h1, h2, h3],
    fun h3 => ⟨fun h4 => by simp [h1, h2, h3, h4], fun h4 => ⟨fun h5 => by simp [h1, h2, h3, h4, h5],
      fun h5 => by simp [h1, h2, h3, h4, h5]⟩⟩⟩⟩

theorem Factory_first_match_witness :
    Factory {PatternTag.TAIL} D0 = some TaskKind.ScalarTask ∧
    Factory {PatternTag.TAIL} 2 = some TaskKind.TailTask :=
  ⟨((Factory_first_match {PatternTag.TAIL} D0).2.2 (by decide) (by decide)).2 (by decide) |>.1 rfl,
   (((Factory_first_match {PatternTag.TAIL} 2).2.2 (by decide) (by decide)).2 (by decide)).2
      (by decide) |>.1 (by decide)⟩

/-! ## Forwarding safety -/

/-- C10 (the code at the failing input): with two distinct output nodes that both forward the
same input block, `preForward` marks both output blocks forward, and the forward map sends
both to that one input block. -/
theorem preForward_marks_two_outputs_of_one_input :
    ∃ forward out_blk,
      fwdTask.preForward [] [fwdInBlk] [fwdOutBlkA, fwdOutBlkB] = some (forward, out_blk) ∧
      out_blk = [{ fwdOutBlkA with forward := true }, { fwdOutBlkB with forward := true }] ∧
      (forwardedFrom forward out_blk fwdInBlk).length = 2 := by
  refine ⟨_, _, rfl, ?_, ?_⟩ <;> decide

/-! ## Folds in the option monad -/

theorem foldlM_rel {σ α : Type} (R : σ → σ → Prop) (hr : ∀ s, R s s)
    (ht : ∀ a b c, R a b → R b c → R a c) (f : σ → α → Option σ)
    (hf : ∀ s x t, f s x = some t → R s t) :
    ∀ (l : List α) (s t : σ), l.foldlM f s = some t → R s t := by
  intro l
  induction l with
  | nil => intro s t h; simp at h; subst h; exact hr s
  | cons x xs ih =>
    intro s t h
    simp only [List.foldlM_cons] at h
    cases hx : f s x with
    | none => simp [hx] at h
    | some u =>
      simp only [hx, Option.some_bind, Option.bind_eq_bind] at h
      exact ht _ _ _ (hf s x u hx) (ih u t h)

theorem foldlM_split {σ α : Type} (R : σ → σ → Prop) (hr : ∀ s, R s s)
    (ht : ∀ a b c, R a b → R b c → R a c) (f : σ → α → Option σ)
    (hf : ∀ s x t, f s x = some t → R s t) :
    ∀ (l : List α) (s t : σ) (x : α), x ∈ l → l.foldlM f s = some t →
      ∃ u v, R s u ∧ f u x = some v ∧ R v t := by
  intro l
  induction l with
  | nil => intro s t x hx; simp at hx
  | cons y ys ih =>
    intro s t x hx h
    simp only [List.foldlM_cons] at h
    cases hy : f s y with
    | none => simp [hy] at h
    | some u =>
      simp only [hy, Option.some_bind, Option.bind_eq_bind] at h
      rcases List.mem_cons.1 hx with rfl | hx
      · exact ⟨s, u, hr s, hy, foldlM_rel R hr ht f hf ys u t h⟩
      · obtain ⟨a, b, h1, h2, h3⟩ := ih u t x hx h
        exact ⟨a, b, ht _ _ _ (hf s y u hy) h1, h2, h3⟩

theorem foldl_rel {σ α : Type} (R : σ → σ → Prop) (hr : ∀ s, R s s)
    (ht : ∀ a b c, R a b → R b c → R a c) (f : σ → α → σ)
    (hf : ∀ s x, R s (f s x)) :
    ∀ (l : List α) (s : σ), R s (l.foldl f s) := by
  intro l
  induction l with
  | nil => intro s; exact hr s
  | cons x xs ih => intro s; exact ht _ _ _ (hf s x) (ih (f s x))

theorem foldl_split {σ α : Type} (R : σ → σ → Prop) (hr : ∀ s, R s s)
    (ht : ∀ a b c, R a b → R b c → R a c) (f : σ → α → σ)
    (hf : ∀ s x, R s (f s x)) :
    ∀ (l : List α) (s : σ) (x : α), x ∈ l → ∃ u, R s u ∧ R (f u x) (l.foldl f s) := by
  intro l
  induction l with
  | nil => intro s x hx; simp at hx
  | cons y ys ih =>
    intro s x hx
    rcases List.mem_cons.1 hx with rfl | hx
    · exact ⟨s, hr s, foldl_rel R hr ht f hf ys _⟩
    · obtain ⟨u, h1, h2⟩ := ih (f s y) x hx
      exact ⟨u, ht _ _ _ (hf s y) h1, h2⟩

/-! ## State updates -/

theorem modify_groups (s : Fusioner) (g : Nat) (f : Group → Group) (h : Nat) :
    (s.modify g f).groups h = if h = g then f (s.groups g) else s.groups h := by
  simp only [Fusioner.modify, Function.update_apply]

theorem modify_groups_same (s : Fusioner) (g : Nat) (f : Group → Group) :
    (s.modify g f).groups g = f (s.groups g) := by
  simp [modify_groups]

theorem modify_groups_ne (s : Fusioner) (g : Nat) (f : Group → Group) {h : Nat} (hne : h ≠ g) :
    (s.modify g f).groups h = s.groups h := by
  simp [modify_groups, hne]

theorem modify_group_list (s : Fusioner) (g : Nat) (f : Group → Group) :
    (s.modify g f).group_list = s.group_list := rfl

theorem modify_group_list_of (s : Fusioner) (g : Nat) (f : Group → Group) :
    (s.modify g f).group_list_of = s.group_list_of := rfl

theorem modify_num_groups (s : Fusioner) (g : Nat) (f : Group → Group) :
    (s.modify g f).num_groups = s.num_groups := rfl

theorem mem_addInputNode (g : Group) (n : Nat) : n ∈ (g.addInputNode n).in_list := by
  unfold Group.addInputNode
  by_cases h : is_included n g.in_list = true
  · simp only [h, if_true]; simpa [is_included] using h
  · simp [h]

theorem mem_addOutputNode (g : Group) (n : Nat) : n ∈ (g.addOutputNode n).out_list := by
  unfold Group.addOutputNode
  by_cases h : is_included n g.out_list = true
  · simp only [h, if_true]; simpa [is_included] using h
  · simp [h]

theorem addInputNode_fields (g : Group) (n : Nat) :
    (g.addInputNode n).node_list = g.node_list ∧ (g.addInputNode n).out_list = g.out_list ∧
    (g.addInputNode n).prev_list = g.prev_list ∧ (g.addInputNode n).next_list = g.next_list ∧
    (g.addInputNode n).pattern = g.pattern ∧
    (∀ m ∈ g.in_list, m ∈ (g.addInputNode n).in_list) := by
  unfold Group.addInputNode
  by_cases h : is_included n g.in_list = true
  · simp [h]
  · simp only [h]; simp; intro m hm; exact Or.inl hm

theorem addOutputNode_fields (g : Group) (n : Nat) :
    (g.addOutputNode n).node_list = g.node_list ∧ (g.addOutputNode n).in_list = g.in_list ∧
    (g.addOutputNode n).prev_list = g.prev_list ∧ (g.addOutputNode n).next_list = g.next_list ∧
    (g.addOutputNode n).pattern = g.pattern ∧
    (∀ m ∈ g.out_list, m ∈ (g.addOutputNode n).out_list) := by
  unfold Group.addOutputNode
  by_cases h : is_included n g.out_list = true
  · simp [h]
  · simp only [h]; simp; intro m hm; exact Or.inl hm

/-! ## Linking -/

theorem GroupStep.group_refl (env : Env) (g : Group) : GroupStep env g g :=
  ⟨fun _ h => h, fun _ h _ => h, fun _ h => h, fun _ h => h⟩

theorem GroupStep.group_trans {env : Env} {a b c : Group} (h1 : GroupStep env a b)
    (h2 : GroupStep env b c) : GroupStep env a c :=
  ⟨fun n h => h1.1 n (h2.1 n h), fun n h hd => h2.2.1 n (h1.2.1 n h hd) hd,
    fun n h => h2.2.2.1 n (h1.2.2.1 n h), fun n h => h2.2.2.2 n (h1.2.2.2 n h)⟩

theorem LinkStep.link_refl (env : Env) (s : Fusioner) : LinkStep env s s :=
  ⟨rfl, rfl, fun _ => GroupStep.group_refl env _⟩

theorem LinkStep.link_trans {env : Env} {a b c : Fusioner} (h1 : LinkStep env a b)
    (h2 : LinkStep env b c) : LinkStep env a c :=
  ⟨h2.1.trans h1.1, h2.2.1.trans h1.2.1, fun g => (h1.2.2 g).group_trans (h2.2.2 g)⟩

theorem GroupStep_addOutputNode (env : Env) (g : Group) (n : Nat) :
    GroupStep env g (g.addOutputNode n) := by
  obtain ⟨h1, h2, _, _, _, h6⟩ := addOutputNode_fields g n
  exact ⟨fun m hm => by rwa [h1] at hm, fun m hm _ => by rwa [h1], fun m hm => by rwa [h2], h6⟩

theorem GroupStep_addInputNode (env : Env) (g : Group) (n : Nat) :
    GroupStep env g (g.addInputNode n) := by
  obtain ⟨h1, h2, _, _, _, h6⟩ := addInputNode_fields g n
  exact ⟨fun m hm => by rwa [h1] at hm, fun m hm _ => by rwa [h1], h6, fun m hm => by rwa [h2]⟩

theorem mem_remove_value {α : Type} [DecidableEq α] (x y : α) (l : List α) :
    y ∈ remove_value x l ↔ y ∈ l ∧ y ≠ x := by
  simp [remove_value]

theorem GroupStep_removeNode (env : Env) (g : Group) (n : Nat) (hn : isD0Free env n = true) :
    GroupStep env g (g.removeNode n) := by
  refine ⟨?_, ?_, fun m hm => hm, fun m hm => hm⟩
  · intro m hm
    exact ((mem_remove_value n m g.node_list).1 hm).1
  · intro m hm hd
    refine (mem_remove_value n m g.node_list).2 ⟨hm, ?_⟩
    rintro rfl
    rw [hn] at hd
    exact Bool.noConfusion hd

theorem LinkStep_modify (env : Env) (s : Fusioner) (g : Nat) (f : Group → Group)
    (hf : GroupStep env (s.groups g) (f (s.groups g))) : LinkStep env s (s.modify g f) := by
  refine ⟨rfl, rfl, fun h => ?_⟩
  rw [modify_groups]
  by_cases e : h = g
  · subst e; simpa using hf
  · simp only [e, if_false]; exact GroupStep.group_refl env _

theorem moveD0Free_step (env : Env) : ∀ (l : List Nat) (g : Group),
    GroupStep env g (moveD0Free env l g) := by
  intro l
  induction l with
  | nil => intro g; exact GroupStep.group_refl env g
  | cons n rest ih =>
    intro g
    unfold moveD0Free
    split
    · rename_i hc
      have hd : isD0Free env n = true := by
        simp only [Bool.and_eq_true] at hc
        simp [isD0Free, hc.1.2, hc.2]
      exact ((GroupStep_removeNode env g n hd).group_trans
        (GroupStep_addInputNode env _ n)).group_trans (ih _)
    · exact ih g

theorem moveD0Free_clean (env : Env) : ∀ (l : List Nat) (g : Group),
    ∀ n ∈ (moveD0Free env l g).node_list, n ∈ l → isD0Free env n = false := by
  intro l
  induction l with
  | nil => intro g n _ hn; simp at hn
  | cons x rest ih =>
    intro g n hn hmem
    unfold moveD0Free at hn
    split at hn
    · rename_i hc
      rcases List.mem_cons.1 hmem with rfl | hr
      · exfalso
        have h1 := (moveD0Free_step env rest ((g.removeNode n).addInputNode n)).1 n hn
        rw [(addInputNode_fields (g.removeNode n) n).1] at h1
        exact ((mem_remove_value n n g.node_list).1 h1).2 rfl
      · exact ih _ n hn hr
    · rename_i hc
      rcases List.mem_cons.1 hmem with rfl | hr
      · have h1 := (moveD0Free_step env rest g).1 n hn
        have h2 : is_included n g.nodeList = true := by
          simpa [is_included, Group.nodeList] using h1
        cases hd : isD0Free env n with
        | false => rfl
        | true =>
          exfalso
          apply hc
          simp only [isD0Free, Bool.and_eq_true] at hd
          simp [h2, hd.1, hd.2]
      · exact ih _ n hn hr

theorem linkInto_step (env : Env) (group node : Nat) (s : Fusioner) (next_group : Nat)
    (t : Fusioner) (h : linkInto group node s next_group = some t) : LinkStep env s t := by
  unfold linkInto at h
  split at h
  · exact Option.noConfusion h
  · split at h
    · injection h with h
      subst h
      exact (LinkStep_modify env s group _ (GroupStep_addOutputNode env _ node)).link_trans
        (LinkStep_modify env _ next_group _ (GroupStep_addInputNode env _ node))
    · injection h with h
      subst h
      exact LinkStep.link_refl env s

theorem linkNext_step (env : Env) (group node : Nat) (s : Fusioner) (next_node : Nat)
    (t : Fusioner)
    (h : (s.group_list_of next_node).foldlM (linkInto group node) s = some t) :
    LinkStep env s t :=
  foldlM_rel (LinkStep env) (LinkStep.link_refl env) (fun _ _ _ => LinkStep.link_trans) _
    (linkInto_step env group node) _ s t h

theorem linkNode_step (env : Env) (group : Nat) (s : Fusioner) (node : Nat) (t : Fusioner)
    (h : linkNode env group s node = some t) : LinkStep env s t :=
  foldlM_rel (LinkStep env) (LinkStep.link_refl env) (fun _ _ _ => LinkStep.link_trans) _
    (linkNext_step env group node) _ s t h

theorem linkGroup_step (env : Env) (s : Fusioner) (group : Nat) (t : Fusioner)
    (h : linkGroup env s group = some t) : LinkStep env s t := by
  unfold linkGroup at h
  split at h
  · exact Option.noConfusion h
  · exact foldlM_rel (LinkStep env) (LinkStep.link_refl env) (fun _ _ _ => LinkStep.link_trans) _
      (linkNode_step env group) _ s t h

theorem linkBoundary_step (env : Env) (s t : Fusioner) (h : s.linkBoundary env = some t) :
    LinkStep env s t :=
  foldlM_rel (LinkStep env) (LinkStep.link_refl env) (fun _ _ _ => LinkStep.link_trans) _
    (linkGroup_step env) _ s t h

/-- After the first loop of `linking`, a node that stays in the body of a listed cluster and
is outside the body of a cluster of one of its successors is an output of the former and an
input of the latter. -/
theorem linkBoundary_post (env : Env) (s t w : Fusioner) (h : s.linkBoundary env = some t)
    (hw : LinkStep env t w) (G : Nat) (hG : G ∈ s.group_list) (a : Nat)
    (ha : a ∈ (w.groups G).node_list) (hd : isD0Free env a = false) (b : Nat)
    (hb : b ∈ (env.dag a).nextList) (H : Nat) (hH : H ∈ s.group_list_of b)
    (hout : a ∉ (w.groups H).node_list) :
    a ∈ (t.groups G).out_list ∧ a ∈ (t.groups H).in_list := by
  have tr := fun (a b c : Fusioner) (h1 : LinkStep env a b) (h2 : LinkStep env b c) =>
    LinkStep.link_trans h1 h2
  obtain ⟨u1, v1, r1, e1, q1⟩ := foldlM_split (LinkStep env) (LinkStep.link_refl env) tr _
    (linkGroup_step env) _ s t G hG h
  have hv1w : LinkStep env v1 w := tr _ _ _ q1 hw
  have hu1w : LinkStep env u1 w := tr _ _ _ (linkGroup_step env u1 G v1 e1) hv1w
  unfold linkGroup at e1
  split at e1
  · exact Option.noConfusion e1
  have ha1 : a ∈ (u1.groups G).nodeList := (hu1w.2.2 G).1 a ha
  obtain ⟨u2, v2, r2, e2, q2⟩ := foldlM_split (LinkStep env) (LinkStep.link_refl env) tr _
    (linkNode_step env G) _ u1 v1 a ha1 e1
  have hv2w : LinkStep env v2 w := tr _ _ _ q2 hv1w
  obtain ⟨u3, v3, r3, e3, q3⟩ := foldlM_split (LinkStep env) (LinkStep.link_refl env) tr _
    (linkNext_step env G a) _ u2 v2 b hb e2
  have hv3w : LinkStep env v3 w := tr _ _ _ q3 hv2w
  have hsu3 : LinkStep env s u3 := tr _ _ _ (tr _ _ _ (tr _ _ _ r1 r2) r3) (LinkStep.link_refl env _)
  have hH3 : H ∈ u3.group_list_of b := by rw [hsu3.2.1]; exact hH
  obtain ⟨u4, v4, r4, e4, q4⟩ := foldlM_split (LinkStep env) (LinkStep.link_refl env) tr _
    (linkInto_step env G a) _ u3 v3 H hH3 e3
  have hv4w : LinkStep env v4 w := tr _ _ _ q4 hv3w
  have hu4w : LinkStep env u4 w := tr _ _ _ (linkInto_step env G a u4 H v4 e4) hv4w
  have hv4t : LinkStep env v4 t := tr _ _ _ (tr _ _ _ (tr _ _ _ q4 q3) q2) q1
  have hnot : is_included a (u4.groups H).nodeList = false := by
    cases hi : is_included a (u4.groups H).nodeList with
    | false => rfl
    | true =>
      exfalso
      apply hout
      have : a ∈ (u4.groups H).node_list := by simpa [is_included, Group.nodeList] using hi
      exact (hu4w.2.2 H).2.1 a this hd
  unfold linkInto at e4
  split at e4
  · exact Option.noConfusion e4
  simp only [hnot, Bool.not_false, if_true] at e4
  injection e4 with e4
  constructor
  · apply (hv4t.2.2 G).2.2.2
    rw [← e4, modify_groups]
    split
    · rw [(addInputNode_fields _ a).2.1]
      rename_i hGH
      rw [← hGH, modify_groups_same]
      exact mem_addOutputNode _ a
    · rw [modify_groups_same]
      exact mem_addOutputNode _ a
  · apply (hv4t.2.2 H).2.2.1
    rw [← e4, modify_groups_same]
    exact mem_addInputNode _ a

theorem linkD0Free_step (env : Env) (s : Fusioner) : LinkStep env s (s.linkD0Free env) := by
  unfold Fusioner.linkD0Free
  refine foldl_rel (LinkStep env) (LinkStep.link_refl env) (fun _ _ _ => LinkStep.link_trans) _ ?_ _ _
  intro u g
  exact LinkStep_modify env u g _ (moveD0Free_step env _ _)

theorem linkD0Free_clean (env : Env) (s : Fusioner) (g : Nat) (hg : g ∈ s.group_list) :
    ∀ n ∈ ((s.linkD0Free env).groups g).node_list, isD0Free env n = false := by
  intro n hn
  have hstep : ∀ (u : Fusioner) (x : Nat),
      LinkStep env u (u.modify x (fun g => moveD0Free env g.nodeList g)) :=
    fun u x => LinkStep_modify env u x _ (moveD0Free_step env _ _)
  obtain ⟨u, _, h2⟩ := foldl_split (LinkStep env) (LinkStep.link_refl env)
    (fun _ _ _ => LinkStep.link_trans)
    (fun (u : Fusioner) (x : Nat) => u.modify x (fun g => moveD0Free env g.nodeList g))
    hstep s.group_list s g hg
  have h3 := (h2.2.2 g).1 n hn
  rw [modify_groups_same] at h3
  exact moveD0Free_clean env _ _ n h3 ((moveD0Free_step env _ _).1 n h3)

theorem linkIntra_step (env : Env) (s : Fusioner) : LinkStep env s (s.linkIntra env) := by
  unfold Fusioner.linkIntra
  refine foldl_rel (LinkStep env) (LinkStep.link_refl env) (fun _ _ _ => LinkStep.link_trans) _ ?_ _ _
  intro u g
  show LinkStep env u (if _ then _ else _)
  split
  · exact LinkStep.link_refl env u
  · refine foldl_rel (LinkStep env) (LinkStep.link_refl env) (fun _ _ _ => LinkStep.link_trans) _ ?_ _ _
    intro v n
    show LinkStep env v (if _ then _ else _)
    split
    · exact LinkStep.link_refl env v
    · exact LinkStep_modify env v g _ (GroupStep_addOutputNode env _ n)

/-- C4: after `Fusioner::linking`, for every node `a` in the body of a cluster `G` of the
cluster list and every successor `b` of `a`, every cluster `H` of `b` whose body does not
contain `a` has `a` in its in_list, and `a` is in the out_list of `G`. -/
theorem linking_complete (env : Env) (s t : Fusioner) (h : s.linking env = some t)
    (G : Nat) (hG : G ∈ t.group_list) (a : Nat) (ha : a ∈ (t.groups G).node_list)
    (b : Nat) (hb : b ∈ (env.dag a).nextList) (H : Nat) (hH : H ∈ t.group_list_of b)
    (hout : a ∉ (t.groups H).node_list) :
    a ∈ (t.groups H).in_list ∧ a ∈ (t.groups G).out_list := by
  unfold Fusioner.linking at h
  cases h1 : s.linkBoundary env with
  | none => simp [h1] at h
  | some s1 =>
    simp only [h1, Option.some.injEq] at h
    have r1 := linkBoundary_step env s s1 h1
    have r2 := linkIntra_step env s1
    have r3 := linkD0Free_step env (s1.linkIntra env)
    rw [h] at r3
    have r23 : LinkStep env s1 t := r2.link_trans r3
    have r13 : LinkStep env s t := r1.link_trans r23
    have hG0 : G ∈ s.group_list := by rw [← r13.1]; exact hG
    have hG2 : G ∈ (s1.linkIntra env).group_list := by rw [r2.1, r1.1]; exact hG0
    have hd : isD0Free env a = false := by
      have := linkD0Free_clean env (s1.linkIntra env) G hG2 a
      rw [h] at this
      exact this ha
    have hH0 : H ∈ s.group_list_of b := by rw [← r13.2.1]; exact hH
    obtain ⟨p1, p2⟩ := linkBoundary_post env s s1 t h1 r23 G hG0 a ha hd b hb H hH0 hout
    exact ⟨(r23.2.2 H).2.2.1 a p2, (r23.2.2 G).2.2.2 a p1⟩

theorem linking_complete_witness :
    0 ∈ (linkedEx.groups 1).in_list ∧ 0 ∈ (linkedEx.groups 0).out_list :=
  linking_complete (Env.ofDag linkDag) linkEx linkedEx rfl 0 (by decide) 0 (by decide) 1
    (by decide) 1 (by decide) (by decide)

/-! ## Sorting -/

theorem insertBy_sorted {α : Type} (P : α → Prop) (key : α → Nat) (lt : α → α → Option Bool)
    (hlt : ∀ a b, P a → P b → lt a b = some (decide (key a < key b))) (x : α) (hx : P x) :
    ∀ (l : List α), (∀ y ∈ l, P y) → l.Pairwise (fun a b => key a ≤ key b) →
      ∃ r, insertBy lt x l = some r ∧ r.Perm (x :: l) ∧
        r.Pairwise (fun a b => key a ≤ key b) := by
  intro l
  induction l with
  | nil => intro _ _; exact ⟨[x], rfl, List.Perm.refl _, List.pairwise_singleton _ _⟩
  | cons y ys ih =>
    intro hP hs
    have hy : P y := hP y (List.mem_cons_self _ _)
    have hys : ∀ z ∈ ys, P z := fun z hz => hP z (List.mem_cons_of_mem _ hz)
    rw [List.pairwise_cons] at hs
    unfold insertBy
    rw [hlt x y hx hy]
    by_cases hk : key x < key y
    · simp only [hk, decide_True]
      refine ⟨x :: y :: ys, rfl, List.Perm.refl _, ?_⟩
      rw [List.pairwise_cons, List.pairwise_cons]
      refine ⟨?_, hs.1, hs.2⟩
      intro z hz
      rcases List.mem_cons.1 hz with rfl | hz
      · exact Nat.le_of_lt hk
      · exact Nat.le_trans (Nat.le_of_lt hk) (hs.1 z hz)
    · simp only [hk, decide_False]
      obtain ⟨r, e, hp, hsr⟩ := ih hys hs.2
      rw [e]
      refine ⟨y :: r, rfl, ?_, ?_⟩
      · exact (List.Perm.cons y hp).trans (List.Perm.swap x y ys)
      · rw [List.pairwise_cons]
        refine ⟨?_, hsr⟩
        intro z hz
        rcases List.mem_cons.1 (hp.subset hz) with rfl | hz
        · exact Nat.le_of_not_lt hk
        · exact hs.1 z hz

theorem sortBy_sorted {α : Type} (P : α → Prop) (key : α → Nat) (lt : α → α → Option Bool)
    (hlt : ∀ a b, P a → P b → lt a b = some (decide (key a < key b))) :
    ∀ (l : List α), (∀ y ∈ l, P y) →
      ∃ r, sortBy lt l = some r ∧ r.Perm l ∧ r.Pairwise (fun a b => key a ≤ key b) := by
  intro l
  induction l with
  | nil => intro _; exact ⟨[], rfl, List.Perm.refl _, List.Pairwise.nil⟩
  | cons x xs ih =>
    intro hP
    obtain ⟨r, e, hp, hs⟩ := ih (fun y hy => hP y (List.mem_cons_of_mem _ hy))
    obtain ⟨r2, e2, hp2, hs2⟩ := insertBy_sorted P key lt hlt x (hP x (List.mem_cons_self _ _)) r
      (fun y hy => hP y (List.mem_cons_of_mem _ (hp.subset hy))) hs
    refine ⟨r2, ?_, hp2.trans (List.Perm.cons x hp), hs2⟩
    unfold sortBy
    rw [e]
    exact e2

theorem indexOf_lt_of_pairwise {l : List Nat} {R : Nat → Nat → Prop} (hl : l.Pairwise R)
    {a b : Nat} (ha : a ∈ l) (hb : b ∈ l) (hab : ¬ R b a) (hne : a ≠ b) :
    l.indexOf a < l.indexOf b := by
  have ia := List.indexOf_lt_length.2 ha
  have ib := List.indexOf_lt_length.2 hb
  rcases Nat.lt_trichotomy (l.indexOf a) (l.indexOf b) with h | h | h
  · exact h
  · exfalso
    apply hne
    have e1 := List.getElem_indexOf ia
    have e2 := List.getElem_indexOf ib
    rw [← e1, ← e2]
    congr 1
  · exfalso
    apply hab
    have := (List.pairwise_iff_getElem.1 hl) (l.indexOf b) (l.indexOf a) ib ia h
    rwa [List.getElem_indexOf ib, List.getElem_indexOf ia] at this

/-- C9 (as stated, refuted): with cluster 0 = {1, 5} the predecessor of cluster 2 = {3} and an
unrelated cluster 1 = {4}, no ordering of the cluster list is both topological and ordered by
last body node id on unrelated clusters; in particular the list that `sorting` produces is
not. -/
theorem sorting_order_impossible :
    (∀ l : List Nat, l.Perm sortEx.group_list → ¬ sortEx.TopoOrdered (Env.ofDag sortDag) l) ∧
    (∃ t, sortEx.sorting (Env.ofDag sortDag) = some t ∧
      ¬ t.TopoOrdered (Env.ofDag sortDag) t.group_list) := by
  constructor
  · intro l hl h
    have m0 : 0 ∈ l := hl.symm.subset (by decide)
    have m1 : 1 ∈ l := hl.symm.subset (by decide)
    have m2 : 2 ∈ l := hl.symm.subset (by decide)
    have a := (h 0 m0 2 m2).1 (by decide)
    have b := (h 1 m1 0 m0).2 (by decide) (by decide) (by decide)
    have c := (h 2 m2 1 m1).2 (by decide) (by decide) (by decide)
    omega
  · refine ⟨_, rfl, ?_⟩
    intro h
    have b := (h 1 (by decide) 0 (by decide)).2 (by decide) (by decide) (by decide)
    revert b
    decide

theorem foldlM_total {σ α : Type} (f : σ → α → Option σ) (hf : ∀ s x, ∃ t, f s x = some t) :
    ∀ (l : List α) (s : σ), ∃ t, l.foldlM f s = some t := by
  intro l
  induction l with
  | nil => intro s; exact ⟨s, rfl⟩
  | cons x xs ih =>
    intro s
    obtain ⟨u, hu⟩ := hf s x
    obtain ⟨t, ht⟩ := ih u
    exact ⟨t, by simp [List.foldlM_cons, hu, ht]⟩

theorem SortStep.sort_refl (env : Env) (s : Fusioner) : SortStep env s s :=
  ⟨rfl, rfl, fun _ => ⟨rfl, rfl, List.Perm.refl _, fun h => h⟩⟩

theorem SortStep.sort_trans {env : Env} {a b c : Fusioner} (h1 : SortStep env a b)
    (h2 : SortStep env b c) : SortStep env a c :=
  ⟨h2.1.trans h1.1, h2.2.1.trans h1.2.1, fun g =>
    ⟨(h2.2.2 g).1.trans (h1.2.2 g).1, (h2.2.2 g).2.1.trans (h1.2.2 g).2.1,
      (h2.2.2 g).2.2.1.trans (h1.2.2 g).2.2.1, fun h => (h2.2.2 g).2.2.2 ((h1.2.2 g).2.2.2 h)⟩⟩

theorem sortNodes_spec (env : Env) (g : Group) :
    ∃ h, g.sortNodes env = some h ∧ h.next_list = g.next_list ∧ h.prev_list = g.prev_list ∧
      h.node_list.Perm g.node_list ∧
      h.node_list.Pairwise (fun a b => (env.dag a).id ≤ (env.dag b).id) := by
  have hs := fun l => sortBy_sorted (fun _ : Nat => True) (fun n => (env.dag n).id)
    (fun a b => some (node_id_less env a b)) (fun a b _ _ => rfl) l (fun _ _ => trivial)
  obtain ⟨n, en, pn, sn⟩ := hs g.node_list
  obtain ⟨i, ei, _, _⟩ := hs g.in_list
  obtain ⟨o, eo, _, _⟩ := hs g.out_list
  refine ⟨{ g with node_list := n, in_list := i, out_list := o }, ?_, rfl, rfl, pn, sn⟩
  unfold Group.sortNodes
  rw [en, ei, eo]

theorem sortNodes_step (env : Env) (s : Fusioner) (group : Nat) :
    ∃ t, ((s.groups group).sortNodes env).map (fun g => s.modify group (fun _ => g)) = some t ∧
      SortStep env s t ∧
      (t.groups group).node_list.Pairwise (fun a b => (env.dag a).id ≤ (env.dag b).id) := by
  obtain ⟨h, e, h1, h2, h3, h4⟩ := sortNodes_spec env (s.groups group)
  refine ⟨s.modify group (fun _ => h), by rw [e]; rfl, ⟨rfl, rfl, fun g => ?_⟩, ?_⟩
  · rw [modify_groups]
    by_cases hg : g = group
    · subst hg
      rw [if_pos rfl]
      exact ⟨h1, h2, h3, fun _ => h4⟩
    · rw [if_neg hg]
      exact ⟨rfl, rfl, List.Perm.refl _, fun h => h⟩
  · rw [modify_groups_same]
    exact h4

theorem sortAllNodes_spec (env : Env) (s : Fusioner) :
    ∃ t, s.group_list.foldlM (fun s group =>
        ((s.groups group).sortNodes env).map (fun g => s.modify group (fun _ => g))) s = some t ∧
      SortStep env s t ∧
      ∀ g ∈ s.group_list,
        (t.groups g).node_list.Pairwise (fun a b => (env.dag a).id ≤ (env.dag b).id) := by
  have hstep : ∀ (u : Fusioner) (x : Nat) (v : Fusioner),
      ((u.groups x).sortNodes env).map (fun g => u.modify x (fun _ => g)) = some v →
      SortStep env u v := by
    intro u x v hv
    obtain ⟨t, e, r, _⟩ := sortNodes_step env u x
    rw [e] at hv
    injection hv with hv
    subst hv
    exact r
  obtain ⟨t, ht⟩ := foldlM_total _ (fun u x => by
    obtain ⟨v, e, _⟩ := sortNodes_step env u x
    exact ⟨v, e⟩) s.group_list s
  refine ⟨t, ht, foldlM_rel (SortStep env) (SortStep.sort_refl env) (fun _ _ _ => SortStep.sort_trans) _
    hstep _ s t ht, ?_⟩
  intro g hg
  obtain ⟨u, v, _, e, q⟩ := foldlM_split (SortStep env) (SortStep.sort_refl env)
    (fun _ _ _ => SortStep.sort_trans) _ hstep _ s t g hg ht
  obtain ⟨v2, e2, _, sorted⟩ := sortNodes_step env u g
  rw [e2] at e
  injection e with e
  subst e
  exact (q.2.2 g).2.2.2 sorted

theorem foldl_max_le (f : Nat → Nat) (k : Nat) : ∀ (l : List Nat) (m : Nat),
    l.foldl (fun m n => max m (f n)) m ≤ k ↔ m ≤ k ∧ ∀ n ∈ l, f n ≤ k := by
  intro l
  induction l with
  | nil => intro m; simp
  | cons x xs ih =>
    intro m
    rw [List.foldl_cons, ih]
    simp only [List.mem_cons, forall_eq_or_imp, Nat.max_le]
    tauto

theorem maxId_le (env : Env) (g : Group) (k : Nat) :
    g.maxId env ≤ k ↔ ∀ n ∈ g.node_list, (env.dag n).id ≤ k := by
  unfold Group.maxId
  rw [foldl_max_le (fun n => (env.dag n).id) k g.node_list 0]
  simp

theorem maxId_perm (env : Env) (g h : Group) (hp : h.node_list.Perm g.node_list) :
    h.maxId env = g.maxId env := by
  apply Nat.le_antisymm
  · rw [maxId_le]
    intro n hn
    exact (maxId_le env g _).1 (Nat.le_refl _) n (hp.subset hn)
  · rw [maxId_le]
    intro n hn
    exact (maxId_le env h _).1 (Nat.le_refl _) n (hp.symm.subset hn)

theorem lastId_sorted (env : Env) (g : Group) (hne : g.node_list ≠ [])
    (hs : g.node_list.Pairwise (fun a b => (env.dag a).id ≤ (env.dag b).id)) :
    g.lastId env = some (g.maxId env) := by
  obtain ⟨init, z, hz⟩ : ∃ init z, g.node_list = init ++ [z] := by
    rcases g.node_list.eq_nil_or_concat with h | ⟨i, z, h⟩
    · exact absurd h hne
    · exact ⟨i, z, by rw [h, List.concat_eq_append]⟩
  have hl : g.lastId env = some (env.dag z).id := by
    simp [Group.lastId, Group.nodeList, hz]
  rw [hl]
  congr 1
  apply Nat.le_antisymm
  · exact (maxId_le env g _).1 (Nat.le_refl _) z (by rw [hz]; simp)
  · rw [maxId_le]
    intro n hn
    rw [hz] at hn hs
    rcases List.mem_append.1 hn with h | h
    · exact (List.pairwise_append.1 hs).2.2 n h z (by simp)
    · simp at h; subst h; exact Nat.le_refl _

theorem isNextFuel_congr (G1 G2 : Nat → Group)
    (h : ∀ g, (G2 g).next_list = (G1 g).next_list) :
    ∀ (fuel a b : Nat), isNextFuel G2 fuel a b = isNextFuel G1 fuel a b := by
  intro fuel
  induction fuel with
  | zero => intro a b; rfl
  | succ n ih =>
    intro a b
    have e : (fun x => isNextFuel G2 n x b) = (fun x => isNextFuel G1 n x b) :=
      funext (fun x => ih x b)
    simp only [isNextFuel, Group.nextList, h a, e]

theorem isPrevFuel_congr (G1 G2 : Nat → Group)
    (h : ∀ g, (G2 g).prev_list = (G1 g).prev_list) :
    ∀ (fuel a b : Nat), isPrevFuel G2 fuel a b = isPrevFuel G1 fuel a b := by
  intro fuel
  induction fuel with
  | zero => intro a b; rfl
  | succ n ih =>
    intro a b
    have e : (fun x => isPrevFuel G2 n x b) = (fun x => isPrevFuel G1 n x b) :=
      funext (fun x => ih x b)
    simp only [isPrevFuel, Group.prevList, h a, e]

theorem SameLists.lists_refl (s : Fusioner) : SameLists s s :=
  ⟨rfl, rfl, fun _ => ⟨rfl, rfl, rfl⟩⟩

theorem SameLists.lists_trans {a b c : Fusioner} (h1 : SameLists a b) (h2 : SameLists b c) :
    SameLists a c :=
  ⟨h2.1.trans h1.1, h2.2.1.trans h1.2.1, fun g =>
    ⟨(h2.2.2 g).1.trans (h1.2.2 g).1, (h2.2.2 g).2.1.trans (h1.2.2 g).2.1,
      (h2.2.2 g).2.2.trans (h1.2.2 g).2.2⟩⟩

theorem numerateStep_groups (s : Fusioner) (group : Nat) :
    (numerateStep s group).groups =
      (s.modify group (fun g => { g with id := s.id_count })).groups := rfl

theorem numerateStep_same (s : Fusioner) (group : Nat) : SameLists s (numerateStep s group) := by
  refine ⟨rfl, rfl, fun g => ?_⟩
  rw [numerateStep_groups, modify_groups]
  by_cases h : g = group
  · subst h; rw [if_pos rfl]; exact ⟨rfl, rfl, rfl⟩
  · rw [if_neg h]; exact ⟨rfl, rfl, rfl⟩

theorem numerate_same (s : Fusioner) : SameLists s s.numerate :=
  foldl_rel SameLists SameLists.lists_refl (fun _ _ _ => SameLists.lists_trans) numerateStep
    numerateStep_same _ s

theorem numerate_ids : ∀ (l : List Nat) (s : Fusioner), l.Nodup →
    (∀ a ∈ l, ((l.foldl numerateStep s).groups a).id = s.id_count + l.indexOf a) ∧
    (∀ a, a ∉ l → ((l.foldl numerateStep s).groups a).id = (s.groups a).id) := by
  intro l
  induction l with
  | nil => intro s _; exact ⟨fun a h => by simp at h, fun a _ => rfl⟩
  | cons x xs ih =>
    intro s hnd
    rw [List.nodup_cons] at hnd
    obtain ⟨h1, h2⟩ := ih (numerateStep s x) hnd.2
    have hc : (numerateStep s x).id_count = s.id_count + 1 := rfl
    have hx : ((numerateStep s x).groups x).id = s.id_count := by
      rw [numerateStep_groups, modify_groups_same]
    have hne : ∀ a, a ≠ x → ((numerateStep s x).groups a).id = (s.groups a).id := by
      intro a ha
      rw [numerateStep_groups, modify_groups_ne _ _ _ ha]
    constructor
    · intro a ha
      rw [List.foldl_cons]
      rcases List.mem_cons.1 ha with rfl | ha
      · rw [h2 a hnd.1, hx]; simp
      · have hax : a ≠ x := fun e => hnd.1 (e ▸ ha)
        rw [h1 a ha, hc, List.indexOf_cons_ne _ (Ne.symm hax)]
        omega
    · intro a ha
      rw [List.foldl_cons]
      rw [List.mem_cons, not_or] at ha
      rw [h2 a ha.2, hne a ha.1]

theorem lastId_congr (env : Env) (g h : Group) (e : h.node_list = g.node_list) :
    h.lastId env = g.lastId env := by
  simp [Group.lastId, Group.nodeList, e]

theorem isNext_congr (s t : Fusioner) (hn : t.num_groups = s.num_groups)
    (h : ∀ g, (t.groups g).next_list = (s.groups g).next_list) (a b : Nat) :
    t.isNext a b = s.isNext a b := by
  unfold Fusioner.isNext
  rw [hn]
  exact isNextFuel_congr s.groups t.groups h _ a b

theorem isPrev_congr (s t : Fusioner) (hn : t.num_groups = s.num_groups)
    (h : ∀ g, (t.groups g).prev_list = (s.groups g).prev_list) (a b : Nat) :
    t.isPrev a b = s.isPrev a b := by
  unfold Fusioner.isPrev
  rw [hn]
  exact isPrevFuel_congr s.groups t.groups h _ a b

/-- C9 (amended): when the cluster list has no repetition, every body is non-empty, the prev
lists mirror the next lists and every cluster has a smaller largest body node id than each of
its transitive successors, `Fusioner::sorting` succeeds and leaves the cluster list in
topological order: a transitive predecessor appears before its successors and receives the
smaller id, and clusters (related or not) are ordered by the id of their last body node. -/
theorem sorting_topological (env : Env) (s : Fusioner) (hnd : s.group_list.Nodup)
    (hne : ∀ a ∈ s.group_list, (s.groups a).node_list ≠ [])
    (hord : ∀ a ∈ s.group_list, ∀ b ∈ s.group_list, s.isNext a b = true →
      (s.groups a).maxId env < (s.groups b).maxId env)
    (hmir : ∀ a ∈ s.group_list, ∀ b ∈ s.group_list, s.isPrev a b = true →
      s.isNext b a = true) :
    ∃ t, s.sorting env = some t ∧ t.group_list.Perm s.group_list ∧
      t.TopoOrdered env t.group_list ∧ t.IdsIncrease t.group_list := by
  obtain ⟨s1, e1, r1, sorted1⟩ := sortAllNodes_spec env s
  have hnext1 : ∀ a b, s1.isNext a b = s.isNext a b :=
    isNext_congr s s1 r1.2.1 (fun g => (r1.2.2 g).1)
  have hprev1 : ∀ a b, s1.isPrev a b = s.isPrev a b :=
    isPrev_congr s s1 r1.2.1 (fun g => (r1.2.2 g).2.1)
  have hlast1 : ∀ a ∈ s.group_list, (s1.groups a).lastId env = some ((s.groups a).maxId env) := by
    intro a ha
    have hp := (r1.2.2 a).2.2.1
    have hne1 : (s1.groups a).node_list ≠ [] := by
      intro h0
      rw [h0] at hp
      exact hne a ha hp.symm.eq_nil
    rw [lastId_sorted env _ hne1 (sorted1 a ha), maxId_perm env _ _ hp]
  have hlt : ∀ a b, a ∈ s.group_list → b ∈ s.group_list →
      s1.less env a b = some (decide ((s.groups a).maxId env < (s.groups b).maxId env)) := by
    intro a b ha hb
    unfold Fusioner.less
    rw [hnext1, hprev1, hlast1 a ha, hlast1 b hb]
    by_cases hn : s.isNext a b = true
    · simp [hn, hord a ha b hb hn]
    · by_cases hp : s.isPrev a b = true
      · have := hord b hb a ha (hmir a ha b hb hp)
        have hdec : decide ((s.groups a).maxId env < (s.groups b).maxId env) = false :=
          decide_eq_false (by omega)
        rw [hdec]
        simp [hn, hp]
      · simp [hn, hp]
  obtain ⟨l, el, pl, sl⟩ := sortBy_sorted (fun a => a ∈ s.group_list)
    (fun a => (s.groups a).maxId env) (s1.less env) hlt s1.group_list
    (fun y hy => by rw [r1.1] at hy; exact hy)
  rw [r1.1] at pl
  have hl_nd : l.Nodup := pl.nodup_iff.2 hnd
  have hsame := numerate_same ({ s1 with group_list := l })
  have hids := numerate_ids l ({ s1 with group_list := l }) hl_nd
  refine ⟨({ s1 with group_list := l }).numerate, ?_, ?_, ?_, ?_⟩
  · unfold Fusioner.sorting
    rw [e1]
    simp only
    rw [el]
  · rw [hsame.1]; exact pl
  · have hgl : (({ s1 with group_list := l } : Fusioner).numerate).group_list = l := hsame.1
    rw [hgl]
    have hkey : ∀ a ∈ l, ∀ b ∈ l,
        (s.groups a).maxId env < (s.groups b).maxId env → l.indexOf a < l.indexOf b := by
      intro a ha b hb hab
      refine indexOf_lt_of_pairwise sl ha hb (by omega) ?_
      rintro rfl
      omega
    intro a ha b hb
    have ha0 := pl.subset ha
    have hb0 := pl.subset hb
    constructor
    · intro hn
      rw [isNext_congr _ _ hsame.2.1 (fun g => (hsame.2.2 g).1)] at hn
      have hn1 : s1.isNext a b = true := hn
      rw [hnext1] at hn1
      exact hkey a ha b hb (hord a ha0 b hb0 hn1)
    · intro _ _ hlast
      unfold Group.lastIdD at hlast
      rw [lastId_congr env _ _ (hsame.2.2 a).2.2, lastId_congr env _ _ (hsame.2.2 b).2.2] at hlast
      have e3 : ∀ c, (({ s1 with group_list := l } : Fusioner).groups c) = s1.groups c :=
        fun _ => rfl
      rw [e3, e3, hlast1 a ha0, hlast1 b hb0] at hlast
      exact hkey a ha b hb (by simpa using hlast)
  · have hgl : (({ s1 with group_list := l } : Fusioner).numerate).group_list = l := hsame.1
    rw [hgl]
    intro a ha b hb hab
    have ia := hids.1 a ha
    have ib := hids.1 b hb
    unfold Fusioner.numerate
    show ((l.foldl numerateStep _).groups a).id < ((l.foldl numerateStep _).groups b).id
    rw [ia, ib]
    omega

theorem sorting_topological_witness :
    ∃ t, sortOkEx.sorting (Env.ofDag sortDag) = some t ∧ t.group_list.Perm sortOkEx.group_list ∧
      t.TopoOrdered (Env.ofDag sortDag) t.group_list ∧ t.IdsIncrease t.group_list :=
  sorting_topological (Env.ofDag sortDag) sortOkEx (by decide) (by decide) (by decide)
    (by decide)

/-! ## Free-node forwarding -/

theorem mem_all_nodes (g : Group) (x : Nat) :
    x ∈ g.all_nodes ↔ x ∈ g.in_list ∨ x ∈ g.node_list ∨ x ∈ g.out_list := by
  simp [Group.all_nodes, full_join, Group.inputList, Group.nodeList, Group.outputList]

theorem FwdStep.fwd_refl (env : Env) (for_pred : Nat → Bool) (s : Fusioner) :
    FwdStep env for_pred s s :=
  ⟨fun _ _ => rfl, fun _ _ _ => Iff.rfl, fun _ _ _ h _ _ _ => h⟩

theorem FwdStep.fwd_trans {env : Env} {for_pred : Nat → Bool} {a b c : Fusioner}
    (h1 : FwdStep env for_pred a b) (h2 : FwdStep env for_pred b c) :
    FwdStep env for_pred a c := by
  refine ⟨fun x hx => (h2.1 x hx).trans (h1.1 x hx),
    fun g x hx => (h2.2.1 g x hx).trans (h1.2.1 g x hx), ?_⟩
  intro g x y hx hy hp hyg
  exact h2.2.2 g x y (h1.2.2 g x y hx hy hp hyg) hy hp ((h1.2.1 g y hp).2 hyg)

theorem ReplicatedInto.rep_step {env : Env} {for_pred : Nat → Bool} {n m : Nat} {s t : Fusioner}
    (h : ReplicatedInto n m s) (hst : FwdStep env for_pred s t)
    (hm : m ∈ (env.dag n).nextList) (hmf : for_pred m = false) : ReplicatedInto n m t := by
  intro H hH hmH
  rw [hst.1 m hmf] at hH
  have hmH0 := (hst.2.1 H m hmf).1 hmH
  exact hst.2.2 H n m (h H hH hmH0) hm hmf hmH0

theorem FwdTrack.track_refl (env : Env) (for_pred : Nat → Bool) (n m G : Nat) (s : Fusioner) :
    FwdTrack env for_pred n m G s s :=
  ⟨FwdStep.fwd_refl env for_pred s, fun h => Or.inl h⟩

theorem FwdTrack.track_trans {env : Env} {for_pred : Nat → Bool} {n m G : Nat}
    (hm : m ∈ (env.dag n).nextList) (hmf : for_pred m = false) {a b c : Fusioner}
    (h1 : FwdTrack env for_pred n m G a b) (h2 : FwdTrack env for_pred n m G b c) :
    FwdTrack env for_pred n m G a c := by
  refine ⟨h1.1.fwd_trans h2.1, fun ha => ?_⟩
  rcases h1.2 ha with hb | hb
  · exact h2.2 hb
  · exact Or.inr (hb.rep_step h2.1 hm hmf)

theorem forwardInto_fus (env : Env) (group node : Nat) (st : FwdState) (ng : Nat) :
    (forwardInto env group node st ng).fus = st.fus ∨
    ((forwardInto env group node st ng).fus.groups =
        Function.update st.fus.groups ng
          ((st.fus.groups ng).addAutoNode node (env.dag node).pattern) ∧
      (forwardInto env group node st ng).fus.group_list_of =
        Function.update st.fus.group_list_of node (st.fus.group_list_of node ++ [ng]) ∧
      (forwardInto env group node st ng).fus.group_list = st.fus.group_list) := by
  unfold forwardInto
  split
  · exact Or.inr ⟨rfl, rfl, rfl⟩
  · exact Or.inl rfl

theorem addAutoNode_fields (g : Group) (n : Nat) (pat : Pattern) :
    (g.addAutoNode n pat).node_list = g.node_list ++ [n] ∧
    (g.addAutoNode n pat).in_list = g.in_list ∧ (g.addAutoNode n pat).out_list = g.out_list ∧
    (g.addAutoNode n pat).prev_list = g.prev_list ∧
    (g.addAutoNode n pat).next_list = g.next_list :=
  ⟨rfl, rfl, rfl, rfl, rfl⟩

theorem removeAutoNode_fields (g : Group) (n : Nat) :
    (g.removeAutoNode n).node_list = remove_value n g.node_list ∧
    (g.removeAutoNode n).in_list = g.in_list ∧ (g.removeAutoNode n).out_list = g.out_list ∧
    (g.removeAutoNode n).prev_list = g.prev_list ∧
    (g.removeAutoNode n).next_list = g.next_list :=
  ⟨rfl, rfl, rfl, rfl, rfl⟩

theorem forwardInto_grow (env : Env) (group node : Nat) (st : FwdState) (ng : Nat) (g x : Nat)
    (hx : x ∈ (st.fus.groups g).all_nodes) :
    x ∈ ((forwardInto env group node st ng).fus.groups g).all_nodes := by
  rcases forwardInto_fus env group node st ng with h | ⟨h, _, _⟩
  · rw [h]; exact hx
  · rw [h, Function.update_apply]
    split
    · rename_i e
      subst e
      rw [mem_all_nodes] at hx ⊢
      rw [(addAutoNode_fields _ _ _).1, (addAutoNode_fields _ _ _).2.1,
        (addAutoNode_fields _ _ _).2.2.1]
      simp only [List.mem_append]
      tauto
    · exact hx

theorem forwardInto_mem (env : Env) (group node : Nat) (st : FwdState) (ng : Nat) :
    node ∈ ((forwardInto env group node st ng).fus.groups ng).all_nodes := by
  unfold forwardInto
  split
  · show node ∈ ((st.fus.modify ng
      (fun g => g.addAutoNode node (env.dag node).pattern)).groups ng).all_nodes
    rw [modify_groups_same, mem_all_nodes, (addAutoNode_fields _ _ _).1]
    simp
  · rename_i h
    simpa [is_included] using h

theorem forwardInto_step (env : Env) (for_pred : Nat → Bool) (group node : Nat)
    (hp : for_pred node = true) (st : FwdState) (ng : Nat) :
    FwdStep env for_pred st.fus (forwardInto env group node st ng).fus := by
  refine ⟨?_, ?_, fun g x y hx _ _ _ => forwardInto_grow env group node st ng g x hx⟩
  · intro x hx
    rcases forwardInto_fus env group node st ng with h | ⟨_, h, _⟩
    · rw [h]
    · rw [h, Function.update_apply]
      split
      · rename_i e; subst e; rw [hp] at hx; exact Bool.noConfusion hx
      · rfl
  · intro g x hx
    rcases forwardInto_fus env group node st ng with h | ⟨h, _, _⟩
    · rw [h]
    · rw [h, Function.update_apply]
      split
      · rename_i e
        subst e
        rw [(addAutoNode_fields _ _ _).1]
        simp only [List.mem_append, List.mem_singleton]
        constructor
        · rintro (h1 | h1)
          · exact h1
          · subst h1; rw [hp] at hx; exact Bool.noConfusion hx
        · exact Or.inl
      · exact Iff.rfl

theorem FwdGrow.grow_refl (env : Env) (for_pred : Nat → Bool) (s : Fusioner) :
    FwdGrow env for_pred s s :=
  ⟨FwdStep.fwd_refl env for_pred s, fun _ _ h => h⟩

theorem FwdGrow.grow_trans {env : Env} {for_pred : Nat → Bool} {a b c : Fusioner}
    (h1 : FwdGrow env for_pred a b) (h2 : FwdGrow env for_pred b c) :
    FwdGrow env for_pred a c :=
  ⟨h1.1.fwd_trans h2.1, fun g x h => h2.2 g x (h1.2 g x h)⟩

theorem forwardInto_growStep (env : Env) (for_pred : Nat → Bool) (group node : Nat)
    (hp : for_pred node = true) (st : FwdState) (ng : Nat) :
    FwdGrow env for_pred st.fus (forwardInto env group node st ng).fus :=
  ⟨forwardInto_step env for_pred group node hp st ng,
    fun g x h => forwardInto_grow env group node st ng g x h⟩

theorem forwardNext_growStep (env : Env) (for_pred : Nat → Bool) (group node : Nat)
    (hp : for_pred node = true) (st : FwdState) (next_node : Nat) :
    FwdGrow env for_pred st.fus
      ((st.fus.group_list_of next_node).foldl (forwardInto env group node) st).fus :=
  foldl_rel (fun a b : FwdState => FwdGrow env for_pred a.fus b.fus)
    (fun a => FwdGrow.grow_refl env for_pred a.fus) (fun _ _ _ h1 h2 => h1.grow_trans h2) _
    (forwardInto_growStep env for_pred group node hp) _ st

theorem forwardNexts_growStep (env : Env) (for_pred : Nat → Bool) (group node : Nat)
    (hp : for_pred node = true) (st : FwdState) :
    FwdGrow env for_pred st.fus (forwardNexts env group node st).fus :=
  foldl_rel (fun a b : FwdState => FwdGrow env for_pred a.fus b.fus)
    (fun a => FwdGrow.grow_refl env for_pred a.fus) (fun _ _ _ h1 h2 => h1.grow_trans h2) _
    (forwardNext_growStep env for_pred group node hp) _ { st with forwarded := false }

/-- After the inner loops for a node, the node is among the nodes of every cluster of each of
its successors outside the predicate. -/
theorem forwardNexts_post (env : Env) (for_pred : Nat → Bool) (group n : Nat)
    (hp : for_pred n = true) (st : FwdState) (m : Nat) (hm : m ∈ (env.dag n).nextList)
    (hmf : for_pred m = false) :
    ReplicatedInto n m (forwardNexts env group n st).fus := by
  intro H hH _
  have hall := forwardNexts_growStep env for_pred group n hp st
  rw [hall.1.1 m hmf] at hH
  obtain ⟨u, h1, h2⟩ := foldl_split (fun a b : FwdState => FwdGrow env for_pred a.fus b.fus)
    (fun a => FwdGrow.grow_refl env for_pred a.fus) (fun _ _ _ h1 h2 => h1.grow_trans h2) _
    (forwardNext_growStep env for_pred group n hp) (env.dag n).nextList
    { st with forwarded := false } m hm
  have hHu : H ∈ u.fus.group_list_of m := by
    rw [h1.1.1 m hmf]; exact hH
  obtain ⟨u2, _, h4⟩ := foldl_split (fun a b : FwdState => FwdGrow env for_pred a.fus b.fus)
    (fun a => FwdGrow.grow_refl env for_pred a.fus) (fun _ _ _ h1 h2 => h1.grow_trans h2) _
    (forwardInto_growStep env for_pred group n hp) (u.fus.group_list_of m) u H hHu
  exact h2.2 H n (h4.2 H n (forwardInto_mem env group n u2 H))

theorem forwardRemove_fus (env : Env) (group node : Nat) (st1 : FwdState) :
    (forwardRemove env group node st1).fus = st1.fus ∨
    ((∀ y ∈ (env.dag node).nextList, y ∉ (st1.fus.groups group).node_list) ∧
      (forwardRemove env group node st1).fus.groups =
        Function.update st1.fus.groups group ((st1.fus.groups group).removeAutoNode node) ∧
      (forwardRemove env group node st1).fus.group_list_of =
        Function.update st1.fus.group_list_of node
          (remove_value group (st1.fus.group_list_of node)) ∧
      (forwardRemove env group node st1).fus.group_list = st1.fus.group_list) := by
  unfold forwardRemove
  split
  · split
    · rename_i hall
      refine Or.inr ⟨?_, rfl, rfl, rfl⟩
      intro y hy
      have := List.all_eq_true.1 hall y hy
      simpa [is_included, Group.nodeList] using this
    · exact Or.inl rfl
  · exact Or.inl rfl

theorem forwardRemove_step (env : Env) (for_pred : Nat → Bool) (group node : Nat)
    (hp : for_pred node = true) (st1 : FwdState) :
    FwdStep env for_pred st1.fus (forwardRemove env group node st1).fus := by
  rcases forwardRemove_fus env group node st1 with h | ⟨hall, hg, hl, _⟩
  · rw [h]; exact FwdStep.fwd_refl env for_pred _
  · refine ⟨?_, ?_, ?_⟩
    · intro x hx
      rw [hl, Function.update_apply]
      split
      · rename_i e; subst e; rw [hp] at hx; exact Bool.noConfusion hx
      · rfl
    · intro g x hx
      rw [hg, Function.update_apply]
      split
      · rename_i e
        subst e
        rw [(removeAutoNode_fields _ _).1, mem_remove_value]
        constructor
        · exact fun h => h.1
        · intro h
          refine ⟨h, ?_⟩
          rintro rfl
          rw [hp] at hx
          exact Bool.noConfusion hx
      · exact Iff.rfl
    · intro g x y hx hy _ hyg
      rw [hg, Function.update_apply]
      split
      · rename_i e
        subst e
        rw [mem_all_nodes] at hx ⊢
        rw [(removeAutoNode_fields _ _).1, (removeAutoNode_fields _ _).2.1,
          (removeAutoNode_fields _ _).2.2.1, mem_remove_value]
        have hne : x ≠ node := by
          rintro rfl
          exact hall y hy hyg
        tauto
      · exact hx

theorem forwardRemove_keeps (env : Env) (group node : Nat) (st1 : FwdState) (G n : Nat)
    (hn : n ∈ (st1.fus.groups G).all_nodes) :
    n ∈ ((forwardRemove env group node st1).fus.groups G).all_nodes ∨ (group = G ∧ node = n) := by
  rcases forwardRemove_fus env group node st1 with h | ⟨_, hg, _, _⟩
  · rw [h]; exact Or.inl hn
  · by_cases e : G = group
    · by_cases e2 : n = node
      · exact Or.inr ⟨e.symm, e2.symm⟩
      · left
        rw [hg, Function.update_apply, if_pos e]
        rw [e] at hn
        rw [mem_all_nodes] at hn ⊢
        rw [(removeAutoNode_fields _ _).1, (removeAutoNode_fields _ _).2.1,
          (removeAutoNode_fields _ _).2.2.1, mem_remove_value]
        tauto
    · left
      rw [hg, Function.update_apply, if_neg e]
      exact hn

theorem forwardNode_track (env : Env) (for_pred : Nat → Bool) (n m G : Nat)
    (hn : for_pred n = true) (hm : m ∈ (env.dag n).nextList) (hmf : for_pred m = false)
    (group : Nat) (st : FwdState) (node : Nat) :
    FwdTrack env for_pred n m G st.fus (forwardNode env for_pred group st node).fus := by
  unfold forwardNode
  split
  · exact FwdTrack.track_refl env for_pred n m G _
  · rename_i hnp
    have hp : for_pred node = true := by simpa using hnp
    have g1 := forwardNexts_growStep env for_pred group node hp st
    have r2 := forwardRemove_step env for_pred group node hp (forwardNexts env group node st)
    refine ⟨g1.1.fwd_trans r2, fun hG => ?_⟩
    rcases forwardRemove_keeps env group node (forwardNexts env group node st) G n
      (g1.2 G n hG) with h | ⟨e1, e2⟩
    · exact Or.inl h
    · subst e1 e2
      exact Or.inr ((forwardNexts_post env for_pred group node hp st m hm hmf).rep_step r2 hm hmf)

/-- After the whole treatment of a node that satisfies the predicate, the node is among the
nodes of every cluster that has one of its successors outside the predicate in its body. -/
theorem forwardNode_post (env : Env) (for_pred : Nat → Bool) (group n : Nat)
    (hp : for_pred n = true) (st : FwdState) (m : Nat) (hm : m ∈ (env.dag n).nextList)
    (hmf : for_pred m = false) :
    ReplicatedInto n m (forwardNode env for_pred group st n).fus := by
  unfold forwardNode
  rw [hp]
  simp only [Bool.not_true, Bool.false_eq_true, if_false]
  exact (forwardNexts_post env for_pred group n hp st m hm hmf).rep_step
    (forwardRemove_step env for_pred group n hp _) hm hmf

theorem forwardGroup_track (env : Env) (for_pred : Nat → Bool) (n m G : Nat)
    (hn : for_pred n = true) (hm : m ∈ (env.dag n).nextList) (hmf : for_pred m = false)
    (st : FwdState) (group : Nat) :
    FwdTrack env for_pred n m G st.fus
      ((st.fus.groups group).all_nodes.foldl (forwardNode env for_pred group) st).fus :=
  foldl_rel (fun a b : FwdState => FwdTrack env for_pred n m G a.fus b.fus)
    (fun a => FwdTrack.track_refl env for_pred n m G a.fus)
    (fun _ _ _ h1 h2 => FwdTrack.track_trans hm hmf h1 h2) _
    (forwardNode_track env for_pred n m G hn hm hmf group) _ st

/-- The node forwarding phase replicates a node of a listed cluster that satisfies the
predicate into every cluster that has one of its successors outside the predicate in its
body. -/
theorem forwardNodes_replicates (env : Env) (for_pred : Nat → Bool) (s : Fusioner)
    (G : Nat) (hG : G ∈ s.group_list) (n : Nat) (hnG : n ∈ (s.groups G).all_nodes)
    (hn : for_pred n = true) (m : Nat) (hm : m ∈ (env.dag n).nextList)
    (hmf : for_pred m = false) :
    ReplicatedInto n m (s.forwardNodes env for_pred).fus := by
  obtain ⟨u, h1, h2⟩ := foldl_split
    (fun a b : FwdState => FwdTrack env for_pred n m G a.fus b.fus)
    (fun a => FwdTrack.track_refl env for_pred n m G a.fus)
    (fun _ _ _ h1 h2 => FwdTrack.track_trans hm hmf h1 h2)
    (fun (st : FwdState) (group : Nat) =>
      (st.fus.groups group).all_nodes.foldl (forwardNode env for_pred group) st)
    (forwardGroup_track env for_pred n m G hn hm hmf) s.group_list
    { fus := s, forward := [], forwarded := false } G hG
  have hgrp := forwardGroup_track env for_pred n m G hn hm hmf u G
  rcases h1.2 hnG with hu | hu
  · obtain ⟨u2, _, h4⟩ := foldl_split
      (fun a b : FwdState => FwdTrack env for_pred n m G a.fus b.fus)
      (fun a => FwdTrack.track_refl env for_pred n m G a.fus)
      (fun _ _ _ h1 h2 => FwdTrack.track_trans hm hmf h1 h2) _
      (forwardNode_track env for_pred n m G hn hm hmf G) (u.fus.groups G).all_nodes u n hu
    exact ((forwardNode_post env for_pred G n hn u2 m hm hmf).rep_step h4.1 hm hmf).rep_step h2.1 hm hmf
  · exact (hu.rep_step hgrp.1 hm hmf).rep_step h2.1 hm hmf

theorem SameNodes.nodes_refl (s : Fusioner) : SameNodes s s :=
  ⟨rfl, fun _ => ⟨rfl, rfl, rfl⟩⟩

theorem SameNodes.nodes_trans {a b c : Fusioner} (h1 : SameNodes a b) (h2 : SameNodes b c) :
    SameNodes a c :=
  ⟨h2.1.trans h1.1, fun g => ⟨(h2.2 g).1.trans (h1.2 g).1, (h2.2 g).2.1.trans (h1.2 g).2.1,
    (h2.2 g).2.2.trans (h1.2 g).2.2⟩⟩

theorem SameNodes_modify (s : Fusioner) (g : Nat) (f : Group → Group)
    (hf : (f (s.groups g)).node_list = (s.groups g).node_list ∧
      (f (s.groups g)).in_list = (s.groups g).in_list ∧
      (f (s.groups g)).out_list = (s.groups g).out_list) : SameNodes s (s.modify g f) := by
  refine ⟨rfl, fun h => ?_⟩
  rw [modify_groups]
  by_cases e : h = g
  · subst e; rw [if_pos rfl]; exact hf
  · rw [if_neg e]; exact ⟨rfl, rfl, rfl⟩

theorem unlinkGroups_same (env : Env) (s : Fusioner) (forward : FwdLinks) :
    SameNodes s (s.unlinkGroups env forward) := by
  unfold Fusioner.unlinkGroups
  refine foldl_rel SameNodes SameNodes.nodes_refl (fun _ _ _ => SameNodes.nodes_trans) _ ?_ _ _
  intro u f
  show SameNodes u (if _ then _ else _)
  split
  · exact (SameNodes_modify u _ _ ⟨rfl, rfl, rfl⟩).nodes_trans
      (SameNodes_modify _ _ _ ⟨rfl, rfl, rfl⟩)
  · exact SameNodes.nodes_refl u

theorem forwarding_same (env : Env) (for_pred : Nat → Bool) (s : Fusioner) :
    SameNodes (s.forwardNodes env for_pred).fus (s.forwarding env for_pred) := by
  have h := unlinkGroups_same env (s.forwardNodes env for_pred).fus
    (s.forwardNodes env for_pred).forward
  exact ⟨h.1, h.2⟩

/-- C7 (as stated, refuted): on the chain FREE 0 -> FREE 1 -> FOCAL 2 with the two FREE nodes
in cluster 0 and node 2 in cluster 1, forwarding with `pattern == FREE` treats node 0 first
and then replicates node 1 into cluster 1, so after forwarding cluster 1 contains node 1, a
successor of the FREE node 0, but not node 0. -/
theorem forwarding_misses_free_chain :
    (chainEnv.dag 0).pattern = FREE ∧ 1 ∈ (chainEnv.dag 0).nextList ∧
    0 ∈ chainEx.group_list ∧ 0 ∈ (chainEx.groups 0).all_nodes ∧
    1 ∈ (chainEx.forwarding chainEnv chainEnv.isFree).group_list ∧
    1 ∈ (chainEx.forwarding chainEnv chainEnv.isFree).group_list_of 1 ∧
    1 ∈ ((chainEx.forwarding chainEnv chainEnv.isFree).groups 1).all_nodes ∧
    0 ∉ ((chainEx.forwarding chainEnv chainEnv.isFree).groups 1).all_nodes := by
  decide

/-- C7 (amended): after `Fusioner::forwarding` with the predicate `pattern == FREE`, for every
FREE node `n` of a cluster of the cluster list and every successor `m` of `n` that is not
FREE, every cluster of `m` that has `m` in its body also contains `n` (in its input, body or
output list). -/
theorem forwarding_replicates_free (env : Env) (s : Fusioner) (G : Nat)
    (hG : G ∈ s.group_list) (n : Nat) (hnG : n ∈ (s.groups G).all_nodes)
    (hn : (env.dag n).pattern = FREE) (m : Nat) (hm : m ∈ (env.dag n).nextList)
    (hmf : (env.dag m).pattern ≠ FREE) (H : Nat)
    (hH : H ∈ (s.forwarding env env.isFree).group_list_of m)
    (hmH : m ∈ ((s.forwarding env env.isFree).groups H).node_list) :
    n ∈ ((s.forwarding env env.isFree).groups H).all_nodes := by
  have hrep := forwardNodes_replicates env env.isFree s G hG n hnG
    (by simp [Env.isFree, hn]) m hm (by simp [Env.isFree, hmf])
  have hs := forwarding_same env env.isFree s
  rw [hs.1] at hH
  rw [(hs.2 H).1] at hmH
  have := hrep H hH hmH
  rw [mem_all_nodes] at this ⊢
  rw [(hs.2 H).1, (hs.2 H).2.1, (hs.2 H).2.2]
  exact this

theorem forwarding_replicates_free_witness :
    1 ∈ ((chainEx.forwarding chainEnv chainEnv.isFree).groups 1).all_nodes :=
  forwarding_replicates_free chainEnv chainEx 0 (by decide) 1 (by decide) (by decide) 2
    (by decide) (by decide) 1 (by decide) (by decide)

/-! ## Fusion switched off -/

theorem foldlM_total_inv {σ α : Type} (I : σ → Prop) (f : σ → α → Option σ) :
    ∀ (l : List α), (∀ s x, I s → x ∈ l → ∃ t, f s x = some t ∧ I t) →
      ∀ s, I s → ∃ t, l.foldlM f s = some t ∧ I t := by
  intro l
  induction l with
  | nil => intro _ s hs; exact ⟨s, rfl, hs⟩
  | cons x xs ih =>
    intro hstep s hs
    obtain ⟨u, hu, hIu⟩ := hstep s x hs (List.mem_cons_self _ _)
    obtain ⟨t, ht, hIt⟩ := ih (fun s y hs hy => hstep s y hs (List.mem_cons_of_mem _ hy)) u hIu
    exact ⟨t, by simp [List.foldlM_cons, hu, ht], hIt⟩

theorem foldl_inv_mem {σ α : Type} (I : σ → Prop) (f : σ → α → σ) :
    ∀ (l : List α), (∀ s x, I s → x ∈ l → I (f s x)) → ∀ s, I s → I (l.foldl f s) := by
  intro l
  induction l with
  | nil => intro _ s hs; exact hs
  | cons x xs ih =>
    intro hstep s hs
    exact ih (fun s y hs hy => hstep s y hs (List.mem_cons_of_mem _ hy)) _
      (hstep s x hs (List.mem_cons_self _ _))

theorem EdgeOnly.edge_refl (s : Fusioner) : EdgeOnly s s := ⟨SameNodes.nodes_refl s, rfl, rfl⟩

theorem EdgeOnly.edge_trans {a b c : Fusioner} (h1 : EdgeOnly a b) (h2 : EdgeOnly b c) :
    EdgeOnly a c :=
  ⟨h1.1.nodes_trans h2.1, h2.2.1.trans h1.2.1, h2.2.2.trans h1.2.2⟩

theorem EdgeOnly_modify (s : Fusioner) (g : Nat) (f : Group → Group)
    (hf : (f (s.groups g)).node_list = (s.groups g).node_list ∧
      (f (s.groups g)).in_list = (s.groups g).in_list ∧
      (f (s.groups g)).out_list = (s.groups g).out_list) : EdgeOnly s (s.modify g f) :=
  ⟨SameNodes_modify s g f hf, rfl, rfl⟩

theorem processLink_edge (new_group : Nat) (s : Fusioner) (prev : Nat) (t : Fusioner)
    (h : processLink new_group s prev = some t) : EdgeOnly s t := by
  unfold processLink at h
  split at h
  · exact Option.noConfusion h
  · injection h with h
    subst h
    exact (EdgeOnly_modify s _ _ ⟨rfl, rfl, rfl⟩).edge_trans (EdgeOnly_modify _ _ _ ⟨rfl, rfl, rfl⟩)

theorem ProcInv_edge {s t : Fusioner} {l : List Nat} (h : ProcInv s l) (e : EdgeOnly s t) :
    ProcInv t l := by
  obtain ⟨⟨hlen, hown, hgrp⟩, hout, hfresh⟩ := h
  obtain ⟨⟨hglo, hlists⟩, hgl, hng⟩ := e
  refine ⟨⟨by rw [hgl]; exact hlen, ?_, ?_⟩, ?_, ?_⟩
  · intro n hn
    obtain ⟨g, hg, h1, h2⟩ := hown n hn
    exact ⟨g, by rw [hgl]; exact hg, by rw [hglo]; exact h1, by rw [(hlists g).1]; exact h2⟩
  · intro g hg
    rw [hgl] at hg
    obtain ⟨n, hn, h1⟩ := hgrp g hg
    exact ⟨n, hn, by rw [hglo]; exact h1⟩
  · intro n hn
    rw [hglo]
    exact hout n hn
  · intro g hg
    rw [hgl] at hg
    obtain ⟨h1, h2, h3⟩ := hfresh g hg
    exact ⟨by rw [hng]; exact h1, by rw [(hlists g).2.1]; exact h2,
      by rw [(hlists g).2.2]; exact h3⟩

theorem processNew_fields (env : Env) (s : Fusioner) (n : Nat) :
    (s.processNew env n).group_list = s.group_list ++ [s.num_groups] ∧
    (s.processNew env n).num_groups = s.num_groups + 1 ∧
    (s.processNew env n).group_list_of =
      Function.update s.group_list_of n (s.group_list_of n ++ [s.num_groups]) ∧
    (s.processNew env n).groups s.num_groups =
      Group.empty.addAutoNode n (env.dag n).pattern ∧
    (∀ g, g ≠ s.num_groups → (s.processNew env n).groups g = s.groups g) := by
  refine ⟨rfl, rfl, rfl, ?_, ?_⟩
  · show Function.update (Function.update s.groups s.num_groups Group.empty) s.num_groups _
      s.num_groups = _
    rw [Function.update_same]
    show (Function.update s.groups s.num_groups Group.empty s.num_groups).addAutoNode _ _ = _
    rw [Function.update_same]
  · intro g hg
    show Function.update (Function.update s.groups s.num_groups Group.empty) s.num_groups _ g = _
    rw [Function.update_noteq hg, Function.update_noteq hg]

theorem processNew_inv (env : Env) (s : Fusioner) (l1 : List Nat) (n : Nat)
    (hinv : ProcInv s l1) (hn : n ∉ l1) : ProcInv (s.processNew env n) (l1 ++ [n]) := by
  obtain ⟨⟨hlen, hown, hgrp⟩, hout, hfresh⟩ := hinv
  obtain ⟨e1, e2, e3, e4, e5⟩ := processNew_fields env s n
  have hold : ∀ g ∈ s.group_list, g ≠ s.num_groups := fun g hg =>
    Nat.ne_of_lt (hfresh g hg).1
  refine ⟨⟨by rw [e1]; simp [hlen], ?_, ?_⟩, ?_, ?_⟩
  · intro m hm
    rcases List.mem_append.1 hm with hm | hm
    · obtain ⟨g, hg, h1, h2⟩ := hown m hm
      have hmn : m ≠ n := fun e => hn (e ▸ hm)
      refine ⟨g, by rw [e1]; exact List.mem_append_left _ hg, ?_, ?_⟩
      · rw [e3, Function.update_noteq hmn]; exact h1
      · rw [e5 g (hold g hg)]; exact h2
    · have hmn : m = n := by simpa using hm
      subst hmn
      refine ⟨s.num_groups, by rw [e1]; simp, ?_, ?_⟩
      · rw [e3, Function.update_same, hout m hn]; rfl
      · rw [e4]; rfl
  · intro g hg
    rw [e1] at hg
    rcases List.mem_append.1 hg with hg | hg
    · obtain ⟨m, hm, h1⟩ := hgrp g hg
      have hmn : m ≠ n := fun e => hn (e ▸ hm)
      exact ⟨m, List.mem_append_left _ hm, by rw [e3, Function.update_noteq hmn]; exact h1⟩
    · have hgn : g = s.num_groups := by simpa using hg
      subst hgn
      exact ⟨n, by simp, by rw [e3, Function.update_same, hout n hn]; rfl⟩
  · intro m hm
    rw [List.mem_append, not_or] at hm
    have hmn : m ≠ n := fun e => hm.2 (by simp [e])
    rw [e3, Function.update_noteq hmn]
    exact hout m hm.1
  · intro g hg
    rw [e1] at hg
    rw [e2]
    rcases List.mem_append.1 hg with hg | hg
    · obtain ⟨h1, h2, h3⟩ := hfresh g hg
      rw [e5 g (hold g hg)]
      exact ⟨Nat.lt_succ_of_lt h1, h2, h3⟩
    · have hgn : g = s.num_groups := by simpa using hg
      subst hgn
      rw [e4]
      exact ⟨Nat.lt_succ_self _, rfl, rfl⟩

theorem process_spec (env : Env) (s : Fusioner) (l1 : List Nat) (n : Nat)
    (hinv : ProcInv s l1) (hn : n ∉ l1) (hp : ∀ p ∈ (env.dag n).prevList, p ∈ l1) :
    ∃ t, s.process env n = some t ∧ ProcInv t (l1 ++ [n]) := by
  have hnew := processNew_inv env s l1 n hinv hn
  obtain ⟨t, ht, hedge⟩ := foldlM_total_inv (fun st => EdgeOnly (s.processNew env n) st)
    (processLink s.newGroup.2) (env.dag n).prevList
    (by
      intro st prev hst hprev
      obtain ⟨g, _, hg, _⟩ := hnew.1.2.1 prev (List.mem_append_left _ (hp prev hprev))
      have hhead : (st.group_list_of prev).head? = some g := by
        rw [hst.1.1, hg]; rfl
      have : ∃ t, processLink s.newGroup.2 st prev = some t := by
        unfold processLink
        rw [hhead]
        exact ⟨_, rfl⟩
      obtain ⟨t, ht⟩ := this
      exact ⟨t, ht, hst.edge_trans (processLink_edge _ _ _ _ ht)⟩)
    (s.processNew env n) (EdgeOnly.edge_refl _)
  exact ⟨t, ht, ProcInv_edge hnew hedge⟩

theorem fuseGently_spec (env : Env) (fuel : Nat) (hcf : env.code_fusion = false) :
    ∀ (l2 l1 : List Nat) (s : Fusioner), ProcInv s l1 → (l1 ++ l2).Nodup →
      prevsBefore env l1 l2 = true →
      ∃ t, s.fuseGently env fuel l2 = some t ∧ ProcInv t (l1 ++ l2) := by
  intro l2
  induction l2 with
  | nil => intro l1 s h _ _; exact ⟨s, rfl, by simpa using h⟩
  | cons n rest ih =>
    intro l1 s hinv hnd hpb
    have hn : n ∉ l1 := by
      intro h
      have := List.nodup_append.1 hnd
      exact this.2.2 h (List.mem_cons_self _ _)
    simp only [prevsBefore, Bool.and_eq_true, List.all_eq_true] at hpb
    have hp : ∀ p ∈ (env.dag n).prevList, p ∈ l1 := fun p hp => by
      simpa [is_included] using hpb.1 p hp
    obtain ⟨u, hu, hIu⟩ := process_spec env s l1 n hinv hn hp
    have hnd2 : ((l1 ++ [n]) ++ rest).Nodup := by simpa using hnd
    obtain ⟨t, ht, hIt⟩ := ih (l1 ++ [n]) u hIu hnd2 hpb.2
    refine ⟨t, ?_, by simpa using hIt⟩
    unfold Fusioner.fuseGently at ht ⊢
    rw [List.foldlM_cons, hu]
    simp only [Fusioner.pipeGently, hcf, Bool.not_false, if_true] at ht ⊢
    simpa using ht

theorem foldlM_const_some {σ α : Type} (f : σ → α → Option σ) :
    ∀ (l : List α) (s : σ), (∀ x ∈ l, f s x = some s) → l.foldlM f s = some s := by
  intro l
  induction l with
  | nil => intro s _; rfl
  | cons x xs ih =>
    intro s h
    rw [List.foldlM_cons, h x (List.mem_cons_self _ _)]
    exact ih s (fun y hy => h y (List.mem_cons_of_mem _ hy))

theorem fuseFlat_off (env : Env) (hcf : env.code_fusion = false) (s : Fusioner) (l : List Nat) :
    s.fuseFlat env l = some s := by
  unfold Fusioner.fuseFlat
  apply foldlM_const_some
  intro x _
  simp [Fusioner.flatGently, hcf]

theorem processBU_off (env : Env) (hcf : env.code_fusion = false) (fuel : Nat) (s : Fusioner)
    (g : Nat) : s.processBU env fuel g = some s := by
  cases fuel <;> simp [Fusioner.processBU, hcf]

theorem fuseBU_off (env : Env) (hcf : env.code_fusion = false) (fuel : Nat) (s : Fusioner)
    (l : List Nat) (h : ∀ n ∈ l, ∃ g, s.group_list_of n = [g]) :
    s.fuseBU env fuel l = some s := by
  unfold Fusioner.fuseBU
  apply foldlM_const_some
  intro x hx
  obtain ⟨g, hg⟩ := h x (List.mem_reverse.1 hx)
  simp only [hg]
  exact processBU_off env hcf fuel s g

/-- The node forwarding phase changes nothing when no node that satisfies the predicate has a
successor. -/
theorem forwardNodes_noop (env : Env) (for_pred : Nat → Bool) (s : Fusioner)
    (h : ∀ g ∈ s.group_list, ∀ n ∈ (s.groups g).all_nodes, for_pred n = true →
      (env.dag n).nextList = []) :
    (s.forwardNodes env for_pred).fus = s ∧ (s.forwardNodes env for_pred).forward = [] := by
  unfold Fusioner.forwardNodes
  refine foldl_inv_mem (fun st : FwdState => st.fus = s ∧ st.forward = []) _ s.group_list ?_ _
    ⟨rfl, rfl⟩
  intro st g hst hg
  have hall : ∀ n ∈ (st.fus.groups g).all_nodes, for_pred n = true →
      (env.dag n).nextList = [] := by
    rw [hst.1]; exact h g hg
  refine foldl_inv_mem (fun st : FwdState => st.fus = s ∧ st.forward = []) _ _ ?_ st hst
  intro st2 n hst2 hn
  unfold forwardNode
  split
  · exact hst2
  · rename_i hp
    have hp2 : for_pred n = true := by simpa using hp
    have hnext := hall n hn hp2
    have e : forwardNexts env g n st2 = { st2 with forwarded := false } := by
      unfold forwardNexts
      rw [hnext]
      rfl
    rw [e]
    unfold forwardRemove
    simp only [Bool.false_eq_true, if_false]
    exact hst2

theorem forwarding_noop (env : Env) (for_pred : Nat → Bool) (s : Fusioner)
    (h : ∀ g ∈ s.group_list, ∀ n ∈ (s.groups g).all_nodes, for_pred n = true →
      (env.dag n).nextList = [])
    (hne : ∀ g ∈ s.group_list, (s.groups g).all_nodes ≠ []) :
    EdgeOnly s (s.forwarding env for_pred) := by
  obtain ⟨h1, h2⟩ := forwardNodes_noop env for_pred s h
  unfold Fusioner.forwarding
  simp only [h1, h2]
  refine ⟨⟨rfl, fun _ => ⟨rfl, rfl, rfl⟩⟩, ?_, rfl⟩
  show List.filter _ s.group_list = s.group_list
  rw [List.filter_eq_self]
  intro g hg
  have := hne g hg
  cases hl : (s.groups g).all_nodes with
  | nil => exact absurd hl this
  | cons x xs =>
    show (!((Fusioner.unlinkGroups env s []).groups g).all_nodes.isEmpty) = true
    have : (Fusioner.unlinkGroups env s []).groups g = s.groups g := rfl
    rw [this, hl]
    rfl

theorem SameBodies.bodies_refl (s : Fusioner) : SameBodies s s := ⟨rfl, rfl, fun _ => rfl⟩

theorem SameBodies.bodies_trans {a b c : Fusioner} (h1 : SameBodies a b) (h2 : SameBodies b c) :
    SameBodies a c :=
  ⟨h2.1.trans h1.1, h2.2.1.trans h1.2.1, fun g => (h2.2.2 g).trans (h1.2.2 g)⟩

theorem SameBodies_modify (s : Fusioner) (g : Nat) (f : Group → Group)
    (hf : (f (s.groups g)).node_list = (s.groups g).node_list) : SameBodies s (s.modify g f) := by
  refine ⟨rfl, rfl, fun h => ?_⟩
  rw [modify_groups]
  by_cases e : h = g
  · subst e; rw [if_pos rfl]; exact hf
  · rw [if_neg e]

theorem linkInto_total (s st : Fusioner) (group node next_group : Nat)
    (hst : SameBodies s st) (hne : (s.groups next_group).node_list ≠ []) :
    ∃ t, linkInto group node st next_group = some t ∧ SameBodies s t := by
  unfold linkInto
  have h1 : (st.groups next_group).nodeList.isEmpty = false := by
    show (st.groups next_group).node_list.isEmpty = false
    rw [hst.2.2 next_group]
    cases h : (s.groups next_group).node_list with
    | nil => exact absurd h hne
    | cons x xs => rfl
  rw [h1]
  simp only [Bool.false_eq_true, if_false]
  split
  · exact ⟨_, rfl, hst.bodies_trans ((SameBodies_modify _ _ _ (addOutputNode_fields _ _).1).bodies_trans
      (SameBodies_modify _ _ _ (addInputNode_fields _ _).1))⟩
  · exact ⟨_, rfl, hst⟩

theorem linkNode_total (env : Env) (s st : Fusioner) (group node : Nat)
    (hst : SameBodies s st)
    (h2 : ∀ m, ∀ g ∈ s.group_list_of m, (s.groups g).node_list ≠ []) :
    ∃ t, linkNode env group st node = some t ∧ SameBodies s t := by
  unfold linkNode
  refine foldlM_total_inv (SameBodies s) _ _ ?_ st hst
  intro u next_node hu _
  refine foldlM_total_inv (SameBodies s) _ _ ?_ u hu
  intro v next_group hv hng
  rw [hu.2.1] at hng
  exact linkInto_total s v group node next_group hv (h2 next_node next_group hng)

theorem linkBoundary_total (env : Env) (s : Fusioner)
    (h1 : ∀ g ∈ s.group_list, (s.groups g).node_list ≠ [])
    (h2 : ∀ m, ∀ g ∈ s.group_list_of m, (s.groups g).node_list ≠ []) :
    ∃ t, s.linkBoundary env = some t ∧ SameBodies s t := by
  unfold Fusioner.linkBoundary
  refine foldlM_total_inv (SameBodies s) _ _ ?_ s (SameBodies.bodies_refl s)
  intro u group hu hg
  unfold linkGroup
  have hne : (u.groups group).nodeList.isEmpty = false := by
    show (u.groups group).node_list.isEmpty = false
    rw [hu.2.2 group]
    cases h : (s.groups group).node_list with
    | nil => exact absurd h (h1 group hg)
    | cons x xs => rfl
  rw [hne]
  simp only [Bool.false_eq_true, if_false]
  refine foldlM_total_inv (SameBodies s) _ _ ?_ u hu
  intro v node hv _
  exact linkNode_total env s v group node hv h2

theorem linkIntra_bodies (env : Env) (s : Fusioner) : SameBodies s (s.linkIntra env) := by
  unfold Fusioner.linkIntra
  refine foldl_rel SameBodies SameBodies.bodies_refl (fun _ _ _ => SameBodies.bodies_trans) _ ?_ _ _
  intro u g
  show SameBodies u (if _ then _ else _)
  split
  · exact SameBodies.bodies_refl u
  · refine foldl_rel SameBodies SameBodies.bodies_refl (fun _ _ _ => SameBodies.bodies_trans) _ ?_ _ _
    intro v n
    show SameBodies v (if _ then _ else _)
    split
    · exact SameBodies.bodies_refl v
    · exact SameBodies_modify v g _ (addOutputNode_fields _ n).1

theorem moveD0Free_noop (env : Env) : ∀ (l : List Nat) (g : Group),
    (∀ n ∈ l, isD0Free env n = false) → moveD0Free env l g = g := by
  intro l
  induction l with
  | nil => intro g _; rfl
  | cons x rest ih =>
    intro g h
    have hx := h x (List.mem_cons_self _ _)
    unfold moveD0Free
    have hc : (is_included x g.nodeList && decide ((env.dag x).numdim = D0)
        && decide ((env.dag x).pattern = FREE)) = false := by
      simp only [isD0Free] at hx
      rw [Bool.and_assoc, hx, Bool.and_false]
    rw [hc]
    simp only [Bool.false_eq_true, if_false]
    exact ih g (fun n hn => h n (List.mem_cons_of_mem _ hn))

theorem linkD0Free_bodies (env : Env) (s : Fusioner)
    (h : ∀ g ∈ s.group_list, ∀ n ∈ (s.groups g).node_list, isD0Free env n = false) :
    SameBodies s (s.linkD0Free env) := by
  unfold Fusioner.linkD0Free
  refine foldl_inv_mem (SameBodies s) _ s.group_list ?_ s (SameBodies.bodies_refl s)
  intro u g hu hg
  refine hu.bodies_trans (SameBodies_modify u g _ ?_)
  rw [moveD0Free_noop]
  intro n hn
  have : n ∈ (s.groups g).node_list := by rw [← hu.2.2 g]; exact hn
  exact h g hg n this

theorem linking_total (env : Env) (s : Fusioner)
    (h1 : ∀ g ∈ s.group_list, (s.groups g).node_list ≠ [])
    (h2 : ∀ m, ∀ g ∈ s.group_list_of m, (s.groups g).node_list ≠ [])
    (h3 : ∀ g ∈ s.group_list, ∀ n ∈ (s.groups g).node_list, isD0Free env n = false) :
    ∃ t, s.linking env = some t ∧ SameBodies s t := by
  obtain ⟨s1, e1, b1⟩ := linkBoundary_total env s h1 h2
  have b2 := linkIntra_bodies env s1
  have b12 := b1.bodies_trans b2
  have b3 := linkD0Free_bodies env (s1.linkIntra env) (by
    intro g hg n hn
    rw [b12.1] at hg
    rw [b12.2.2 g] at hn
    exact h3 g hg n hn)
  refine ⟨(s1.linkIntra env).linkD0Free env, ?_, b12.bodies_trans b3⟩
  unfold Fusioner.linking
  rw [e1]

theorem insertBy_total {α : Type} (P : α → Prop) (lt : α → α → Option Bool)
    (hlt : ∀ a b, P a → P b → ∃ c, lt a b = some c) (x : α) (hx : P x) :
    ∀ (l : List α), (∀ y ∈ l, P y) → ∃ r, insertBy lt x l = some r ∧ r.Perm (x :: l) := by
  intro l
  induction l with
  | nil => intro _; exact ⟨[x], rfl, List.Perm.refl _⟩
  | cons y ys ih =>
    intro hP
    obtain ⟨c, hc⟩ := hlt x y hx (hP y (List.mem_cons_self _ _))
    unfold insertBy
    rw [hc]
    cases c with
    | true => exact ⟨x :: y :: ys, rfl, List.Perm.refl _⟩
    | false =>
      obtain ⟨r, e, hp⟩ := ih (fun z hz => hP z (List.mem_cons_of_mem _ hz))
      simp only [e]
      exact ⟨y :: r, rfl, (List.Perm.cons y hp).trans (List.Perm.swap x y ys)⟩

theorem sortBy_total {α : Type} (P : α → Prop) (lt : α → α → Option Bool)
    (hlt : ∀ a b, P a → P b → ∃ c, lt a b = some c) :
    ∀ (l : List α), (∀ y ∈ l, P y) → ∃ r, sortBy lt l = some r ∧ r.Perm l := by
  intro l
  induction l with
  | nil => intro _; exact ⟨[], rfl, List.Perm.refl _⟩
  | cons x xs ih =>
    intro hP
    obtain ⟨r, e, hp⟩ := ih (fun y hy => hP y (List.mem_cons_of_mem _ hy))
    obtain ⟨r2, e2, hp2⟩ := insertBy_total P lt hlt x (hP x (List.mem_cons_self _ _)) r
      (fun y hy => hP y (List.mem_cons_of_mem _ (hp.subset hy)))
    refine ⟨r2, ?_, hp2.trans (List.Perm.cons x hp)⟩
    unfold sortBy
    rw [e]
    exact e2

theorem sortAllNodes_glo (env : Env) (s t : Fusioner)
    (h : s.group_list.foldlM (fun s group =>
        ((s.groups group).sortNodes env).map (fun g => s.modify group (fun _ => g))) s = some t) :
    t.group_list_of = s.group_list_of := by
  refine foldlM_rel (fun a b : Fusioner => b.group_list_of = a.group_list_of) (fun _ => rfl)
    (fun _ _ _ h1 h2 => h2.trans h1) _ ?_ _ s t h
  intro u x v hv
  cases hg : (u.groups x).sortNodes env with
  | none => rw [hg] at hv; exact Option.noConfusion hv
  | some g =>
    rw [hg] at hv
    injection hv with hv
    subst hv
    rfl

theorem numerate_glo (s : Fusioner) : s.numerate.group_list_of = s.group_list_of := by
  unfold Fusioner.numerate
  exact foldl_rel (fun a b : Fusioner => b.group_list_of = a.group_list_of) (fun _ => rfl)
    (fun _ _ _ h1 h2 => h2.trans h1) numerateStep (fun _ _ => rfl) _ s

/-- On a state whose listed clusters have non-empty bodies, `sorting` succeeds, permutes the
cluster list and the bodies and keeps the clusters of every node. -/
theorem sorting_total (env : Env) (s : Fusioner)
    (hne : ∀ g ∈ s.group_list, (s.groups g).node_list ≠ []) :
    ∃ t, s.sorting env = some t ∧ t.group_list.Perm s.group_list ∧
      t.group_list_of = s.group_list_of ∧
      ∀ g, (t.groups g).node_list.Perm (s.groups g).node_list := by
  obtain ⟨s1, e1, r1, _⟩ := sortAllNodes_spec env s
  have hglo1 := sortAllNodes_glo env s s1 e1
  have hlt : ∀ a b, a ∈ s.group_list → b ∈ s.group_list → ∃ c, s1.less env a b = some c := by
    intro a b ha hb
    have hl : ∀ g ∈ s.group_list, ∃ x, (s1.groups g).lastId env = some x := by
      intro g hg
      have hp := (r1.2.2 g).2.2.1
      cases hn : (s1.groups g).node_list with
      | nil => rw [hn] at hp; exact absurd hp.symm.eq_nil (hne g hg)
      | cons y ys =>
        have hne2 : (s1.groups g).node_list ≠ [] := by rw [hn]; exact List.cons_ne_nil _ _
        refine ⟨(env.dag ((s1.groups g).node_list.getLast hne2)).id, ?_⟩
        simp [Group.lastId, Group.nodeList, List.getLast?_eq_getLast _ hne2]
    obtain ⟨x, hx⟩ := hl a ha
    obtain ⟨y, hy⟩ := hl b hb
    unfold Fusioner.less
    rw [hx, hy]
    by_cases hn : s1.isNext a b = true
    · exact ⟨true, by simp [hn]⟩
    · by_cases hp : s1.isPrev a b = true
      · exact ⟨false, by simp [hn, hp]⟩
      · exact ⟨decide (x < y), by simp [hn, hp]⟩
  obtain ⟨l, el, pl⟩ := sortBy_total (fun a => a ∈ s.group_list) (s1.less env) hlt s1.group_list
    (fun y hy => by rw [r1.1] at hy; exact hy)
  rw [r1.1] at pl
  have hsame := numerate_same ({ s1 with group_list := l })
  refine ⟨({ s1 with group_list := l }).numerate, ?_, ?_, ?_, ?_⟩
  · unfold Fusioner.sorting
    rw [e1]
    simp only
    rw [el]
  · rw [hsame.1]; exact pl
  · rw [numerate_glo]; exact hglo1
  · intro g
    rw [(hsame.2.2 g).2.2]
    exact (r1.2.2 g).2.2.1

theorem Singletons_bodies {s t : Fusioner} {l : List Nat} (h : Singletons s l)
    (e : SameBodies s t) : Singletons t l := by
  obtain ⟨hlen, hown, hgrp⟩ := h
  obtain ⟨hgl, hglo, hnl⟩ := e
  refine ⟨by rw [hgl]; exact hlen, ?_, ?_⟩
  · intro n hn
    obtain ⟨g, hg, h1, h2⟩ := hown n hn
    exact ⟨g, by rw [hgl]; exact hg, by rw [hglo]; exact h1, by rw [hnl g]; exact h2⟩
  · intro g hg
    rw [hgl] at hg
    obtain ⟨n, hn, h1⟩ := hgrp g hg
    exact ⟨n, hn, by rw [hglo]; exact h1⟩

/-- C8 (amended): when `code_fusion` is false, `Fusioner::fuse` succeeds and produces exactly
one cluster per input node (the final cluster list has as many clusters as nodes, each node
has one cluster, whose body is that node alone) for every input node list without repetition
in which every predecessor of a node appears earlier and no FREE node has a successor or is
D0. -/
theorem fuse_without_fusion_singletons (env : Env) (fuel : Nat) (s : Fusioner)
    (list : List Nat) (hcf : env.code_fusion = false) (hnd : list.Nodup)
    (hpb : prevsBefore env [] list = true)
    (hfree : ∀ n ∈ list, (env.dag n).pattern = FREE →
      (env.dag n).nextList = [] ∧ (env.dag n).numdim ≠ D0) :
    ∃ t, s.fuse env fuel list = some t ∧ Singletons t list := by
  have h0 : ProcInv s.clear [] :=
    ⟨⟨rfl, fun n hn => by simp at hn, fun g hg => by simp [Fusioner.clear] at hg⟩,
      fun _ _ => rfl, fun g hg => by simp [Fusioner.clear] at hg⟩
  obtain ⟨s1, e1, hinv⟩ := fuseGently_spec env fuel hcf list [] s.clear h0 (by simpa using hnd) hpb
  rw [List.nil_append] at hinv
  have e2 := fuseFlat_off env hcf s1 list
  have e3 := fuseBU_off env hcf fuel s1 list (fun n hn => by
    obtain ⟨g, _, hg, _⟩ := hinv.1.2.1 n hn
    exact ⟨g, hg⟩)
  -- every listed cluster holds exactly one node of the list
  have hbody : ∀ g ∈ s1.group_list, ∃ n ∈ list, (s1.groups g).node_list = [n] ∧
      (s1.groups g).all_nodes = [n] := by
    intro g hg
    obtain ⟨n, hn, hgn⟩ := hinv.1.2.2 g hg
    obtain ⟨g2, _, hg2, hb⟩ := hinv.1.2.1 n hn
    have : g2 = g := by rw [hgn] at hg2; simpa using hg2.symm
    subst this
    obtain ⟨_, hi, ho⟩ := hinv.2.2 g2 hg
    refine ⟨n, hn, hb, ?_⟩
    simp [Group.all_nodes, full_join, Group.inputList, Group.nodeList, Group.outputList, hi, ho,
      hb]
  have e4 := forwarding_noop env (fun n => decide ((env.dag n).pattern = FREE)) s1
    (by
      intro g hg n hn hp
      obtain ⟨m, hm, _, hall⟩ := hbody g hg
      rw [hall] at hn
      have : n = m := by simpa using hn
      subst this
      exact (hfree n hm (by simpa using hp)).1)
    (by
      intro g hg
      obtain ⟨m, _, _, hall⟩ := hbody g hg
      rw [hall]
      exact List.cons_ne_nil _ _)
  have hinv4 := ProcInv_edge hinv e4
  have hbody4 : ∀ g ∈ (s1.forwarding env (fun n => decide ((env.dag n).pattern = FREE))).group_list,
      ∃ n ∈ list, ((s1.forwarding env
        (fun n => decide ((env.dag n).pattern = FREE))).groups g).node_list = [n] := by
    intro g hg
    rw [e4.2.1] at hg
    obtain ⟨n, hn, hb, _⟩ := hbody g hg
    exact ⟨n, hn, by rw [(e4.1.2 g).1]; exact hb⟩
  obtain ⟨s5, e5, b5⟩ := linking_total env
    (s1.forwarding env (fun n => decide ((env.dag n).pattern = FREE)))
    (by
      intro g hg
      obtain ⟨n, _, hb⟩ := hbody4 g hg
      rw [hb]
      exact List.cons_ne_nil _ _)
    (by
      intro m g hg
      by_cases hm : m ∈ list
      · obtain ⟨g2, _, hg2, hb⟩ := hinv4.1.2.1 m hm
        rw [hg2] at hg
        have : g = g2 := by simpa using hg
        subst this
        rw [hb]
        exact List.cons_ne_nil _ _
      · rw [hinv4.2.1 m hm] at hg
        simp at hg)
    (by
      intro g hg n hn
      obtain ⟨m, hm, hb⟩ := hbody4 g hg
      rw [hb] at hn
      have : n = m := by simpa using hn
      subst this
      cases hd : isD0Free env n with
      | false => rfl
      | true =>
        exfalso
        simp only [isD0Free, Bool.and_eq_true, decide_eq_true_eq] at hd
        exact (hfree n hm hd.2).2 hd.1)
  have hsing5 := Singletons_bodies hinv4.1 b5
  obtain ⟨t, e6, pgl, hglo, hnl⟩ := sorting_total env s5 (by
    intro g hg
    obtain ⟨n, hn, hgn⟩ := hsing5.2.2 g hg
    obtain ⟨g2, _, hg2, hb⟩ := hsing5.2.1 n hn
    have : g2 = g := by rw [hgn] at hg2; simpa using hg2.symm
    subst this
    rw [hb]
    exact List.cons_ne_nil _ _)
  refine ⟨t, ?_, ?_⟩
  · unfold Fusioner.fuse
    rw [e1]
    simp only
    rw [e2]
    simp only
    rw [e3]
    simp only
    rw [e5]
    exact e6
  · refine ⟨by rw [pgl.length_eq]; exact hsing5.1, ?_, ?_⟩
    · intro n hn
      obtain ⟨g, hg, h1, h2⟩ := hsing5.2.1 n hn
      refine ⟨g, pgl.symm.subset hg, by rw [hglo]; exact h1, ?_⟩
      have := hnl g
      rw [h2] at this
      exact List.perm_singleton.1 this
    · intro g hg
      obtain ⟨n, hn, h1⟩ := hsing5.2.2 g (pgl.subset hg)
      exact ⟨n, hn, by rw [hglo]; exact h1⟩

/-! ## Cluster cover -/

theorem foldl_rel_mem {σ α : Type} (R : σ → σ → Prop) (hr : ∀ s, R s s)
    (ht : ∀ a b c, R a b → R b c → R a c) (f : σ → α → σ) :
    ∀ (l : List α), (∀ s x, x ∈ l → R s (f s x)) → ∀ (s : σ), R s (l.foldl f s) := by
  intro l
  induction l with
  | nil => intro _ s; exact hr s
  | cons x xs ih =>
    intro hf s
    exact ht _ _ _ (hf s x (List.mem_cons_self _ _))
      (ih (fun s y hy => hf s y (List.mem_cons_of_mem _ hy)) (f s x))

theorem foldl_split_mem {σ α : Type} (R : σ → σ → Prop) (hr : ∀ s, R s s)
    (ht : ∀ a b c, R a b → R b c → R a c) (f : σ → α → σ) :
    ∀ (l : List α), (∀ s x, x ∈ l → R s (f s x)) → ∀ (s : σ) (x : α), x ∈ l →
      ∃ u, R s u ∧ R (f u x) (l.foldl f s) := by
  intro l
  induction l with
  | nil => intro _ s x hx; simp at hx
  | cons y ys ih =>
    intro hf s x hx
    have hf2 : ∀ s z, z ∈ ys → R s (f s z) := fun s z hz => hf s z (List.mem_cons_of_mem _ hz)
    rcases List.mem_cons.1 hx with rfl | hx
    · exact ⟨s, hr s, foldl_rel_mem R hr ht f ys hf2 _⟩
    · obtain ⟨u, h1, h2⟩ := ih hf2 (f s y) x hx
      exact ⟨u, ht _ _ _ (hf s y (List.mem_cons_self _ _)) h1, h2⟩

theorem MoveRel.move_refl (src dst : Nat) (L : List Nat) (u : Fusioner) :
    MoveRel src dst L u u :=
  ⟨rfl, rfl, fun _ _ => rfl, ⟨rfl, rfl⟩, fun _ h => h, fun _ h => Or.inl h,
    fun _ _ h => Or.inl h, fun _ _ h _ => h, fun _ _ => rfl, fun _ h => h⟩

theorem MoveRel.move_trans {src dst : Nat} {L : List Nat} {a b c : Fusioner}
    (h1 : MoveRel src dst L a b) (h2 : MoveRel src dst L b c) : MoveRel src dst L a c := by
  obtain ⟨a1, a2, a3, a4, a5, a6, a7, a8, a9, a10⟩ := h1
  obtain ⟨b1, b2, b3, b4, b5, b6, b7, b8, b9, b10⟩ := h2
  refine ⟨b1.trans a1, b2.trans a2, fun g hg => (b3 g hg).trans (a3 g hg),
    ⟨b4.1.trans a4.1, b4.2.trans a4.2⟩, fun x hx => b5 x (a5 x hx), ?_, ?_,
    fun n g hg hne => b8 n g (a8 n g hg hne) hne, fun n hn => (b9 n hn).trans (a9 n hn),
    fun n hn => b10 n (a10 n hn)⟩
  · intro x hx
    rcases b6 x hx with h | h
    · exact a6 x h
    · exact Or.inr h
  · intro n g hg
    rcases b7 n g hg with h | h
    · exact a7 n g h
    · exact Or.inr h

theorem moveNode_rel (src dst : Nat) (_hne : src ≠ dst) (L : List Nat) (add : Group → Nat → Group)
    (hadd : ∀ g n, (add g n).node_list = g.node_list ++ [n] ∧ (add g n).in_list = g.in_list ∧
      (add g n).out_list = g.out_list) (u : Fusioner) (node : Nat) (hn : node ∈ L) :
    MoveRel src dst L u (u.moveNode src dst add node) := by
  have hg : (u.moveNode src dst add node).groups = Function.update u.groups dst
      (add (u.groups dst) node) := rfl
  have hl : (u.moveNode src dst add node).group_list_of = Function.update u.group_list_of node
      (remove_value src (u.group_list_of node) ++ [dst]) := rfl
  refine ⟨rfl, rfl, ?_, ?_, ?_, ?_, ?_, ?_, ?_, ?_⟩
  · intro g hgd
    rw [hg, Function.update_noteq hgd]
  · rw [hg, Function.update_same]
    exact ⟨(hadd _ _).2.1, (hadd _ _).2.2⟩
  · intro x hx
    rw [hg, Function.update_same, (hadd _ _).1]
    exact List.mem_append_left _ hx
  · intro x hx
    rw [hg, Function.update_same, (hadd _ _).1] at hx
    rcases List.mem_append.1 hx with h | h
    · exact Or.inl h
    · right
      have : x = node := by simpa using h
      rw [this]; exact hn
  · intro n g hgn
    rw [hl, Function.update_apply] at hgn
    split at hgn
    · rename_i e
      rcases List.mem_append.1 hgn with h | h
      · exact Or.inl (by rw [e]; exact ((mem_remove_value src g _).1 h).1)
      · right
        have : g = dst := by simpa using h
        exact ⟨this, by rw [e]; exact hn⟩
    · exact Or.inl hgn
  · intro n g hgn hgs
    rw [hl, Function.update_apply]
    split
    · rename_i e
      subst e
      exact List.mem_append_left _ ((mem_remove_value src g _).2 ⟨hgn, hgs⟩)
    · exact hgn
  · intro n hnL
    have : n ≠ node := fun e => hnL (e ▸ hn)
    rw [hl, Function.update_noteq this]
  · intro n hne2
    rw [hl, Function.update_apply]
    split
    · simp
    · exact hne2

theorem moveNode_post (src dst : Nat) (hne : src ≠ dst) (add : Group → Nat → Group)
    (hadd : ∀ g n, (add g n).node_list = g.node_list ++ [n] ∧ (add g n).in_list = g.in_list ∧
      (add g n).out_list = g.out_list) (u : Fusioner) (node : Nat) :
    src ∉ (u.moveNode src dst add node).group_list_of node ∧
    dst ∈ (u.moveNode src dst add node).group_list_of node ∧
    node ∈ ((u.moveNode src dst add node).groups dst).node_list := by
  have hg : (u.moveNode src dst add node).groups = Function.update u.groups dst
      (add (u.groups dst) node) := rfl
  have hl : (u.moveNode src dst add node).group_list_of = Function.update u.group_list_of node
      (remove_value src (u.group_list_of node) ++ [dst]) := rfl
  refine ⟨?_, ?_, ?_⟩
  · rw [hl, Function.update_same]
    intro h
    rcases List.mem_append.1 h with h | h
    · exact ((mem_remove_value src src _).1 h).2 rfl
    · exact hne (by simpa using h)
  · rw [hl, Function.update_same]
    simp
  · rw [hg, Function.update_same, (hadd _ _).1]
    simp

theorem moveNodes_spec (env : Env) (s : Fusioner) (src dst : Nat) (hs : src ∈ s.group_list)
    (hne : src ≠ dst) (hinv : CoverInv s) :
    MoveRel src dst (s.groups src).node_list s (s.moveNodes env src dst) ∧
    ∀ n ∈ (s.groups src).node_list, src ∉ (s.moveNodes env src dst).group_list_of n ∧
      dst ∈ (s.moveNodes env src dst).group_list_of n ∧
      n ∈ ((s.moveNodes env src dst).groups dst).node_list := by
  have hadd : ∀ (g : Group) (n : Nat),
      (g.addNode n (env.dag n).pattern).node_list = g.node_list ++ [n] ∧
      (g.addNode n (env.dag n).pattern).in_list = g.in_list ∧
      (g.addNode n (env.dag n).pattern).out_list = g.out_list := fun _ _ => ⟨rfl, rfl, rfl⟩
  have hstep : ∀ (u : Fusioner) (x : Nat), x ∈ (s.groups src).node_list →
      MoveRel src dst (s.groups src).node_list u
        (u.moveNode src dst (fun g n => g.addNode n (env.dag n).pattern) x) :=
    fun u x hx => moveNode_rel src dst hne _ _ hadd u x hx
  have hrel := foldl_rel_mem (MoveRel src dst (s.groups src).node_list)
    (MoveRel.move_refl src dst _) (fun _ _ _ => MoveRel.move_trans)
    (fun u node => u.moveNode src dst (fun g n => g.addNode n (env.dag n).pattern) node)
    (s.groups src).node_list hstep s
  have hsame := hrel.2.2.1 src hne
  have h_in : (((s.groups src).nodeList.foldl
      (fun u node => u.moveNode src dst (fun g n => g.addNode n (env.dag n).pattern) node)
      s).groups src).inputList = [] := by
    show (((s.groups src).node_list.foldl _ s).groups src).in_list = []
    rw [hsame]; exact (hinv.2.2.2.1 src hs).1
  have h_out : (((s.groups src).nodeList.foldl
      (fun u node => u.moveNode src dst (fun g n => g.addNode n (env.dag n).pattern) node)
      s).groups src).outputList = [] := by
    show (((s.groups src).node_list.foldl _ s).groups src).out_list = []
    rw [hsame]; exact (hinv.2.2.2.1 src hs).2
  have key : s.moveNodes env src dst = (s.groups src).node_list.foldl
      (fun u node => u.moveNode src dst (fun g n => g.addNode n (env.dag n).pattern) node) s := by
    unfold Fusioner.moveNodes
    dsimp only
    rw [h_in, List.foldl_nil, h_out, List.foldl_nil]
    rfl
  rw [key]
  refine ⟨hrel, ?_⟩
  intro n hn
  obtain ⟨u, _, h2⟩ := foldl_split_mem (MoveRel src dst (s.groups src).node_list)
    (MoveRel.move_refl src dst _) (fun _ _ _ => MoveRel.move_trans)
    (fun u node => u.moveNode src dst (fun g n => g.addNode n (env.dag n).pattern) node)
    (s.groups src).node_list hstep s n hn
  obtain ⟨p1, p2, p3⟩ := moveNode_post src dst hne _ hadd u n
  obtain ⟨_, _, _, _, m5, _, m7, m8, _, _⟩ := h2
  refine ⟨?_, m8 n dst p2 (Ne.symm hne), m5 n p3⟩
  intro h
  rcases m7 n src h with h | h
  · exact p1 h
  · exact hne h.1

theorem mem_removeGroup (s : Fusioner) (src g : Nat) :
    g ∈ (s.removeGroup src).group_list ↔ g ∈ s.group_list ∧ g ≠ src := by
  unfold Fusioner.removeGroup
  simp [List.mem_filter]

theorem fuseNodes_cover (env : Env) (s : Fusioner) (src dst : Nat) (hs : src ∈ s.group_list)
    (hd : dst ∈ s.group_list) (hne : src ≠ dst) (hinv : CoverInv s) (t : Fusioner)
    (he : EdgeOnly (s.moveNodes env src dst) t) :
    CoverInv (t.removeGroup src) ∧
    ∀ n, s.group_list_of n ≠ [] → (t.removeGroup src).group_list_of n ≠ [] := by
  obtain ⟨⟨m1, m2, m3, m4, m5, m6, m7, m8, m9, m10⟩, post⟩ :=
    moveNodes_spec env s src dst hs hne hinv
  obtain ⟨⟨e1, e2⟩, e3, e4⟩ := he
  obtain ⟨n1, n2, n3, n4, n5⟩ := hinv
  have hglo : (t.removeGroup src).group_list_of = (s.moveNodes env src dst).group_list_of := e1
  have hgr : (t.removeGroup src).groups = t.groups := rfl
  have hnum : (t.removeGroup src).num_groups = s.num_groups := e4.trans m2
  have hmem : ∀ g, g ∈ (t.removeGroup src).group_list ↔ g ∈ s.group_list ∧ g ≠ src := by
    intro g
    rw [mem_removeGroup, e3, m1]
  refine ⟨⟨?_, ?_, ?_, ?_, ?_⟩, ?_⟩
  · intro n g hg
    rw [hglo] at hg
    rw [hmem, hgr, (e2 g).1]
    rcases m7 n g hg with h | h
    · obtain ⟨hl, hb⟩ := n1 n g h
      have hgs : g ≠ src := by
        intro e
        subst e
        exact (post n hb).1 hg
      refine ⟨⟨hl, hgs⟩, ?_⟩
      by_cases hgd : g = dst
      · subst hgd; exact m5 n hb
      · rw [m3 g hgd]; exact hb
    · rw [h.1]
      exact ⟨⟨hd, Ne.symm hne⟩, (post n h.2).2.2⟩
  · intro g hg n hn
    rw [hmem] at hg
    rw [hgr, (e2 g).1] at hn
    rw [hglo]
    by_cases hgd : g = dst
    · subst hgd
      rcases m6 n hn with h | h
      · exact m8 n g (n2 g hg.1 n h) hg.2
      · exact (post n h).2.1
    · rw [m3 g hgd] at hn
      exact m8 n g (n2 g hg.1 n hn) hg.2
  · intro g hg
    rw [hmem] at hg
    rw [hgr, (e2 g).1]
    by_cases hgd : g = dst
    · subst hgd
      obtain ⟨x, hx⟩ := List.exists_mem_of_ne_nil _ (n3 g hg.1)
      exact List.ne_nil_of_mem (m5 x hx)
    · rw [m3 g hgd]; exact n3 g hg.1
  · intro g hg
    rw [hmem] at hg
    rw [hgr, (e2 g).2.1, (e2 g).2.2]
    by_cases hgd : g = dst
    · subst hgd
      rw [m4.1, m4.2]; exact n4 g hg.1
    · rw [m3 g hgd]; exact n4 g hg.1
  · intro g hg
    rw [hmem] at hg
    rw [hnum]; exact n5 g hg.1
  · intro n hn
    rw [hglo]; exact m10 n hn

theorem CoverStep.cover_refl (s : Fusioner) : CoverStep s s := fun h => ⟨h, fun _ h => h⟩

theorem CoverStep.cover_trans {a b c : Fusioner} (h1 : CoverStep a b) (h2 : CoverStep b c) :
    CoverStep a c := fun h =>
  ⟨(h2 (h1 h).1).1, fun n hn => (h2 (h1 h).1).2 n ((h1 h).2 n hn)⟩

theorem pipeMovePrevs_edge (s : Fusioner) (top bot : Nat) :
    EdgeOnly s (s.pipeMovePrevs top bot) := by
  unfold Fusioner.pipeMovePrevs
  refine foldl_rel EdgeOnly EdgeOnly.edge_refl (fun _ _ _ => EdgeOnly.edge_trans) _ ?_ _ _
  intro u prev
  show EdgeOnly u (if _ then _ else _)
  split
  · exact EdgeOnly.edge_refl u
  · exact ((EdgeOnly_modify u _ _ ⟨rfl, rfl, rfl⟩).edge_trans
      (EdgeOnly_modify _ _ _ ⟨rfl, rfl, rfl⟩)).edge_trans (EdgeOnly_modify _ _ _ ⟨rfl, rfl, rfl⟩)

theorem pipeMoveNexts_edge (s : Fusioner) (top bot : Nat) (t : Fusioner)
    (h : s.pipeMoveNexts top bot = some t) : EdgeOnly s t := by
  unfold Fusioner.pipeMoveNexts at h
  refine foldlM_rel EdgeOnly EdgeOnly.edge_refl (fun _ _ _ => EdgeOnly.edge_trans) _ ?_ _ _ _ h
  intro u next v hv
  split at hv
  · exact Option.noConfusion hv
  · injection hv with hv
    subst hv
    exact ((EdgeOnly_modify u _ _ ⟨rfl, rfl, rfl⟩).edge_trans
      (EdgeOnly_modify _ _ _ ⟨rfl, rfl, rfl⟩)).edge_trans (EdgeOnly_modify _ _ _ ⟨rfl, rfl, rfl⟩)

theorem pipeUpdatePrevs_edge (s : Fusioner) (top bot : Nat) :
    EdgeOnly s (s.pipeUpdatePrevs top bot) := by
  unfold Fusioner.pipeUpdatePrevs
  refine foldl_rel EdgeOnly EdgeOnly.edge_refl (fun _ _ _ => EdgeOnly.edge_trans) _ ?_ _ _
  intro u prev
  exact EdgeOnly_modify u _ _ ⟨rfl, rfl, rfl⟩

theorem flatMovePrevs_edge (s : Fusioner) (left right : Nat) (t : Fusioner)
    (h : s.flatMovePrevs left right = some t) : EdgeOnly s t := by
  unfold Fusioner.flatMovePrevs at h
  refine foldlM_rel EdgeOnly EdgeOnly.edge_refl (fun _ _ _ => EdgeOnly.edge_trans) _ ?_ _ _ _ h
  intro u next v hv
  split at hv
  · exact Option.noConfusion hv
  · injection hv with hv
    subst hv
    exact ((EdgeOnly_modify u _ _ ⟨rfl, rfl, rfl⟩).edge_trans
      (EdgeOnly_modify _ _ _ ⟨rfl, rfl, rfl⟩)).edge_trans (EdgeOnly_modify _ _ _ ⟨rfl, rfl, rfl⟩)

theorem flatMoveNexts_edge (s : Fusioner) (left right : Nat) (t : Fusioner)
    (h : s.flatMoveNexts left right = some t) : EdgeOnly s t := by
  unfold Fusioner.flatMoveNexts at h
  refine foldlM_rel EdgeOnly EdgeOnly.edge_refl (fun _ _ _ => EdgeOnly.edge_trans) _ ?_ _ _ _ h
  intro u next v hv
  split at hv
  · exact Option.noConfusion hv
  · injection hv with hv
    subst hv
    exact ((EdgeOnly_modify u _ _ ⟨rfl, rfl, rfl⟩).edge_trans
      (EdgeOnly_modify _ _ _ ⟨rfl, rfl, rfl⟩)).edge_trans (EdgeOnly_modify _ _ _ ⟨rfl, rfl, rfl⟩)

theorem canPipeFuse_ne (env : Env) (s : Fusioner) (top bot : Nat)
    (h : s.canPipeFuse env top bot = true) : top ≠ bot := by
  intro e
  unfold Fusioner.canPipeFuse at h
  rw [if_pos e] at h
  exact Bool.noConfusion h

theorem canFlatFuse_ne (env : Env) (s : Fusioner) (left right : Nat)
    (h : s.canFlatFuse env left right = true) : left ≠ right := by
  intro e
  unfold Fusioner.canFlatFuse at h
  rw [if_pos e] at h
  exact Bool.noConfusion h

theorem pipeFuseGroup_cover (env : Env) (s : Fusioner) (top bot : Nat) (t : Fusioner) (r : Nat)
    (h : s.pipeFuseGroup env top bot = some (t, r)) : CoverStep s t := by
  unfold Fusioner.pipeFuseGroup at h
  split at h
  · exact Option.noConfusion h
  rename_i hlive
  split at h
  · exact Option.noConfusion h
  rename_i hcan
  have htop : top ∈ s.group_list := by
    by_contra hc
    exact hlive (by simp [is_included, hc])
  have hbot : bot ∈ s.group_list := by
    by_contra hc
    exact hlive (by simp [is_included, hc])
  have hne : bot ≠ top := by
    have : s.canPipeFuse env top bot = true := by simpa using hcan
    exact Ne.symm (canPipeFuse_ne env s top bot this)
  dsimp only at h
  split at h
  · exact Option.noConfusion h
  rename_i s3 h3
  injection h with h
  injection h with h _
  subst h
  intro hinv
  refine fuseNodes_cover env s bot top hbot htop hne hinv _ ?_
  exact ((((pipeMovePrevs_edge _ top bot).edge_trans (pipeMoveNexts_edge _ top bot s3 h3)).edge_trans
    (pipeUpdatePrevs_edge s3 top bot)).edge_trans (EdgeOnly_modify _ _ _ ⟨rfl, rfl, rfl⟩)).edge_trans
    (EdgeOnly_modify _ _ _ ⟨rfl, rfl, rfl⟩)

theorem flatFuseGroup_cover (env : Env) (s : Fusioner) (left right : Nat) (t : Fusioner) (r : Nat)
    (h : s.flatFuseGroup env left right = some (t, r)) : CoverStep s t := by
  unfold Fusioner.flatFuseGroup at h
  split at h
  · exact Option.noConfusion h
  rename_i hlive
  split at h
  · exact Option.noConfusion h
  rename_i hcan
  have hl : left ∈ s.group_list := by
    by_contra hc
    exact hlive (by simp [is_included, hc])
  have hr : right ∈ s.group_list := by
    by_contra hc
    exact hlive (by simp [is_included, hc])
  have hne : right ≠ left := by
    have : s.canFlatFuse env left right = true := by simpa using hcan
    exact Ne.symm (canFlatFuse_ne env s left right this)
  dsimp only at h
  split at h
  · exact Option.noConfusion h
  rename_i s2 h2
  split at h
  · exact Option.noConfusion h
  rename_i s3 h3
  injection h with h
  injection h with h _
  subst h
  intro hinv
  refine fuseNodes_cover env s right left hr hl hne hinv _ ?_
  exact ((flatMovePrevs_edge _ left right s2 h2).edge_trans
    (flatMoveNexts_edge s2 left right s3 h3)).edge_trans (EdgeOnly_modify _ _ _ ⟨rfl, rfl, rfl⟩)

theorem CoverStep_edge {s t : Fusioner} (he : EdgeOnly s t) : CoverStep s t := by
  obtain ⟨⟨e1, e2⟩, e3, e4⟩ := he
  intro ⟨n1, n2, n3, n4, n5⟩
  refine ⟨⟨?_, ?_, ?_, ?_, ?_⟩, ?_⟩
  · intro n g hg
    rw [e1] at hg
    rw [e3, (e2 g).1]; exact n1 n g hg
  · intro g hg n hn
    rw [e3] at hg
    rw [(e2 g).1] at hn
    rw [e1]; exact n2 g hg n hn
  · intro g hg
    rw [e3] at hg
    rw [(e2 g).1]; exact n3 g hg
  · intro g hg
    rw [e3] at hg
    rw [(e2 g).2.1, (e2 g).2.2]; exact n4 g hg
  · intro g hg
    rw [e3] at hg
    rw [e4]; exact n5 g hg
  · intro n hn
    rw [e1]; exact hn

theorem processNew_cover (env : Env) (s : Fusioner) (node : Nat) :
    CoverStep s (s.processNew env node) ∧ (s.processNew env node).group_list_of node ≠ [] := by
  obtain ⟨e1, e2, e3, e4, e5⟩ := processNew_fields env s node
  have hbody : ((s.processNew env node).groups s.num_groups).node_list = [node] := by
    rw [e4]; rfl
  refine ⟨?_, ?_⟩
  · intro ⟨n1, n2, n3, n4, n5⟩
    have hold : ∀ g, g ∈ s.group_list → g ≠ s.num_groups := fun g hg => Nat.ne_of_lt (n5 g hg)
    refine ⟨⟨?_, ?_, ?_, ?_, ?_⟩, ?_⟩
    · intro n g hg
      rw [e3, Function.update_apply] at hg
      rw [e1]
      have old : g ∈ s.group_list_of n → g ∈ s.group_list ++ [s.num_groups] ∧
          n ∈ ((s.processNew env node).groups g).node_list := by
        intro h
        obtain ⟨h1, h2⟩ := n1 n g h
        rw [e5 g (hold g h1)]
        exact ⟨List.mem_append_left _ h1, h2⟩
      split at hg
      · rename_i e
        rcases List.mem_append.1 hg with h | h
        · exact old (e ▸ h)
        · have hgn : g = s.num_groups := by simpa using h
          rw [hgn, hbody, e]
          simp
      · exact old hg
    · intro g hg n hn
      rw [e1] at hg
      rw [e3, Function.update_apply]
      rcases List.mem_append.1 hg with h | h
      · rw [e5 g (hold g h)] at hn
        have := n2 g h n hn
        split
        · rename_i e
          exact List.mem_append_left _ (e ▸ this)
        · exact this
      · have hgn : g = s.num_groups := by simpa using h
        rw [hgn, hbody] at hn
        have hnn : n = node := by simpa using hn
        rw [if_pos hnn, hgn]
        simp
    · intro g hg
      rw [e1] at hg
      rcases List.mem_append.1 hg with h | h
      · rw [e5 g (hold g h)]; exact n3 g h
      · have hgn : g = s.num_groups := by simpa using h
        rw [hgn, hbody]
        simp
    · intro g hg
      rw [e1] at hg
      rcases List.mem_append.1 hg with h | h
      · rw [e5 g (hold g h)]; exact n4 g h
      · have hgn : g = s.num_groups := by simpa using h
        rw [hgn, e4]
        exact ⟨rfl, rfl⟩
    · intro g hg
      rw [e1] at hg
      rw [e2]
      rcases List.mem_append.1 hg with h | h
      · exact Nat.lt_succ_of_lt (n5 g h)
      · have hgn : g = s.num_groups := by simpa using h
        rw [hgn]; exact Nat.lt_succ_self _
    · intro n hn
      rw [e3, Function.update_apply]
      split
      · simp
      · exact hn
  · rw [e3, Function.update_same]
    simp

theorem process_cover (env : Env) (s : Fusioner) (node : Nat) (t : Fusioner)
    (h : s.process env node = some t) : CoverStep s t ∧ t.group_list_of node ≠ [] := by
  unfold Fusioner.process at h
  have he := foldlM_rel EdgeOnly EdgeOnly.edge_refl (fun _ _ _ => EdgeOnly.edge_trans)
    (processLink s.newGroup.2) (fun u x v hv => processLink_edge _ u x v hv) _ _ _ h
  obtain ⟨h1, h2⟩ := processNew_cover env s node
  refine ⟨h1.cover_trans (CoverStep_edge he), ?_⟩
  rw [he.1.1]; exact h2

theorem pipeGentlyLoop_cover (env : Env) : ∀ (fuel : Nat) (s : Fusioner) (g i : Nat)
    (t : Fusioner), Fusioner.pipeGentlyLoop env fuel s g i = some t → CoverStep s t := by
  intro fuel
  induction fuel with
  | zero => intro s g i t h; exact Option.noConfusion h
  | succ fuel ih =>
    intro s g i t h
    unfold Fusioner.pipeGentlyLoop at h
    split at h
    · injection h with h
      subst h
      exact CoverStep.cover_refl s
    · dsimp only at h
      split at h
      · split at h
        · exact Option.noConfusion h
        · rename_i s1 ret h1
          exact (pipeFuseGroup_cover env s _ _ s1 ret h1).cover_trans (ih s1 ret 0 t h)
      · exact ih s g (i + 1) t h

theorem pipeGently_cover (env : Env) (fuel : Nat) (s : Fusioner) (node : Nat) (t : Fusioner)
    (h : s.pipeGently env fuel node = some t) : CoverStep s t := by
  unfold Fusioner.pipeGently at h
  split at h
  · injection h with h
    subst h
    exact CoverStep.cover_refl s
  · split at h
    · exact Option.noConfusion h
    · exact pipeGentlyLoop_cover env fuel s _ 0 t h

theorem flatGentlyInner_cover (env : Env) (node_group : Nat) : ∀ (l : List Nat) (s : Fusioner)
    (left : Nat) (t : Fusioner) (r : Nat),
    Fusioner.flatGentlyInner env node_group l s left = some (t, r) → CoverStep s t := by
  intro l
  induction l with
  | nil =>
    intro s left t r h
    unfold Fusioner.flatGentlyInner at h
    injection h with h
    injection h with h _
    subst h
    exact CoverStep.cover_refl s
  | cons right rest ih =>
    intro s left t r h
    unfold Fusioner.flatGentlyInner at h
    split at h
    · exact Option.noConfusion h
    · split at h
      · exact ih s left t r h
      · split at h
        · split at h
          · exact Option.noConfusion h
          · rename_i s1 ret h1
            exact (flatFuseGroup_cover env s _ _ s1 ret h1).cover_trans (ih s1 ret t r h)
        · exact ih s left t r h

theorem flatGentlyOuter_cover (env : Env) (node_group : Nat) : ∀ (l : List Nat) (s : Fusioner)
    (t : Fusioner), Fusioner.flatGentlyOuter env node_group l s = some t → CoverStep s t := by
  intro l
  induction l with
  | nil =>
    intro s t h
    unfold Fusioner.flatGentlyOuter at h
    injection h with h
    subst h
    exact CoverStep.cover_refl s
  | cons left rest ih =>
    intro s t h
    unfold Fusioner.flatGentlyOuter at h
    split at h
    · exact Option.noConfusion h
    · split at h
      · exact ih s t h
      · split at h
        · exact Option.noConfusion h
        · rename_i s1 ret h1
          exact (flatGentlyInner_cover env node_group rest s _ s1 ret h1).cover_trans (ih s1 t h)

theorem flatGently_cover (env : Env) (s : Fusioner) (node : Nat) (t : Fusioner)
    (h : s.flatGently env node = some t) : CoverStep s t := by
  unfold Fusioner.flatGently at h
  split at h
  · injection h with h
    subst h
    exact CoverStep.cover_refl s
  · split at h
    · exact Option.noConfusion h
    · split at h
      · injection h with h
        subst h
        exact CoverStep.cover_refl s
      · exact flatGentlyOuter_cover env _ _ s t h

theorem pipeLoopBU_cover (env : Env) : ∀ (fuel : Nat) (s : Fusioner) (g i : Nat)
    (t : Fusioner) (r : Nat), Fusioner.pipeLoopBU env fuel s g i = some (t, r) →
    CoverStep s t := by
  intro fuel
  induction fuel with
  | zero => intro s g i t r h; exact Option.noConfusion h
  | succ fuel ih =>
    intro s g i t r h
    unfold Fusioner.pipeLoopBU at h
    split at h
    · injection h with h
      injection h with h _
      subst h
      exact CoverStep.cover_refl s
    · dsimp only at h
      split at h
      · split at h
        · exact Option.noConfusion h
        · rename_i s1 ret h1
          exact (pipeFuseGroup_cover env s _ _ s1 ret h1).cover_trans (ih s1 ret 0 t r h)
      · exact ih s g (i + 1) t r h

theorem upLoopBU_cover (recur : Fusioner → Nat → Option Fusioner)
    (hrec : ∀ s g t, recur s g = some t → CoverStep s t) (group : Nat) :
    ∀ (fuel : Nat) (s : Fusioner) (i sz : Nat) (t : Fusioner),
    Fusioner.upLoopBU recur group fuel s i sz = some t → CoverStep s t := by
  intro fuel
  induction fuel with
  | zero => intro s i sz t h; exact Option.noConfusion h
  | succ fuel ih =>
    intro s i sz t h
    unfold Fusioner.upLoopBU at h
    split at h
    · split at h
      · exact Option.noConfusion h
      · split at h
        · exact Option.noConfusion h
        · rename_i s1 h1
          split at h
          · exact (hrec s _ s1 h1).cover_trans (ih s1 _ _ t h)
          · exact (hrec s _ s1 h1).cover_trans (ih s1 _ _ t h)
    · injection h with h
      subst h
      exact CoverStep.cover_refl s

theorem processBU_cover (env : Env) : ∀ (fuel : Nat) (s : Fusioner) (group : Nat)
    (t : Fusioner), Fusioner.processBU env fuel s group = some t → CoverStep s t := by
  intro fuel
  induction fuel with
  | zero =>
    intro s group t h
    unfold Fusioner.processBU at h
    split at h
    · injection h with h
      subst h
      exact CoverStep.cover_refl s
    · split at h
      · injection h with h
        subst h
        exact CoverStep.cover_refl s
      · exact Option.noConfusion h
  | succ fuel ih =>
    intro s group t h
    unfold Fusioner.processBU at h
    split at h
    · injection h with h
      subst h
      exact CoverStep.cover_refl s
    · split at h
      · injection h with h
        subst h
        exact CoverStep.cover_refl s
      · dsimp only at h
        split at h
        · exact Option.noConfusion h
        · rename_i s2 group2 h2
          have hv : CoverStep s { s with visited := group :: s.visited } :=
            fun hi => ⟨hi, fun _ hn => hn⟩
          exact (hv.cover_trans (pipeLoopBU_cover env fuel _ group 0 s2 group2 h2)).cover_trans
            (upLoopBU_cover _ ih group2 fuel s2 0 _ t h)

theorem fuseGently_cover (env : Env) (fuel : Nat) (s : Fusioner) (list : List Nat)
    (t : Fusioner) (h : s.fuseGently env fuel list = some t) :
    CoverStep s t ∧ (CoverInv s → ∀ n ∈ list, t.group_list_of n ≠ []) := by
  unfold Fusioner.fuseGently at h
  have hstep : ∀ (u : Fusioner) (x : Nat) (v : Fusioner),
      (match u.process env x with
        | none => none
        | some s1 => s1.pipeGently env fuel x) = some v →
      CoverStep u v ∧ (CoverInv u → v.group_list_of x ≠ []) := by
    intro u x v hv
    split at hv
    · exact Option.noConfusion hv
    · rename_i s1 h1
      obtain ⟨c1, c2⟩ := process_cover env u x s1 h1
      have c3 := pipeGently_cover env fuel s1 x v hv
      exact ⟨c1.cover_trans c3, fun hi => (c3 (c1 hi).1).2 x c2⟩
  refine ⟨foldlM_rel CoverStep CoverStep.cover_refl (fun _ _ _ => CoverStep.cover_trans) _
    (fun u x v hv => (hstep u x v hv).1) _ _ _ h, ?_⟩
  intro hinv n hn
  obtain ⟨u, v, r1, r2, r3⟩ := foldlM_split CoverStep CoverStep.cover_refl
    (fun _ _ _ => CoverStep.cover_trans) _ (fun u x v hv => (hstep u x v hv).1) _ _ _ n hn h
  have hu := (r1 hinv).1
  have hv := (hstep u n v r2)
  exact (r3 (hv.1 hu).1).2 n (hv.2 hu)

theorem fuseFlat_cover (env : Env) (s : Fusioner) (list : List Nat) (t : Fusioner)
    (h : s.fuseFlat env list = some t) : CoverStep s t := by
  unfold Fusioner.fuseFlat at h
  exact foldlM_rel CoverStep CoverStep.cover_refl (fun _ _ _ => CoverStep.cover_trans) _
    (fun u x v hv => flatGently_cover env u x v hv) _ _ _ h

theorem fuseBU_cover (env : Env) (fuel : Nat) (s : Fusioner) (list : List Nat) (t : Fusioner)
    (h : s.fuseBU env fuel list = some t) : CoverStep s t := by
  unfold Fusioner.fuseBU at h
  refine foldlM_rel CoverStep CoverStep.cover_refl (fun _ _ _ => CoverStep.cover_trans) _
    ?_ _ _ _ h
  intro u x v hv
  split at hv
  · exact processBU_cover env fuel u _ v hv
  · exact Option.noConfusion hv

theorem clear_cover (s : Fusioner) : CoverInv s.clear := by
  refine ⟨?_, ?_, ?_, ?_, ?_⟩
  · intro n g hg
    exact absurd hg (List.not_mem_nil g)
  all_goals
    intro g hg
    exact absurd hg (List.not_mem_nil g)

theorem NextsRel.nexts_refl (env : Env) (node : Nat) (a : FwdState) : NextsRel env node a a :=
  ⟨fun h => h, fun _ h => h, fun _ _ h => h, fun _ _ h => h, fun _ h => Or.inl h⟩

theorem NextsRel.nexts_trans {env : Env} {node : Nat} {a b c : FwdState}
    (h1 : NextsRel env node a b) (h2 : NextsRel env node b c) : NextsRel env node a c := by
  obtain ⟨a1, a2, a3, a4, a5⟩ := h1
  obtain ⟨b1, b2, b3, b4, b5⟩ := h2
  refine ⟨fun h => b1 (a1 h), fun n h => b2 n (a2 n h), fun g x h => b3 g x (a3 g x h),
    fun n g h => b4 n g (a4 n g h), ?_⟩
  intro hin hc
  rcases b5 (a1 hin) hc with hb | hb
  · rcases a5 hin hb with ha | ⟨h, y, hy, hyb, hh⟩
    · exact Or.inl ha
    · exact Or.inr ⟨h, y, hy, b3 h y hyb, b4 node h hh⟩
  · exact Or.inr hb

theorem nexts_add (env : Env) (node : Nat) (st : FwdState) (ng y : Nat)
    (hy : y ∈ (env.dag node).nextList) (hng : ng ∈ st.fus.group_list_of y) (b : FwdState)
    (hgr : b.fus.groups = Function.update st.fus.groups ng
      ((st.fus.groups ng).addAutoNode node (env.dag node).pattern))
    (hglo : b.fus.group_list_of =
      Function.update st.fus.group_list_of node (st.fus.group_list_of node ++ [ng]))
    (hgl : b.fus.group_list = st.fus.group_list) : NextsRel env node st b := by
  have grow : ∀ g x, x ∈ (st.fus.groups g).node_list → x ∈ (b.fus.groups g).node_list := by
    intro g x hx
    rw [hgr, Function.update_apply]
    split
    · rename_i e
      subst e
      rw [(addAutoNode_fields _ _ _).1]
      exact List.mem_append_left _ hx
    · exact hx
  have hnew : node ∈ (b.fus.groups ng).node_list := by
    rw [hgr, Function.update_same, (addAutoNode_fields _ _ _).1]
    simp
  refine ⟨?_, ?_, grow, ?_, ?_⟩
  · intro hin n g hg
    rw [hglo, Function.update_apply] at hg
    rw [hgl]
    have old : g ∈ st.fus.group_list_of n →
        g ∈ st.fus.group_list ∧ n ∈ (b.fus.groups g).node_list :=
      fun h => ⟨(hin n g h).1, grow g n (hin n g h).2⟩
    split at hg
    · rename_i e
      rcases List.mem_append.1 hg with h | h
      · exact old (e ▸ h)
      · have hgn : g = ng := by simpa using h
        rw [hgn, e]
        exact ⟨(hin y ng hng).1, hnew⟩
    · exact old hg
  · intro n hn
    rw [hglo, Function.update_apply]
    split
    · simp
    · exact hn
  · intro n g hg
    rw [hglo, Function.update_apply]
    split
    · rename_i e
      exact List.mem_append_left _ (e ▸ hg)
    · exact hg
  · intro hin _
    refine Or.inr ⟨ng, y, hy, grow ng y (hin y ng hng).2, ?_⟩
    rw [hglo, Function.update_same]
    simp

theorem forwardInto_nexts (env : Env) (group node : Nat) (st : FwdState) (ng y : Nat)
    (hy : y ∈ (env.dag node).nextList) (hng : ng ∈ st.fus.group_list_of y) :
    NextsRel env node st (forwardInto env group node st ng) := by
  unfold forwardInto
  split
  · exact nexts_add env node st ng y hy hng _ rfl rfl rfl
  · exact NextsRel.nexts_refl env node st

theorem forwardIntoAll_nexts (env : Env) (group node y : Nat)
    (hy : y ∈ (env.dag node).nextList) : ∀ (l : List Nat) (st : FwdState),
    (∀ ng ∈ l, ng ∈ st.fus.group_list_of y) →
    NextsRel env node st (l.foldl (forwardInto env group node) st) := by
  intro l
  induction l with
  | nil => intro st _; exact NextsRel.nexts_refl env node st
  | cons ng rest ih =>
    intro st hl
    have h1 := forwardInto_nexts env group node st ng y hy (hl ng (List.mem_cons_self _ _))
    refine h1.nexts_trans (ih _ ?_)
    intro g hg
    exact h1.2.2.2.1 y g (hl g (List.mem_cons_of_mem _ hg))

theorem forwardNexts_nexts (env : Env) (group node : Nat) (st : FwdState) :
    NextsRel env node { st with forwarded := false } (forwardNexts env group node st) := by
  unfold forwardNexts
  refine foldl_rel_mem (NextsRel env node) (NextsRel.nexts_refl env node)
    (fun _ _ _ => NextsRel.nexts_trans) _ _ ?_ _
  intro u y hy
  exact forwardIntoAll_nexts env group node y hy _ u (fun _ h => h)

theorem forwardRemove_cover (env : Env) (group node : Nat) (st1 : FwdState)
    (hin : InBodies st1.fus)
    (hw : st1.forwarded = true → ∃ h y, y ∈ (env.dag node).nextList ∧
      y ∈ (st1.fus.groups h).node_list ∧ h ∈ st1.fus.group_list_of node) :
    InBodies (forwardRemove env group node st1).fus ∧
    ∀ n, st1.fus.group_list_of n ≠ [] →
      (forwardRemove env group node st1).fus.group_list_of n ≠ [] := by
  cases hf : st1.forwarded with
  | false =>
    have e : forwardRemove env group node st1 = st1 := by
      unfold forwardRemove
      rw [hf]
      rfl
    rw [e]
    exact ⟨hin, fun _ h => h⟩
  | true =>
    rcases forwardRemove_fus env group node st1 with e | ⟨hall, hgr, hglo, hgl⟩
    · rw [e]
      exact ⟨hin, fun _ h => h⟩
    · obtain ⟨h, y, hy, hyb, hh⟩ := hw hf
      have hne : h ≠ group := by
        intro e
        subst e
        exact hall y hy hyb
      refine ⟨?_, ?_⟩
      · intro n g hg
        rw [hglo, Function.update_apply] at hg
        rw [hgl, hgr, Function.update_apply]
        split at hg
        · rename_i e
          obtain ⟨h1, h2⟩ := (mem_remove_value group g _).1 hg
          rw [if_neg h2]
          rw [e]
          exact hin node g h1
        · rename_i e
          obtain ⟨h1, h2⟩ := hin n g hg
          refine ⟨h1, ?_⟩
          split
          · rename_i e2
            rw [(removeAutoNode_fields _ _).1]
            exact (mem_remove_value node n _).2 ⟨e2 ▸ h2, e⟩
          · exact h2
      · intro n hn
        rw [hglo, Function.update_apply]
        split
        · exact List.ne_nil_of_mem ((mem_remove_value group h _).2 ⟨hh, hne⟩)
        · exact hn

theorem FwdCover.fcover_refl (a : FwdState) : FwdCover a a := fun h => ⟨h, fun _ h => h⟩

theorem FwdCover.fcover_trans {a b c : FwdState} (h1 : FwdCover a b) (h2 : FwdCover b c) :
    FwdCover a c := fun h =>
  ⟨(h2 (h1 h).1).1, fun n hn => (h2 (h1 h).1).2 n ((h1 h).2 n hn)⟩

theorem forwardNode_cover (env : Env) (for_pred : Nat → Bool) (group : Nat) (st : FwdState)
    (node : Nat) : FwdCover st (forwardNode env for_pred group st node) := by
  unfold forwardNode
  split
  · exact FwdCover.fcover_refl st
  · intro hin
    obtain ⟨a1, a2, _, _, a5⟩ := forwardNexts_nexts env group node st
    have hin1 : InBodies (forwardNexts env group node st).fus := a1 hin
    have hw : (forwardNexts env group node st).forwarded = true → ∃ h y,
        y ∈ (env.dag node).nextList ∧
        y ∈ ((forwardNexts env group node st).fus.groups h).node_list ∧
        h ∈ (forwardNexts env group node st).fus.group_list_of node := by
      intro hf
      rcases a5 hin hf with h | h
      · exact Bool.noConfusion h
      · exact h
    obtain ⟨r1, r2⟩ := forwardRemove_cover env group node _ hin1 hw
    exact ⟨r1, fun n hn => r2 n (a2 n hn)⟩

theorem forwardNodes_cover (env : Env) (for_pred : Nat → Bool) (s : Fusioner) :
    FwdCover { fus := s, forward := [], forwarded := false } (s.forwardNodes env for_pred) := by
  unfold Fusioner.forwardNodes
  refine foldl_rel FwdCover FwdCover.fcover_refl (fun _ _ _ => FwdCover.fcover_trans) _ ?_ _ _
  intro u group
  exact foldl_rel FwdCover FwdCover.fcover_refl (fun _ _ _ => FwdCover.fcover_trans) _
    (forwardNode_cover env for_pred group) _ _

theorem unlinkGroups_edge (env : Env) (s : Fusioner) (forward : FwdLinks) :
    EdgeOnly s (s.unlinkGroups env forward) := by
  unfold Fusioner.unlinkGroups
  refine foldl_rel EdgeOnly EdgeOnly.edge_refl (fun _ _ _ => EdgeOnly.edge_trans) _ ?_ _ _
  intro u f
  show EdgeOnly u (if _ then _ else _)
  split
  · exact (EdgeOnly_modify u _ _ ⟨rfl, rfl, rfl⟩).edge_trans
      (EdgeOnly_modify _ _ _ ⟨rfl, rfl, rfl⟩)
  · exact EdgeOnly.edge_refl u

theorem forwarding_cover (env : Env) (for_pred : Nat → Bool) (s : Fusioner) (hin : InBodies s) :
    Covered (s.forwarding env for_pred) ∧
    ∀ n, s.group_list_of n ≠ [] → (s.forwarding env for_pred).group_list_of n ≠ [] := by
  obtain ⟨f1, f2⟩ := forwardNodes_cover env for_pred s hin
  obtain ⟨⟨e1, e2⟩, e3, _⟩ := unlinkGroups_edge env (s.forwardNodes env for_pred).fus
    (s.forwardNodes env for_pred).forward
  have hglo : (s.forwarding env for_pred).group_list_of =
      (s.forwardNodes env for_pred).fus.group_list_of := e1
  have hmem : ∀ g, g ∈ (s.forwarding env for_pred).group_list ↔
      g ∈ (s.forwardNodes env for_pred).fus.group_list ∧
      (((s.forwardNodes env for_pred).fus.unlinkGroups env
        (s.forwardNodes env for_pred).forward).groups g).all_nodes ≠ [] := by
    intro g
    unfold Fusioner.forwarding
    simp only [List.mem_filter, e3]
    simp
  refine ⟨⟨?_, ?_⟩, ?_⟩
  · intro n g hg
    rw [hglo] at hg
    obtain ⟨h1, h2⟩ := f1 n g hg
    rw [hmem]
    refine ⟨h1, ?_⟩
    apply List.ne_nil_of_mem
    rw [mem_all_nodes, (e2 g).1]
    exact Or.inr (Or.inl h2)
  · intro g hg
    exact ((hmem g).1 hg).2
  · intro n hn
    rw [hglo]
    exact f2 n hn

theorem AllGrow.all_refl (s : Fusioner) : AllGrow s s := ⟨rfl, rfl, fun _ _ h => h⟩

theorem AllGrow.all_trans {a b c : Fusioner} (h1 : AllGrow a b) (h2 : AllGrow b c) :
    AllGrow a c :=
  ⟨h2.1.trans h1.1, h2.2.1.trans h1.2.1, fun g x h => h2.2.2 g x (h1.2.2 g x h)⟩

theorem AllGrow_modify (s : Fusioner) (g : Nat) (f : Group → Group)
    (hf : ∀ x ∈ (s.groups g).all_nodes, x ∈ (f (s.groups g)).all_nodes) :
    AllGrow s (s.modify g f) := by
  refine ⟨rfl, rfl, fun h x hx => ?_⟩
  rw [modify_groups]
  by_cases e : h = g
  · subst e; rw [if_pos rfl]; exact hf x hx
  · rw [if_neg e]; exact hx

theorem addInputNode_all (g : Group) (n x : Nat) (hx : x ∈ g.all_nodes) :
    x ∈ (g.addInputNode n).all_nodes := by
  obtain ⟨f1, f2, _, _, _, f6⟩ := addInputNode_fields g n
  rw [mem_all_nodes] at hx ⊢
  rw [f1, f2]
  rcases hx with h | h
  · exact Or.inl (f6 x h)
  · exact Or.inr h

theorem addOutputNode_all (g : Group) (n x : Nat) (hx : x ∈ g.all_nodes) :
    x ∈ (g.addOutputNode n).all_nodes := by
  obtain ⟨f1, f2, _, _, _, f6⟩ := addOutputNode_fields g n
  rw [mem_all_nodes] at hx ⊢
  rw [f1, f2]
  rcases hx with h | h | h
  · exact Or.inl h
  · exact Or.inr (Or.inl h)
  · exact Or.inr (Or.inr (f6 x h))

theorem moveD0Free_all (env : Env) : ∀ (l : List Nat) (g : Group) (x : Nat),
    x ∈ g.all_nodes → x ∈ (moveD0Free env l g).all_nodes := by
  intro l
  induction l with
  | nil => intro g x hx; exact hx
  | cons n rest ih =>
    intro g x hx
    unfold moveD0Free
    split
    · apply ih
      by_cases e : x = n
      · subst e
        rw [mem_all_nodes]
        exact Or.inl (mem_addInputNode _ x)
      · apply addInputNode_all
        rw [mem_all_nodes] at hx ⊢
        rcases hx with h | h | h
        · exact Or.inl h
        · exact Or.inr (Or.inl ((mem_remove_value n x g.node_list).2 ⟨h, e⟩))
        · exact Or.inr (Or.inr h)
    · exact ih g x hx

theorem linking_grow (env : Env) (s t : Fusioner) (h : s.linking env = some t) :
    AllGrow s t := by
  unfold Fusioner.linking at h
  split at h
  · exact Option.noConfusion h
  rename_i s1 h1
  injection h with h
  subst h
  have hinto : ∀ (group node : Nat) (u : Fusioner) (ng : Nat) (v : Fusioner),
      linkInto group node u ng = some v → AllGrow u v := by
    intro group node u ng v hv
    unfold linkInto at hv
    split at hv
    · exact Option.noConfusion hv
    · split at hv
      · injection hv with hv
        subst hv
        exact (AllGrow_modify u group _ (fun x hx => addOutputNode_all _ node x hx)).all_trans
          (AllGrow_modify _ ng _ (fun x hx => addInputNode_all _ node x hx))
      · injection hv with hv
        subst hv
        exact AllGrow.all_refl u
  have hnode : ∀ (group : Nat) (u : Fusioner) (node : Nat) (v : Fusioner),
      linkNode env group u node = some v → AllGrow u v := by
    intro group u node v hv
    refine foldlM_rel AllGrow AllGrow.all_refl (fun _ _ _ => AllGrow.all_trans) _ ?_ _ u v hv
    intro a y b hb
    exact foldlM_rel AllGrow AllGrow.all_refl (fun _ _ _ => AllGrow.all_trans) _
      (hinto group node) _ a b hb
  have hb : AllGrow s s1 := by
    refine foldlM_rel AllGrow AllGrow.all_refl (fun _ _ _ => AllGrow.all_trans) _ ?_ _ s s1 h1
    intro u group v hv
    unfold linkGroup at hv
    split at hv
    · exact Option.noConfusion hv
    · exact foldlM_rel AllGrow AllGrow.all_refl (fun _ _ _ => AllGrow.all_trans) _
        (hnode group) _ u v hv
  have hi : AllGrow s1 (s1.linkIntra env) := by
    unfold Fusioner.linkIntra
    refine foldl_rel AllGrow AllGrow.all_refl (fun _ _ _ => AllGrow.all_trans) _ ?_ _ _
    intro u g
    show AllGrow u (if _ then _ else _)
    split
    · exact AllGrow.all_refl u
    · refine foldl_rel AllGrow AllGrow.all_refl (fun _ _ _ => AllGrow.all_trans) _ ?_ _ _
      intro v n
      show AllGrow v (if _ then _ else _)
      split
      · exact AllGrow.all_refl v
      · exact AllGrow_modify v g _ (fun x hx => addOutputNode_all _ n x hx)
  have hd : AllGrow (s1.linkIntra env) ((s1.linkIntra env).linkD0Free env) := by
    unfold Fusioner.linkD0Free
    refine foldl_rel AllGrow AllGrow.all_refl (fun _ _ _ => AllGrow.all_trans) _ ?_ _ _
    intro u g
    exact AllGrow_modify u g _ (fun x hx => moveD0Free_all env _ _ x hx)
  exact (hb.all_trans hi).all_trans hd

theorem insertBy_perm {α : Type} (lt : α → α → Option Bool) (x : α) :
    ∀ (l r : List α), insertBy lt x l = some r → r.Perm (x :: l) := by
  intro l
  induction l with
  | nil =>
    intro r h
    unfold insertBy at h
    injection h with h
    subst h
    exact List.Perm.refl _
  | cons y ys ih =>
    intro r h
    unfold insertBy at h
    split at h
    · exact Option.noConfusion h
    · injection h with h
      subst h
      exact List.Perm.refl _
    · split at h
      · exact Option.noConfusion h
      · rename_i r2 h2
        injection h with h
        subst h
        exact ((ih r2 h2).cons y).trans (List.Perm.swap x y ys)

theorem sortBy_perm {α : Type} (lt : α → α → Option Bool) :
    ∀ (l r : List α), sortBy lt l = some r → r.Perm l := by
  intro l
  induction l with
  | nil =>
    intro r h
    unfold sortBy at h
    injection h with h
    subst h
    exact List.Perm.refl _
  | cons x xs ih =>
    intro r h
    unfold sortBy at h
    split at h
    · exact Option.noConfusion h
    · rename_i r2 h2
      exact (insertBy_perm lt x r2 r h).trans ((ih r2 h2).cons x)

theorem sortNodes_all (env : Env) (g h : Group) (e : g.sortNodes env = some h) (x : Nat)
    (hx : x ∈ g.all_nodes) : x ∈ h.all_nodes := by
  unfold Group.sortNodes at e
  split at e
  · rename_i n i o en ei eo
    injection e with e
    subst e
    rw [mem_all_nodes] at hx ⊢
    rcases hx with h | h | h
    · exact Or.inl ((sortBy_perm _ _ _ ei).mem_iff.2 h)
    · exact Or.inr (Or.inl ((sortBy_perm _ _ _ en).mem_iff.2 h))
    · exact Or.inr (Or.inr ((sortBy_perm _ _ _ eo).mem_iff.2 h))
  · exact Option.noConfusion e

theorem sorting_grow (env : Env) (s t : Fusioner) (h : s.sorting env = some t) :
    t.group_list.Perm s.group_list ∧ t.group_list_of = s.group_list_of ∧
    ∀ g x, x ∈ (s.groups g).all_nodes → x ∈ (t.groups g).all_nodes := by
  unfold Fusioner.sorting at h
  split at h
  · exact Option.noConfusion h
  rename_i s1 h1
  split at h
  · exact Option.noConfusion h
  rename_i sorted h2
  injection h with h
  subst h
  have g1 : AllGrow s s1 := by
    refine foldlM_rel AllGrow AllGrow.all_refl (fun _ _ _ => AllGrow.all_trans) _ ?_ _ s s1 h1
    intro u x v hv
    cases hg : (u.groups x).sortNodes env with
    | none => rw [hg] at hv; exact Option.noConfusion hv
    | some g =>
      rw [hg] at hv
      injection hv with hv
      subst hv
      exact AllGrow_modify u x _ (fun y hy => sortNodes_all env _ g hg y hy)
  have g2 : AllGrow { s1 with group_list := sorted }
      ({ s1 with group_list := sorted } : Fusioner).numerate := by
    unfold Fusioner.numerate
    refine foldl_rel AllGrow AllGrow.all_refl (fun _ _ _ => AllGrow.all_trans) _ ?_ _ _
    intro u g
    have := AllGrow_modify u g (fun g => { g with id := u.id_count }) (fun x hx => hx)
    exact ⟨this.1, this.2.1, this.2.2⟩
  refine ⟨?_, g2.2.1.trans g1.2.1, fun g x hx => g2.2.2 g x (g1.2.2 g x hx)⟩
  rw [g2.1]
  show sorted.Perm s.group_list
  rw [← g1.1]
  exact sortBy_perm _ _ _ h2

/-- C5: at the end of `Fusioner::fuse` on any node list (whenever it returns), every node of
the list has at least one cluster and all its clusters are in the cluster list, and every
cluster of the cluster list has a node among its inputs, body and outputs. -/
theorem fuse_cluster_cover (env : Env) (fuel : Nat) (s : Fusioner) (list : List Nat)
    (t : Fusioner) (h : s.fuse env fuel list = some t) :
    (∀ n ∈ list, t.group_list_of n ≠ [] ∧ ∀ g ∈ t.group_list_of n, g ∈ t.group_list) ∧
    (∀ g ∈ t.group_list, (t.groups g).all_nodes ≠ []) := by
  unfold Fusioner.fuse at h
  split at h
  · exact Option.noConfusion h
  rename_i s1 h1
  split at h
  · exact Option.noConfusion h
  rename_i s2 h2
  split at h
  · exact Option.noConfusion h
  rename_i s3 h3
  split at h
  · exact Option.noConfusion h
  rename_i s5 h5
  obtain ⟨c1, n1⟩ := fuseGently_cover env fuel _ list s1 h1
  have i0 := clear_cover s
  have i1 := c1 i0
  have i2 := fuseFlat_cover env s1 list s2 h2 i1.1
  have i3 := fuseBU_cover env fuel s2 list s3 h3 i2.1
  obtain ⟨⟨k1, k2⟩, k3⟩ := forwarding_cover env (fun n => decide ((env.dag n).pattern = FREE)) s3
    i3.1.1
  obtain ⟨l1, l2, l3⟩ := linking_grow env _ s5 h5
  obtain ⟨p1, p2, p3⟩ := sorting_grow env s5 t h
  refine ⟨?_, ?_⟩
  · intro n hn
    rw [p2, l2]
    refine ⟨k3 n (i3.2 n (i2.2 n (n1 i0 n hn))), ?_⟩
    intro g hg
    rw [p1.mem_iff, l1]
    exact k1 n g hg
  · intro g hg
    rw [p1.mem_iff, l1] at hg
    obtain ⟨x, hx⟩ := List.exists_mem_of_ne_nil _ (k2 g hg)
    exact List.ne_nil_of_mem (p3 g x (l3 g x hx))

theorem fuse_cluster_cover_witness :
    ∃ t, Fusioner.fuse (Env.ofDag linkDag) 4 Fusioner.init [0, 1] = some t ∧
      (∀ n ∈ [0, 1], t.group_list_of n ≠ [] ∧ ∀ g ∈ t.group_list_of n, g ∈ t.group_list) ∧
      (∀ g ∈ t.group_list, (t.groups g).all_nodes ≠ []) := by
  have hs : (Fusioner.fuse (Env.ofDag linkDag) 4 Fusioner.init [0, 1]).isSome = true := rfl
  obtain ⟨t, ht⟩ := Option.isSome_iff_exists.1 hs
  exact ⟨t, ht, fuse_cluster_cover (Env.ofDag linkDag) 4 Fusioner.init [0, 1] t ht⟩

/-- C8 (as stated, refuted): with `code_fusion` off and a FREE node feeding a LOCAL node, the
FREE node is replicated into the cluster of its successor and its own cluster is dropped:
the final list has one cluster for two nodes, whose body holds both nodes. -/
theorem fuse_without_fusion_drops_free_cluster :
    noFusionEnv.code_fusion = false ∧
    ∃ s, Fusioner.fuse noFusionEnv 0 Fusioner.init [0, 1] = some s ∧
      s.group_list = [1] ∧ (s.groups 1).node_list = [0, 1] ∧ s.group_list_of 0 = [1] ∧
      ¬ Singletons s [0, 1] := by
  refine ⟨rfl, _, rfl, ?_, ?_, ?_, ?_⟩
  · decide
  · decide
  · decide
  · intro h
    exact absurd h.1 (by decide)

theorem fuse_without_fusion_singletons_witness :
    ∃ t, Fusioner.fuse linkEnvOff 0 Fusioner.init [0, 1] = some t ∧ Singletons t [0, 1] :=
  fuse_without_fusion_singletons linkEnvOff 0 Fusioner.init [0, 1] rfl (by decide) (by decide)
    (by decide)

/-! ## Notifications of `nextJobs` -/

theorem sum_indicator_bounds {α : Type} (p : α → Bool) (l : List α) :
    0 ≤ (l.map (fun x => if p x then (1 : Int) else 0)).sum ∧
    (l.map (fun x => if p x then (1 : Int) else 0)).sum ≤ (l.length : Int) := by
  rw [← length_filter_eq_sum]
  refine ⟨Int.ofNat_nonneg _, ?_⟩
  exact_mod_cast List.length_filter_le p l

/-- C13: `prevInterDepends(node, c)` is 0 when the pattern of the node is exactly INPUT or
exactly FREE, and otherwise the number of offsets `o` of the block space of the accumulated
input reach of the node for which `c + o` is in range; it is never negative and never exceeds
the size of that block space. -/
theorem prevInterDepends_count (T : Task) (node : Node) (c : Coord) :
    T.prevInterDepends node c =
      (if node.pattern = INPUT ∨ node.pattern = FREE then 0
       else ((((T.accuInputReach node c).blockSpace.filter
          (fun o => inRange (Coord.add c o) T.numblock)).length : Nat) : Int)) ∧
    0 ≤ T.prevInterDepends node c ∧
    T.prevInterDepends node c ≤ (((T.accuInputReach node c).blockSpace.length : Nat) : Int) := by
  have hb := sum_indicator_bounds (fun o => inRange (Coord.add c o) T.numblock)
    (T.accu_in_reach_of node)
  have hl := length_filter_eq_sum (fun o => inRange (Coord.add c o) T.numblock)
    (T.accu_in_reach_of node)
  rw [prevInterDepends_eq]
  unfold Node.dependWeight Task.accuInputReach Mask.blockSpace
  by_cases hp : node.pattern = INPUT ∨ node.pattern = FREE
  · rw [if_pos hp, if_pos hp]
    refine ⟨by simp, by simp, ?_⟩
    simp
  · rw [if_neg hp, if_neg hp, Int.one_mul]
    exact ⟨hl.symm, hb.1, hb.2⟩

/-- C14: `prevDependencies(c)` is the sum of `prevInterDepends(n, c)` over the input list plus
the sum of `prevIntraDepends(n, c)` over the output list; the generic task has
`prevIntraDepends` and `nextIntraDepends` constantly 0, so for it the value is the sum of
`prevInterDepends` over the inputs alone. -/
theorem prevDependencies_sum (T : Task) (c : Coord) :
    T.prevDependencies c =
      (T.inputList.map (fun n => T.prevInterDepends n c)).sum +
      (T.outputList.map (fun n => T.prevIntraDepends n c)).sum ∧
    (∀ (n : Node) (d : Coord), T.prevIntraDepends n d = 0 ∧ T.nextIntraDepends n d = 0) ∧
    T.prevDependencies c = (T.inputList.map (fun n => T.prevInterDepends n c)).sum := by
  refine ⟨?_, fun _ _ => ⟨rfl, rfl⟩, prevDependencies_eq T c⟩
  unfold Task.prevDependencies
  simp only [foldl_add_eq_sum]
  simp

theorem foldl_indicator_eq {α : Type} (p : α → Bool) (l : List α) (a : Int) :
    l.foldl (fun dep x => dep + (if p x then 1 else 0)) a = a + ((l.filter p).length : Int) := by
  rw [foldl_add_eq_sum (fun x => if p x then (1 : Int) else 0), length_filter_eq_sum]

theorem foldl_filter_sum {α : Type} (c : α → Bool) (f : α → Int) (l : List α) :
    ∀ a : Int, l.foldl (fun dep x => if c x then dep + f x else dep) a =
      a + ((l.filter c).map f).sum := by
  induction l with
  | nil => intro a; simp
  | cons x xs ih =>
    intro a
    rw [List.foldl_cons, ih]
    by_cases h : c x = true
    · simp [List.filter_cons, h]; ring
    · simp [List.filter_cons, h]

/-- C15 (as stated, refuted): the FOCAL node is consumed by one task, over two blocks.  Called
on that task for block 1 the method counts 1, but called on a task over a single block it
counts 0, because the offsets are tested against the block range of the task the method is
called on: the result depends on the called task and differs from the sum over the consuming
tasks of the offsets in their own range. -/
theorem nextInputDepends_depends_on_callee :
    exWideConsumer.nextInputDepends [exWideConsumer] (fun m _ => m) (fun _ => true)
      exFocalNode [1] = some 1 ∧
    exNarrowTask.nextInputDepends [exWideConsumer] (fun m _ => m) (fun _ => true)
      exFocalNode [1] = some 0 ∧
    nextInputDependsSpec [exWideConsumer] (fun m _ => m) exFocalNode [1] = 1 ∧
    exNarrowTask.nextInputDepends [exWideConsumer] (fun m _ => m) (fun _ => true)
      exFocalNode [1] ≠
      some (nextInputDependsSpec [exWideConsumer] (fun m _ => m) exFocalNode [1]) ∧
    exWideConsumer.nextInputDepends [exWideConsumer] (fun m _ => m) (fun _ => true)
      exFocalNode [1] ≠
      exNarrowTask.nextInputDepends [exWideConsumer] (fun m _ => m) (fun _ => true)
        exFocalNode [1] := by
  refine ⟨by decide, by decide, by decide, by decide, by decide⟩

/-- C15 (amended): for every input node and coordinate `c`, `nextInputDepends(node, c)` called
on a task `T` is the sum, over every task of the program whose input list contains the node,
of the number of offsets `o` of that consuming task's accumulated input reach of the node,
materialised with the block size of `T`, for which `c + o` is in the block range of `T`; the
assertion fails for a node that is not an input. -/
theorem nextInputDepends_sum (T : Task) (prog : List Task)
    (blockSpaceAt : Mask → List Int → List Coord) (isInput : Node → Bool) (node : Node)
    (c : Coord) :
    T.nextInputDepends prog blockSpaceAt isInput node c =
      if isInput node then
        some (((prog.filter (fun task => is_included node task.inputList)).map (fun task =>
          ((((blockSpaceAt (task.accuInputReach node c) T.blocksize).filter
            (fun o => inRange (Coord.add c o) T.numblock)).length : Nat) : Int))).sum)
      else none := by
  unfold Task.nextInputDepends
  by_cases h : isInput node = true
  · rw [if_pos h]
    simp only [h, Bool.not_true, Bool.false_eq_true, if_false, foldl_indicator_eq]
    congr 1
    have := foldl_filter_sum (fun task : Task => is_included node task.inputList)
      (fun task => ((((blockSpaceAt (task.accuInputReach node c) T.blocksize).filter
        (fun o => inRange (Coord.add c o) T.numblock)).length : Nat) : Int)) prog 0
    rw [Int.zero_add] at this
    exact this
  · rw [if_neg h]
    simp [h]

/-! ## Initial jobs and the end of a task -/

theorem foldl_push_eq_map {α β : Type} (f : α → β) (l : List α) :
    ∀ acc : List β, l.foldl (fun jv x => jv ++ [f x]) acc = acc ++ l.map f := by
  induction l with
  | nil => intro acc; simp
  | cons x xs ih => intro acc; rw [List.foldl_cons, ih]; simp

theorem foldl_mul_eq (l : List Int) : ∀ a : Int, l.foldl (· * ·) a = a * l.foldl (· * ·) 1 := by
  induction l with
  | nil => intro a; simp
  | cons x xs ih =>
    intro a
    rw [List.foldl_cons, List.foldl_cons, ih (a * x), ih (1 * x)]
    ring

theorem prod_cons (n : Int) (ns : NumBlock) : prod (n :: ns) = n * prod ns := by
  unfold prod
  rw [List.foldl_cons, foldl_mul_eq ns (1 * n)]
  ring

theorem length_iterSpace : ∀ (nb : NumBlock), (∀ n ∈ nb, 0 ≤ n) →
    (((iterSpace nb).length : Nat) : Int) = prod nb := by
  intro nb
  induction nb with
  | nil => intro _; rfl
  | cons n ns ih =>
    intro h
    have hn : 0 ≤ n := h n (List.mem_cons_self _ _)
    have hns := ih (fun m hm => h m (List.mem_cons_of_mem _ hm))
    rw [prod_cons, ← hns]
    simp only [iterSpace]
    rw [length_flatMap_int]
    simp only [List.length_map, List.length_range]
    rw [List.map_const', List.sum_replicate, Int.toNat_of_nonneg hn, nsmul_eq_mul]
    ring

/-- C16: `initialJobs` appends exactly one job per block coordinate of `[0, numblock)`: all
appended jobs have iteration 0 and an in-range coordinate, their coordinates are pairwise
distinct and cover the range, and their number is `prod(numblock)`, the value that the
constructor stores in `self_jobs_count[0]`. -/
theorem initialJobs_one_per_block (T : Task) (job_vec : List Job)
    (hnb : ∀ n ∈ T.numblock, 0 ≤ n) :
    T.initialJobs job_vec = job_vec ++ (iterSpace T.numblock).map (Job.ofCoord T.id) ∧
    (∀ j ∈ (iterSpace T.numblock).map (Job.ofCoord T.id),
      j.task = T.id ∧ j.iter = 0 ∧ inRange j.coord T.numblock = true) ∧
    (((iterSpace T.numblock).map (Job.ofCoord T.id)).map Job.coord).Nodup ∧
    (∀ c, inRange c T.numblock = true →
      c ∈ ((iterSpace T.numblock).map (Job.ofCoord T.id)).map Job.coord) ∧
    ((((iterSpace T.numblock).map (Job.ofCoord T.id)).length : Nat) : Int) = prod T.numblock ∧
    T.selfJobsCount0 0 =
      some ((((iterSpace T.numblock).map (Job.ofCoord T.id)).length : Nat) : Int) := by
  have hmap : ((iterSpace T.numblock).map (Job.ofCoord T.id)).map Job.coord =
      iterSpace T.numblock := by
    rw [List.map_map]
    exact List.map_id _
  have hlen : ((((iterSpace T.numblock).map (Job.ofCoord T.id)).length : Nat) : Int) =
      prod T.numblock := by
    rw [List.length_map]
    exact length_iterSpace T.numblock hnb
  refine ⟨foldl_push_eq_map _ _ _, ?_, ?_, ?_, hlen, ?_⟩
  · intro j hj
    obtain ⟨c, hc, rfl⟩ := List.mem_map.1 hj
    exact ⟨rfl, rfl, (mem_iterSpace _ _).1 hc⟩
  · rw [hmap]
    exact nodup_iterSpace _
  · intro c hc
    rw [hmap]
    exact (mem_iterSpace _ _).2 hc
  · rw [hlen]
    unfold Task.selfJobsCount0
    rw [Function.update_same]

theorem initialJobs_one_per_block_witness :
    (exScalarConsumer.initialJobs []).length = 4 ∧
    exScalarConsumer.selfJobsCount0 0 = some 4 := by
  obtain ⟨h1, _, _, _, h5, h6⟩ := initialJobs_one_per_block exScalarConsumer [] (by decide)
  refine ⟨?_, ?_⟩
  · rw [h1]
    decide
  · rw [h6, h5]
    decide

theorem postWork_decrement (s : WorkState) (iter : Int) (tid : ThreadId) (n : Int)
    (hn : s.self_jobs_count iter = some n) (h2 : 2 ≤ n) :
    ∃ s1, Task.postWork s iter tid = some s1 ∧ s1.last = s.last ∧
      s1.self_jobs_count iter = some (n - 1) := by
  refine ⟨{ s with self_jobs_count := Function.update s.self_jobs_count iter (some (n - 1)) },
    ?_, rfl, ?_⟩
  · unfold Task.postWork
    simp only [hn, Option.getD_some]
    rw [if_neg (by omega), if_neg (by omega)]
  · show Function.update s.self_jobs_count iter (some (n - 1)) iter = _
    rw [Function.update_same]

theorem postWork_reaches_zero (s : WorkState) (iter : Int) (tid : ThreadId)
    (hn : s.self_jobs_count iter = some 1) :
    ∃ s1, Task.postWork s iter tid = some s1 ∧ s1.last = tid ∧
      s1.self_jobs_count iter = none := by
  refine ⟨{ self_jobs_count := Function.update s.self_jobs_count iter none, last := tid },
    ?_, rfl, ?_⟩
  · unfold Task.postWork
    simp only [hn, Option.getD_some]
    rw [if_neg (by omega), if_pos (by omega)]
  · show Function.update s.self_jobs_count iter none iter = _
    rw [Function.update_same]

/-- C17: for an iteration whose `self_jobs_count` entry is `n >= 1`, in a sequence of `n`
calls of `postWork` for that iteration the first `n - 1` calls leave `last` unchanged and
decrement the entry by one each, and the `n`-th call sets `last` to its calling thread and
erases the entry. -/
theorem postWork_last_on_nth_call : ∀ (tids : List ThreadId) (s : WorkState) (iter : Int)
    (n : Int), s.self_jobs_count iter = some n → 1 ≤ n → (tids.length : Int) = n →
    (∀ m, m < tids.length →
      ∃ sm, Task.postWorkSeq s iter (tids.take m) = some sm ∧ sm.last = s.last ∧
        sm.self_jobs_count iter = some (n - m)) ∧
    (∃ sk t, Task.postWorkSeq s iter tids = some sk ∧ tids.getLast? = some t ∧
      sk.last = t ∧ sk.self_jobs_count iter = none) := by
  intro tids
  induction tids with
  | nil => intro s iter n _ h1 hlen; simp at hlen; omega
  | cons t rest ih =>
    intro s iter n hn h1 hlen
    have hzero : ∃ sm, Task.postWorkSeq s iter ((t :: rest).take 0) = some sm ∧
        sm.last = s.last ∧ sm.self_jobs_count iter = some (n - (0 : Nat)) :=
      ⟨s, rfl, rfl, by simpa using hn⟩
    cases rest with
    | nil =>
      have hn1 : n = 1 := by simp at hlen; omega
      subst hn1
      obtain ⟨s1, e1, e2, e3⟩ := postWork_reaches_zero s iter t hn
      refine ⟨?_, s1, t, ?_, rfl, e2, e3⟩
      · intro m hm
        have hm0 : m = 0 := by simp at hm; omega
        subst hm0
        exact hzero
      · simp [Task.postWorkSeq, e1]
    | cons t2 rest2 =>
      have hlen2 : (((t2 :: rest2).length : Nat) : Int) = n - 1 := by
        simp only [List.length_cons] at hlen ⊢
        push_cast at hlen ⊢
        omega
      have h2 : 2 ≤ n := by
        have : (0 : Int) ≤ ((rest2.length : Nat) : Int) := Int.ofNat_nonneg _
        simp only [List.length_cons] at hlen2
        push_cast at hlen2
        omega
      obtain ⟨s1, e1, e2, e3⟩ := postWork_decrement s iter t n hn h2
      obtain ⟨i1, sk, tl, i2, i3, i4, i5⟩ := ih s1 iter (n - 1) e3 (by omega) hlen2
      refine ⟨?_, sk, tl, ?_, ?_, i4, i5⟩
      · intro m hm
        cases m with
        | zero => exact hzero
        | succ k =>
          have hk : k < (t2 :: rest2).length := by
            simp only [List.length_cons] at hm ⊢
            omega
          obtain ⟨sm, f1, f2, f3⟩ := i1 k hk
          refine ⟨sm, ?_, f2.trans e2, ?_⟩
          · rw [List.take_succ_cons]
            simp only [Task.postWorkSeq, e1, Option.some_bind]
            exact f1
          · rw [f3]
            congr 1
            push_cast
            ring
      · simp only [Task.postWorkSeq, e1, Option.some_bind]
        exact i2
      · rw [List.getLast?_cons_cons]
        exact i3

theorem postWork_last_on_nth_call_witness :
    (∀ m, m < [7, 8, 9].length →
      ∃ sm, Task.postWorkSeq exWorkState 0 ([7, 8, 9].take m) = some sm ∧
        sm.last = exWorkState.last ∧ sm.self_jobs_count 0 = some ((3 : Int) - (m : Int))) ∧
    (∃ sk t, Task.postWorkSeq exWorkState 0 [7, 8, 9] = some sk ∧
      [7, 8, 9].getLast? = some t ∧ sk.last = t ∧ sk.self_jobs_count 0 = none) :=
  postWork_last_on_nth_call [7, 8, 9] exWorkState 0 3 (by decide) (by decide) (by decide)

/-- C18: `Task::compute` dispatches the kernel exactly when some output block is neither
fixed nor forwarded; when every output block is fixed or forwarded (also when there is no
output block) it increments the counter NOT_COMPUTED once, leaves COMPUTED as it is and does
not dispatch.  A version is assumed to exist (the assertion of `compute`). -/
theorem compute_dispatch_iff (clock : Clock) (out_blk : List Block) :
    ∃ r, Task.compute true clock out_blk = some r ∧
      (r.dispatched = true ↔ ∃ b ∈ out_blk, b.fixed = false ∧ b.forward = false) ∧
      ((∀ b ∈ out_blk, b.fixed = true ∨ b.forward = true) →
        r.dispatched = false ∧ r.clock.not_computed = clock.not_computed + 1 ∧
        r.clock.computed = clock.computed) ∧
      (r.dispatched = true →
        r.clock.not_computed = clock.not_computed ∧ r.clock.computed = clock.computed + 1) := by
  unfold Task.compute
  by_cases h : out_blk.all (fun b => b.fixed || b.forward) = true
  · have hall : ∀ b ∈ out_blk, b.fixed = true ∨ b.forward = true := by
      intro b hb
      have := List.all_eq_true.1 h b hb
      simpa using this
    refine ⟨ComputeResult.mk (Clock.mk (clock.not_computed + 1) clock.computed) false,
      by simp only [Bool.not_true, Bool.false_eq_true, if_false, if_pos h], ?_, ?_, ?_⟩
    · constructor
      · intro hd
        exact Bool.noConfusion hd
      · rintro ⟨b, hb, h1, h2⟩
        rcases hall b hb with h3 | h3
        · rw [h1] at h3; exact Bool.noConfusion h3
        · rw [h2] at h3; exact Bool.noConfusion h3
    · intro _
      exact ⟨rfl, rfl, rfl⟩
    · intro hd
      exact Bool.noConfusion hd
  · have hex : ∃ b ∈ out_blk, b.fixed = false ∧ b.forward = false := by
      by_contra hc
      apply h
      rw [List.all_eq_true]
      intro b hb
      by_contra hb2
      apply hc
      refine ⟨b, hb, ?_⟩
      cases hf : b.fixed <;> cases hw : b.forward <;> simp [hf, hw] at hb2 ⊢
    refine ⟨ComputeResult.mk (Clock.mk clock.not_computed (clock.computed + 1)) true,
      by simp only [Bool.not_true, Bool.false_eq_true, if_false, if_neg h], ?_, ?_, ?_⟩
    · exact ⟨fun _ => hex, fun _ => rfl⟩
    · intro hall
      obtain ⟨b, hb, h1, h2⟩ := hex
      rcases hall b hb with h3 | h3
      · rw [h1] at h3; exact Bool.noConfusion h3
      · rw [h2] at h3; exact Bool.noConfusion h3
    · intro _
      exact ⟨rfl, rfl⟩

theorem compute_dispatch_iff_witness :
    ∃ r, Task.compute true ⟨0, 0⟩ [] = some r ∧ r.dispatched = false ∧
      r.clock.not_computed = 1 ∧ r.clock.computed = 0 := by
  obtain ⟨r, h1, _, h3, _⟩ := compute_dispatch_iff ⟨0, 0⟩ []
  obtain ⟨a, b, c⟩ := h3 (fun b hb => absurd hb (List.not_mem_nil b))
  exact ⟨r, h1, a, b, c⟩

/-! ## Loop tails -/

/-- C19 (fails on the code): the tail made by `LoopTail::Factory(prev)` has `prev` as its only
predecessor, at index 0 of `prev_list`, so the accessor `prev()`, which reads `prev_list[1]`,
reads outside the list. -/
theorem LoopTail_prev_reads_outside (d : Dag) (prev : Nat) :
    ((LoopTail.Factory d prev).1.objs (LoopTail.Factory d prev).2).prev_list = [prev] ∧
    LoopTail.prev (LoopTail.Factory d prev).1 (LoopTail.Factory d prev).2 = none := by
  have h : ((LoopTail.Factory d prev).1.objs (LoopTail.Factory d prev).2).prev_list = [prev] := by
    unfold LoopTail.Factory Dag.addNext Dag.addPrev
    dsimp only
    by_cases e : d.count = prev
    · subst e
      simp [Function.update_same, DagNode.ofMeta]
    · rw [Function.update_noteq e, Function.update_same, Function.update_same]
      rfl
  refine ⟨h, ?_⟩
  unfold LoopTail.prev
  rw [h]
  rfl

/-- C20 (as stated, refuted): two calls of `LoopTail::Factory` with the same predecessor, the
node of handle 0, return the handles 1 and 2. -/
theorem LoopTail_Factory_twice_differs :
    (LoopTail.Factory exDag 0).2 = 1 ∧
    (LoopTail.Factory (LoopTail.Factory exDag 0).1 0).2 = 2 ∧
    (LoopTail.Factory exDag 0).2 ≠ (LoopTail.Factory (LoopTail.Factory exDag 0).1 0).2 := by
  refine ⟨rfl, rfl, ?_⟩
  decide

/-- C20 (amended): `LoopTail::Factory` does no common-subexpression elimination: every call
allocates a new node, so two calls with the same predecessor return distinct handles, the
second one a handle that was not allocated before the first call, and the predecessor has
both tails as successors. -/
theorem LoopTail_Factory_allocates (d : Dag) (prev : Nat) :
    (LoopTail.Factory d prev).2 = d.count ∧
    (LoopTail.Factory d prev).1.count = d.count + 1 ∧
    (LoopTail.Factory (LoopTail.Factory d prev).1 prev).2 ≠ (LoopTail.Factory d prev).2 ∧
    (LoopTail.Factory d prev).2 ∈ ((LoopTail.Factory d prev).1.objs prev).next_list := by
  refine ⟨rfl, rfl, ?_, ?_⟩
  · show d.count + 1 ≠ d.count
    omega
  · unfold LoopTail.Factory Dag.addNext Dag.addPrev
    dsimp only
    rw [Function.update_same]
    simp

/-! ## Acyclicity of the cluster graph -/

theorem contract_edge_acyclic {E F : Nat → Nat → Prop} (top bot : Nat)
    (hac : ∀ g, ¬ Relation.TransGen E g g)
    (hedge : ∀ a b, F a b → E a b ∨ (b = top ∧ E a bot ∧ a ≠ top) ∨ (a = top ∧ E bot b))
    (htb : E top bot)
    (hno : ∀ x, E top x → x ≠ bot → ¬ Relation.TransGen E x bot) :
    ∀ g, ¬ Relation.TransGen F g g := by
  have hJ : ∀ a b, Relation.TransGen F a b →
      Relation.TransGen E a b ∨
      ((∃ p, Relation.ReflTransGen E a p ∧ p ≠ top ∧ E p bot) ∧
        (b = top ∨ Relation.TransGen E top b)) := by
    intro a b h
    induction h with
    | single h =>
      rcases hedge _ _ h with h1 | ⟨h1, h2, h3⟩ | ⟨h1, h2⟩
      · exact Or.inl (Relation.TransGen.single h1)
      · exact Or.inr ⟨⟨a, Relation.ReflTransGen.refl, h3, h2⟩, Or.inl h1⟩
      · subst h1
        exact Or.inl ((Relation.TransGen.single htb).tail h2)
    | @tail b c _ h2 ih =>
      rcases hedge _ _ h2 with h1 | ⟨h1, h3, h4⟩ | ⟨h1, h3⟩
      · rcases ih with i1 | ⟨i1, i2⟩
        · exact Or.inl (i1.tail h1)
        · refine Or.inr ⟨i1, Or.inr ?_⟩
          rcases i2 with i2 | i2
          · subst i2; exact Relation.TransGen.single h1
          · exact i2.tail h1
      · rcases ih with i1 | ⟨i1, _⟩
        · exact Or.inr ⟨⟨b, i1.to_reflTransGen, h4, h3⟩, Or.inl h1⟩
        · exact Or.inr ⟨i1, Or.inl h1⟩
      · subst h1
        rcases ih with i1 | ⟨⟨p, p1, _, p3⟩, _⟩
        · exact Or.inl ((i1.tail htb).tail h3)
        · exact Or.inl ((Relation.TransGen.tail' p1 p3).tail h3)
  intro g hg
  rcases hJ g g hg with h | ⟨⟨p, p1, p2, p3⟩, h⟩
  · exact hac g h
  · have hrt : Relation.ReflTransGen E top p := by
      rcases h with h | h
      · subst h; exact p1
      · exact h.to_reflTransGen.trans p1
    have ht : Relation.TransGen E top p := by
      rcases Relation.reflTransGen_iff_eq_or_transGen.1 hrt with h1 | h1
      · exact absurd h1 p2
      · exact h1
    obtain ⟨x, hx1, hx2⟩ := Relation.TransGen.head'_iff.1 ht
    have hxb : Relation.TransGen E x bot := Relation.TransGen.tail' hx2 p3
    by_cases e : x = bot
    · subst e; exact hac _ hxb
    · exact hno x hx1 e hxb

theorem merge_unrelated_acyclic {E F : Nat → Nat → Prop} (left right : Nat)
    (hac : ∀ g, ¬ Relation.TransGen E g g)
    (hedge : ∀ a b, F a b → E a b ∨ (b = left ∧ E a right) ∨ (a = left ∧ E right b))
    (hlr : ¬ Relation.TransGen E left right) (hrl : ¬ Relation.TransGen E right left) :
    ∀ g, ¬ Relation.TransGen F g g := by
  have hJ : ∀ a b, Relation.TransGen F a b →
      Relation.TransGen E a b ∨
      ((a = left ∨ Relation.TransGen E a left ∨ Relation.TransGen E a right) ∧
        (b = left ∨ Relation.TransGen E left b ∨ Relation.TransGen E right b)) := by
    intro a b h
    induction h with
    | single h =>
      rcases hedge _ _ h with h1 | ⟨h1, h2⟩ | ⟨h1, h2⟩
      · exact Or.inl (Relation.TransGen.single h1)
      · exact Or.inr ⟨Or.inr (Or.inr (Relation.TransGen.single h2)), Or.inl h1⟩
      · exact Or.inr ⟨Or.inl h1, Or.inr (Or.inr (Relation.TransGen.single h2))⟩
    | @tail b c _ h2 ih =>
      rcases hedge _ _ h2 with h1 | ⟨h1, h3⟩ | ⟨h1, h3⟩
      · rcases ih with i1 | ⟨i1, i2⟩
        · exact Or.inl (i1.tail h1)
        · refine Or.inr ⟨i1, Or.inr ?_⟩
          rcases i2 with i2 | i2 | i2
          · subst i2; exact Or.inl (Relation.TransGen.single h1)
          · exact Or.inl (i2.tail h1)
          · exact Or.inr (i2.tail h1)
      · rcases ih with i1 | ⟨i1, _⟩
        · exact Or.inr ⟨Or.inr (Or.inr (i1.tail h3)), Or.inl h1⟩
        · exact Or.inr ⟨i1, Or.inl h1⟩
      · subst h1
        rcases ih with i1 | ⟨i1, _⟩
        · exact Or.inr ⟨Or.inr (Or.inl i1), Or.inr (Or.inr (Relation.TransGen.single h3))⟩
        · exact Or.inr ⟨i1, Or.inr (Or.inr (Relation.TransGen.single h3))⟩
  intro g hg
  obtain ⟨b, hb1, hb2⟩ := Relation.TransGen.tail'_iff.1 hg
  have hlast := hedge _ _ hb2
  rcases Relation.reflTransGen_iff_eq_or_transGen.1 hb1 with e | hgb
  · subst e
    rcases hlast with h1 | ⟨h1, h2⟩ | ⟨h1, h2⟩
    · exact hac _ (Relation.TransGen.single h1)
    · subst h1; exact hlr (Relation.TransGen.single h2)
    · subst h1; exact hrl (Relation.TransGen.single h2)
  · rcases hJ g b hgb with i1 | ⟨i1, i2⟩
    · rcases hlast with h1 | ⟨h1, h2⟩ | ⟨h1, h2⟩
      · exact hac _ (i1.tail h1)
      · subst h1; exact hlr (i1.tail h2)
      · subst h1; exact hrl ((Relation.TransGen.single h2).trans i1)
    · rcases hlast with h1 | ⟨h1, h2⟩ | ⟨h1, h2⟩
      · have ho : Relation.TransGen E left g ∨ Relation.TransGen E right g := by
          rcases i2 with i2 | i2 | i2
          · subst i2; exact Or.inl (Relation.TransGen.single h1)
          · exact Or.inl (i2.tail h1)
          · exact Or.inr (i2.tail h1)
        rcases i1 with i1 | i1 | i1
        · subst i1
          rcases ho with ho | ho
          · exact hac _ ho
          · exact hrl ho
        · rcases ho with ho | ho
          · exact hac _ (ho.trans i1)
          · exact hrl (ho.trans i1)
        · rcases ho with ho | ho
          · exact hlr (ho.trans i1)
          · exact hac _ (ho.trans i1)
      · rcases i2 with i2 | i2 | i2
        · subst i2; exact hlr (Relation.TransGen.single h2)
        · exact hlr (i2.tail h2)
        · exact hac _ (i2.tail h2)
      · subst h1
        rcases i1 with i1 | i1 | i1
        · subst i1; exact hrl (Relation.TransGen.single h2)
        · exact hrl ((Relation.TransGen.single h2).trans i1)
        · exact hac _ ((Relation.TransGen.single h2).trans i1)

theorem isNextFuel_of_chain (groups : Nat → Group) : ∀ (l : List Nat) (x fuel : Nat)
    (hne : l ≠ []), List.Chain (fun a b => b ∈ (groups a).nextList) x l → l.length ≤ fuel →
    isNextFuel groups fuel x (l.getLast hne) = true := by
  intro l
  induction l with
  | nil => intro x fuel hne; exact absurd rfl hne
  | cons c rest ih =>
    intro x fuel hne hch hlen
    rw [List.chain_cons] at hch
    cases fuel with
    | zero => simp at hlen
    | succ f =>
      unfold isNextFuel
      cases rest with
      | nil =>
        have : is_included c (groups x).nextList = true := by
          simpa [is_included] using hch.1
        simp [this]
      | cons d rest2 =>
        have hlen2 : (d :: rest2).length ≤ f := by
          simp only [List.length_cons] at hlen ⊢
          omega
        have h2 := ih c f (List.cons_ne_nil d rest2) hch.2 hlen2
        rw [Bool.or_eq_true]
        right
        rw [List.any_eq_true]
        refine ⟨c, hch.1, ?_⟩
        rw [List.getLast_cons (List.cons_ne_nil d rest2)]
        exact h2

theorem chain_targets {E : Nat → Nat → Prop} : ∀ (l : List Nat) (x : Nat),
    List.Chain E x l → ∀ y ∈ l, ∃ a, E a y := by
  intro l
  induction l with
  | nil => intro x _ y hy; exact absurd hy (List.not_mem_nil y)
  | cons c rest ih =>
    intro x hch y hy
    rw [List.chain_cons] at hch
    rcases List.mem_cons.1 hy with e | hy
    · subst e; exact ⟨x, hch.1⟩
    · exact ih c hch.2 y hy

theorem length_le_of_nodup_lt (l : List Nat) (n : Nat) (hnd : l.Nodup) (hlt : ∀ y ∈ l, y < n) :
    l.length ≤ n := by
  have hsub : l ⊆ List.range n := fun y hy => List.mem_range.2 (hlt y hy)
  have := (List.subperm_of_subset hnd hsub).length_le
  rwa [List.length_range] at this

theorem isNext_complete (s : Fusioner) (hw : s.WellLinked) (hac : s.Acyclic) (x b : Nat)
    (h : Relation.TransGen s.nextEdge x b) : s.isNext x b = true := by
  obtain ⟨c, hxc, hcb⟩ := Relation.TransGen.head'_iff.1 h
  obtain ⟨l, hl, hlast⟩ := List.exists_chain_of_relationReflTransGen hcb
  have hch : List.Chain s.nextEdge x (c :: l) := List.Chain.cons hxc hl
  have hpw : List.Pairwise (Relation.TransGen s.nextEdge) (x :: c :: l) :=
    List.chain_iff_pairwise.1 (hch.imp (fun _ _ h => Relation.TransGen.single h))
  have hnd : (c :: l).Nodup := by
    refine (List.pairwise_cons.1 hpw).2.imp ?_
    intro a b hab e
    subst e
    exact hac _ hab
  have hlt : ∀ y ∈ c :: l, y < s.num_groups := by
    intro y hy
    obtain ⟨a, ha⟩ := chain_targets (c :: l) x hch y hy
    exact hw.1 y ha.2.1
  have hlen := length_le_of_nodup_lt (c :: l) s.num_groups hnd hlt
  have := isNextFuel_of_chain s.groups (c :: l) x s.num_groups (List.cons_ne_nil c l)
    (hch.imp (fun _ _ h => h.2.2)) hlen
  rw [hlast] at this
  exact this

theorem addEdge_fst (l : List (Nat × Pattern)) (x : Nat) (p : Pattern) (b : Nat)
    (hb : b ∈ (addEdge l x p).map Prod.fst) : b ∈ l.map Prod.fst ∨ b = x := by
  unfold addEdge at hb
  split at hb
  · left
    obtain ⟨e, he, rfl⟩ := List.mem_map.1 hb
    obtain ⟨e0, he0, rfl⟩ := List.mem_map.1 he
    refine List.mem_map.2 ⟨e0, he0, ?_⟩
    split <;> rfl
  · rw [List.map_append, List.mem_append] at hb
    rcases hb with h | h
    · exact Or.inl h
    · right
      simpa using h

theorem EW_modify {gl : List Nat} {A : Nat → Nat → Prop} {u : Fusioner}
    (hE : EdgesWithin gl A u) (g : Nat) (f : Group → Group)
    (hnext : ∀ b ∈ (f (u.groups g)).nextList, b ∈ (u.groups g).nextList ∨ A g b)
    (hprev : ∀ b ∈ (f (u.groups g)).prevList, b ∈ (u.groups g).prevList ∨ A b g) :
    EdgesWithin gl A (u.modify g f) := by
  refine ⟨hE.1, fun a ha => ?_⟩
  rw [modify_groups]
  by_cases e : a = g
  · subst e
    rw [if_pos rfl]
    refine ⟨fun b hb => ?_, fun b hb => ?_⟩
    · rcases hnext b hb with h | h
      · exact (hE.2 a ha).1 b h
      · exact h
    · rcases hprev b hb with h | h
      · exact (hE.2 a ha).2 b h
      · exact h
  · rw [if_neg e]
    exact hE.2 a ha

theorem EW_addNext {gl : List Nat} {A : Nat → Nat → Prop} {u : Fusioner}
    (hE : EdgesWithin gl A u) (g x : Nat) (pat : Group → Pattern) (hA : A g x) :
    EdgesWithin gl A (u.modify g (fun h => h.addNext x (pat h))) := by
  refine EW_modify hE g _ ?_ (fun b hb => Or.inl hb)
  intro b hb
  rcases addEdge_fst _ _ _ b hb with h | h
  · exact Or.inl h
  · exact Or.inr (h ▸ hA)

theorem EW_addPrev {gl : List Nat} {A : Nat → Nat → Prop} {u : Fusioner}
    (hE : EdgesWithin gl A u) (g x : Nat) (pat : Group → Pattern) (hA : A x g) :
    EdgesWithin gl A (u.modify g (fun h => h.addPrev x (pat h))) := by
  refine EW_modify hE g _ (fun b hb => Or.inl hb) ?_
  intro b hb
  rcases addEdge_fst _ _ _ b hb with h | h
  · exact Or.inl h
  · exact Or.inr (h ▸ hA)

theorem EW_removeNext {gl : List Nat} {A : Nat → Nat → Prop} {u : Fusioner}
    (hE : EdgesWithin gl A u) (g x : Nat) :
    EdgesWithin gl A (u.modify g (fun h => h.removeNext x)) := by
  refine EW_modify hE g _ ?_ (fun b hb => Or.inl hb)
  intro b hb
  left
  obtain ⟨e, he, rfl⟩ := List.mem_map.1 hb
  exact List.mem_map.2 ⟨e, (List.mem_filter.1 he).1, rfl⟩

theorem EW_removePrev {gl : List Nat} {A : Nat → Nat → Prop} {u : Fusioner}
    (hE : EdgesWithin gl A u) (g x : Nat) :
    EdgesWithin gl A (u.modify g (fun h => h.removePrev x)) := by
  refine EW_modify hE g _ (fun b hb => Or.inl hb) ?_
  intro b hb
  left
  obtain ⟨e, he, rfl⟩ := List.mem_map.1 hb
  exact List.mem_map.2 ⟨e, (List.mem_filter.1 he).1, rfl⟩

theorem EW_sameEdges {gl : List Nat} {A : Nat → Nat → Prop} {u : Fusioner}
    (hE : EdgesWithin gl A u) (g : Nat) (f : Group → Group)
    (hf : ∀ h, (f h).next_list = h.next_list ∧ (f h).prev_list = h.prev_list) :
    EdgesWithin gl A (u.modify g f) := by
  refine EW_modify hE g f ?_ ?_
  · intro b hb
    left
    unfold Group.nextList at hb ⊢
    rwa [(hf _).1] at hb
  · intro b hb
    left
    unfold Group.prevList at hb ⊢
    rwa [(hf _).2] at hb

theorem moveNodes_EW {gl : List Nat} {A : Nat → Nat → Prop} (env : Env) (s : Fusioner)
    (src dst : Nat) (hE : EdgesWithin gl A s) : EdgesWithin gl A (s.moveNodes env src dst) := by
  have hstep : ∀ (add : Group → Nat → Group),
      (∀ h n, (add h n).next_list = h.next_list ∧ (add h n).prev_list = h.prev_list) →
      ∀ (l : List Nat) (u : Fusioner), EdgesWithin gl A u →
        EdgesWithin gl A (l.foldl (fun u node => u.moveNode src dst add node) u) := by
    intro add hadd l
    refine foldl_inv_mem (EdgesWithin gl A) _ l ?_
    intro u x hu _
    have := EW_sameEdges hu dst (fun g => add g x) (fun h => hadd h x)
    exact ⟨this.1, this.2⟩
  unfold Fusioner.moveNodes
  refine hstep _ ?_ _ _ (hstep _ ?_ _ _ (hstep _ ?_ _ _ hE))
  · intro h n
    exact ⟨(addOutputNode_fields h n).2.2.2.1, (addOutputNode_fields h n).2.2.1⟩
  · intro h n
    exact ⟨(addInputNode_fields h n).2.2.2.1, (addInputNode_fields h n).2.2.1⟩
  · intro h n
    exact ⟨rfl, rfl⟩

theorem no_self_edge (s : Fusioner) (hac : s.Acyclic) (g : Nat) (hg : g ∈ s.group_list) :
    g ∉ (s.groups g).nextList :=
  fun h => hac g (Relation.TransGen.single ⟨hg, hg, h⟩)

theorem pipeFuseGroup_edges (env : Env) (s : Fusioner) (top bot : Nat) (hw : s.WellLinked)
    (hac : s.Acyclic) (htop : top ∈ s.group_list) (hbot : bot ∈ (s.groups top).nextList)
    (hcan : s.canPipeFuse env top bot = true) :
    ∃ t r, s.pipeFuseGroup env top bot = some (t, r) ∧
      ∀ a b, t.nextEdge a b →
        s.nextEdge a b ∨ (b = top ∧ s.nextEdge a bot ∧ a ≠ top) ∨
          (a = top ∧ s.nextEdge bot b) := by
  have hbl : bot ∈ s.group_list := (hw.2.1 top htop bot hbot).1
  have hne : top ≠ bot := canPipeFuse_ne env s top bot hcan
  have hnt : top ∉ (s.groups bot).nextList := by
    intro h
    exact hac top ((Relation.TransGen.single ⟨htop, hbl, hbot⟩).tail ⟨hbl, htop, h⟩)
  have hE0 : EdgesWithin s.group_list
      (fun a b => b ∈ (s.groups a).nextList ∨
        (b = top ∧ bot ∈ (s.groups a).nextList ∧ a ≠ top) ∨
        (a = top ∧ b ∈ (s.groups bot).nextList)) s :=
    ⟨rfl, fun a ha => ⟨fun b hb => Or.inl hb, fun b hb => Or.inl (hw.2.2 a ha b hb).2⟩⟩
  generalize hA : (fun a b => b ∈ (s.groups a).nextList ∨
        (b = top ∧ bot ∈ (s.groups a).nextList ∧ a ≠ top) ∨
        (a = top ∧ b ∈ (s.groups bot).nextList)) = A at hE0
  have hprevbot : ∀ u, EdgesWithin s.group_list A u → ∀ x ∈ (u.groups bot).prevList,
      bot ∈ (s.groups x).nextList := by
    intro u hu x hx
    have := (hu.2 bot hbl).2 x hx
    rw [← hA] at this
    rcases this with h | ⟨h, _, _⟩ | ⟨_, h⟩
    · exact h
    · exact absurd h.symm hne
    · exact absurd h (no_self_edge s hac bot hbl)
  have hnextbot : ∀ u, EdgesWithin s.group_list A u → ∀ x ∈ (u.groups bot).nextList,
      x ∈ (s.groups bot).nextList := by
    intro u hu x hx
    have := (hu.2 bot hbl).1 x hx
    rw [← hA] at this
    rcases this with h | ⟨_, h, _⟩ | ⟨h, _⟩
    · exact h
    · exact absurd h (no_self_edge s hac bot hbl)
    · exact absurd h.symm hne
  have hE1 := moveNodes_EW env s bot top hE0
  have hE2 : EdgesWithin s.group_list A ((s.moveNodes env bot top).pipeMovePrevs top bot) := by
    unfold Fusioner.pipeMovePrevs
    refine foldl_inv_mem (EdgesWithin s.group_list A) _ _ ?_ _ hE1
    intro u x hu hx
    have hb := hprevbot _ hE1 x hx
    show EdgesWithin s.group_list A (if _ then _ else _)
    split
    · exact hu
    · rename_i hxt
      have hAx : A x top := by
        rw [← hA]
        exact Or.inr (Or.inl ⟨rfl, hb, hxt⟩)
      exact EW_removeNext (EW_addPrev (EW_addNext hu x top _ hAx) top x _ hAx) x bot
  have h3 : ∃ s3, ((s.moveNodes env bot top).pipeMovePrevs top bot).pipeMoveNexts top bot
      = some s3 ∧ EdgesWithin s.group_list A s3 := by
    unfold Fusioner.pipeMoveNexts
    refine foldlM_total_inv (EdgesWithin s.group_list A) _ _ ?_ _ hE2
    intro u x hu hx
    have hb := hnextbot _ hE2 x hx
    have hxt : x ≠ top := fun e => hnt (e ▸ hb)
    have hAx : A top x := by
      rw [← hA]
      exact Or.inr (Or.inr ⟨rfl, hb⟩)
    refine ⟨_, if_neg hxt, ?_⟩
    exact EW_removePrev (EW_addNext (EW_addPrev hu x top _ hAx) top x _ hAx) x bot
  obtain ⟨s3, e3, hE3⟩ := h3
  have hE4 : EdgesWithin s.group_list A (s3.pipeUpdatePrevs top bot) := by
    unfold Fusioner.pipeUpdatePrevs
    refine foldl_inv_mem (EdgesWithin s.group_list A) _ _ ?_ _ hE3
    intro u x hu hx
    exact EW_addNext hu x top _ ((hE3.2 top htop).2 x hx)
  have hE5 := EW_removeNext hE4 top bot
  have hE6 := EW_sameEdges hE5 top
    (fun g => { g with pattern := Pattern.add g.pattern (((s3.pipeUpdatePrevs top bot).modify
      top (fun g => g.removeNext bot)).groups bot).pattern })
    (fun _ => ⟨rfl, rfl⟩)
  have hres : ∃ s6, s.pipeFuseGroup env top bot = some (s6.removeGroup bot, top) ∧
      EdgesWithin s.group_list A s6 := by
    unfold Fusioner.pipeFuseGroup
    have l1 : is_included top s.group_list = true := by simpa [is_included] using htop
    have l2 : is_included bot s.group_list = true := by simpa [is_included] using hbl
    simp only [l1, l2, hcan, Bool.not_true, Bool.or_self, Bool.false_eq_true, if_false, e3]
    exact ⟨_, rfl, hE6⟩
  obtain ⟨s6, hres, hE6⟩ := hres
  refine ⟨_, top, hres, ?_⟩
  intro a b hab
  obtain ⟨ha, hb, hab⟩ := hab
  rw [mem_removeGroup, hE6.1] at ha hb
  have hAab := (hE6.2 a ha.1).1 b hab
  rw [← hA] at hAab
  rcases hAab with h | ⟨h1, h2, h3⟩ | ⟨h1, h2⟩
  · exact Or.inl ⟨ha.1, hb.1, h⟩
  · exact Or.inr (Or.inl ⟨h1, ⟨ha.1, hbl, h2⟩, h3⟩)
  · exact Or.inr (Or.inr ⟨h1, ⟨hbl, hb.1, h2⟩⟩)

theorem flatFuseGroup_edges (env : Env) (s : Fusioner) (left right : Nat) (hw : s.WellLinked)
    (hac : s.Acyclic) (hl : left ∈ s.group_list) (hr : right ∈ s.group_list)
    (hlr : right ∉ (s.groups left).nextList) (hrl : left ∉ (s.groups right).nextList)
    (hcan : s.canFlatFuse env left right = true) :
    ∃ t r, s.flatFuseGroup env left right = some (t, r) ∧
      ∀ a b, t.nextEdge a b →
        s.nextEdge a b ∨ (b = left ∧ s.nextEdge a right) ∨ (a = left ∧ s.nextEdge right b) := by
  have hne : left ≠ right := canFlatFuse_ne env s left right hcan
  have hE0 : EdgesWithin s.group_list
      (fun a b => b ∈ (s.groups a).nextList ∨
        (b = left ∧ right ∈ (s.groups a).nextList) ∨
        (a = left ∧ b ∈ (s.groups right).nextList)) s :=
    ⟨rfl, fun a ha => ⟨fun b hb => Or.inl hb, fun b hb => Or.inl (hw.2.2 a ha b hb).2⟩⟩
  generalize hA : (fun a b => b ∈ (s.groups a).nextList ∨
        (b = left ∧ right ∈ (s.groups a).nextList) ∨
        (a = left ∧ b ∈ (s.groups right).nextList)) = A at hE0
  have hprevR : ∀ u, EdgesWithin s.group_list A u → ∀ x ∈ (u.groups right).prevList,
      right ∈ (s.groups x).nextList := by
    intro u hu x hx
    have := (hu.2 right hr).2 x hx
    rw [← hA] at this
    rcases this with h | ⟨h, _⟩ | ⟨_, h⟩
    · exact h
    · exact absurd h.symm hne
    · exact absurd h (no_self_edge s hac right hr)
  have hnextR : ∀ u, EdgesWithin s.group_list A u → ∀ x ∈ (u.groups right).nextList,
      x ∈ (s.groups right).nextList := by
    intro u hu x hx
    have := (hu.2 right hr).1 x hx
    rw [← hA] at this
    rcases this with h | ⟨_, h⟩ | ⟨h, _⟩
    · exact h
    · exact absurd h (no_self_edge s hac right hr)
    · exact absurd h.symm hne
  have hE1 := moveNodes_EW env s right left hE0
  have h2 : ∃ s2, (s.moveNodes env right left).flatMovePrevs left right = some s2 ∧
      EdgesWithin s.group_list A s2 := by
    unfold Fusioner.flatMovePrevs
    refine foldlM_total_inv (EdgesWithin s.group_list A) _ _ ?_ _ hE1
    intro u x hu hx
    have hb := hprevR _ hE1 x hx
    have hxl : x ≠ left := fun e => hlr (e ▸ hb)
    have hAx : A x left := by
      rw [← hA]
      exact Or.inr (Or.inl ⟨rfl, hb⟩)
    refine ⟨_, if_neg hxl, ?_⟩
    exact EW_removeNext (EW_addPrev (EW_addNext hu x left _ hAx) left x _ hAx) x right
  obtain ⟨s2, e2, hE2⟩ := h2
  have h3 : ∃ s3, s2.flatMoveNexts left right = some s3 ∧ EdgesWithin s.group_list A s3 := by
    unfold Fusioner.flatMoveNexts
    refine foldlM_total_inv (EdgesWithin s.group_list A) _ _ ?_ _ hE2
    intro u x hu hx
    have hb := hnextR _ hE2 x hx
    have hxl : x ≠ left := fun e => hrl (e ▸ hb)
    have hAx : A left x := by
      rw [← hA]
      exact Or.inr (Or.inr ⟨rfl, hb⟩)
    refine ⟨_, if_neg hxl, ?_⟩
    exact EW_removePrev (EW_addNext (EW_addPrev hu x left _ hAx) left x _ hAx) x right
  obtain ⟨s3, e3, hE3⟩ := h3
  have hE4 := EW_sameEdges hE3 left
    (fun g => { g with pattern := g.pattern.add (s3.groups right).pattern })
    (fun _ => ⟨rfl, rfl⟩)
  have hres : ∃ s4, s.flatFuseGroup env left right = some (s4.removeGroup right, left) ∧
      EdgesWithin s.group_list A s4 := by
    unfold Fusioner.flatFuseGroup
    have l1 : is_included left s.group_list = true := by simpa [is_included] using hl
    have l2 : is_included right s.group_list = true := by simpa [is_included] using hr
    simp only [l1, l2, hcan, Bool.not_true, Bool.or_self, Bool.false_eq_true, if_false, e2, e3]
    exact ⟨_, rfl, hE4⟩
  obtain ⟨s4, hres, hE4⟩ := hres
  refine ⟨_, left, hres, ?_⟩
  intro a b hab
  obtain ⟨ha, hb, hab⟩ := hab
  rw [mem_removeGroup, hE4.1] at ha hb
  have hAab := (hE4.2 a ha.1).1 b hab
  rw [← hA] at hAab
  rcases hAab with h | ⟨h1, h2⟩ | ⟨h1, h2⟩
  · exact Or.inl ⟨ha.1, hb.1, h⟩
  · exact Or.inr (Or.inl ⟨h1, ⟨ha.1, hr, h2⟩⟩)
  · exact Or.inr (Or.inr ⟨h1, ⟨hr, hb.1, h2⟩⟩)

theorem acyclic_of_rank (s : Fusioner) (rank : Nat → Nat)
    (h : ∀ a b, s.nextEdge a b → rank a < rank b) : s.Acyclic := by
  have ht : ∀ a b, Relation.TransGen s.nextEdge a b → rank a < rank b := by
    intro a b hab
    induction hab with
    | single h1 => exact h _ _ h1
    | tail _ h2 ih => exact Nat.lt_trans ih (h _ _ h2)
  intro g hg
  exact Nat.lt_irrefl _ (ht g g hg)

/-- C6: on a cluster graph whose prev and next lists describe one graph on the cluster list,
acyclicity is kept by both fusion primitives: if the graph is acyclic, `bot` is a direct
successor of `top` and `canPipeFuse(top, bot)` holds, then `pipeFuseGroup(top, bot)` returns
and the graph after it is acyclic; and if `canFlatFuse(left, right)` holds for two clusters of
the list, then `flatFuseGroup(left, right)` returns and the graph after it is acyclic. -/
theorem fusion_keeps_acyclic (env : Env) (s : Fusioner) (hw : s.WellLinked)
    (hac : s.Acyclic) :
    (∀ top bot, top ∈ s.group_list → bot ∈ (s.groups top).nextList →
      s.canPipeFuse env top bot = true →
      ∃ t r, s.pipeFuseGroup env top bot = some (t, r) ∧ t.Acyclic) ∧
    (∀ left right, left ∈ s.group_list → right ∈ s.group_list →
      s.canFlatFuse env left right = true →
      ∃ t r, s.flatFuseGroup env left right = some (t, r) ∧ t.Acyclic) := by
  refine ⟨?_, ?_⟩
  · intro top bot htop hbot hcan
    have hbl : bot ∈ s.group_list := (hw.2.1 top htop bot hbot).1
    obtain ⟨t, r, e, hedge⟩ := pipeFuseGroup_edges env s top bot hw hac htop hbot hcan
    refine ⟨t, r, e, ?_⟩
    refine contract_edge_acyclic top bot hac hedge ⟨htop, hbl, hbot⟩ ?_
    intro x hx hxb hreach
    have hnext := isNext_complete s hw hac x bot hreach
    have hne : top ≠ bot := canPipeFuse_ne env s top bot hcan
    unfold Fusioner.canPipeFuse at hcan
    rw [if_neg hne] at hcan
    split at hcan
    · exact Bool.noConfusion hcan
    · rename_i hany
      apply hany
      rw [List.any_eq_true]
      exact ⟨x, hx.2.2, by simp [hxb, hnext]⟩
  · intro left right hl hr hcan
    have hne : left ≠ right := canFlatFuse_ne env s left right hcan
    have hno : s.isNext left right = false ∧ s.isNext right left = false := by
      unfold Fusioner.canFlatFuse at hcan
      rw [if_neg hne] at hcan
      split at hcan
      · exact Bool.noConfusion hcan
      · rename_i hor
        simpa using hor
    have hlr : ¬ Relation.TransGen s.nextEdge left right := by
      intro h
      have := isNext_complete s hw hac left right h
      rw [hno.1] at this
      exact Bool.noConfusion this
    have hrl : ¬ Relation.TransGen s.nextEdge right left := by
      intro h
      have := isNext_complete s hw hac right left h
      rw [hno.2] at this
      exact Bool.noConfusion this
    obtain ⟨t, r, e, hedge⟩ := flatFuseGroup_edges env s left right hw hac hl hr
      (fun h => hlr (Relation.TransGen.single ⟨hl, hr, h⟩))
      (fun h => hrl (Relation.TransGen.single ⟨hr, hl, h⟩)) hcan
    exact ⟨t, r, e, merge_unrelated_acyclic left right hac hedge hlr hrl⟩

theorem sortEx_acyclic : sortEx.Acyclic := by
  refine acyclic_of_rank sortEx id ?_
  intro a b hab
  obtain ⟨ha, _, hb⟩ := hab
  have ha3 : a = 0 ∨ a = 1 ∨ a = 2 := by
    have : a ∈ [0, 1, 2] := ha
    simpa using this
  rcases ha3 with e | e | e
  · subst e
    have : b ∈ [2] := hb
    have hb2 : b = 2 := by simpa using this
    subst hb2
    decide
  · subst e
    have : b ∈ ([] : List Nat) := hb
    exact absurd this (List.not_mem_nil b)
  · subst e
    have : b ∈ ([] : List Nat) := hb
    exact absurd this (List.not_mem_nil b)

theorem fusion_keeps_acyclic_witness :
    (∃ t r, sortEx.pipeFuseGroup (Env.ofDag sortDag) 0 2 = some (t, r) ∧ t.Acyclic) ∧
    (∃ t r, sortEx.flatFuseGroup (Env.ofDag sortDag) 0 1 = some (t, r) ∧ t.Acyclic) := by
  have hw : sortEx.WellLinked := by
    unfold Fusioner.WellLinked
    decide
  have h := fusion_keeps_acyclic (Env.ofDag sortDag) sortEx hw sortEx_acyclic
  exact ⟨h.1 0 2 (by decide) (by decide) (by decide), h.2 0 1 (by decide) (by decide) (by decide)⟩

/-! ## Legality and gentle pipe fusion -/

/-- C22: `Fusioner::canPipeFuse(top, bot)` is false when `top == bot`, false when `top` has a
direct successor other than `bot` from which `bot` is transitively reachable (`isNext`), and
otherwise it is the conjunction of the pattern-level `canPipeFuse` on the two edge patterns
and the pattern-level `canFlatFuse` on the two cluster patterns. -/
theorem canPipeFuse_spec (env : Env) (s : Fusioner) (top bot : Nat) :
    (top = bot → s.canPipeFuse env top bot = false) ∧
    (∀ next ∈ (s.groups top).nextList, next ≠ bot → s.isNext next bot = true →
      s.canPipeFuse env top bot = false) ∧
    (top ≠ bot →
      (∀ next ∈ (s.groups top).nextList, next ≠ bot → s.isNext next bot = false) →
      s.canPipeFuse env top bot =
        (env.patPipeFuse ((s.groups bot).prevPattern top) ((s.groups top).nextPattern bot)
          && env.patFlatFuse (s.groups top).pattern (s.groups bot).pattern)) := by
  refine ⟨?_, ?_, ?_⟩
  · intro h
    unfold Fusioner.canPipeFuse
    rw [if_pos h]
  · intro next hn hnb hreach
    unfold Fusioner.canPipeFuse
    split
    · rfl
    · have hany : (s.groups top).nextList.any
          (fun next => !decide (next = bot) && s.isNext next bot) = true := by
        rw [List.any_eq_true]
        exact ⟨next, hn, by simp [hnb, hreach]⟩
      rw [if_pos hany]
  · intro hne hall
    unfold Fusioner.canPipeFuse
    rw [if_neg hne]
    have hany : ¬ (s.groups top).nextList.any
        (fun next => !decide (next = bot) && s.isNext next bot) = true := by
      rw [List.any_eq_true]
      rintro ⟨next, hn, hx⟩
      by_cases e : next = bot
      · simp [e] at hx
      · simp [e, hall next hn e] at hx
    rw [if_neg hany]

theorem canPipeFuse_spec_witness :
    sortEx.canPipeFuse (Env.ofDag sortDag) 0 2 =
      ((Env.ofDag sortDag).patPipeFuse ((sortEx.groups 2).prevPattern 0)
          ((sortEx.groups 0).nextPattern 2)
        && (Env.ofDag sortDag).patFlatFuse (sortEx.groups 0).pattern (sortEx.groups 2).pattern) :=
  (canPipeFuse_spec (Env.ofDag sortDag) sortEx 0 2).2.2 (by decide) (by decide)

theorem pipeGentlyLoop_unchanged (env : Env) : ∀ (n fuel : Nat) (s : Fusioner) (g i : Nat),
    (∀ p ∈ (s.groups g).prevList,
      (isFreeOrLocal (s.groups g) && isFreeOrLocal (s.groups p)
        && !(decide (env.groupNumdim (s.groups g) ≠ D0)
          && decide (env.groupNumdim (s.groups p) = D0)
          && decide ((s.groups p).pattern ≠ FREE))
        && decide ((s.groups p).nextList.length = 1)
        && s.canPipeFuse env p g) = false) →
    (s.groups g).prevList.length ≤ i + n → n < fuel →
    Fusioner.pipeGentlyLoop env fuel s g i = some s := by
  intro n
  induction n with
  | zero =>
    intro fuel s g i _ hlen hf
    cases fuel with
    | zero => omega
    | succ f =>
      unfold Fusioner.pipeGentlyLoop
      have : (s.groups g).prevList.get? i = none := List.get?_eq_none.2 (by omega)
      rw [this]
  | succ n ih =>
    intro fuel s g i hall hlen hf
    cases fuel with
    | zero => omega
    | succ f =>
      unfold Fusioner.pipeGentlyLoop
      cases hp : (s.groups g).prevList.get? i with
      | none => rfl
      | some p =>
        have hmem : p ∈ (s.groups g).prevList := List.get?_mem hp
        dsimp only
        rw [if_neg (by rw [hall p hmem]; exact Bool.false_ne_true)]
        exact ih f s g (i + 1) hall (by omega) (by omega)

theorem pipeGentlyLoop_succ (env : Env) (fuel : Nat) (s : Fusioner) (g i : Nat) :
    Fusioner.pipeGentlyLoop env (fuel + 1) s g i =
      match (s.groups g).prevList.get? i with
      | none => some s
      | some prev_group =>
        if (isFreeOrLocal (s.groups g) && isFreeOrLocal (s.groups prev_group)
            && !(decide (env.groupNumdim (s.groups g) ≠ D0)
              && decide (env.groupNumdim (s.groups prev_group) = D0)
              && decide ((s.groups prev_group).pattern ≠ FREE))
            && decide ((s.groups prev_group).nextList.length = 1)
            && s.canPipeFuse env prev_group g) = true then
          match s.pipeFuseGroup env prev_group g with
          | none => none
          | some (s1, ret) => Fusioner.pipeGentlyLoop env fuel s1 ret 0
        else Fusioner.pipeGentlyLoop env fuel s g (i + 1) := by
  rw [Fusioner.pipeGentlyLoop]

/-- C23: in `pipeGently`, the prev cluster examined at index `i` of the prev list of the
current cluster is pipe-fused into it (and the walk restarts at index 0 on the result) when
all four conditions hold: both patterns are FREE or LOCAL, it is not the case that the
current cluster is non-D0 while the prev is D0 and not FREE, the prev has exactly one next
cluster, and `canPipeFuse(prev, self)` holds; when one of them fails the walk goes on to the
next index with the state unchanged.  When no prev cluster satisfies them the state is
returned unchanged, and so it is when `code_fusion` is false. -/
theorem pipeGently_fuses_iff (env : Env) (fuel : Nat) (s : Fusioner) (g i p : Nat)
    (hp : (s.groups g).prevList.get? i = some p) :
    ((isFreeOrLocal (s.groups g) = true ∧ isFreeOrLocal (s.groups p) = true) ∧
      ¬ (env.groupNumdim (s.groups g) ≠ D0 ∧ env.groupNumdim (s.groups p) = D0 ∧
        (s.groups p).pattern ≠ FREE) ∧
      (s.groups p).nextList.length = 1 ∧ s.canPipeFuse env p g = true →
      Fusioner.pipeGentlyLoop env (fuel + 1) s g i =
        match s.pipeFuseGroup env p g with
        | none => none
        | some (s1, ret) => Fusioner.pipeGentlyLoop env fuel s1 ret 0) ∧
    (¬ ((isFreeOrLocal (s.groups g) = true ∧ isFreeOrLocal (s.groups p) = true) ∧
      ¬ (env.groupNumdim (s.groups g) ≠ D0 ∧ env.groupNumdim (s.groups p) = D0 ∧
        (s.groups p).pattern ≠ FREE) ∧
      (s.groups p).nextList.length = 1 ∧ s.canPipeFuse env p g = true) →
      Fusioner.pipeGentlyLoop env (fuel + 1) s g i =
        Fusioner.pipeGentlyLoop env fuel s g (i + 1)) ∧
    (∀ n, (∀ q ∈ (s.groups g).prevList,
        (isFreeOrLocal (s.groups g) && isFreeOrLocal (s.groups q)
          && !(decide (env.groupNumdim (s.groups g) ≠ D0)
            && decide (env.groupNumdim (s.groups q) = D0)
            && decide ((s.groups q).pattern ≠ FREE))
          && decide ((s.groups q).nextList.length = 1)
          && s.canPipeFuse env q g) = false) →
      (s.groups g).prevList.length < n → Fusioner.pipeGentlyLoop env n s g 0 = some s) ∧
    (∀ node, env.code_fusion = false → s.pipeGently env fuel node = some s) := by
  refine ⟨?_, ?_, fun n hall hlen =>
    pipeGentlyLoop_unchanged env (s.groups g).prevList.length n s g 0 hall (by omega) hlen, ?_⟩
  · rintro ⟨⟨h1, h2⟩, h3, h4, h5⟩
    rw [pipeGentlyLoop_succ, hp]
    dsimp only
    rw [if_pos]
    simp only [h1, h2, h4, h5, Bool.and_true, decide_True, Bool.and_self, Bool.not_eq_true',
      Bool.and_eq_false_iff, decide_eq_false_iff_not, Bool.true_and]
    by_contra hc
    apply h3
    simp only [not_or, not_not, Bool.not_eq_false] at hc
    have hc2 : (¬ env.groupNumdim (s.groups g) = D0 ∧ env.groupNumdim (s.groups p) = D0) ∧
        ¬ (s.groups p).pattern = FREE := by simpa using hc
    exact ⟨hc2.1.1, hc2.1.2, hc2.2⟩
  · intro hn
    rw [pipeGentlyLoop_succ, hp]
    dsimp only
    rw [if_neg]
    intro hc
    apply hn
    simp only [Bool.and_eq_true, Bool.not_eq_true', Bool.and_eq_false_iff,
      decide_eq_false_iff_not, decide_eq_true_eq] at hc
    obtain ⟨⟨⟨⟨a1, a2⟩, a3⟩, a4⟩, a5⟩ := hc
    refine ⟨⟨a1, a2⟩, ?_, a4, a5⟩
    rintro ⟨b1, b2, b3⟩
    rcases a3 with (a3 | a3) | a3
    · exact a3 b1
    · exact a3 b2
    · exact a3 b3
  · intro node hcf
    unfold Fusioner.pipeGently
    rw [hcf]
    rfl

theorem pipeGently_fuses_iff_witness :
    Fusioner.pipeGentlyLoop (Env.ofDag linkDag) (3 + 1) linkEx 1 0 =
      match linkEx.pipeFuseGroup (Env.ofDag linkDag) 0 1 with
      | none => none
      | some (s1, ret) => Fusioner.pipeGentlyLoop (Env.ofDag linkDag) 3 s1 ret 0 :=
  (pipeGently_fuses_iff (Env.ofDag linkDag) 3 linkEx 1 0 0 (by decide)).1
    ⟨⟨by decide, by decide⟩, by decide, by decide, by decide⟩

/-! ## Construction and the end of a job -/

theorem foldl_cond_add_eq_sum {α : Type} (c : α → Prop) [DecidablePred c] (w : Int)
    (l : List α) (a : Int) :
    l.foldl (fun cnt x => if c x then cnt + 1 else cnt + w) a =
      a + (l.map (fun x => if c x then (1 : Int) else w)).sum := by
  have h : (fun (cnt : Int) (x : α) => if c x then cnt + 1 else cnt + w) =
      (fun cnt x => cnt + (if c x then (1 : Int) else w)) := by
    funext cnt x
    split <;> rfl
  rw [h, foldl_add_eq_sum]

/-- C28: the constructor sets `prev_jobs_count[0]` to the sum, over every prev task and every
node shared between the inputs of this task and the outputs of that prev task, of 1 when the
node is D0 and of `prod(prev_task.numblock)` otherwise; a prev task that shares no node
contributes 0 and one that shares two nodes contributes one term for each. -/
theorem prevJobsCount0_sum (T : Task) (prevList : List Task) :
    T.prevJobsCount0 prevList =
      (prevList.map (fun P => ((inner_join T.inputList P.outputList).map
        (fun node => if node.numdim = D0 then (1 : Int) else prod P.numblock)).sum)).sum ∧
    (∀ P, inner_join T.inputList P.outputList = [] → T.prevJobsCount0 [P] = 0) ∧
    (∀ P a b, inner_join T.inputList P.outputList = [a, b] →
      T.prevJobsCount0 [P] =
        (if a.numdim = D0 then (1 : Int) else prod P.numblock) +
        (if b.numdim = D0 then (1 : Int) else prod P.numblock)) := by
  have hsum : ∀ l : List Task, T.prevJobsCount0 l =
      (l.map (fun P => ((inner_join T.inputList P.outputList).map
        (fun node => if node.numdim = D0 then (1 : Int) else prod P.numblock)).sum)).sum := by
    intro l
    unfold Task.prevJobsCount0
    simp only [foldl_cond_add_eq_sum]
    rw [foldl_add_eq_sum]
    simp
  refine ⟨hsum prevList, ?_, ?_⟩
  · intro P hP
    rw [hsum]
    simp only [List.map_cons, List.map_nil, hP]
    simp
  · intro P a b hP
    rw [hsum]
    simp only [List.map_cons, List.map_nil, hP]
    simp

theorem prevJobsCount0_sum_witness :
    exTask.prevJobsCount0 [exScalarProducer] = 0 ∧
    exScalarConsumer.prevJobsCount0 [exScalarProducer, exScalarProducer] = 2 := by
  refine ⟨(prevJobsCount0_sum exTask [exScalarProducer]).2.1 exScalarProducer (by decide), ?_⟩
  rw [(prevJobsCount0_sum exScalarConsumer [exScalarProducer, exScalarProducer]).1]
  decide

theorem AskState_nextJobs_last (st : AskState) (P N : Task) (done_job : Job) (isEnd : Bool)
    (t : AskState) (h : st.nextJobs P N done_job isEnd = some t) : t.last = st.last := by
  unfold AskState.nextJobs at h
  split at h
  · exact Option.noConfusion h
  · injection h with h
    subst h
    rfl

theorem askJobs_flag_fixed (T : Task) (done_job : Job) (tid l0 : ThreadId) :
    ∀ (l : List Task) (st : AskState), st.last = l0 →
      l.foldlM (fun st next_task =>
        st.nextJobs T next_task done_job (decide (tid = st.last))) st =
      l.foldlM (fun st next_task => st.nextJobs T next_task done_job (decide (tid = l0))) st ∧
      ∀ t, l.foldlM (fun st next_task =>
        st.nextJobs T next_task done_job (decide (tid = l0))) st = some t → t.last = l0 := by
  intro l
  induction l with
  | nil =>
    intro st hst
    refine ⟨rfl, ?_⟩
    intro t ht
    simp only [List.foldlM_nil, Option.pure_def, Option.some.injEq] at ht
    subst ht
    exact hst
  | cons N rest ih =>
    intro st hst
    simp only [List.foldlM_cons, hst]
    cases hN : st.nextJobs T N done_job (decide (tid = l0)) with
    | none =>
      refine ⟨rfl, ?_⟩
      intro t ht
      simp at ht
    | some st1 =>
      have h1 : st1.last = l0 := (AskState_nextJobs_last st T N done_job _ st1 hN).trans hst
      simp only [Option.some_bind, Option.bind_eq_bind]
      exact ih st1 h1

/-- C29: `askJobs` calls `nextJobs` once on every task of the next list followed by every task
of the back list, each with `end` equal to `Tid == last` as `last` was at the call of
`askJobs`; afterwards `last` is the sentinel thread identity when the caller was the last
worker and is unchanged otherwise; the generic `selfJobs` adds no job. -/
theorem askJobs_spec (T : Task) (nextList backList : List Task) (st : AskState)
    (done_job : Job) (tid : ThreadId) (hd : done_job.task = T.id) :
    T.askJobs nextList backList st done_job tid =
      (match (nextList ++ backList).foldlM (fun u next_task =>
          u.nextJobs T next_task done_job (decide (tid = st.last))) st with
       | none => none
       | some st1 =>
         some (AskState.mk st1.states st1.job_vec
           (if tid = st.last then ThreadId.sentinel else st.last))) ∧
    (∀ jv, T.selfJobs done_job jv = jv) := by
  refine ⟨?_, fun _ => rfl⟩
  obtain ⟨h1, h2⟩ := askJobs_flag_fixed T done_job tid st.last (nextList ++ backList) st rfl
  unfold Task.askJobs
  rw [if_neg (by simpa using hd)]
  show (match (nextList ++ backList).foldlM (fun st next_task =>
      st.nextJobs T next_task done_job (decide (tid = st.last))) st with
    | none => none
    | some st1 =>
      if tid = st1.last then some { st1 with last := ThreadId.sentinel } else some st1) = _
  rw [h1]
  cases hf : (nextList ++ backList).foldlM (fun u next_task =>
      u.nextJobs T next_task done_job (decide (tid = st.last))) st with
  | none => rfl
  | some st1 =>
    have hl : st1.last = st.last := h2 st1 hf
    dsimp only
    rw [hl]
    split
    · rfl
    · congr 1
      cases st1
      simp only at hl
      rw [hl]

theorem askJobs_spec_witness :
    exLocalProducer.askJobs [exTask] [] exAskState ⟨10, [0, 0], 0⟩ 5 =
      (match ([exTask] ++ []).foldlM (fun (u : AskState) next_task =>
          u.nextJobs exLocalProducer next_task ⟨10, [0, 0], 0⟩ (decide (5 = exAskState.last)))
          exAskState with
       | none => none
       | some st1 =>
         some (AskState.mk st1.states st1.job_vec
           (if 5 = exAskState.last then ThreadId.sentinel else exAskState.last))) ∧
    (∀ jv, exLocalProducer.selfJobs ⟨10, [0, 0], 0⟩ jv = jv) :=
  askJobs_spec exLocalProducer [exTask] [] exAskState ⟨10, [0, 0], 0⟩ 5 rfl

/-! ## Registration of input blocks for forwarding -/

theorem find_filter_ne (f : ForwardMap) (k n : Nat) (h : n ≠ k) :
    (f.filter (fun p => !decide (p.1 = k))).find? (fun p => decide (p.1 = n)) =
      f.find? (fun p => decide (p.1 = n)) := by
  induction f with
  | nil => rfl
  | cons x xs ih =>
    by_cases e : x.1 = k
    · have hx : ¬ x.1 = n := fun e2 => h (e2.symm.trans e)
      have hf : (x :: xs).filter (fun p => !decide (p.1 = k)) =
          xs.filter (fun p => !decide (p.1 = k)) := by
        rw [List.filter_cons, if_neg (by simp [e])]
      rw [hf, ih, List.find?_cons]
      simp only [hx, decide_False]
    · have hf : (x :: xs).filter (fun p => !decide (p.1 = k)) =
          x :: xs.filter (fun p => !decide (p.1 = k)) := by
        rw [List.filter_cons, if_pos (by simp [e])]
      rw [hf, List.find?_cons, List.find?_cons, ih]

theorem ForwardMap_find_set (f : ForwardMap) (k : Nat) (b : Block) (n : Nat) :
    (f.set k b).find n = if n = k then some b else f.find n := by
  unfold ForwardMap.find ForwardMap.set
  by_cases e : n = k
  · subst e
    simp [List.find?_cons]
  · have e2 : ¬ k = n := fun h => e h.symm
    rw [if_neg e, List.find?_cons]
    simp only [e2, decide_False]
    rw [find_filter_ne f k n e]

theorem mem_full_unique_join {α : Type} [DecidableEq α] (x : α) (l r : List α) :
    x ∈ full_unique_join l r ↔ x ∈ l ∨ x ∈ r := by
  unfold full_unique_join
  induction r generalizing l with
  | nil => simp
  | cons y ys ih =>
    rw [List.foldl_cons, ih]
    by_cases h : is_included y l = true
    · have hy : y ∈ l := by simpa [is_included] using h
      simp only [h, if_true, List.mem_cons]
      constructor
      · rintro (h1 | h1)
        · exact Or.inl h1
        · exact Or.inr (Or.inr h1)
      · rintro (h1 | h1 | h1)
        · exact Or.inl h1
        · exact Or.inl (h1 ▸ hy)
        · exact Or.inr h1
    · simp only [h, List.mem_append, List.mem_singleton, List.mem_cons]
      simp only [Bool.false_eq_true, if_false, List.mem_append, List.mem_singleton]
      tauto

theorem preForwardInputs_find (body_out : List Node) : ∀ (in_blk : List Block)
    (forward : ForwardMap) (n : Nat),
    (((preForwardInputs body_out in_blk forward).find n).isSome = true ↔
      (forward.find n).isSome = true ∨
      ∃ b ∈ in_blk, b.node.id = n ∧ b.holdtype = HoldType.HOLD_N ∧ b.fixed = false ∧
        ∀ m ∈ b.node.nextList, m ∈ body_out.map (fun x => x.id)) ∧
    (∀ b, (preForwardInputs body_out in_blk forward).find n = some b →
      forward.find n = some b ∨
      (b ∈ in_blk ∧ b.node.id = n ∧ b.holdtype = HoldType.HOLD_N ∧ b.fixed = false ∧
        ∀ m ∈ b.node.nextList, m ∈ body_out.map (fun x => x.id))) := by
  intro in_blk
  induction in_blk with
  | nil =>
    intro forward n
    refine ⟨?_, fun b hb => Or.inl hb⟩
    simp [preForwardInputs]
  | cons x xs ih =>
    intro forward n
    have hstep : preForwardInputs body_out (x :: xs) forward =
        preForwardInputs body_out xs
          (if x.holdtype ≠ HoldType.HOLD_N ∨ x.fixed = true then forward
           else if (left_join x.node.nextList (body_out.map (fun n => n.id))).isEmpty = true
             then forward.set x.node.id x else forward) := rfl
    have hempty : (left_join x.node.nextList (body_out.map (fun n => n.id))).isEmpty = true ↔
        ∀ m ∈ x.node.nextList, m ∈ body_out.map (fun x => x.id) := by
      unfold left_join
      rw [List.isEmpty_iff, List.filter_eq_nil_iff]
      simp [is_included]
    rw [hstep]
    by_cases hc : x.holdtype ≠ HoldType.HOLD_N ∨ x.fixed = true
    · rw [if_pos hc]
      obtain ⟨i1, i2⟩ := ih forward n
      have hnot : ¬ (x.holdtype = HoldType.HOLD_N ∧ x.fixed = false) := by
        rintro ⟨a, b⟩
        rcases hc with h | h
        · exact h a
        · rw [b] at h; exact Bool.noConfusion h
      refine ⟨?_, ?_⟩
      · rw [i1]
        constructor
        · rintro (h | ⟨b, hb, h⟩)
          · exact Or.inl h
          · exact Or.inr ⟨b, List.mem_cons_of_mem _ hb, h⟩
        · rintro (h | ⟨b, hb, h⟩)
          · exact Or.inl h
          · rcases List.mem_cons.1 hb with e | hb
            · subst e
              exact absurd ⟨h.2.1, h.2.2.1⟩ hnot
            · exact Or.inr ⟨b, hb, h⟩
      · intro b hb
        rcases i2 b hb with h | h
        · exact Or.inl h
        · exact Or.inr ⟨List.mem_cons_of_mem _ h.1, h.2⟩
    · rw [if_neg hc]
      have hh : x.holdtype = HoldType.HOLD_N ∧ x.fixed = false := by
        constructor
        · by_contra h; exact hc (Or.inl h)
        · cases hf : x.fixed with
          | false => rfl
          | true => exact absurd (Or.inr hf) hc
      by_cases he : (left_join x.node.nextList (body_out.map (fun n => n.id))).isEmpty = true
      · rw [if_pos he]
        obtain ⟨i1, i2⟩ := ih (forward.set x.node.id x) n
        have hreg := hempty.1 he
        refine ⟨?_, ?_⟩
        · rw [i1, ForwardMap_find_set]
          constructor
          · rintro (h | ⟨b, hb, h⟩)
            · by_cases e : n = x.node.id
              · exact Or.inr ⟨x, List.mem_cons_self _ _, e.symm, hh.1, hh.2, hreg⟩
              · rw [if_neg e] at h
                exact Or.inl h
            · exact Or.inr ⟨b, List.mem_cons_of_mem _ hb, h⟩
          · rintro (h | ⟨b, hb, h⟩)
            · by_cases e : n = x.node.id
              · rw [if_pos e]; exact Or.inl rfl
              · rw [if_neg e]; exact Or.inl h
            · rcases List.mem_cons.1 hb with e | hb
              · subst e
                rw [if_pos h.1.symm]
                exact Or.inl rfl
              · exact Or.inr ⟨b, hb, h⟩
        · intro b hb
          rcases i2 b hb with h | h
          · rw [ForwardMap_find_set] at h
            by_cases e : n = x.node.id
            · rw [if_pos e] at h
              injection h with h
              subst h
              exact Or.inr ⟨List.mem_cons_self _ _, e.symm, hh.1, hh.2, hreg⟩
            · rw [if_neg e] at h
              exact Or.inl h
          · exact Or.inr ⟨List.mem_cons_of_mem _ h.1, h.2⟩
      · rw [if_neg he]
        obtain ⟨i1, i2⟩ := ih forward n
        have hnreg : ¬ ∀ m ∈ x.node.nextList, m ∈ body_out.map (fun x => x.id) :=
          fun h => he (hempty.2 h)
        refine ⟨?_, ?_⟩
        · rw [i1]
          constructor
          · rintro (h | ⟨b, hb, h⟩)
            · exact Or.inl h
            · exact Or.inr ⟨b, List.mem_cons_of_mem _ hb, h⟩
          · rintro (h | ⟨b, hb, h⟩)
            · exact Or.inl h
            · rcases List.mem_cons.1 hb with e | hb
              · subst e
                exact absurd h.2.2.2 hnreg
              · exact Or.inr ⟨b, hb, h⟩
        · intro b hb
          rcases i2 b hb with h | h
          · exact Or.inl h
          · exact Or.inr ⟨List.mem_cons_of_mem _ h.1, h.2⟩

/-- C30 (as stated, refuted): the only successor of the input node 20 is node 21, which is in
the output list of the cluster but not in its body; the full, not fixed input block of node 20
is registered in the forward map all the same. -/
theorem preForward_registers_with_output_successor :
    (21 : Nat) ∈ exOutOnlyBlk.node.nextList ∧
    (21 : Nat) ∉ exOutOnlyTask.nodeList.map (fun n => n.id) ∧
    (21 : Nat) ∈ exOutOnlyTask.outputList.map (fun n => n.id) ∧
    (preForwardInputs (full_unique_join exOutOnlyTask.nodeList exOutOnlyTask.outputList)
      [exOutOnlyBlk] []).find 20 = some exOutOnlyBlk ∧
    (∃ r, exOutOnlyTask.preForward [] [exOutOnlyBlk] [] = some r ∧
      r.1.find 20 = some exOutOnlyBlk) := by
  refine ⟨by decide, by decide, by decide, by decide, _, rfl, by decide⟩

/-- C30 (amended): starting from the empty forward map, the first loop of `preForward`
registers a block for a node exactly when some input block of that node is HOLD_N, not fixed,
and every successor of the node is in the body or in the output list of the cluster
(`body_out`); the block registered for a node is such an input block.  An input whose node has
a successor outside both lists is not registered. -/
theorem preForward_registers_iff (T : Task) (in_blk : List Block) (n : Nat) :
    (((preForwardInputs (full_unique_join T.nodeList T.outputList) in_blk []).find n).isSome
        = true ↔
      ∃ b ∈ in_blk, b.node.id = n ∧ b.holdtype = HoldType.HOLD_N ∧ b.fixed = false ∧
        ∀ m ∈ b.node.nextList,
          m ∈ T.nodeList.map (fun x => x.id) ∨ m ∈ T.outputList.map (fun x => x.id)) ∧
    (∀ b, (preForwardInputs (full_unique_join T.nodeList T.outputList) in_blk []).find n
        = some b →
      b ∈ in_blk ∧ b.node.id = n ∧ b.holdtype = HoldType.HOLD_N ∧ b.fixed = false ∧
        ∀ m ∈ b.node.nextList,
          m ∈ T.nodeList.map (fun x => x.id) ∨ m ∈ T.outputList.map (fun x => x.id)) := by
  have hmem : ∀ m : Nat, m ∈ (full_unique_join T.nodeList T.outputList).map (fun x => x.id) ↔
      (m ∈ T.nodeList.map (fun x => x.id) ∨ m ∈ T.outputList.map (fun x => x.id)) := by
    intro m
    simp only [List.mem_map, mem_full_unique_join]
    constructor
    · rintro ⟨a, ha | ha, rfl⟩
      · exact Or.inl ⟨a, ha, rfl⟩
      · exact Or.inr ⟨a, ha, rfl⟩
    · rintro (⟨a, ha, rfl⟩ | ⟨a, ha, rfl⟩)
      · exact ⟨a, Or.inl ha, rfl⟩
      · exact ⟨a, Or.inr ha, rfl⟩
  obtain ⟨h1, h2⟩ := preForwardInputs_find (full_unique_join T.nodeList T.outputList)
    in_blk [] n
  have hnone : ¬ (ForwardMap.find [] n).isSome = true := by
    simp [ForwardMap.find]
  refine ⟨?_, ?_⟩
  · rw [h1]
    constructor
    · rintro (h | ⟨b, hb, c1, c2, c3, c4⟩)
      · exact absurd h hnone
      · exact ⟨b, hb, c1, c2, c3, fun m hm => (hmem m).1 (c4 m hm)⟩
    · rintro ⟨b, hb, c1, c2, c3, c4⟩
      exact Or.inr ⟨b, hb, c1, c2, c3, fun m hm => (hmem m).2 (c4 m hm)⟩
  · intro b hb
    rcases h2 b hb with h | ⟨hb, c1, c2, c3, c4⟩
    · simp [ForwardMap.find] at h
    · exact ⟨hb, c1, c2, c3, fun m hm => (hmem m).1 (c4 m hm)⟩

/-! ## Scalar FREE nodes in linking -/

theorem linkBoundary_bodies (env : Env) (s t : Fusioner) (h : s.linkBoundary env = some t) :
    SameBodies s t := by
  have hinto : ∀ (group node : Nat) (u : Fusioner) (ng : Nat) (v : Fusioner),
      linkInto group node u ng = some v → SameBodies u v := by
    intro group node u ng v hv
    unfold linkInto at hv
    split at hv
    · exact Option.noConfusion hv
    · split at hv
      · injection hv with hv
        subst hv
        exact (SameBodies_modify u group _ (addOutputNode_fields _ node).1).bodies_trans
          (SameBodies_modify _ ng _ (addInputNode_fields _ node).1)
      · injection hv with hv
        subst hv
        exact SameBodies.bodies_refl u
  have hnode : ∀ (group : Nat) (u : Fusioner) (node : Nat) (v : Fusioner),
      linkNode env group u node = some v → SameBodies u v := by
    intro group u node v hv
    refine foldlM_rel SameBodies SameBodies.bodies_refl (fun _ _ _ => SameBodies.bodies_trans)
      _ ?_ _ u v hv
    intro a y b hb
    exact foldlM_rel SameBodies SameBodies.bodies_refl (fun _ _ _ => SameBodies.bodies_trans) _
      (hinto group node) _ a b hb
  refine foldlM_rel SameBodies SameBodies.bodies_refl (fun _ _ _ => SameBodies.bodies_trans) _
    ?_ _ s t h
  intro u group v hv
  unfold linkGroup at hv
  split at hv
  · exact Option.noConfusion hv
  · exact foldlM_rel SameBodies SameBodies.bodies_refl (fun _ _ _ => SameBodies.bodies_trans) _
      (hnode group) _ u v hv

theorem moveD0Free_exact (env : Env) : ∀ (l : List Nat) (g : Group),
    (moveD0Free env l g).node_list =
      g.node_list.filter (fun n => !(is_included n l && isD0Free env n)) ∧
    (∀ n ∈ l, n ∈ g.node_list → isD0Free env n = true → n ∈ (moveD0Free env l g).in_list) := by
  intro l
  induction l with
  | nil =>
    intro g
    refine ⟨?_, fun n hn => absurd hn (List.not_mem_nil n)⟩
    show g.node_list = _
    rw [List.filter_eq_self.2]
    intro n _
    simp [is_included]
  | cons x rest ih =>
    intro g
    by_cases hc : (is_included x g.nodeList && decide ((env.dag x).numdim = D0)
        && decide ((env.dag x).pattern = FREE)) = true
    · have hstep : moveD0Free env (x :: rest) g =
          moveD0Free env rest ((g.removeNode x).addInputNode x) := by
        rw [moveD0Free, if_pos hc]
      have hx : isD0Free env x = true := by
        simp only [Bool.and_eq_true] at hc
        simp [isD0Free, hc.1.2, hc.2]
      obtain ⟨i1, i2⟩ := ih ((g.removeNode x).addInputNode x)
      have hbody : ((g.removeNode x).addInputNode x).node_list = remove_value x g.node_list :=
        (addInputNode_fields (g.removeNode x) x).1
      rw [hstep]
      refine ⟨?_, ?_⟩
      · rw [i1, hbody]
        unfold remove_value
        rw [List.filter_filter]
        apply List.filter_congr
        intro n _
        by_cases e : n = x
        · subst e
          simp [is_included, hx]
        · simp [is_included, e]
      · intro n hn hng hd
        by_cases e : n = x
        · subst e
          exact (moveD0Free_step env rest _).2.2.1 n (mem_addInputNode _ n)
        · have hnr : n ∈ rest := by
            rcases List.mem_cons.1 hn with h | h
            · exact absurd h e
            · exact h
          refine i2 n hnr ?_ hd
          rw [hbody]
          exact (mem_remove_value x n _).2 ⟨hng, e⟩
    · have hstep : moveD0Free env (x :: rest) g = moveD0Free env rest g := by
        rw [moveD0Free, if_neg hc]
      have hx : x ∈ g.node_list → isD0Free env x = false := by
        intro hxg
        cases hd : isD0Free env x with
        | false => rfl
        | true =>
          exfalso
          apply hc
          simp only [isD0Free, Bool.and_eq_true] at hd
          have : is_included x g.nodeList = true := by
            simpa [is_included, Group.nodeList] using hxg
          simp [this, hd.1, hd.2]
      obtain ⟨i1, i2⟩ := ih g
      rw [hstep]
      refine ⟨?_, ?_⟩
      · rw [i1]
        apply List.filter_congr
        intro n hn
        by_cases e : n = x
        · subst e
          simp [is_included, hx hn]
        · simp [is_included, e]
      · intro n hn hng hd
        rcases List.mem_cons.1 hn with h | h
        · subst h
          rw [hx hng] at hd
          exact Bool.noConfusion hd
        · exact i2 n h hng hd

theorem moveD0Free_body (env : Env) (g : Group) :
    (moveD0Free env g.nodeList g).node_list = g.node_list.filter (fun n => !isD0Free env n) ∧
    (∀ n ∈ g.node_list, isD0Free env n = true →
      n ∈ (moveD0Free env g.nodeList g).in_list) := by
  obtain ⟨h1, h2⟩ := moveD0Free_exact env g.nodeList g
  refine ⟨?_, fun n hn hd => h2 n hn hn hd⟩
  rw [h1]
  apply List.filter_congr
  intro n hn
  have : is_included n g.nodeList = true := by
    simpa [is_included, Group.nodeList] using hn
  simp [this]

theorem linkD0Free_exact (env : Env) (s0 : Fusioner) : ∀ (l : List Nat) (u : Fusioner),
    (∀ g, u.groups g = s0.groups g ∨ D0FreeMoved env (s0.groups g) (u.groups g)) →
    (∀ g, (l.foldl (fun s group =>
          s.modify group (fun g => moveD0Free env g.nodeList g)) u).groups g = s0.groups g ∨
      D0FreeMoved env (s0.groups g) ((l.foldl (fun s group =>
          s.modify group (fun g => moveD0Free env g.nodeList g)) u).groups g)) ∧
    (∀ g, D0FreeMoved env (s0.groups g) (u.groups g) →
      D0FreeMoved env (s0.groups g) ((l.foldl (fun s group =>
          s.modify group (fun g => moveD0Free env g.nodeList g)) u).groups g)) ∧
    (∀ g ∈ l, D0FreeMoved env (s0.groups g) ((l.foldl (fun s group =>
          s.modify group (fun g => moveD0Free env g.nodeList g)) u).groups g)) := by
  intro l
  induction l with
  | nil =>
    intro u hu
    exact ⟨hu, fun g h => h, fun g hg => absurd hg (List.not_mem_nil g)⟩
  | cons x rest ih =>
    intro u hu
    have hx : D0FreeMoved env (s0.groups x)
        ((u.modify x (fun g => moveD0Free env g.nodeList g)).groups x) := by
      rw [modify_groups_same]
      rcases hu x with h | ⟨h1, h2⟩
      · rw [h]
        exact moveD0Free_body env (s0.groups x)
      · have hclean : ∀ n ∈ (u.groups x).nodeList, isD0Free env n = false := by
          intro n hn
          have hm : n ∈ (s0.groups x).node_list.filter (fun n => !isD0Free env n) := by
            rw [← h1]; exact hn
          have := (List.mem_filter.1 hm).2
          simpa using this
        rw [moveD0Free_noop env _ _ hclean]
        exact ⟨h1, h2⟩
    have hstep : ∀ g, D0FreeMoved env (s0.groups g) (u.groups g) →
        D0FreeMoved env (s0.groups g)
          ((u.modify x (fun g => moveD0Free env g.nodeList g)).groups g) := by
      intro g hq
      by_cases e : g = x
      · subst e
        exact hx
      · rw [modify_groups_ne _ _ _ e]
        exact hq
    have hu1 : ∀ g, (u.modify x (fun g => moveD0Free env g.nodeList g)).groups g = s0.groups g ∨
        D0FreeMoved env (s0.groups g)
          ((u.modify x (fun g => moveD0Free env g.nodeList g)).groups g) := by
      intro g
      by_cases e : g = x
      · subst e
        exact Or.inr hx
      · rw [modify_groups_ne _ _ _ e]
        exact hu g
    obtain ⟨j1, jp, j2⟩ := ih _ hu1
    rw [List.foldl_cons]
    refine ⟨j1, fun g hq => jp g (hstep g hq), ?_⟩
    intro g hg
    rcases List.mem_cons.1 hg with e | hg
    · subst e
      exact jp g hx
    · exact j2 g hg

theorem linkD0Free_bodies_exact (env : Env) (s : Fusioner) :
    ∀ g ∈ s.group_list, D0FreeMoved env (s.groups g) ((s.linkD0Free env).groups g) :=
  (linkD0Free_exact env s s.group_list s (fun _ => Or.inl rfl)).2.2

/-- C27: when linking succeeds, the body of every cluster is its old body with exactly the
scalar (D0) FREE nodes filtered out, so the remaining nodes keep their relative order and no
body holds a scalar FREE node any more, and every scalar FREE node that was in the body is
now in the input list of that cluster. -/
theorem linking_moves_scalar_free (env : Env) (s t : Fusioner)
    (h : s.linking env = some t) (g : Nat) (hg : g ∈ s.group_list) :
    (t.groups g).node_list = (s.groups g).node_list.filter (fun n => !isD0Free env n) ∧
    (∀ n ∈ (t.groups g).node_list, ¬ ((env.dag n).numdim = D0 ∧ (env.dag n).pattern = FREE)) ∧
    (∀ n ∈ (s.groups g).node_list, (env.dag n).numdim = D0 → (env.dag n).pattern = FREE →
      n ∈ (t.groups g).in_list) := by
  unfold Fusioner.linking at h
  cases h1 : s.linkBoundary env with
  | none => rw [h1] at h; exact Option.noConfusion h
  | some s1 =>
    rw [h1] at h
    simp only [Option.bind_eq_bind, Option.some_bind, Option.some.injEq] at h
    have hb1 := linkBoundary_bodies env s s1 h1
    have hb2 := linkIntra_bodies env s1
    have hgl : (s1.linkIntra env).group_list = s.group_list := by
      rw [hb2.1, hb1.1]
    have hbody : ((s1.linkIntra env).groups g).node_list = (s.groups g).node_list := by
      rw [hb2.2.2 g, hb1.2.2 g]
    obtain ⟨q1, q2⟩ := linkD0Free_bodies_exact env (s1.linkIntra env) g (hgl ▸ hg)
    rw [h, hbody] at q1
    rw [h] at q2
    refine ⟨q1, ?_, ?_⟩
    · intro n hn hd
      rw [q1] at hn
      have := (List.mem_filter.1 hn).2
      simp [isD0Free, hd.1, hd.2] at this
    · intro n hn hd hf
      refine q2 n (hbody ▸ hn) ?_
      simp [isD0Free, hd, hf]

theorem linking_moves_scalar_free_witness :
    ∃ t, scalarFreeEx.linking (Env.ofDag scalarFreeDag) = some t ∧
      (t.groups 0).node_list = [1] ∧ 0 ∈ (t.groups 0).in_list := by
  have hs : (scalarFreeEx.linking (Env.ofDag scalarFreeDag)).isSome = true := rfl
  obtain ⟨t, ht⟩ := Option.isSome_iff_exists.1 hs
  have hw := linking_moves_scalar_free (Env.ofDag scalarFreeDag) scalarFreeEx t ht 0
    (by decide)
  refine ⟨t, ht, ?_, hw.2.2 0 (by decide) rfl rfl⟩
  rw [hw.1]
  rfl

/-! ## Removal of a forwarded node -/

theorem forwardInto_keeps (env : Env) (group node : Nat) (st0 : Fusioner)
    (hin : node ∈ (st0.groups group).all_nodes) (u : FwdState) (h : Nat)
    (hu : FwdKeeps group node st0 u) :
    FwdKeeps group node st0 (forwardInto env group node u h) ∧
    ((forwardInto env group node u h).forwarded = true ↔
      (u.forwarded = true ∨ node ∉ (st0.groups h).all_nodes)) := by
  obtain ⟨k1, k2, k3, k4⟩ := hu
  unfold forwardInto
  by_cases hc : is_included node (u.fus.groups h).all_nodes = true
  · rw [if_neg (by simp [hc])]
    refine ⟨⟨k1, k2, k3, k4⟩, ?_⟩
    constructor
    · intro hf; exact Or.inl hf
    · rintro (hf | hn)
      · exact hf
      · cases hfw : u.forwarded with
        | true => rfl
        | false =>
          exfalso
          rw [k1 hfw] at hc
          exact hn (by simpa [is_included] using hc)
  · rw [if_pos (by simp [hc])]
    have hnh : node ∉ (u.fus.groups h).all_nodes := by
      simpa [is_included] using hc
    have hne : group ≠ h := by
      intro e
      subst e
      rw [k3] at hnh
      exact hnh hin
    refine ⟨⟨?_, ?_, ?_, ?_⟩, ?_⟩
    · intro hf; exact Bool.noConfusion hf
    · intro y hy
      show Function.update _ node _ y = _
      rw [Function.update_noteq hy, modify_group_list_of]
      exact k2 y hy
    · dsimp only
      rw [modify_groups_ne _ _ _ hne]
      exact k3
    · dsimp only
      rw [Function.update_same, modify_group_list_of, List.mem_append, List.mem_singleton]
      constructor
      · rintro (hm | hm)
        · exact k4.1 hm
        · exact absurd hm hne
      · intro hm; exact Or.inl (k4.2 hm)
    · constructor
      · intro _
        cases hfw : u.forwarded with
        | true => exact Or.inl rfl
        | false =>
          right
          rw [k1 hfw] at hnh
          exact hnh
      · intro _; rfl

theorem forwardIntoAll_keeps (env : Env) (group node : Nat) (st0 : Fusioner)
    (hin : node ∈ (st0.groups group).all_nodes) : ∀ (l : List Nat) (u : FwdState),
    FwdKeeps group node st0 u →
    FwdKeeps group node st0 (l.foldl (forwardInto env group node) u) ∧
    ((l.foldl (forwardInto env group node) u).forwarded = true ↔
      (u.forwarded = true ∨ ∃ h ∈ l, node ∉ (st0.groups h).all_nodes)) := by
  intro l
  induction l with
  | nil =>
    intro u hu
    refine ⟨hu, ?_⟩
    simp
  | cons x rest ih =>
    intro u hu
    obtain ⟨a1, a2⟩ := forwardInto_keeps env group node st0 hin u x hu
    obtain ⟨b1, b2⟩ := ih _ a1
    rw [List.foldl_cons]
    refine ⟨b1, ?_⟩
    rw [b2, a2]
    simp only [List.mem_cons, exists_eq_or_imp, or_assoc]

theorem forwardNextsLoop_keeps (env : Env) (group node : Nat) (st0 : Fusioner)
    (hin : node ∈ (st0.groups group).all_nodes) : ∀ (l : List Nat) (u : FwdState),
    node ∉ l → FwdKeeps group node st0 u →
    FwdKeeps group node st0 (l.foldl (fun st next_node =>
      (st.fus.group_list_of next_node).foldl (forwardInto env group node) st) u) ∧
    ((l.foldl (fun st next_node =>
      (st.fus.group_list_of next_node).foldl (forwardInto env group node) st) u).forwarded
        = true ↔
      (u.forwarded = true ∨ ∃ y ∈ l, ∃ h ∈ st0.group_list_of y,
        node ∉ (st0.groups h).all_nodes)) := by
  intro l
  induction l with
  | nil =>
    intro u _ hu
    refine ⟨hu, ?_⟩
    simp
  | cons x rest ih =>
    intro u hl hu
    have hx : x ≠ node := fun e => hl (e ▸ List.mem_cons_self _ _)
    have hr : node ∉ rest := fun e => hl (List.mem_cons_of_mem _ e)
    obtain ⟨a1, a2⟩ := forwardIntoAll_keeps env group node st0 hin
      (u.fus.group_list_of x) u hu
    rw [hu.2.1 x hx] at a1 a2
    obtain ⟨b1, b2⟩ := ih _ hr a1
    rw [List.foldl_cons, hu.2.1 x hx]
    refine ⟨b1, ?_⟩
    rw [b2, a2]
    simp only [List.mem_cons, exists_eq_or_imp, or_assoc]

theorem forwardNexts_keeps (env : Env) (group node : Nat) (st : FwdState)
    (hin : node ∈ (st.fus.groups group).all_nodes)
    (hself : node ∉ (env.dag node).nextList) :
    FwdKeeps group node st.fus (forwardNexts env group node st) ∧
    ((forwardNexts env group node st).forwarded = true ↔ Replicable env st.fus node) := by
  have h0 : FwdKeeps group node st.fus { st with forwarded := false } :=
    ⟨fun _ => rfl, fun _ _ => rfl, rfl, Iff.rfl⟩
  obtain ⟨a1, a2⟩ := forwardNextsLoop_keeps env group node st.fus hin
    (env.dag node).nextList _ hself h0
  refine ⟨a1, ?_⟩
  unfold forwardNexts Replicable
  rw [a2]
  simp

theorem forwardNode_group_list (env : Env) (for_pred : Nat → Bool) (group : Nat)
    (st : FwdState) (node : Nat) :
    (forwardNode env for_pred group st node).fus.group_list = st.fus.group_list := by
  have hinto : ∀ (u : FwdState) (h : Nat),
      (forwardInto env group node u h).fus.group_list = u.fus.group_list := by
    intro u h
    unfold forwardInto
    split
    · rfl
    · rfl
  have hnexts : (forwardNexts env group node st).fus.group_list = st.fus.group_list := by
    unfold forwardNexts
    refine foldl_rel (fun (a b : FwdState) => b.fus.group_list = a.fus.group_list)
      (fun _ => rfl) (fun _ _ _ h1 h2 => h2.trans h1) _ ?_ _ { st with forwarded := false }
    intro u y
    exact foldl_rel (fun (a b : FwdState) => b.fus.group_list = a.fus.group_list)
      (fun _ => rfl) (fun _ _ _ h1 h2 => h2.trans h1) _ hinto _ u
  unfold forwardNode
  split
  · rfl
  · unfold forwardRemove
    split
    · split
      · exact hnexts
      · exact hnexts
    · exact hnexts

theorem forwardNodes_group_list (env : Env) (for_pred : Nat → Bool) (s : Fusioner) :
    (s.forwardNodes env for_pred).fus.group_list = s.group_list := by
  unfold Fusioner.forwardNodes
  refine foldl_rel (fun (a b : FwdState) => b.fus.group_list = a.fus.group_list)
    (fun _ => rfl) (fun _ _ _ h1 h2 => h2.trans h1) _ ?_ _
    { fus := s, forward := [], forwarded := false }
  intro u group
  exact foldl_rel (fun (a b : FwdState) => b.fus.group_list = a.fus.group_list)
    (fun _ => rfl) (fun _ _ _ h1 h2 => h2.trans h1) _
    (fun a n => forwardNode_group_list env for_pred group a n) _ u

/-- C26: in the node forwarding phase of `Fusioner::forwarding`, when the turn of a node of the
body of `group` that satisfies the predicate comes (the node is not its own successor), the
node is removed from the body of `group`, and `group` from the clusters of the node, if and
only if the node was replicated (some cluster of some successor did not hold it yet) and no
successor of the node is in the body of `group`; and at the end of `forwarding` the cluster
list is the old cluster list without the clusters whose input, body and output lists are all
empty. -/
theorem forwarding_removes_iff (env : Env) (for_pred : Nat → Bool) (s : Fusioner)
    (st : FwdState) (group node : Nat) (hp : for_pred node = true)
    (hin : node ∈ (st.fus.groups group).node_list)
    (hg : group ∈ st.fus.group_list_of node)
    (hself : node ∉ (env.dag node).nextList) :
    (node ∉ ((forwardNode env for_pred group st node).fus.groups group).node_list ↔
      (Replicable env st.fus node ∧
        ∀ y ∈ (env.dag node).nextList, y ∉ (st.fus.groups group).node_list)) ∧
    (group ∉ (forwardNode env for_pred group st node).fus.group_list_of node ↔
      (Replicable env st.fus node ∧
        ∀ y ∈ (env.dag node).nextList, y ∉ (st.fus.groups group).node_list)) ∧
    (s.forwarding env for_pred).group_list =
      s.group_list.filter
        (fun g => !((s.forwarding env for_pred).groups g).all_nodes.isEmpty) := by
  have hall : node ∈ (st.fus.groups group).all_nodes := by
    rw [mem_all_nodes]
    exact Or.inr (Or.inl hin)
  obtain ⟨⟨_, _, k3, k4⟩, hfw⟩ := forwardNexts_keeps env group node st hall hself
  have hnode : forwardNode env for_pred group st node =
      forwardRemove env group node (forwardNexts env group node st) := by
    unfold forwardNode
    rw [if_neg (by simp [hp])]
  refine ⟨?_, ?_, ?_⟩
  · rw [hnode]
    unfold forwardRemove
    by_cases hf : (forwardNexts env group node st).forwarded = true
    · rw [if_pos hf]
      by_cases ha : (env.dag node).nextList.all (fun n =>
          !is_included n ((forwardNexts env group node st).fus.groups group).nodeList) = true
      · rw [if_pos ha]
        have ha2 : ∀ y ∈ (env.dag node).nextList, y ∉ (st.fus.groups group).node_list := by
          rw [k3] at ha
          simpa [is_included, Group.nodeList] using ha
        constructor
        · intro _
          exact ⟨hfw.1 hf, ha2⟩
        · intro _
          dsimp only
          rw [modify_groups_same]
          show node ∉ remove_value node _
          intro hm
          exact ((mem_remove_value node node _).1 hm).2 rfl
      · rw [if_neg ha]
        constructor
        · intro hn
          rw [k3] at hn
          exact absurd hin hn
        · rintro ⟨_, ha2⟩
          exfalso
          apply ha
          rw [k3]
          simpa [is_included, Group.nodeList] using ha2
    · rw [if_neg hf]
      constructor
      · intro hn
        rw [k3] at hn
        exact absurd hin hn
      · rintro ⟨hr, _⟩
        exact absurd (hfw.2 hr) hf
  · rw [hnode]
    unfold forwardRemove
    by_cases hf : (forwardNexts env group node st).forwarded = true
    · rw [if_pos hf]
      by_cases ha : (env.dag node).nextList.all (fun n =>
          !is_included n ((forwardNexts env group node st).fus.groups group).nodeList) = true
      · rw [if_pos ha]
        have ha2 : ∀ y ∈ (env.dag node).nextList, y ∉ (st.fus.groups group).node_list := by
          rw [k3] at ha
          simpa [is_included, Group.nodeList] using ha
        constructor
        · intro _
          exact ⟨hfw.1 hf, ha2⟩
        · intro _
          dsimp only
          rw [Function.update_same]
          intro hm
          exact ((mem_remove_value group group _).1 hm).2 rfl
      · rw [if_neg ha]
        constructor
        · intro hn
          exact absurd (k4.2 hg) hn
        · rintro ⟨_, ha2⟩
          exfalso
          apply ha
          rw [k3]
          simpa [is_included, Group.nodeList] using ha2
    · rw [if_neg hf]
      constructor
      · intro hn
        exact absurd (k4.2 hg) hn
      · rintro ⟨hr, _⟩
        exact absurd (hfw.2 hr) hf
  · obtain ⟨_, e3, _⟩ := unlinkGroups_edge env (s.forwardNodes env for_pred).fus
      (s.forwardNodes env for_pred).forward
    show List.filter _ _ = _
    rw [e3, forwardNodes_group_list]
    rfl

theorem forwarding_removes_iff_witness :
    (0 ∉ ((forwardNode (Env.ofDag constDag) (Env.ofDag constDag).isFree 0
        { fus := constEx, forward := [], forwarded := false } 0).fus.groups 0).node_list) ∧
    (constEx.forwarding (Env.ofDag constDag) (Env.ofDag constDag).isFree).group_list
      = [1, 2, 3] ∧
    (∀ g ∈ [1, 2, 3],
      0 ∈ ((constEx.forwarding (Env.ofDag constDag)
        (Env.ofDag constDag).isFree).groups g).node_list) := by
  have hw := forwarding_removes_iff (Env.ofDag constDag) (Env.ofDag constDag).isFree constEx
    { fus := constEx, forward := [], forwarded := false } 0 0 (by decide) (by decide)
    (by decide) (by decide)
  refine ⟨hw.1.2 ⟨⟨1, by decide, 1, by decide, by decide⟩, by decide⟩, ?_, ?_⟩
  · rw [hw.2.2]
    decide
  · decide

/-! ## The postcondition of pipe fusion -/

theorem foldlM_split_mem {σ α : Type} (R : σ → σ → Prop) (hr : ∀ s, R s s)
    (ht : ∀ a b c, R a b → R b c → R a c) (f : σ → α → Option σ) :
    ∀ (l : List α), (∀ s x, x ∈ l → ∃ t, f s x = some t ∧ R s t) →
      ∀ (s : σ), ∃ t, l.foldlM f s = some t ∧ R s t ∧
        ∀ x ∈ l, ∃ u v, R s u ∧ f u x = some v ∧ R v t := by
  intro l
  induction l with
  | nil =>
    intro _ s
    exact ⟨s, rfl, hr s, fun x hx => absurd hx (List.not_mem_nil x)⟩
  | cons y ys ih =>
    intro hf s
    obtain ⟨u, hu, hsu⟩ := hf s y (List.mem_cons_self _ _)
    obtain ⟨t, htt, hut, hall⟩ := ih (fun s x hx => hf s x (List.mem_cons_of_mem _ hx)) u
    refine ⟨t, ?_, ht _ _ _ hsu hut, ?_⟩
    · rw [List.foldlM_cons, hu]
      exact htt
    · intro x hx
      rcases List.mem_cons.1 hx with e | hx
      · subst e
        exact ⟨s, u, hr s, hu, hut⟩
      · obtain ⟨a, b, h1, h2, h3⟩ := hall x hx
        exact ⟨a, b, ht _ _ _ hsu h1, h2, h3⟩

theorem MoveGrow.mgrow_refl (src dst : Nat) (s : Fusioner) : MoveGrow src dst s s :=
  ⟨rfl, fun _ => ⟨rfl, rfl⟩, rfl, fun _ h => h, fun _ h => h, fun _ h => h, fun _ h => h⟩

theorem MoveGrow.mgrow_trans {src dst : Nat} {a b c : Fusioner} (h1 : MoveGrow src dst a b)
    (h2 : MoveGrow src dst b c) : MoveGrow src dst a c := by
  obtain ⟨a1, a2, a3, a4, a5, a6, a7⟩ := h1
  obtain ⟨b1, b2, b3, b4, b5, b6, b7⟩ := h2
  refine ⟨b1.trans a1, fun g => ⟨(b2 g).1.trans (a2 g).1, (b2 g).2.trans (a2 g).2⟩,
    b3.trans a3, fun x hx => b4 x (a4 x hx), fun x hx => b5 x (a5 x hx),
    fun x hx => b6 x (a6 x hx), fun n hn => b7 n (a7 n hn)⟩

theorem moveNode_grow (src dst : Nat) (hne : src ≠ dst) (add : Group → Nat → Group)
    (hadd : ∀ g n, (add g n).next_list = g.next_list ∧ (add g n).prev_list = g.prev_list ∧
      (∀ x ∈ g.node_list, x ∈ (add g n).node_list) ∧
      (∀ x ∈ g.in_list, x ∈ (add g n).in_list) ∧
      (∀ x ∈ g.out_list, x ∈ (add g n).out_list))
    (u : Fusioner) (node : Nat) :
    MoveGrow src dst u (u.moveNode src dst add node) ∧
    dst ∈ (u.moveNode src dst add node).group_list_of node ∧
    src ∉ (u.moveNode src dst add node).group_list_of node ∧
    (u.moveNode src dst add node).groups dst = add (u.groups dst) node := by
  have hg : (u.moveNode src dst add node).groups = Function.update u.groups dst
      (add (u.groups dst) node) := rfl
  have hl : (u.moveNode src dst add node).group_list_of = Function.update u.group_list_of node
      (remove_value src (u.group_list_of node) ++ [dst]) := rfl
  have hdst : dst ∈ (u.moveNode src dst add node).group_list_of node := by
    rw [hl, Function.update_same]
    simp
  have hsrc : src ∉ (u.moveNode src dst add node).group_list_of node := by
    rw [hl, Function.update_same]
    intro h
    rcases List.mem_append.1 h with h | h
    · exact ((mem_remove_value src src _).1 h).2 rfl
    · exact hne (by simpa using h)
  refine ⟨⟨rfl, ?_, ?_, ?_, ?_, ?_, ?_⟩, hdst, hsrc, ?_⟩
  · intro g
    rw [hg]
    by_cases e : g = dst
    · subst e
      rw [Function.update_same]
      exact ⟨(hadd _ _).1, (hadd _ _).2.1⟩
    · rw [Function.update_noteq e]
      exact ⟨rfl, rfl⟩
  · rw [hg, Function.update_noteq hne]
  · intro x hx
    rw [hg, Function.update_same]
    exact (hadd _ _).2.2.1 x hx
  · intro x hx
    rw [hg, Function.update_same]
    exact (hadd _ _).2.2.2.1 x hx
  · intro x hx
    rw [hg, Function.update_same]
    exact (hadd _ _).2.2.2.2 x hx
  · intro n hn
    by_cases e : n = node
    · subst e
      exact ⟨hdst, hsrc⟩
    · rw [hl, Function.update_noteq e]
      exact hn
  · rw [hg, Function.update_same]

theorem moveLoop_grow (src dst : Nat) (hne : src ≠ dst) (add : Group → Nat → Group)
    (hadd : ∀ g n, (add g n).next_list = g.next_list ∧ (add g n).prev_list = g.prev_list ∧
      (∀ x ∈ g.node_list, x ∈ (add g n).node_list) ∧
      (∀ x ∈ g.in_list, x ∈ (add g n).in_list) ∧
      (∀ x ∈ g.out_list, x ∈ (add g n).out_list))
    (l : List Nat) (s : Fusioner) :
    MoveGrow src dst s (l.foldl (fun u node => u.moveNode src dst add node) s) ∧
    ∀ x ∈ l, ∃ u, MoveGrow src dst s u ∧
      MoveGrow src dst (u.moveNode src dst add x)
        (l.foldl (fun u node => u.moveNode src dst add node) s) := by
  refine ⟨?_, ?_⟩
  · exact foldl_rel (MoveGrow src dst) (MoveGrow.mgrow_refl src dst)
      (fun _ _ _ => MoveGrow.mgrow_trans) _
      (fun u x => (moveNode_grow src dst hne add hadd u x).1) l s
  · intro x hx
    exact foldl_split (MoveGrow src dst) (MoveGrow.mgrow_refl src dst)
      (fun _ _ _ => MoveGrow.mgrow_trans) _
      (fun u x => (moveNode_grow src dst hne add hadd u x).1) l s x hx

theorem moveNodes_grow (env : Env) (s : Fusioner) (src dst : Nat) (hne : src ≠ dst) :
    MoveGrow src dst s (s.moveNodes env src dst) ∧
    (∀ n ∈ (s.groups src).node_list, n ∈ ((s.moveNodes env src dst).groups dst).node_list) ∧
    (∀ n ∈ (s.groups src).in_list, n ∈ ((s.moveNodes env src dst).groups dst).in_list) ∧
    (∀ n ∈ (s.groups src).out_list, n ∈ ((s.moveNodes env src dst).groups dst).out_list) ∧
    (∀ n ∈ (s.groups src).all_nodes, dst ∈ (s.moveNodes env src dst).group_list_of n ∧
      src ∉ (s.moveNodes env src dst).group_list_of n) := by
  have hadd1 : ∀ (g : Group) (n : Nat),
      (g.addNode n (env.dag n).pattern).next_list = g.next_list ∧
      (g.addNode n (env.dag n).pattern).prev_list = g.prev_list ∧
      (∀ x ∈ g.node_list, x ∈ (g.addNode n (env.dag n).pattern).node_list) ∧
      (∀ x ∈ g.in_list, x ∈ (g.addNode n (env.dag n).pattern).in_list) ∧
      (∀ x ∈ g.out_list, x ∈ (g.addNode n (env.dag n).pattern).out_list) :=
    fun g n => ⟨rfl, rfl, fun x hx => List.mem_append_left _ hx, fun _ h => h, fun _ h => h⟩
  have hadd2 : ∀ (g : Group) (n : Nat),
      (g.addInputNode n).next_list = g.next_list ∧
      (g.addInputNode n).prev_list = g.prev_list ∧
      (∀ x ∈ g.node_list, x ∈ (g.addInputNode n).node_list) ∧
      (∀ x ∈ g.in_list, x ∈ (g.addInputNode n).in_list) ∧
      (∀ x ∈ g.out_list, x ∈ (g.addInputNode n).out_list) := by
    intro g n
    obtain ⟨f1, f2, f3, f4, _, f6⟩ := addInputNode_fields g n
    exact ⟨f4, f3, fun x hx => f1 ▸ hx, f6, fun x hx => f2 ▸ hx⟩
  have hadd3 : ∀ (g : Group) (n : Nat),
      (g.addOutputNode n).next_list = g.next_list ∧
      (g.addOutputNode n).prev_list = g.prev_list ∧
      (∀ x ∈ g.node_list, x ∈ (g.addOutputNode n).node_list) ∧
      (∀ x ∈ g.in_list, x ∈ (g.addOutputNode n).in_list) ∧
      (∀ x ∈ g.out_list, x ∈ (g.addOutputNode n).out_list) := by
    intro g n
    obtain ⟨f1, f2, f3, f4, _, f6⟩ := addOutputNode_fields g n
    exact ⟨f4, f3, fun x hx => f1 ▸ hx, fun x hx => f2 ▸ hx, f6⟩
  obtain ⟨a1, a2⟩ := moveLoop_grow src dst hne _ hadd1 (s.groups src).nodeList s
  generalize hs1 : List.foldl (fun u node =>
    Fusioner.moveNode u src dst (fun g n => g.addNode n (env.dag n).pattern) node) s
      (s.groups src).nodeList = s1 at a1 a2
  obtain ⟨b1, b2⟩ := moveLoop_grow src dst hne _ hadd2 (s1.groups src).inputList s1
  generalize hs2 : List.foldl (fun u node =>
    Fusioner.moveNode u src dst (fun g n => g.addInputNode n) node) s1
      (s1.groups src).inputList = s2 at b1 b2
  obtain ⟨c1, c2⟩ := moveLoop_grow src dst hne _ hadd3 (s2.groups src).outputList s2
  generalize hs3 : List.foldl (fun u node =>
    Fusioner.moveNode u src dst (fun g n => g.addOutputNode n) node) s2
      (s2.groups src).outputList = s3 at c1 c2
  have hres : s.moveNodes env src dst = s3 := by
    unfold Fusioner.moveNodes
    dsimp only
    rw [hs1, hs2, hs3]
  rw [hres]
  have e1 : s1.groups src = s.groups src := a1.2.2.1
  have e2 : s2.groups src = s.groups src := b1.2.2.1.trans e1
  have n1 : ∀ n ∈ (s.groups src).node_list, n ∈ (s1.groups dst).node_list ∧
      dst ∈ s1.group_list_of n ∧ src ∉ s1.group_list_of n := by
    intro n hn
    obtain ⟨u, _, hu⟩ := a2 n hn
    obtain ⟨_, p1, p2, p3⟩ := moveNode_grow src dst hne _ hadd1 u n
    have hm : n ∈ ((u.moveNode src dst
        (fun g n => g.addNode n (env.dag n).pattern) n).groups dst).node_list := by
      rw [p3]
      exact List.mem_append_right _ (List.mem_singleton_self n)
    exact ⟨hu.2.2.2.1 n hm, hu.2.2.2.2.2.2 n ⟨p1, p2⟩⟩
  have n2 : ∀ n ∈ (s.groups src).in_list, n ∈ (s2.groups dst).in_list ∧
      dst ∈ s2.group_list_of n ∧ src ∉ s2.group_list_of n := by
    intro n hn
    obtain ⟨u, _, hu⟩ := b2 n (by rw [e1]; exact hn)
    obtain ⟨_, p1, p2, p3⟩ := moveNode_grow src dst hne _ hadd2 u n
    have hm : n ∈ ((u.moveNode src dst
        (fun g n => g.addInputNode n) n).groups dst).in_list := by
      rw [p3]
      exact mem_addInputNode _ n
    exact ⟨hu.2.2.2.2.1 n hm, hu.2.2.2.2.2.2 n ⟨p1, p2⟩⟩
  have n3 : ∀ n ∈ (s.groups src).out_list, n ∈ (s3.groups dst).out_list ∧
      dst ∈ s3.group_list_of n ∧ src ∉ s3.group_list_of n := by
    intro n hn
    obtain ⟨u, _, hu⟩ := c2 n (by rw [e2]; exact hn)
    obtain ⟨_, p1, p2, p3⟩ := moveNode_grow src dst hne _ hadd3 u n
    have hm : n ∈ ((u.moveNode src dst
        (fun g n => g.addOutputNode n) n).groups dst).out_list := by
      rw [p3]
      exact mem_addOutputNode _ n
    exact ⟨hu.2.2.2.2.2.1 n hm, hu.2.2.2.2.2.2 n ⟨p1, p2⟩⟩
  have h23 := b1.mgrow_trans c1
  refine ⟨a1.mgrow_trans h23, ?_, ?_, ?_, ?_⟩
  · intro n hn
    exact h23.2.2.2.1 n (n1 n hn).1
  · intro n hn
    exact c1.2.2.2.2.1 n (n2 n hn).1
  · intro n hn
    exact (n3 n hn).1
  · intro n hn
    rcases (mem_all_nodes _ n).1 hn with h | h | h
    · exact c1.2.2.2.2.2.2 n (n2 n h).2
    · exact h23.2.2.2.2.2.2 n (n1 n h).2
    · exact (n3 n h).2

theorem EdgeMove.edge_move_refl (top bot : Nat) (s : Fusioner) : EdgeMove top bot s s :=
  ⟨rfl, rfl, rfl, fun _ => ⟨rfl, rfl, rfl⟩, fun _ _ h => Or.inl h, fun _ _ h => Or.inl h⟩

theorem EdgeMove.edge_move_trans {top bot : Nat} {a b c : Fusioner} (h1 : EdgeMove top bot a b)
    (h2 : EdgeMove top bot b c) : EdgeMove top bot a c := by
  obtain ⟨a1, a2, a3, a4, a5, a6⟩ := h1
  obtain ⟨b1, b2, b3, b4, b5, b6⟩ := h2
  refine ⟨b1.trans a1, b2.trans a2, b3.trans a3, ?_, ?_, ?_⟩
  · intro g
    exact ⟨(b4 g).1.trans (a4 g).1, (b4 g).2.1.trans (a4 g).2.1, (b4 g).2.2.trans (a4 g).2.2⟩
  · intro g x hx
    rcases b5 g x hx with h | h
    · exact a5 g x h
    · exact Or.inr h
  · intro g x hx
    rcases b6 g x hx with h | h
    · exact a6 g x h
    · exact Or.inr h

theorem EdgeMove_modify (top bot : Nat) (u : Fusioner) (g : Nat) (f : Group → Group)
    (hg : g ≠ bot)
    (hl : (f (u.groups g)).node_list = (u.groups g).node_list ∧
      (f (u.groups g)).in_list = (u.groups g).in_list ∧
      (f (u.groups g)).out_list = (u.groups g).out_list)
    (hn : ∀ x ∈ (f (u.groups g)).nextList,
      x ∈ (u.groups g).nextList ∨ (x ≠ bot ∧ (g = top → x ≠ top)))
    (hp : ∀ x ∈ (f (u.groups g)).prevList,
      x ∈ (u.groups g).prevList ∨ (x ≠ bot ∧ (g = top → x ≠ top))) :
    EdgeMove top bot u (u.modify g f) := by
  refine ⟨rfl, rfl, modify_groups_ne _ _ _ (Ne.symm hg), ?_, ?_, ?_⟩
  · intro h
    by_cases e : h = g
    · subst e
      rw [modify_groups_same]
      exact hl
    · rw [modify_groups_ne _ _ _ e]
      exact ⟨rfl, rfl, rfl⟩
  · intro h x hx
    by_cases e : h = g
    · subst e
      rw [modify_groups_same] at hx
      exact hn x hx
    · rw [modify_groups_ne _ _ _ e] at hx
      exact Or.inl hx
  · intro h x hx
    by_cases e : h = g
    · subst e
      rw [modify_groups_same] at hx
      exact hp x hx
    · rw [modify_groups_ne _ _ _ e] at hx
      exact Or.inl hx

theorem EdgeMove_addNext (top bot : Nat) (u : Fusioner) (g x : Nat) (pat : Group → Pattern)
    (hg : g ≠ bot) (hx : x ≠ bot) (hgx : g = top → x ≠ top) :
    EdgeMove top bot u (u.modify g (fun h => h.addNext x (pat h))) := by
  refine EdgeMove_modify top bot u g _ hg ⟨rfl, rfl, rfl⟩ ?_ (fun y hy => Or.inl hy)
  intro y hy
  rcases addEdge_fst _ _ _ y hy with h | h
  · exact Or.inl h
  · subst h
    exact Or.inr ⟨hx, hgx⟩

theorem EdgeMove_addPrev (top bot : Nat) (u : Fusioner) (g x : Nat) (pat : Group → Pattern)
    (hg : g ≠ bot) (hx : x ≠ bot) (hgx : g = top → x ≠ top) :
    EdgeMove top bot u (u.modify g (fun h => h.addPrev x (pat h))) := by
  refine EdgeMove_modify top bot u g _ hg ⟨rfl, rfl, rfl⟩ (fun y hy => Or.inl hy) ?_
  intro y hy
  rcases addEdge_fst _ _ _ y hy with h | h
  · exact Or.inl h
  · subst h
    exact Or.inr ⟨hx, hgx⟩

theorem EdgeMove_removeNext (top bot : Nat) (u : Fusioner) (g x : Nat) (hg : g ≠ bot) :
    EdgeMove top bot u (u.modify g (fun h => h.removeNext x)) ∧
    x ∉ ((u.modify g (fun h => h.removeNext x)).groups g).nextList := by
  refine ⟨EdgeMove_modify top bot u g _ hg ⟨rfl, rfl, rfl⟩ ?_ (fun y hy => Or.inl hy), ?_⟩
  · intro y hy
    left
    obtain ⟨e, he, rfl⟩ := List.mem_map.1 hy
    exact List.mem_map.2 ⟨e, (List.mem_filter.1 he).1, rfl⟩
  · rw [modify_groups_same]
    intro hy
    obtain ⟨e, he, hex⟩ := List.mem_map.1 hy
    have := (List.mem_filter.1 he).2
    simp [hex] at this

theorem EdgeMove_removePrev (top bot : Nat) (u : Fusioner) (g x : Nat) (hg : g ≠ bot) :
    EdgeMove top bot u (u.modify g (fun h => h.removePrev x)) ∧
    x ∉ ((u.modify g (fun h => h.removePrev x)).groups g).prevList := by
  refine ⟨EdgeMove_modify top bot u g _ hg ⟨rfl, rfl, rfl⟩ (fun y hy => Or.inl hy) ?_, ?_⟩
  · intro y hy
    left
    obtain ⟨e, he, rfl⟩ := List.mem_map.1 hy
    exact List.mem_map.2 ⟨e, (List.mem_filter.1 he).1, rfl⟩
  · rw [modify_groups_same]
    intro hy
    obtain ⟨e, he, hex⟩ := List.mem_map.1 hy
    have := (List.mem_filter.1 he).2
    simp [hex] at this

theorem pipeMovePrevs_move (s1 : Fusioner) (top bot : Nat) (hne : top ≠ bot)
    (hnb : bot ∉ (s1.groups bot).prevList) :
    EdgeMove top bot s1 (s1.pipeMovePrevs top bot) ∧
    ∀ x ∈ (s1.groups bot).prevList, x ≠ top →
      bot ∉ ((s1.pipeMovePrevs top bot).groups x).nextList := by
  have hstep : ∀ (u : Fusioner) (x : Nat), x ∈ (s1.groups bot).prevList →
      EdgeMove top bot u
        (if x = top then u
         else
          ((u.modify x (fun g => g.addNext top (g.nextPattern bot))).modify top
            (fun g => g.addPrev x
              (((u.modify x (fun g => g.addNext top (g.nextPattern bot))).groups
                bot).prevPattern x))).modify x (fun g => g.removeNext bot)) := by
    intro u x hx
    have hxb : x ≠ bot := fun e => hnb (e ▸ hx)
    split
    · exact EdgeMove.edge_move_refl top bot u
    · rename_i hxt
      exact ((EdgeMove_addNext top bot u x top _ hxb hne (fun e => absurd e hxt)).edge_move_trans
        (EdgeMove_addPrev top bot _ top x _ hne hxb (fun _ => hxt))).edge_move_trans
        (EdgeMove_removeNext top bot _ x bot hxb).1
  refine ⟨?_, ?_⟩
  · unfold Fusioner.pipeMovePrevs
    exact foldl_rel_mem (EdgeMove top bot) (EdgeMove.edge_move_refl top bot)
      (fun _ _ _ => EdgeMove.edge_move_trans) _ _ hstep s1
  · intro x hx hxt
    have hxb : x ≠ bot := fun e => hnb (e ▸ hx)
    obtain ⟨u, _, hu⟩ := foldl_split_mem (EdgeMove top bot) (EdgeMove.edge_move_refl top bot)
      (fun _ _ _ => EdgeMove.edge_move_trans) _ _ hstep s1 x hx
    rw [if_neg hxt] at hu
    intro hm
    rcases hu.2.2.2.2.1 x bot hm with h | h
    · exact (EdgeMove_removeNext top bot _ x bot hxb).2 h
    · exact h.1 rfl

theorem pipeMoveNexts_move (s2 : Fusioner) (top bot : Nat) (hne : top ≠ bot)
    (hnt : top ∉ (s2.groups bot).nextList) (hnb : bot ∉ (s2.groups bot).nextList) :
    ∃ s3, s2.pipeMoveNexts top bot = some s3 ∧ EdgeMove top bot s2 s3 ∧
      ∀ x ∈ (s2.groups bot).nextList, bot ∉ (s3.groups x).prevList := by
  have hstep : ∀ (u : Fusioner) (x : Nat), x ∈ (s2.groups bot).nextList →
      ∃ t, (if x = top then none
        else
          some (((u.modify x (fun g => g.addPrev top
              ((g.prevPattern bot).add ((u.groups bot).prevPattern top)))).modify top
            (fun g => g.addNext x
              (((u.modify x (fun g => g.addPrev top
                ((g.prevPattern bot).add ((u.groups bot).prevPattern top)))).groups
                  bot).nextPattern x))).modify x (fun g => g.removePrev bot))) = some t ∧
        EdgeMove top bot u t ∧ bot ∉ (t.groups x).prevList := by
    intro u x hx
    have hxb : x ≠ bot := fun e => hnb (e ▸ hx)
    have hxt : x ≠ top := fun e => hnt (e ▸ hx)
    refine ⟨_, if_neg hxt, ?_, (EdgeMove_removePrev top bot _ x bot hxb).2⟩
    exact ((EdgeMove_addPrev top bot u x top _ hxb hne (fun e => absurd e hxt)).edge_move_trans
      (EdgeMove_addNext top bot _ top x _ hne hxb (fun _ => hxt))).edge_move_trans
      (EdgeMove_removePrev top bot _ x bot hxb).1
  obtain ⟨s3, e3, hR, hall⟩ := foldlM_split_mem (EdgeMove top bot)
    (EdgeMove.edge_move_refl top bot) (fun _ _ _ => EdgeMove.edge_move_trans) _
    (s2.groups bot).nextList
    (fun u x hx => (hstep u x hx).imp (fun t ht => ⟨ht.1, ht.2.1⟩)) s2
  refine ⟨s3, e3, hR, ?_⟩
  intro x hx hm
  obtain ⟨u, v, _, huv, hvt⟩ := hall x hx
  obtain ⟨t, ht1, _, ht3⟩ := hstep u x hx
  rw [ht1] at huv
  injection huv with huv
  subst huv
  rcases hvt.2.2.2.2.2 x bot hm with h | h
  · exact ht3 h
  · exact h.1 rfl

theorem pipeUpdatePrevs_move (s3 : Fusioner) (top bot : Nat) (hne : top ≠ bot)
    (h1 : top ∉ (s3.groups top).prevList) (h2 : bot ∉ (s3.groups top).prevList) :
    EdgeMove top bot s3 (s3.pipeUpdatePrevs top bot) := by
  unfold Fusioner.pipeUpdatePrevs
  refine foldl_rel_mem (EdgeMove top bot) (EdgeMove.edge_move_refl top bot)
    (fun _ _ _ => EdgeMove.edge_move_trans) _ _ ?_ s3
  intro u x hx
  have hxb : x ≠ bot := fun e => h2 (e ▸ hx)
  have hxt : x ≠ top := fun e => h1 (e ▸ hx)
  exact EdgeMove_addNext top bot u x top (fun _ => (u.groups top).nextPattern bot) hxb hne
    (fun e => absurd e hxt)

/-- C24: on a cluster graph whose prev and next lists mirror each other, for listed clusters
`top` and `bot` without self-edges with `canPipeFuse(top, bot)` and `top` not a next of `bot`
(the assertion of the loop over the nexts of `bot`), `pipeFuseGroup(top, bot)` returns `top`;
the node, input and output lists of `top` contain every node of the corresponding list of
`bot`; every such node has `top` and no longer `bot` among its clusters; the cluster list is
the old one without `bot`; no remaining cluster has `bot` in its prev or next list; and `top`
is not in its own prev or next list. -/
theorem pipeFuseGroup_post (env : Env) (s : Fusioner) (top bot : Nat) (hw : s.WellLinked)
    (htop : top ∈ s.group_list) (hbot : bot ∈ s.group_list)
    (hcan : s.canPipeFuse env top bot = true)
    (hnt : top ∉ (s.groups bot).nextList)
    (hst : top ∉ (s.groups top).nextList) (hsb : bot ∉ (s.groups bot).nextList) :
    ∃ t, s.pipeFuseGroup env top bot = some (t, top) ∧
      (∀ n ∈ (s.groups bot).node_list, n ∈ (t.groups top).node_list) ∧
      (∀ n ∈ (s.groups bot).in_list, n ∈ (t.groups top).in_list) ∧
      (∀ n ∈ (s.groups bot).out_list, n ∈ (t.groups top).out_list) ∧
      (∀ n ∈ (s.groups bot).all_nodes, top ∈ t.group_list_of n ∧ bot ∉ t.group_list_of n) ∧
      t.group_list = s.group_list.filter (fun g => !decide (g = bot)) ∧
      (∀ g ∈ t.group_list,
        bot ∉ (t.groups g).prevList ∧ bot ∉ (t.groups g).nextList) ∧
      top ∉ (t.groups top).prevList ∧ top ∉ (t.groups top).nextList := by
  have hne : top ≠ bot := canPipeFuse_ne env s top bot hcan
  have hstp : top ∉ (s.groups top).prevList := fun h => hst (hw.2.2 top htop top h).2
  have hsbp : bot ∉ (s.groups bot).prevList := fun h => hsb (hw.2.2 bot hbot bot h).2
  have hbpt : bot ∉ (s.groups top).prevList := fun h => hnt (hw.2.2 top htop bot h).2
  obtain ⟨m1, m2, m3, m4, m5⟩ := moveNodes_grow env s bot top (Ne.symm hne)
  have hN1 : ∀ g, ((s.moveNodes env bot top).groups g).nextList = (s.groups g).nextList := by
    intro g
    unfold Group.nextList
    rw [(m1.2.1 g).1]
  have hP1 : ∀ g, ((s.moveNodes env bot top).groups g).prevList = (s.groups g).prevList := by
    intro g
    unfold Group.prevList
    rw [(m1.2.1 g).2]
  obtain ⟨r2, q2⟩ := pipeMovePrevs_move (s.moveNodes env bot top) top bot hne
    (by rw [hP1]; exact hsbp)
  have hb2 : (((s.moveNodes env bot top).pipeMovePrevs top bot).groups bot) = s.groups bot :=
    r2.2.2.1.trans m1.2.2.1
  obtain ⟨s3, e3, r3, q3⟩ := pipeMoveNexts_move ((s.moveNodes env bot top).pipeMovePrevs top bot)
    top bot hne (by rw [hb2]; exact hnt) (by rw [hb2]; exact hsb)
  have r13 := r2.edge_move_trans r3
  have ht3 : top ∉ (s3.groups top).prevList := by
    intro h
    rcases r13.2.2.2.2.2 top top h with h | h
    · rw [hP1] at h
      exact hstp h
    · exact h.2 rfl rfl
  have hb3 : bot ∉ (s3.groups top).prevList := by
    intro h
    rcases r13.2.2.2.2.2 top bot h with h | h
    · rw [hP1] at h
      exact hbpt h
    · exact h.1 rfl
  have r4 := pipeUpdatePrevs_move s3 top bot hne ht3 hb3
  obtain ⟨r5, q5⟩ := EdgeMove_removeNext top bot (s3.pipeUpdatePrevs top bot) top bot hne
  have r6 := EdgeMove_modify top bot
    ((s3.pipeUpdatePrevs top bot).modify top (fun g => g.removeNext bot)) top
    (fun g => { g with pattern := Pattern.add g.pattern (((s3.pipeUpdatePrevs top bot).modify
      top (fun g => g.removeNext bot)).groups bot).pattern })
    hne ⟨rfl, rfl, rfl⟩ (fun _ h => Or.inl h) (fun _ h => Or.inl h)
  have hres : ∃ s6, s.pipeFuseGroup env top bot = some (s6.removeGroup bot, top) ∧
      EdgeMove top bot ((s3.pipeUpdatePrevs top bot).modify top (fun g => g.removeNext bot)) s6
      := by
    unfold Fusioner.pipeFuseGroup
    have l1 : is_included top s.group_list = true := by simpa [is_included] using htop
    have l2 : is_included bot s.group_list = true := by simpa [is_included] using hbot
    simp only [l1, l2, hcan, Bool.not_true, Bool.or_self, Bool.false_eq_true, if_false, e3]
    exact ⟨_, rfl, r6⟩
  obtain ⟨s6, hres, r6⟩ := hres
  have r56 := r6
  have r36 := (r4.edge_move_trans r5).edge_move_trans r6
  have r26 := r3.edge_move_trans r36
  have r16 := r2.edge_move_trans r26
  have hgl : (s6.removeGroup bot).group_list =
      s.group_list.filter (fun g => !decide (g = bot)) := by
    show List.filter _ s6.group_list = _
    rw [r16.1, m1.1]
  refine ⟨s6.removeGroup bot, hres, ?_, ?_, ?_, ?_, hgl, ?_, ?_, ?_⟩
  · intro n hn
    show n ∈ (s6.groups top).node_list
    rw [(r16.2.2.2.1 top).1]
    exact m2 n hn
  · intro n hn
    show n ∈ (s6.groups top).in_list
    rw [(r16.2.2.2.1 top).2.1]
    exact m3 n hn
  · intro n hn
    show n ∈ (s6.groups top).out_list
    rw [(r16.2.2.2.1 top).2.2]
    exact m4 n hn
  · intro n hn
    show top ∈ s6.group_list_of n ∧ bot ∉ s6.group_list_of n
    rw [r16.2.1]
    exact m5 n hn
  · intro g hg
    rw [hgl] at hg
    obtain ⟨hgs, hgb⟩ := List.mem_filter.1 hg
    have hgb : g ≠ bot := by simpa using hgb
    show bot ∉ (s6.groups g).prevList ∧ bot ∉ (s6.groups g).nextList
    refine ⟨?_, ?_⟩
    · intro hm
      by_cases h0 : bot ∈ (s.groups g).prevList
      · have hgn : g ∈ (s.groups bot).nextList := (hw.2.2 g hgs bot h0).2
        have := q3 g (by rw [hb2]; exact hgn)
        rcases r36.2.2.2.2.2 g bot hm with h | h
        · exact this h
        · exact h.1 rfl
      · rcases r16.2.2.2.2.2 g bot hm with h | h
        · rw [hP1] at h
          exact h0 h
        · exact h.1 rfl
    · intro hm
      by_cases h0 : bot ∈ (s.groups g).nextList
      · have hgp : g ∈ (s.groups bot).prevList := (hw.2.1 g hgs bot h0).2
        by_cases hgt : g = top
        · subst hgt
          rcases r56.2.2.2.2.1 g bot hm with h | h
          · exact q5 h
          · exact h.1 rfl
        · have := q2 g (by rw [hP1]; exact hgp) hgt
          rcases r26.2.2.2.2.1 g bot hm with h | h
          · exact this h
          · exact h.1 rfl
      · rcases r16.2.2.2.2.1 g bot hm with h | h
        · rw [hN1] at h
          exact h0 h
        · exact h.1 rfl
  · show top ∉ (s6.groups top).prevList
    intro hm
    rcases r36.2.2.2.2.2 top top hm with h | h
    · exact ht3 h
    · exact h.2 rfl rfl
  · show top ∉ (s6.groups top).nextList
    intro hm
    rcases r16.2.2.2.2.1 top top hm with h | h
    · rw [hN1] at h
      exact hst h
    · exact h.2 rfl rfl

theorem pipeFuseGroup_post_witness :
    ∃ t, sortEx.pipeFuseGroup (Env.ofDag sortDag) 0 2 = some (t, 0) ∧
      3 ∈ (t.groups 0).node_list ∧ 0 ∈ t.group_list_of 3 ∧ 2 ∉ t.group_list_of 3 ∧
      t.group_list = [0, 1] ∧ 2 ∉ (t.groups 0).nextList ∧ 0 ∉ (t.groups 0).nextList := by
  have hw : sortEx.WellLinked := by
    unfold Fusioner.WellLinked
    decide
  obtain ⟨t, h1, h2, _, _, h5, h6, h7, h8⟩ := pipeFuseGroup_post (Env.ofDag sortDag) sortEx 0 2
    hw (by decide) (by decide) (by decide) (by decide) (by decide) (by decide)
  refine ⟨t, h1, h2 3 (by decide), (h5 3 (by decide)).1, (h5 3 (by decide)).2, ?_, ?_, h8.2⟩
  · rw [h6]
    decide
  · refine (h7 0 ?_).2
    rw [h6]
    decide

/-! ## Pattern composition -/

theorem Pattern.add_free_left (b : Pattern) : Pattern.add FREE b = b := by
  simp [Pattern.add]

theorem Pattern.add_free_right (a : Pattern) : Pattern.add a FREE = a := by
  unfold Pattern.add
  by_cases h : a = FREE
  · simp [h]
  · simp [h]

theorem Pattern.union_ne_free (a b : Pattern) (ha : a ≠ FREE) (hb : b ≠ FREE) :
    a ∪ b ≠ FREE := by
  intro h
  have h1 : a ⊆ {PatternTag.FREE} := by
    rw [show ({PatternTag.FREE} : Finset PatternTag) = a ∪ b from h.symm]
    exact Finset.subset_union_left
  have h2 : b ⊆ {PatternTag.FREE} := by
    rw [show ({PatternTag.FREE} : Finset PatternTag) = a ∪ b from h.symm]
    exact Finset.subset_union_right
  rcases Finset.subset_singleton_iff.1 h1 with e1 | e1
  · rcases Finset.subset_singleton_iff.1 h2 with e2 | e2
    · rw [e1, e2] at h
      exact absurd h (by decide)
    · exact hb e2
  · exact ha e1

theorem Pattern.add_comm (a b : Pattern) : Pattern.add a b = Pattern.add b a := by
  unfold Pattern.add
  by_cases h1 : a = FREE
  · by_cases h2 : b = FREE
    · simp [h1, h2]
    · simp [h1, h2]
  · by_cases h2 : b = FREE
    · simp [h1, h2]
    · simp [h1, h2, Finset.union_comm]

theorem Pattern.add_ne_free (a b : Pattern) (ha : a ≠ FREE) (hb : b ≠ FREE) :
    Pattern.add a b = a ∪ b ∧ Pattern.add a b ≠ FREE := by
  have : Pattern.add a b = a ∪ b := by simp [Pattern.add, ha, hb]
  exact ⟨this, this ▸ Pattern.union_ne_free a b ha hb⟩

theorem Pattern.add_assoc (a b c : Pattern) :
    Pattern.add (Pattern.add a b) c = Pattern.add a (Pattern.add b c) := by
  by_cases h1 : a = FREE
  · subst h1
    rw [Pattern.add_free_left, Pattern.add_free_left]
  · by_cases h2 : b = FREE
    · subst h2
      rw [Pattern.add_free_right, Pattern.add_free_left]
    · by_cases h3 : c = FREE
      · subst h3
        rw [Pattern.add_free_right, Pattern.add_free_right]
      · obtain ⟨e1, n1⟩ := Pattern.add_ne_free a b h1 h2
        obtain ⟨e2, n2⟩ := Pattern.add_ne_free b c h2 h3
        rw [(Pattern.add_ne_free _ c n1 h3).1, (Pattern.add_ne_free a _ h1 n2).1, e1, e2,
          Finset.union_assoc]

theorem Pattern.add_idem (a : Pattern) : Pattern.add a a = a := by
  unfold Pattern.add
  by_cases h : a = FREE
  · simp [h]
  · simp [h]

theorem foldl_add_eq (env : Env) : ∀ (l : List Nat) (p : Pattern),
    l.foldl (fun p n => Pattern.add p (env.dag n).pattern) p = Pattern.add p (patSum env l) := by
  intro l
  induction l with
  | nil =>
    intro p
    show p = Pattern.add p FREE
    rw [Pattern.add_free_right]
  | cons x xs ih =>
    intro p
    unfold patSum
    rw [List.foldl_cons, List.foldl_cons, ih, ih (Pattern.add FREE _), Pattern.add_free_left,
      Pattern.add_assoc]

theorem patSum_append (env : Env) (l1 l2 : List Nat) :
    patSum env (l1 ++ l2) = Pattern.add (patSum env l1) (patSum env l2) := by
  unfold patSum
  rw [List.foldl_append]
  exact foldl_add_eq env l2 _

theorem patSum_singleton (env : Env) (n : Nat) : patSum env [n] = (env.dag n).pattern :=
  Pattern.add_free_left _

theorem patSum_perm (env : Env) (l1 l2 : List Nat) (h : l1.Perm l2) :
    patSum env l1 = patSum env l2 := by
  unfold patSum
  refine h.foldl_eq' ?_ FREE
  intro x _ y _ z
  rw [Pattern.add_assoc, Pattern.add_assoc, Pattern.add_comm (env.dag x).pattern]

theorem patSum_filter (env : Env) (q : Nat → Bool) (l : List Nat)
    (hq : ∀ n ∈ l, q n = false → (env.dag n).pattern = FREE) :
    patSum env (l.filter q) = patSum env l := by
  induction l with
  | nil => rfl
  | cons x xs ih =>
    have ih := ih (fun n hn => hq n (List.mem_cons_of_mem _ hn))
    have hx : patSum env (x :: xs) = Pattern.add (env.dag x).pattern (patSum env xs) :=
      (patSum_append env [x] xs).trans (by rw [patSum_singleton])
    cases hqx : q x with
    | true =>
      rw [List.filter_cons_of_pos hqx, hx]
      have : patSum env (x :: xs.filter q) =
          Pattern.add (env.dag x).pattern (patSum env (xs.filter q)) :=
        (patSum_append env [x] (xs.filter q)).trans (by rw [patSum_singleton])
      rw [this, ih]
    | false =>
      rw [List.filter_cons_of_neg (by simp [hqx]), hx, hq x (List.mem_cons_self _ _) hqx,
        Pattern.add_free_left, ih]

theorem PatStep.pat_refl (env : Env) (s : Fusioner) : PatStep env s s := fun h => h

theorem PatStep.pat_trans {env : Env} {a b c : Fusioner} (h1 : PatStep env a b)
    (h2 : PatStep env b c) : PatStep env a c := fun h => h2 (h1 h)

theorem PatSame.same_refl (s : Fusioner) : PatSame s s := ⟨rfl, fun _ => ⟨rfl, rfl⟩⟩

theorem PatSame.same_trans {a b c : Fusioner} (h1 : PatSame a b) (h2 : PatSame b c) :
    PatSame a c :=
  ⟨h2.1.trans h1.1, fun g => ⟨(h2.2 g).1.trans (h1.2 g).1, (h2.2 g).2.trans (h1.2 g).2⟩⟩

theorem PatKeep.keep_refl (env : Env) (s : Fusioner) : PatKeep env s s :=
  ⟨fun _ h => h, fun _ => ⟨rfl, fun h => h⟩⟩

theorem PatKeep.keep_trans {env : Env} {a b c : Fusioner} (h1 : PatKeep env a b)
    (h2 : PatKeep env b c) : PatKeep env a c :=
  ⟨fun g hg => h1.1 g (h2.1 g hg),
    fun g => ⟨(h2.2 g).1.trans (h1.2 g).1, fun h => (h2.2 g).2 ((h1.2 g).2 h)⟩⟩

theorem PatSame.to_keep {s t : Fusioner} (env : Env) (h : PatSame s t) : PatKeep env s t := by
  refine ⟨fun g hg => h.1 ▸ hg, fun g => ⟨(h.2 g).1, ?_⟩⟩
  intro hk
  unfold PatOk at hk ⊢
  rw [(h.2 g).1, (h.2 g).2]
  exact hk

theorem PatKeep.to_step {env : Env} {s t : Fusioner} (h : PatKeep env s t) : PatStep env s t :=
  fun hi g hg => (h.2 g).2 (hi g (h.1 g hg))

theorem PatSame_modify (u : Fusioner) (g : Nat) (f : Group → Group)
    (hf : (f (u.groups g)).pattern = (u.groups g).pattern ∧
      (f (u.groups g)).node_list = (u.groups g).node_list) :
    PatSame u (u.modify g f) := by
  refine ⟨rfl, ?_⟩
  intro h
  by_cases e : h = g
  · subst e
    rw [modify_groups_same]
    exact hf
  · rw [modify_groups_ne _ _ _ e]
    exact ⟨rfl, rfl⟩

theorem PatKeep_modify (env : Env) (u : Fusioner) (g : Nat) (f : Group → Group)
    (hf : (f (u.groups g)).pattern = (u.groups g).pattern ∧
      (PatOk env (u.groups g) → PatOk env (f (u.groups g)))) :
    PatKeep env u (u.modify g f) := by
  refine ⟨fun _ h => h, ?_⟩
  intro h
  by_cases e : h = g
  · subst e
    rw [modify_groups_same]
    exact hf
  · rw [modify_groups_ne _ _ _ e]
    exact ⟨rfl, fun h => h⟩

theorem moveBody_pat (env : Env) (src dst : Nat) : ∀ (l : List Nat) (u : Fusioner),
    (l.foldl (fun u node =>
      u.moveNode src dst (fun g n => g.addNode n (env.dag n).pattern) node) u).group_list
        = u.group_list ∧
    (∀ g, g ≠ dst → (l.foldl (fun u node =>
      u.moveNode src dst (fun g n => g.addNode n (env.dag n).pattern) node) u).groups g
        = u.groups g) ∧
    ((l.foldl (fun u node =>
      u.moveNode src dst (fun g n => g.addNode n (env.dag n).pattern) node) u).groups
        dst).node_list = (u.groups dst).node_list ++ l ∧
    ((l.foldl (fun u node =>
      u.moveNode src dst (fun g n => g.addNode n (env.dag n).pattern) node) u).groups
        dst).pattern = Pattern.add (u.groups dst).pattern (patSum env l) := by
  intro l
  induction l with
  | nil =>
    intro u
    refine ⟨rfl, fun _ _ => rfl, (List.append_nil _).symm, ?_⟩
    show _ = Pattern.add _ FREE
    rw [Pattern.add_free_right]
    rfl
  | cons x xs ih =>
    intro u
    have hg : (u.moveNode src dst (fun g n => g.addNode n (env.dag n).pattern) x).groups =
        Function.update u.groups dst ((u.groups dst).addNode x (env.dag x).pattern) := rfl
    obtain ⟨i1, i2, i3, i4⟩ :=
      ih (u.moveNode src dst (fun g n => g.addNode n (env.dag n).pattern) x)
    rw [List.foldl_cons]
    refine ⟨i1, ?_, ?_, ?_⟩
    · intro g hgd
      rw [i2 g hgd, hg, Function.update_noteq hgd]
    · rw [i3, hg, Function.update_same]
      show ((u.groups dst).node_list ++ [x]) ++ xs = _
      rw [List.append_assoc]
      rfl
    · rw [i4, hg, Function.update_same]
      show Pattern.add (Pattern.add (u.groups dst).pattern (env.dag x).pattern) _ = _
      have hx : patSum env (x :: xs) = Pattern.add (env.dag x).pattern (patSum env xs) :=
        (patSum_append env [x] xs).trans (by rw [patSum_singleton])
      rw [hx, Pattern.add_assoc]

theorem moveNode_same (src dst : Nat) (add : Group → Nat → Group)
    (hadd : ∀ g n, (add g n).pattern = g.pattern ∧ (add g n).node_list = g.node_list)
    (u : Fusioner) (node : Nat) : PatSame u (u.moveNode src dst add node) := by
  have hg : (u.moveNode src dst add node).groups = Function.update u.groups dst
      (add (u.groups dst) node) := rfl
  refine ⟨rfl, ?_⟩
  intro g
  rw [hg]
  by_cases e : g = dst
  · subst e
    rw [Function.update_same]
    exact hadd _ _
  · rw [Function.update_noteq e]
    exact ⟨rfl, rfl⟩

theorem moveNodes_pat (env : Env) (s : Fusioner) (src dst : Nat) :
    (s.moveNodes env src dst).group_list = s.group_list ∧
    (∀ g, g ≠ dst → ((s.moveNodes env src dst).groups g).pattern = (s.groups g).pattern ∧
      ((s.moveNodes env src dst).groups g).node_list = (s.groups g).node_list) ∧
    ((s.moveNodes env src dst).groups dst).node_list =
      (s.groups dst).node_list ++ (s.groups src).node_list ∧
    ((s.moveNodes env src dst).groups dst).pattern =
      Pattern.add (s.groups dst).pattern (patSum env (s.groups src).node_list) := by
  obtain ⟨a1, a2, a3, a4⟩ := moveBody_pat env src dst (s.groups src).nodeList s
  generalize hs1 : List.foldl (fun u node =>
    Fusioner.moveNode u src dst (fun g n => g.addNode n (env.dag n).pattern) node) s
      (s.groups src).nodeList = s1 at a1 a2 a3 a4
  have b := foldl_rel PatSame PatSame.same_refl (fun _ _ _ => PatSame.same_trans)
    (fun u node => Fusioner.moveNode u src dst (fun g n => g.addInputNode n) node)
    (fun u x => moveNode_same src dst _
      (fun g n => ⟨(addInputNode_fields g n).2.2.2.2.1, (addInputNode_fields g n).1⟩) u x)
    (s1.groups src).inputList s1
  generalize hs2 : List.foldl (fun u node =>
    Fusioner.moveNode u src dst (fun g n => g.addInputNode n) node) s1
      (s1.groups src).inputList = s2 at b
  have c := foldl_rel PatSame PatSame.same_refl (fun _ _ _ => PatSame.same_trans)
    (fun u node => Fusioner.moveNode u src dst (fun g n => g.addOutputNode n) node)
    (fun u x => moveNode_same src dst _
      (fun g n => ⟨(addOutputNode_fields g n).2.2.2.2.1, (addOutputNode_fields g n).1⟩) u x)
    (s2.groups src).outputList s2
  generalize hs3 : List.foldl (fun u node =>
    Fusioner.moveNode u src dst (fun g n => g.addOutputNode n) node) s2
      (s2.groups src).outputList = s3 at c
  have hres : s.moveNodes env src dst = s3 := by
    unfold Fusioner.moveNodes
    dsimp only
    rw [hs1, hs2, hs3]
  rw [hres]
  have bc := b.same_trans c
  refine ⟨bc.1.trans a1, ?_, ?_, ?_⟩
  · intro g hg
    rw [(bc.2 g).1, (bc.2 g).2, a2 g hg]
    exact ⟨rfl, rfl⟩
  · rw [(bc.2 dst).2, a3]
    rfl
  · rw [(bc.2 dst).1, a4]
    rfl

theorem pipeEdges_same (s1 : Fusioner) (top bot : Nat) :
    PatSame s1 (s1.pipeMovePrevs top bot) ∧
    (∀ s3, (s1.pipeMovePrevs top bot).pipeMoveNexts top bot = some s3 →
      PatSame s1 ((s3.pipeUpdatePrevs top bot).modify top (fun g => g.removeNext bot))) := by
  have h2 : PatSame s1 (s1.pipeMovePrevs top bot) := by
    unfold Fusioner.pipeMovePrevs
    refine foldl_rel PatSame PatSame.same_refl (fun _ _ _ => PatSame.same_trans) _ ?_ _ _
    intro u x
    dsimp only
    split
    · exact PatSame.same_refl u
    · exact ((PatSame_modify u x _ ⟨rfl, rfl⟩).same_trans
        (PatSame_modify _ top _ ⟨rfl, rfl⟩)).same_trans (PatSame_modify _ x _ ⟨rfl, rfl⟩)
  refine ⟨h2, ?_⟩
  intro s3 h3
  have r3 : PatSame (s1.pipeMovePrevs top bot) s3 := by
    unfold Fusioner.pipeMoveNexts at h3
    refine foldlM_rel PatSame PatSame.same_refl (fun _ _ _ => PatSame.same_trans) _ ?_ _ _ _ h3
    intro u x v hv
    dsimp only at hv
    split at hv
    · exact Option.noConfusion hv
    · injection hv with hv
      subst hv
      exact ((PatSame_modify u x _ ⟨rfl, rfl⟩).same_trans
        (PatSame_modify _ top _ ⟨rfl, rfl⟩)).same_trans (PatSame_modify _ x _ ⟨rfl, rfl⟩)
  have r4 : PatSame s3 (s3.pipeUpdatePrevs top bot) := by
    unfold Fusioner.pipeUpdatePrevs
    refine foldl_rel PatSame PatSame.same_refl (fun _ _ _ => PatSame.same_trans) _ ?_ _ _
    intro u x
    exact PatSame_modify u x _ ⟨rfl, rfl⟩
  exact ((h2.same_trans r3).same_trans r4).same_trans (PatSame_modify _ top _ ⟨rfl, rfl⟩)

theorem flatEdges_same (s1 : Fusioner) (left right : Nat) (s2 s3 : Fusioner)
    (h2 : s1.flatMovePrevs left right = some s2) (h3 : s2.flatMoveNexts left right = some s3) :
    PatSame s1 s3 := by
  have r2 : PatSame s1 s2 := by
    unfold Fusioner.flatMovePrevs at h2
    refine foldlM_rel PatSame PatSame.same_refl (fun _ _ _ => PatSame.same_trans) _ ?_ _ _ _ h2
    intro u x v hv
    dsimp only at hv
    split at hv
    · exact Option.noConfusion hv
    · injection hv with hv
      subst hv
      exact ((PatSame_modify u x _ ⟨rfl, rfl⟩).same_trans
        (PatSame_modify _ left _ ⟨rfl, rfl⟩)).same_trans (PatSame_modify _ x _ ⟨rfl, rfl⟩)
  have r3 : PatSame s2 s3 := by
    unfold Fusioner.flatMoveNexts at h3
    refine foldlM_rel PatSame PatSame.same_refl (fun _ _ _ => PatSame.same_trans) _ ?_ _ _ _ h3
    intro u x v hv
    dsimp only at hv
    split at hv
    · exact Option.noConfusion hv
    · injection hv with hv
      subst hv
      exact ((PatSame_modify u x _ ⟨rfl, rfl⟩).same_trans
        (PatSame_modify _ left _ ⟨rfl, rfl⟩)).same_trans (PatSame_modify _ x _ ⟨rfl, rfl⟩)
  exact r2.same_trans r3

theorem removeGroup_groups (s : Fusioner) (g : Nat) : (s.removeGroup g).groups = s.groups :=
  rfl

theorem pipeFuseGroup_pat (env : Env) (s : Fusioner) (top bot : Nat) (t : Fusioner) (r : Nat)
    (h : s.pipeFuseGroup env top bot = some (t, r)) : r = top ∧ Fused env s t top bot := by
  unfold Fusioner.pipeFuseGroup at h
  split at h
  · exact Option.noConfusion h
  rename_i hlive
  split at h
  · exact Option.noConfusion h
  rename_i hcan
  have htop : top ∈ s.group_list := by
    by_contra hc
    exact hlive (by simp [is_included, hc])
  have hbot : bot ∈ s.group_list := by
    by_contra hc
    exact hlive (by simp [is_included, hc])
  have hne : top ≠ bot := by
    have : s.canPipeFuse env top bot = true := by simpa using hcan
    exact canPipeFuse_ne env s top bot this
  dsimp only at h
  split at h
  · exact Option.noConfusion h
  rename_i s3 h3
  injection h with h
  injection h with h hr
  subst h
  obtain ⟨m1, m2, m3, m4⟩ := moveNodes_pat env s bot top
  have r5 := (pipeEdges_same (s.moveNodes env bot top) top bot).2 s3 h3
  refine ⟨hr.symm, hne, htop, hbot, ?_, ?_, ?_, ?_⟩
  · intro g hg
    have hg2 := List.mem_filter.1 hg
    refine ⟨?_, by simpa using hg2.2⟩
    have := hg2.1
    rw [show (((s3.pipeUpdatePrevs top bot).modify top (fun g => g.removeNext bot)).modify top
      _).group_list = ((s3.pipeUpdatePrevs top bot).modify top
        (fun g => g.removeNext bot)).group_list from rfl, r5.1, m1] at this
    exact this
  · intro g hg
    rw [removeGroup_groups, modify_groups_ne _ _ _ hg, (r5.2 g).1, (r5.2 g).2]
    exact m2 g hg
  · rw [removeGroup_groups, modify_groups_same]
    dsimp only
    rw [(r5.2 top).2, m3]
  · rw [removeGroup_groups, modify_groups_same]
    dsimp only
    rw [(r5.2 top).1, (r5.2 bot).1, m4, (m2 bot (Ne.symm hne)).1]

theorem flatFuseGroup_pat (env : Env) (s : Fusioner) (left right : Nat) (t : Fusioner)
    (r : Nat) (h : s.flatFuseGroup env left right = some (t, r)) :
    r = left ∧ Fused env s t left right := by
  unfold Fusioner.flatFuseGroup at h
  split at h
  · exact Option.noConfusion h
  rename_i hlive
  split at h
  · exact Option.noConfusion h
  rename_i hcan
  have hl : left ∈ s.group_list := by
    by_contra hc
    exact hlive (by simp [is_included, hc])
  have hr : right ∈ s.group_list := by
    by_contra hc
    exact hlive (by simp [is_included, hc])
  have hne : left ≠ right := by
    have : s.canFlatFuse env left right = true := by simpa using hcan
    exact canFlatFuse_ne env s left right this
  dsimp only at h
  split at h
  · exact Option.noConfusion h
  rename_i s2 h2
  split at h
  · exact Option.noConfusion h
  rename_i s3 h3
  injection h with h
  injection h with h hret
  subst h
  obtain ⟨m1, m2, m3, m4⟩ := moveNodes_pat env s right left
  have r3 := flatEdges_same (s.moveNodes env right left) left right s2 s3 h2 h3
  refine ⟨hret.symm, hne, hl, hr, ?_, ?_, ?_, ?_⟩
  · intro g hg
    have hg2 := List.mem_filter.1 hg
    refine ⟨?_, by simpa using hg2.2⟩
    have := hg2.1
    rw [show (s3.modify left _).group_list = s3.group_list from rfl, r3.1, m1] at this
    exact this
  · intro g hg
    rw [removeGroup_groups, modify_groups_ne _ _ _ hg, (r3.2 g).1, (r3.2 g).2]
    exact m2 g hg
  · rw [removeGroup_groups, modify_groups_same]
    dsimp only
    rw [(r3.2 left).2, m3]
  · rw [removeGroup_groups, modify_groups_same]
    dsimp only
    rw [(r3.2 left).1, (r3.2 right).1, m4, (m2 right (Ne.symm hne)).1]

theorem Fused.fused_step {env : Env} {s t : Fusioner} {top bot : Nat}
    (h : Fused env s t top bot) : PatStep env s t := by
  obtain ⟨_, htop, hbot, h4, h5, h6, h7⟩ := h
  intro hinv g hg
  obtain ⟨hgs, _⟩ := h4 g hg
  by_cases e : g = top
  · subst e
    have ht := hinv g htop
    have hb := hinv bot hbot
    unfold PatOk at ht hb ⊢
    rw [h7, h6, patSum_append, ← ht, ← hb, Pattern.add_assoc, Pattern.add_idem]
  · have := hinv g hgs
    unfold PatOk at this ⊢
    rw [(h5 g e).1, (h5 g e).2]
    exact this

theorem Fused.fused_pattern {env : Env} {s t : Fusioner} {top bot : Nat}
    (h : Fused env s t top bot) (hb : PatOk env (s.groups bot)) :
    (t.groups top).pattern = Pattern.add (s.groups top).pattern (s.groups bot).pattern := by
  unfold PatOk at hb
  rw [h.2.2.2.2.2.2, ← hb, Pattern.add_assoc, Pattern.add_idem]

theorem process_pat (env : Env) (s : Fusioner) (node : Nat) (t : Fusioner)
    (h : s.process env node = some t) : PatStep env s t := by
  unfold Fusioner.process at h
  have hlink : PatSame (s.processNew env node) t := by
    refine foldlM_rel PatSame PatSame.same_refl (fun _ _ _ => PatSame.same_trans)
      (processLink s.newGroup.2) ?_ _ _ _ h
    intro u x v hv
    unfold processLink at hv
    split at hv
    · exact Option.noConfusion hv
    · injection hv with hv
      subst hv
      exact (PatSame_modify u _ _ ⟨rfl, rfl⟩).same_trans (PatSame_modify _ _ _ ⟨rfl, rfl⟩)
  obtain ⟨e1, _, _, e4, e5⟩ := processNew_fields env s node
  have hnew : PatStep env s (s.processNew env node) := by
    intro hinv g hg
    rw [e1] at hg
    by_cases e : g = s.num_groups
    · subst e
      unfold PatOk
      rw [e4]
      show Pattern.add FREE _ = patSum env ([] ++ [node])
      rw [Pattern.add_free_left]
      exact (patSum_singleton env node).symm
    · rw [e5 g e]
      rcases List.mem_append.1 hg with h1 | h1
      · exact hinv g h1
      · exact absurd (List.mem_singleton.1 h1) e
  exact hnew.pat_trans (hlink.to_keep env).to_step

theorem pipeGentlyLoop_pat (env : Env) : ∀ (fuel : Nat) (s : Fusioner) (g i : Nat)
    (t : Fusioner), Fusioner.pipeGentlyLoop env fuel s g i = some t → PatStep env s t := by
  intro fuel
  induction fuel with
  | zero => intro s g i t h; exact Option.noConfusion h
  | succ fuel ih =>
    intro s g i t h
    unfold Fusioner.pipeGentlyLoop at h
    split at h
    · injection h with h
      subst h
      exact PatStep.pat_refl env s
    · dsimp only at h
      split at h
      · split at h
        · exact Option.noConfusion h
        · rename_i s1 ret h1
          exact (pipeFuseGroup_pat env s _ _ s1 ret h1).2.fused_step.pat_trans (ih s1 ret 0 t h)
      · exact ih s g (i + 1) t h

theorem pipeGently_pat (env : Env) (fuel : Nat) (s : Fusioner) (node : Nat) (t : Fusioner)
    (h : s.pipeGently env fuel node = some t) : PatStep env s t := by
  unfold Fusioner.pipeGently at h
  split at h
  · injection h with h
    subst h
    exact PatStep.pat_refl env s
  · split at h
    · exact Option.noConfusion h
    · exact pipeGentlyLoop_pat env fuel s _ 0 t h

theorem flatGentlyInner_pat (env : Env) (node_group : Nat) : ∀ (l : List Nat) (s : Fusioner)
    (left : Nat) (t : Fusioner) (r : Nat),
    Fusioner.flatGentlyInner env node_group l s left = some (t, r) → PatStep env s t := by
  intro l
  induction l with
  | nil =>
    intro s left t r h
    unfold Fusioner.flatGentlyInner at h
    injection h with h
    injection h with h _
    subst h
    exact PatStep.pat_refl env s
  | cons right rest ih =>
    intro s left t r h
    unfold Fusioner.flatGentlyInner at h
    split at h
    · exact Option.noConfusion h
    · split at h
      · exact ih s left t r h
      · split at h
        · split at h
          · exact Option.noConfusion h
          · rename_i s1 ret h1
            exact (flatFuseGroup_pat env s _ _ s1 ret h1).2.fused_step.pat_trans (ih s1 ret t r h)
        · exact ih s left t r h

theorem flatGentlyOuter_pat (env : Env) (node_group : Nat) : ∀ (l : List Nat) (s : Fusioner)
    (t : Fusioner), Fusioner.flatGentlyOuter env node_group l s = some t → PatStep env s t := by
  intro l
  induction l with
  | nil =>
    intro s t h
    unfold Fusioner.flatGentlyOuter at h
    injection h with h
    subst h
    exact PatStep.pat_refl env s
  | cons left rest ih =>
    intro s t h
    unfold Fusioner.flatGentlyOuter at h
    split at h
    · exact Option.noConfusion h
    · split at h
      · exact ih s t h
      · split at h
        · exact Option.noConfusion h
        · rename_i s1 ret h1
          exact (flatGentlyInner_pat env node_group rest s _ s1 ret h1).pat_trans (ih s1 t h)

theorem flatGently_pat (env : Env) (s : Fusioner) (node : Nat) (t : Fusioner)
    (h : s.flatGently env node = some t) : PatStep env s t := by
  unfold Fusioner.flatGently at h
  split at h
  · injection h with h
    subst h
    exact PatStep.pat_refl env s
  · split at h
    · exact Option.noConfusion h
    · split at h
      · injection h with h
        subst h
        exact PatStep.pat_refl env s
      · exact flatGentlyOuter_pat env _ _ s t h

theorem pipeLoopBU_pat (env : Env) : ∀ (fuel : Nat) (s : Fusioner) (g i : Nat)
    (t : Fusioner) (r : Nat), Fusioner.pipeLoopBU env fuel s g i = some (t, r) →
    PatStep env s t := by
  intro fuel
  induction fuel with
  | zero => intro s g i t r h; exact Option.noConfusion h
  | succ fuel ih =>
    intro s g i t r h
    unfold Fusioner.pipeLoopBU at h
    split at h
    · injection h with h
      injection h with h _
      subst h
      exact PatStep.pat_refl env s
    · dsimp only at h
      split at h
      · split at h
        · exact Option.noConfusion h
        · rename_i s1 ret h1
          exact (pipeFuseGroup_pat env s _ _ s1 ret h1).2.fused_step.pat_trans (ih s1 ret 0 t r h)
      · exact ih s g (i + 1) t r h

theorem upLoopBU_pat (env : Env) (recur : Fusioner → Nat → Option Fusioner)
    (hrec : ∀ s g t, recur s g = some t → PatStep env s t) (group : Nat) :
    ∀ (fuel : Nat) (s : Fusioner) (i sz : Nat) (t : Fusioner),
    Fusioner.upLoopBU recur group fuel s i sz = some t → PatStep env s t := by
  intro fuel
  induction fuel with
  | zero => intro s i sz t h; exact Option.noConfusion h
  | succ fuel ih =>
    intro s i sz t h
    unfold Fusioner.upLoopBU at h
    split at h
    · split at h
      · exact Option.noConfusion h
      · split at h
        · exact Option.noConfusion h
        · rename_i s1 h1
          split at h
          · exact (hrec s _ s1 h1).pat_trans (ih s1 _ _ t h)
          · exact (hrec s _ s1 h1).pat_trans (ih s1 _ _ t h)
    · injection h with h
      subst h
      exact PatStep.pat_refl env s

theorem processBU_pat (env : Env) : ∀ (fuel : Nat) (s : Fusioner) (group : Nat)
    (t : Fusioner), Fusioner.processBU env fuel s group = some t → PatStep env s t := by
  intro fuel
  induction fuel with
  | zero =>
    intro s group t h
    unfold Fusioner.processBU at h
    split at h
    · injection h with h
      subst h
      exact PatStep.pat_refl env s
    · split at h
      · injection h with h
        subst h
        exact PatStep.pat_refl env s
      · exact Option.noConfusion h
  | succ fuel ih =>
    intro s group t h
    unfold Fusioner.processBU at h
    split at h
    · injection h with h
      subst h
      exact PatStep.pat_refl env s
    · split at h
      · injection h with h
        subst h
        exact PatStep.pat_refl env s
      · dsimp only at h
        split at h
        · exact Option.noConfusion h
        · rename_i s2 group2 h2
          have hv : PatStep env s { s with visited := group :: s.visited } :=
            fun hi => hi
          exact (hv.pat_trans (pipeLoopBU_pat env fuel _ group 0 s2 group2 h2)).pat_trans
            (upLoopBU_pat env _ ih group2 fuel s2 0 _ t h)

theorem fuseGently_pat (env : Env) (fuel : Nat) (s : Fusioner) (list : List Nat)
    (t : Fusioner) (h : s.fuseGently env fuel list = some t) : PatStep env s t := by
  unfold Fusioner.fuseGently at h
  refine foldlM_rel (PatStep env) (PatStep.pat_refl env) (fun _ _ _ => PatStep.pat_trans) _
    ?_ _ _ _ h
  intro u x v hv
  split at hv
  · exact Option.noConfusion hv
  · rename_i s1 h1
    exact (process_pat env u x s1 h1).pat_trans (pipeGently_pat env fuel s1 x v hv)

theorem fuseFlat_pat (env : Env) (s : Fusioner) (list : List Nat) (t : Fusioner)
    (h : s.fuseFlat env list = some t) : PatStep env s t := by
  unfold Fusioner.fuseFlat at h
  exact foldlM_rel (PatStep env) (PatStep.pat_refl env) (fun _ _ _ => PatStep.pat_trans) _
    (fun u x v hv => flatGently_pat env u x v hv) _ _ _ h

theorem fuseBU_pat (env : Env) (fuel : Nat) (s : Fusioner) (list : List Nat) (t : Fusioner)
    (h : s.fuseBU env fuel list = some t) : PatStep env s t := by
  unfold Fusioner.fuseBU at h
  refine foldlM_rel (PatStep env) (PatStep.pat_refl env) (fun _ _ _ => PatStep.pat_trans) _
    ?_ _ _ _ h
  intro u x v hv
  split at hv
  · exact processBU_pat env fuel u _ v hv
  · exact Option.noConfusion hv

theorem PatOk_add_free (env : Env) (g : Group) (node : Nat)
    (hfree : (env.dag node).pattern = FREE) :
    (g.addAutoNode node (env.dag node).pattern).pattern = g.pattern ∧
    (PatOk env g → PatOk env (g.addAutoNode node (env.dag node).pattern)) := by
  have hp : (g.addAutoNode node (env.dag node).pattern).pattern = g.pattern := by
    show Pattern.add g.pattern _ = _
    rw [hfree, Pattern.add_free_right]
  refine ⟨hp, ?_⟩
  intro hk
  unfold PatOk at hk ⊢
  rw [hp]
  show _ = patSum env (g.node_list ++ [node])
  rw [patSum_append, patSum_singleton, hfree, Pattern.add_free_right]
  exact hk

theorem PatOk_remove_free (env : Env) (g : Group) (node : Nat)
    (hfree : (env.dag node).pattern = FREE) :
    (g.removeAutoNode node).pattern = g.pattern ∧
    (PatOk env g → PatOk env (g.removeAutoNode node)) := by
  refine ⟨rfl, ?_⟩
  intro hk
  unfold PatOk at hk ⊢
  show g.pattern = patSum env (remove_value node g.node_list)
  unfold remove_value
  rw [patSum_filter env _ _ ?_]
  · exact hk
  · intro n _ hq
    have : n = node := by simpa using hq
    rw [this]
    exact hfree

theorem forwardNode_keep (env : Env) (for_pred : Nat → Bool)
    (hfree : ∀ n, for_pred n = true → (env.dag n).pattern = FREE) (group : Nat)
    (st : FwdState) (node : Nat) :
    PatKeep env st.fus (forwardNode env for_pred group st node).fus := by
  unfold forwardNode
  by_cases hp : for_pred node = true
  · rw [if_neg (by simp [hp])]
    have hf := hfree node hp
    have hinto : ∀ (u : FwdState) (h : Nat),
        PatKeep env u.fus (forwardInto env group node u h).fus := by
      intro u h
      unfold forwardInto
      split
      · have := PatKeep_modify env u.fus h
          (fun g => g.addAutoNode node (env.dag node).pattern) (PatOk_add_free env _ node hf)
        exact ⟨this.1, this.2⟩
      · exact PatKeep.keep_refl env _
    have hnexts : PatKeep env st.fus (forwardNexts env group node st).fus := by
      unfold forwardNexts
      refine foldl_rel (fun (a b : FwdState) => PatKeep env a.fus b.fus)
        (fun a => PatKeep.keep_refl env a.fus) (fun _ _ _ => PatKeep.keep_trans) _ ?_ _
        { st with forwarded := false }
      intro u y
      exact foldl_rel (fun (a b : FwdState) => PatKeep env a.fus b.fus)
        (fun a => PatKeep.keep_refl env a.fus) (fun _ _ _ => PatKeep.keep_trans) _ hinto _ u
    refine hnexts.keep_trans ?_
    unfold forwardRemove
    split
    · split
      · have := PatKeep_modify env (forwardNexts env group node st).fus group
          (fun g => g.removeAutoNode node) (PatOk_remove_free env _ node hf)
        exact ⟨this.1, this.2⟩
      · exact PatKeep.keep_refl env _
    · exact PatKeep.keep_refl env _
  · rw [if_pos (by simp [hp])]
    exact PatKeep.keep_refl env _

theorem forwarding_keep (env : Env) (for_pred : Nat → Bool)
    (hfree : ∀ n, for_pred n = true → (env.dag n).pattern = FREE) (s : Fusioner) :
    PatKeep env s (s.forwarding env for_pred) := by
  have h1 : PatKeep env s (s.forwardNodes env for_pred).fus := by
    unfold Fusioner.forwardNodes
    refine foldl_rel (fun (a b : FwdState) => PatKeep env a.fus b.fus)
      (fun a => PatKeep.keep_refl env a.fus) (fun _ _ _ => PatKeep.keep_trans) _ ?_ _
      { fus := s, forward := [], forwarded := false }
    intro u group
    exact foldl_rel (fun (a b : FwdState) => PatKeep env a.fus b.fus)
      (fun a => PatKeep.keep_refl env a.fus) (fun _ _ _ => PatKeep.keep_trans) _
      (fun a n => forwardNode_keep env for_pred hfree group a n) _ u
  have h2 : ∀ (u : Fusioner) (fw : FwdLinks), PatSame u (u.unlinkGroups env fw) := by
    intro u fw
    unfold Fusioner.unlinkGroups
    refine foldl_rel PatSame PatSame.same_refl (fun _ _ _ => PatSame.same_trans) _ ?_ _ _
    intro v f
    dsimp only
    split
    · exact (PatSame_modify v _ _ ⟨rfl, rfl⟩).same_trans (PatSame_modify _ _ _ ⟨rfl, rfl⟩)
    · exact PatSame.same_refl v
  have h12 := h1.keep_trans ((h2 (s.forwardNodes env for_pred).fus
    (s.forwardNodes env for_pred).forward).to_keep env)
  refine ⟨?_, h12.2⟩
  intro g hg
  exact h12.1 g (List.mem_filter.1 hg).1

theorem moveD0Free_pattern (env : Env) : ∀ (l : List Nat) (g : Group),
    (moveD0Free env l g).pattern = g.pattern := by
  intro l
  induction l with
  | nil => intro g; rfl
  | cons x rest ih =>
    intro g
    rw [moveD0Free]
    split
    · rw [ih]
      exact (addInputNode_fields (g.removeNode x) x).2.2.2.2.1
    · exact ih g

theorem linking_keep (env : Env) (s t : Fusioner) (h : s.linking env = some t) :
    PatKeep env s t := by
  unfold Fusioner.linking at h
  split at h
  · exact Option.noConfusion h
  rename_i s1 h1
  injection h with h
  subst h
  have hout : ∀ (u : Fusioner) (g n : Nat),
      PatSame u (u.modify g (fun h => h.addOutputNode n)) := fun u g n =>
    PatSame_modify u g _
      ⟨(addOutputNode_fields _ n).2.2.2.2.1, (addOutputNode_fields _ n).1⟩
  have hinp : ∀ (u : Fusioner) (g n : Nat),
      PatSame u (u.modify g (fun h => h.addInputNode n)) := fun u g n =>
    PatSame_modify u g _
      ⟨(addInputNode_fields _ n).2.2.2.2.1, (addInputNode_fields _ n).1⟩
  have b1 : PatSame s s1 := by
    unfold Fusioner.linkBoundary at h1
    refine foldlM_rel PatSame PatSame.same_refl (fun _ _ _ => PatSame.same_trans) _ ?_ _ s s1 h1
    intro u group v hv
    unfold linkGroup at hv
    split at hv
    · exact Option.noConfusion hv
    · refine foldlM_rel PatSame PatSame.same_refl (fun _ _ _ => PatSame.same_trans) _
        ?_ _ u v hv
      intro a node b hb
      refine foldlM_rel PatSame PatSame.same_refl (fun _ _ _ => PatSame.same_trans) _
        ?_ _ a b hb
      intro c y d hd
      refine foldlM_rel PatSame PatSame.same_refl (fun _ _ _ => PatSame.same_trans) _
        ?_ _ c d hd
      intro e ng f hf
      unfold linkInto at hf
      split at hf
      · exact Option.noConfusion hf
      · split at hf
        · injection hf with hf
          subst hf
          exact (hout e group node).same_trans (hinp _ ng node)
        · injection hf with hf
          subst hf
          exact PatSame.same_refl e
  have b2 : PatSame s1 (s1.linkIntra env) := by
    unfold Fusioner.linkIntra
    refine foldl_rel PatSame PatSame.same_refl (fun _ _ _ => PatSame.same_trans) _ ?_ _ _
    intro u group
    dsimp only
    split
    · exact PatSame.same_refl u
    · refine foldl_rel PatSame PatSame.same_refl (fun _ _ _ => PatSame.same_trans) _ ?_ _ _
      intro v node
      dsimp only
      split
      · exact PatSame.same_refl v
      · exact hout v group node
  have b3 : PatKeep env (s1.linkIntra env) ((s1.linkIntra env).linkD0Free env) := by
    unfold Fusioner.linkD0Free
    refine foldl_rel (PatKeep env) (PatKeep.keep_refl env) (fun _ _ _ => PatKeep.keep_trans) _
      ?_ _ _
    intro u group
    refine PatKeep_modify env u group _ ⟨moveD0Free_pattern env _ _, ?_⟩
    intro hk
    unfold PatOk at hk ⊢
    rw [moveD0Free_pattern, (moveD0Free_body env (u.groups group)).1, patSum_filter env _ _ ?_]
    · exact hk
    · intro n _ hq
      have hq2 : isD0Free env n = true := by simpa using hq
      simp only [isD0Free, Bool.and_eq_true, decide_eq_true_eq] at hq2
      exact hq2.2
  exact ((b1.same_trans b2).to_keep env).keep_trans b3

theorem sorting_keep (env : Env) (s t : Fusioner) (h : s.sorting env = some t) :
    PatKeep env s t := by
  unfold Fusioner.sorting at h
  split at h
  · exact Option.noConfusion h
  rename_i s1 h1
  split at h
  · exact Option.noConfusion h
  rename_i sorted h2
  injection h with h
  subst h
  have g1 : PatKeep env s s1 ∧ s1.group_list = s.group_list := by
    refine foldlM_rel (fun (a b : Fusioner) => PatKeep env a b ∧ b.group_list = a.group_list)
      (fun a => ⟨PatKeep.keep_refl env a, rfl⟩)
      (fun _ _ _ h1 h2 => ⟨h1.1.keep_trans h2.1, h2.2.trans h1.2⟩) _ ?_ _ s s1 h1
    intro u x v hv
    cases hg : (u.groups x).sortNodes env with
    | none => rw [hg] at hv; exact Option.noConfusion hv
    | some g =>
      rw [hg] at hv
      injection hv with hv
      subst hv
      refine ⟨PatKeep_modify env u x _ ?_, rfl⟩
      unfold Group.sortNodes at hg
      split at hg
      · rename_i n i o en ei eo
        injection hg with hg
        subst hg
        refine ⟨rfl, ?_⟩
        intro hk
        unfold PatOk at hk ⊢
        show (u.groups x).pattern = patSum env n
        rw [patSum_perm env n _ (sortBy_perm _ _ _ en)]
        exact hk
      · exact Option.noConfusion hg
  have g2 : PatSame { s1 with group_list := sorted }
      ({ s1 with group_list := sorted } : Fusioner).numerate := by
    unfold Fusioner.numerate
    refine foldl_rel PatSame PatSame.same_refl (fun _ _ _ => PatSame.same_trans) _ ?_ _ _
    intro u g
    have := PatSame_modify u g (fun g => { g with id := u.id_count }) ⟨rfl, rfl⟩
    exact ⟨this.1, this.2⟩
  have g3 : PatKeep env s1 { s1 with group_list := sorted } := by
    refine ⟨?_, fun _ => ⟨rfl, fun h => h⟩⟩
    intro g hg
    exact (sortBy_perm _ _ _ h2).mem_iff.1 hg
  exact (g1.1.keep_trans g3).keep_trans (g2.to_keep env)

/-- C21: pattern composition.  At the end of `Fusioner::fuse` (whenever it returns) the
pattern of every listed cluster is the union (Pattern `+`) of the patterns of the nodes of its
body; `pipeFuseGroup` and `flatFuseGroup`, on a `bot` (`right`) cluster that satisfies pattern
composition, leave the surviving cluster with the pattern old(top) `+` old(bot); and
`forwarding` with the predicate `pattern == FREE` and `linking` change the pattern of no
cluster. -/
theorem fuse_pattern_composition (env : Env) (fuel : Nat) (s : Fusioner) (list : List Nat)
    (t : Fusioner) (h : s.fuse env fuel list = some t) :
    (∀ g ∈ t.group_list, (t.groups g).pattern = patSum env (t.groups g).node_list) ∧
    (∀ (u : Fusioner) (top bot : Nat) (v : Fusioner) (r : Nat),
      (u.groups bot).pattern = patSum env (u.groups bot).node_list →
      u.pipeFuseGroup env top bot = some (v, r) →
      (v.groups r).pattern = Pattern.add (u.groups top).pattern (u.groups bot).pattern) ∧
    (∀ (u : Fusioner) (left right : Nat) (v : Fusioner) (r : Nat),
      (u.groups right).pattern = patSum env (u.groups right).node_list →
      u.flatFuseGroup env left right = some (v, r) →
      (v.groups r).pattern = Pattern.add (u.groups left).pattern (u.groups right).pattern) ∧
    (∀ (u : Fusioner) (g : Nat),
      ((u.forwarding env env.isFree).groups g).pattern = (u.groups g).pattern) ∧
    (∀ (u v : Fusioner) (g : Nat), u.linking env = some v →
      (v.groups g).pattern = (u.groups g).pattern) := by
  have hfree : ∀ n, (fun n => decide ((env.dag n).pattern = FREE)) n = true →
      (env.dag n).pattern = FREE := by
    intro n hn
    simpa using hn
  refine ⟨?_, ?_, ?_, ?_, ?_⟩
  · unfold Fusioner.fuse at h
    split at h
    · exact Option.noConfusion h
    rename_i s1 h1
    split at h
    · exact Option.noConfusion h
    rename_i s2 h2
    split at h
    · exact Option.noConfusion h
    rename_i s3 h3
    split at h
    · exact Option.noConfusion h
    rename_i s5 h5
    have i0 : PatInv env s.clear := fun g hg => absurd hg (List.not_mem_nil g)
    have i1 := fuseGently_pat env fuel _ list s1 h1 i0
    have i2 := fuseFlat_pat env s1 list s2 h2 i1
    have i3 := fuseBU_pat env fuel s2 list s3 h3 i2
    have i4 := (forwarding_keep env _ hfree s3).to_step i3
    have i5 := (linking_keep env _ s5 h5).to_step i4
    exact (sorting_keep env s5 t h).to_step i5
  · intro u top bot v r hb hv
    obtain ⟨hr, hf⟩ := pipeFuseGroup_pat env u top bot v r hv
    rw [hr]
    exact hf.fused_pattern hb
  · intro u left right v r hb hv
    obtain ⟨hr, hf⟩ := flatFuseGroup_pat env u left right v r hv
    rw [hr]
    exact hf.fused_pattern hb
  · intro u g
    exact ((forwarding_keep env _ hfree u).2 g).1
  · intro u v g hv
    exact ((linking_keep env u v hv).2 g).1

theorem fuse_pattern_composition_witness :
    ∃ t, Fusioner.fuse (Env.ofDag freeFeedsLocalDag) 4 Fusioner.init [0, 1] = some t ∧
      (∀ g ∈ t.group_list,
        (t.groups g).pattern = patSum (Env.ofDag freeFeedsLocalDag) (t.groups g).node_list) := by
  have hs : (Fusioner.fuse (Env.ofDag freeFeedsLocalDag) 4 Fusioner.init [0, 1]).isSome
      = true := rfl
  obtain ⟨t, ht⟩ := Option.isSome_iff_exists.1 hs
  exact ⟨t, ht, (fuse_pattern_composition (Env.ofDag freeFeedsLocalDag) 4 Fusioner.init
    [0, 1] t ht).1⟩

/-! ## Termination of the bottom-up phase -/

theorem addEdge_mem (l : List (Nat × Pattern)) (x : Nat) (p : Pattern) :
    x ∈ (addEdge l x p).map Prod.fst := by
  unfold addEdge
  split
  · rename_i h
    have hx : x ∈ l.map Prod.fst := by simpa [is_included] using h
    obtain ⟨e, he, hex⟩ := List.mem_map.1 hx
    refine List.mem_map.2 ⟨(e.1, Pattern.add e.2 p), ?_, hex⟩
    refine List.mem_map.2 ⟨e, he, ?_⟩
    rw [if_pos hex]
  · simp

theorem addEdge_mono (l : List (Nat × Pattern)) (x : Nat) (p : Pattern) (y : Nat)
    (hy : y ∈ l.map Prod.fst) : y ∈ (addEdge l x p).map Prod.fst := by
  unfold addEdge
  split
  · obtain ⟨e, he, hey⟩ := List.mem_map.1 hy
    by_cases hc : e.1 = x
    · refine List.mem_map.2 ⟨(e.1, Pattern.add e.2 p), ?_, hey⟩
      refine List.mem_map.2 ⟨e, he, ?_⟩
      rw [if_pos hc]
    · refine List.mem_map.2 ⟨e, ?_, hey⟩
      refine List.mem_map.2 ⟨e, he, ?_⟩
      rw [if_neg hc]
  · rw [List.map_append]
    exact List.mem_append_left _ hy

theorem LinkMove.lmove_refl (s : Fusioner) (top bot : Nat) (u : Fusioner) :
    LinkMove s top bot u u :=
  ⟨fun _ _ h => Or.inl h, fun _ _ h => Or.inl h, fun _ _ h _ => h, fun _ _ h _ => h, rfl, rfl⟩

theorem LinkMove.lmove_trans {s : Fusioner} {top bot : Nat} {a b c : Fusioner}
    (h1 : LinkMove s top bot a b) (h2 : LinkMove s top bot b c) : LinkMove s top bot a c := by
  obtain ⟨a1, a2, a3, a4, a5, a6⟩ := h1
  obtain ⟨b1, b2, b3, b4, b5, b6⟩ := h2
  refine ⟨?_, ?_, fun g x hx hb => b3 g x (a3 g x hx hb) hb,
    fun g x hx hb => b4 g x (a4 g x hx hb) hb, b5.trans a5, b6.trans a6⟩
  · intro g x hx
    rcases b1 g x hx with h | h
    · exact a1 g x h
    · exact Or.inr h
  · intro g x hx
    rcases b2 g x hx with h | h
    · exact a2 g x h
    · exact Or.inr h

theorem LinkMove_modify (s : Fusioner) (top bot : Nat) (u : Fusioner) (g : Nat)
    (f : Group → Group)
    (hn : ∀ x ∈ (f (u.groups g)).nextList, x ∈ (u.groups g).nextList ∨
      (x = top ∧ g ≠ top ∧ (g ∈ (s.groups bot).prevList ∨ g ∈ (s.groups top).prevList)) ∨
      (g = top ∧ x ∈ (s.groups bot).nextList))
    (hp : ∀ x ∈ (f (u.groups g)).prevList, x ∈ (u.groups g).prevList ∨
      (g = top ∧ x ≠ top ∧ x ∈ (s.groups bot).prevList) ∨
      (x = top ∧ g ∈ (s.groups bot).nextList))
    (ln : ∀ x ∈ (u.groups g).nextList, x ≠ bot → x ∈ (f (u.groups g)).nextList)
    (lp : ∀ x ∈ (u.groups g).prevList, x ≠ bot → x ∈ (f (u.groups g)).prevList) :
    LinkMove s top bot u (u.modify g f) := by
  refine ⟨?_, ?_, ?_, ?_, rfl, rfl⟩
  · intro h x hx
    by_cases e : h = g
    · subst e
      rw [modify_groups_same] at hx
      exact hn x hx
    · rw [modify_groups_ne _ _ _ e] at hx
      exact Or.inl hx
  · intro h x hx
    by_cases e : h = g
    · subst e
      rw [modify_groups_same] at hx
      exact hp x hx
    · rw [modify_groups_ne _ _ _ e] at hx
      exact Or.inl hx
  · intro h x hx hb
    by_cases e : h = g
    · subst e
      rw [modify_groups_same]
      exact ln x hx hb
    · rw [modify_groups_ne _ _ _ e]
      exact hx
  · intro h x hx hb
    by_cases e : h = g
    · subst e
      rw [modify_groups_same]
      exact lp x hx hb
    · rw [modify_groups_ne _ _ _ e]
      exact hx

theorem LinkMove_addNext (s : Fusioner) (top bot : Nat) (u : Fusioner) (g x : Nat)
    (pat : Group → Pattern)
    (h : (x = top ∧ g ≠ top ∧ (g ∈ (s.groups bot).prevList ∨ g ∈ (s.groups top).prevList)) ∨
      (g = top ∧ x ∈ (s.groups bot).nextList)) :
    LinkMove s top bot u (u.modify g (fun h => h.addNext x (pat h))) ∧
    x ∈ ((u.modify g (fun h => h.addNext x (pat h))).groups g).nextList := by
  refine ⟨LinkMove_modify s top bot u g _ ?_ (fun y hy => Or.inl hy) ?_ (fun _ hy _ => hy), ?_⟩
  · intro y hy
    rcases addEdge_fst _ _ _ y hy with h1 | h1
    · exact Or.inl h1
    · subst h1
      exact Or.inr h
  · intro y hy _
    exact addEdge_mono _ _ _ y hy
  · rw [modify_groups_same]
    exact addEdge_mem _ _ _

theorem LinkMove_addPrev (s : Fusioner) (top bot : Nat) (u : Fusioner) (g x : Nat)
    (pat : Group → Pattern)
    (h : (g = top ∧ x ≠ top ∧ x ∈ (s.groups bot).prevList) ∨
      (x = top ∧ g ∈ (s.groups bot).nextList)) :
    LinkMove s top bot u (u.modify g (fun h => h.addPrev x (pat h))) ∧
    x ∈ ((u.modify g (fun h => h.addPrev x (pat h))).groups g).prevList := by
  refine ⟨LinkMove_modify s top bot u g _ (fun y hy => Or.inl hy) ?_ (fun _ hy _ => hy) ?_, ?_⟩
  · intro y hy
    rcases addEdge_fst _ _ _ y hy with h1 | h1
    · exact Or.inl h1
    · subst h1
      exact Or.inr h
  · intro y hy _
    exact addEdge_mono _ _ _ y hy
  · rw [modify_groups_same]
    exact addEdge_mem _ _ _

theorem LinkMove_removeNext (s : Fusioner) (top bot : Nat) (u : Fusioner) (g : Nat) :
    LinkMove s top bot u (u.modify g (fun h => h.removeNext bot)) := by
  refine LinkMove_modify s top bot u g _ ?_ (fun y hy => Or.inl hy) ?_ (fun _ hy _ => hy)
  · intro y hy
    left
    obtain ⟨e, he, rfl⟩ := List.mem_map.1 hy
    exact List.mem_map.2 ⟨e, (List.mem_filter.1 he).1, rfl⟩
  · intro y hy hb
    obtain ⟨e, he, hey⟩ := List.mem_map.1 hy
    refine List.mem_map.2 ⟨e, List.mem_filter.2 ⟨he, ?_⟩, hey⟩
    simp [hey, hb]

theorem LinkMove_removePrev (s : Fusioner) (top bot : Nat) (u : Fusioner) (g : Nat) :
    LinkMove s top bot u (u.modify g (fun h => h.removePrev bot)) := by
  refine LinkMove_modify s top bot u g _ (fun y hy => Or.inl hy) ?_ (fun _ hy _ => hy) ?_
  · intro y hy
    left
    obtain ⟨e, he, rfl⟩ := List.mem_map.1 hy
    exact List.mem_map.2 ⟨e, (List.mem_filter.1 he).1, rfl⟩
  · intro y hy hb
    obtain ⟨e, he, hey⟩ := List.mem_map.1 hy
    refine List.mem_map.2 ⟨e, List.mem_filter.2 ⟨he, ?_⟩, hey⟩
    simp [hey, hb]

theorem pipeMovePrevs_link (s s1 : Fusioner) (top bot : Nat) (hne : top ≠ bot)
    (hP : (s1.groups bot).prevList = (s.groups bot).prevList)
    (hnb : bot ∉ (s.groups bot).prevList) :
    LinkMove s top bot s1 (s1.pipeMovePrevs top bot) ∧
    ∀ x ∈ (s.groups bot).prevList, x ≠ top →
      x ∈ ((s1.pipeMovePrevs top bot).groups top).prevList ∧
      top ∈ ((s1.pipeMovePrevs top bot).groups x).nextList := by
  have hstep : ∀ (u : Fusioner) (x : Nat), x ∈ (s1.groups bot).prevList →
      LinkMove s top bot u
        (if x = top then u
         else
          ((u.modify x (fun g => g.addNext top (g.nextPattern bot))).modify top
            (fun g => g.addPrev x
              (((u.modify x (fun g => g.addNext top (g.nextPattern bot))).groups
                bot).prevPattern x))).modify x (fun g => g.removeNext bot)) ∧
      (x ≠ top →
        x ∈ ((((u.modify x (fun g => g.addNext top (g.nextPattern bot))).modify top
            (fun g => g.addPrev x
              (((u.modify x (fun g => g.addNext top (g.nextPattern bot))).groups
                bot).prevPattern x))).modify x (fun g => g.removeNext bot)).groups
                  top).prevList ∧
        top ∈ ((((u.modify x (fun g => g.addNext top (g.nextPattern bot))).modify top
            (fun g => g.addPrev x
              (((u.modify x (fun g => g.addNext top (g.nextPattern bot))).groups
                bot).prevPattern x))).modify x (fun g => g.removeNext bot)).groups
                  x).nextList) := by
    intro u x hx
    rw [hP] at hx
    have hxb : x ≠ bot := fun e => hnb (e ▸ hx)
    by_cases hxt : x = top
    · rw [if_pos hxt]
      exact ⟨LinkMove.lmove_refl s top bot u, fun h => absurd hxt h⟩
    · rw [if_neg hxt]
      obtain ⟨l1, m1⟩ := LinkMove_addNext s top bot u x top (fun g => g.nextPattern bot)
        (Or.inl ⟨rfl, hxt, Or.inl hx⟩)
      obtain ⟨l2, m2⟩ := LinkMove_addPrev s top bot
        (u.modify x (fun g => g.addNext top (g.nextPattern bot))) top x
        (fun _ => ((u.modify x (fun g => g.addNext top (g.nextPattern bot))).groups
          bot).prevPattern x) (Or.inl ⟨rfl, hxt, hx⟩)
      have l3 := LinkMove_removeNext s top bot
        ((u.modify x (fun g => g.addNext top (g.nextPattern bot))).modify top
          (fun g => g.addPrev x
            (((u.modify x (fun g => g.addNext top (g.nextPattern bot))).groups
              bot).prevPattern x))) x
      refine ⟨(l1.lmove_trans l2).lmove_trans l3, fun _ => ⟨?_, ?_⟩⟩
      · exact l3.2.2.2.1 top x m2 hxb
      · exact l3.2.2.1 x top (l2.2.2.1 x top m1 hne) hne
  refine ⟨?_, ?_⟩
  · unfold Fusioner.pipeMovePrevs
    exact foldl_rel_mem (LinkMove s top bot) (LinkMove.lmove_refl s top bot)
      (fun _ _ _ => LinkMove.lmove_trans) _ _ (fun u x hx => (hstep u x hx).1) s1
  · intro x hx hxt
    have hxb : x ≠ bot := fun e => hnb (e ▸ hx)
    obtain ⟨u, _, hu⟩ := foldl_split_mem (LinkMove s top bot) (LinkMove.lmove_refl s top bot)
      (fun _ _ _ => LinkMove.lmove_trans) _ _ (fun u x hx => (hstep u x hx).1) s1 x
      (by rw [hP]; exact hx)
    obtain ⟨_, e2⟩ := hstep u x (by rw [hP]; exact hx)
    rw [if_neg hxt] at hu
    obtain ⟨f1, f2⟩ := e2 hxt
    exact ⟨hu.2.2.2.1 top x f1 hxb, hu.2.2.1 x top f2 hne⟩

theorem pipeMoveNexts_link (s s2 : Fusioner) (top bot : Nat) (hne : top ≠ bot)
    (hN : (s2.groups bot).nextList = (s.groups bot).nextList)
    (hnt : top ∉ (s.groups bot).nextList) (hnb : bot ∉ (s.groups bot).nextList)
    (s3 : Fusioner) (h3 : s2.pipeMoveNexts top bot = some s3) :
    LinkMove s top bot s2 s3 ∧
    ∀ x ∈ (s.groups bot).nextList,
      top ∈ (s3.groups x).prevList ∧ x ∈ (s3.groups top).nextList := by
  have hstep : ∀ (u : Fusioner) (x : Nat), x ∈ (s2.groups bot).nextList →
      ∃ t, (if x = top then none
        else
          some (((u.modify x (fun g => g.addPrev top
              ((g.prevPattern bot).add ((u.groups bot).prevPattern top)))).modify top
            (fun g => g.addNext x
              (((u.modify x (fun g => g.addPrev top
                ((g.prevPattern bot).add ((u.groups bot).prevPattern top)))).groups
                  bot).nextPattern x))).modify x (fun g => g.removePrev bot))) = some t ∧
        LinkMove s top bot u t ∧ top ∈ (t.groups x).prevList ∧
          x ∈ (t.groups top).nextList := by
    intro u x hx
    rw [hN] at hx
    have hxb : x ≠ bot := fun e => hnb (e ▸ hx)
    have hxt : x ≠ top := fun e => hnt (e ▸ hx)
    obtain ⟨l1, m1⟩ := LinkMove_addPrev s top bot u x top
      (fun g => (g.prevPattern bot).add ((u.groups bot).prevPattern top))
      (Or.inr ⟨rfl, hx⟩)
    obtain ⟨l2, m2⟩ := LinkMove_addNext s top bot
      (u.modify x (fun g => g.addPrev top
        ((g.prevPattern bot).add ((u.groups bot).prevPattern top)))) top x
      (fun _ => ((u.modify x (fun g => g.addPrev top
        ((g.prevPattern bot).add ((u.groups bot).prevPattern top)))).groups
          bot).nextPattern x) (Or.inr ⟨rfl, hx⟩)
    have l3 := LinkMove_removePrev s top bot
      ((u.modify x (fun g => g.addPrev top
        ((g.prevPattern bot).add ((u.groups bot).prevPattern top)))).modify top
          (fun g => g.addNext x
            (((u.modify x (fun g => g.addPrev top
              ((g.prevPattern bot).add ((u.groups bot).prevPattern top)))).groups
                bot).nextPattern x))) x
    refine ⟨_, if_neg hxt, (l1.lmove_trans l2).lmove_trans l3, ?_, ?_⟩
    · exact l3.2.2.2.1 x top (l2.2.2.2.1 x top m1 hne) hne
    · exact l3.2.2.1 top x m2 hxb
  obtain ⟨t, e3, hR, hall⟩ := foldlM_split_mem (LinkMove s top bot)
    (LinkMove.lmove_refl s top bot) (fun _ _ _ => LinkMove.lmove_trans) _
    (s2.groups bot).nextList
    (fun u x hx => (hstep u x hx).imp (fun t ht => ⟨ht.1, ht.2.1⟩)) s2
  have ht : t = s3 := by
    unfold Fusioner.pipeMoveNexts at h3
    rw [h3] at e3
    injection e3 with e3
    exact e3.symm
  subst ht
  refine ⟨hR, ?_⟩
  intro x hx
  have hxb : x ≠ bot := fun e => hnb (e ▸ hx)
  obtain ⟨u, v, _, huv, hvt⟩ := hall x (by rw [hN]; exact hx)
  obtain ⟨w, hw1, _, hw3, hw4⟩ := hstep u x (by rw [hN]; exact hx)
  rw [hw1] at huv
  injection huv with huv
  subst huv
  exact ⟨hvt.2.2.2.1 x top hw3 hne, hvt.2.2.1 top x hw4 hxb⟩

theorem pipeUpdatePrevs_link (s s3 : Fusioner) (top bot : Nat)
    (h : ∀ x ∈ (s3.groups top).prevList,
      x ≠ top ∧ (x ∈ (s.groups bot).prevList ∨ x ∈ (s.groups top).prevList)) :
    LinkMove s top bot s3 (s3.pipeUpdatePrevs top bot) := by
  unfold Fusioner.pipeUpdatePrevs
  refine foldl_rel_mem (LinkMove s top bot) (LinkMove.lmove_refl s top bot)
    (fun _ _ _ => LinkMove.lmove_trans) _ _ ?_ s3
  intro u x hx
  exact (LinkMove_addNext s top bot u x top (fun _ => (u.groups top).nextPattern bot)
    (Or.inl ⟨rfl, (h x hx).1, (h x hx).2⟩)).1

theorem moveNodes_meta (env : Env) (s : Fusioner) (src dst : Nat) :
    (s.moveNodes env src dst).visited = s.visited ∧
    (s.moveNodes env src dst).num_groups = s.num_groups := by
  have hstep : ∀ (add : Group → Nat → Group) (l : List Nat) (u : Fusioner),
      (l.foldl (fun u node => u.moveNode src dst add node) u).visited = u.visited ∧
      (l.foldl (fun u node => u.moveNode src dst add node) u).num_groups = u.num_groups := by
    intro add l u
    exact foldl_rel (fun (a b : Fusioner) => b.visited = a.visited ∧ b.num_groups = a.num_groups)
      (fun _ => ⟨rfl, rfl⟩) (fun _ _ _ h1 h2 => ⟨h2.1.trans h1.1, h2.2.trans h1.2⟩)
      (fun u node => u.moveNode src dst add node) (fun _ _ => ⟨rfl, rfl⟩) l u
  have a := hstep (fun g n => g.addNode n (env.dag n).pattern) (s.groups src).nodeList s
  generalize hs1 : List.foldl (fun u node =>
    Fusioner.moveNode u src dst (fun g n => g.addNode n (env.dag n).pattern) node) s
      (s.groups src).nodeList = s1 at a
  have b := hstep (fun g n => g.addInputNode n) (s1.groups src).inputList s1
  generalize hs2 : List.foldl (fun u node =>
    Fusioner.moveNode u src dst (fun g n => g.addInputNode n) node) s1
      (s1.groups src).inputList = s2 at b
  have c := hstep (fun g n => g.addOutputNode n) (s2.groups src).outputList s2
  generalize hs3 : List.foldl (fun u node =>
    Fusioner.moveNode u src dst (fun g n => g.addOutputNode n) node) s2
      (s2.groups src).outputList = s3 at c
  have hres : s.moveNodes env src dst = s3 := by
    unfold Fusioner.moveNodes
    dsimp only
    rw [hs1, hs2, hs3]
  rw [hres]
  exact ⟨c.1.trans (b.1.trans a.1), c.2.trans (b.2.trans a.2)⟩

theorem pipeFuseGroup_wl (env : Env) (s : Fusioner) (top bot : Nat) (hw : s.WellLinked)
    (hac : s.Acyclic) (hbot : bot ∈ s.group_list) (htp : top ∈ (s.groups bot).prevList)
    (hcan : s.canPipeFuse env top bot = true) :
    ∃ t, s.pipeFuseGroup env top bot = some (t, top) ∧ t.WellLinked ∧ t.Acyclic ∧
      t.group_list = s.group_list.filter (fun g => !decide (g = bot)) ∧
      t.visited = s.visited ∧ t.num_groups = s.num_groups ∧
      (∀ R : Nat → Prop, Closed s R → R bot → Closed t R) := by
  have htop : top ∈ s.group_list := (hw.2.2 bot hbot top htp).1
  have hbn : bot ∈ (s.groups top).nextList := (hw.2.2 bot hbot top htp).2
  have hne : top ≠ bot := canPipeFuse_ne env s top bot hcan
  have hst : top ∉ (s.groups top).nextList := no_self_edge s hac top htop
  have hsb : bot ∉ (s.groups bot).nextList := no_self_edge s hac bot hbot
  have hnt : top ∉ (s.groups bot).nextList := by
    intro h
    exact hac top ((Relation.TransGen.single ⟨htop, hbot, hbn⟩).tail ⟨hbot, htop, h⟩)
  have hstp : top ∉ (s.groups top).prevList := fun h => hst (hw.2.2 top htop top h).2
  have hsbp : bot ∉ (s.groups bot).prevList := fun h => hsb (hw.2.2 bot hbot bot h).2
  have hbpt : bot ∉ (s.groups top).prevList := fun h => hnt (hw.2.2 top htop bot h).2
  obtain ⟨m1, _, _, _, _⟩ := moveNodes_grow env s bot top (Ne.symm hne)
  obtain ⟨v1, n1⟩ := moveNodes_meta env s bot top
  have hN1 : ∀ g, ((s.moveNodes env bot top).groups g).nextList = (s.groups g).nextList := by
    intro g
    unfold Group.nextList
    rw [(m1.2.1 g).1]
  have hP1 : ∀ g, ((s.moveNodes env bot top).groups g).prevList = (s.groups g).prevList := by
    intro g
    unfold Group.prevList
    rw [(m1.2.1 g).2]
  obtain ⟨r2, q2⟩ := pipeMovePrevs_move (s.moveNodes env bot top) top bot hne
    (by rw [hP1]; exact hsbp)
  obtain ⟨k2, c2⟩ := pipeMovePrevs_link s (s.moveNodes env bot top) top bot hne (hP1 bot) hsbp
  have hb2 : (((s.moveNodes env bot top).pipeMovePrevs top bot).groups bot) = s.groups bot :=
    r2.2.2.1.trans m1.2.2.1
  obtain ⟨s3, e3, r3, q3⟩ := pipeMoveNexts_move ((s.moveNodes env bot top).pipeMovePrevs top bot)
    top bot hne (by rw [hb2]; exact hnt) (by rw [hb2]; exact hsb)
  obtain ⟨k3, c3⟩ := pipeMoveNexts_link s ((s.moveNodes env bot top).pipeMovePrevs top bot)
    top bot hne (by rw [hb2]) hnt hsb s3 e3
  have r13 := r2.edge_move_trans r3
  have k13 := k2.lmove_trans k3
  have hp3 : ∀ x ∈ (s3.groups top).prevList,
      x ≠ top ∧ (x ∈ (s.groups bot).prevList ∨ x ∈ (s.groups top).prevList) := by
    intro x hx
    rcases k13.2.1 top x hx with h | ⟨_, h1, h2⟩ | ⟨_, h⟩
    · rw [hP1] at h
      exact ⟨fun e => hstp (e ▸ h), Or.inr h⟩
    · exact ⟨h1, Or.inl h2⟩
    · exact absurd h hnt
  have hb3 : bot ∉ (s3.groups top).prevList := by
    intro h
    rcases r13.2.2.2.2.2 top bot h with h | h
    · rw [hP1] at h
      exact hbpt h
    · exact h.1 rfl
  have r4 := pipeUpdatePrevs_move s3 top bot hne (fun h => (hp3 top h).1 rfl) hb3
  have k4 := pipeUpdatePrevs_link s s3 top bot hp3
  obtain ⟨r5, q5⟩ := EdgeMove_removeNext top bot (s3.pipeUpdatePrevs top bot) top bot hne
  have k5 := LinkMove_removeNext s top bot (s3.pipeUpdatePrevs top bot) top
  have r6 := EdgeMove_modify top bot
    ((s3.pipeUpdatePrevs top bot).modify top (fun g => g.removeNext bot)) top
    (fun g => { g with pattern := Pattern.add g.pattern (((s3.pipeUpdatePrevs top bot).modify
      top (fun g => g.removeNext bot)).groups bot).pattern })
    hne ⟨rfl, rfl, rfl⟩ (fun _ h => Or.inl h) (fun _ h => Or.inl h)
  have k6 := LinkMove_modify s top bot
    ((s3.pipeUpdatePrevs top bot).modify top (fun g => g.removeNext bot)) top
    (fun g => { g with pattern := Pattern.add g.pattern (((s3.pipeUpdatePrevs top bot).modify
      top (fun g => g.removeNext bot)).groups bot).pattern })
    (fun _ h => Or.inl h) (fun _ h => Or.inl h) (fun _ h _ => h) (fun _ h _ => h)
  have hres : ∃ s6, s.pipeFuseGroup env top bot = some (s6.removeGroup bot, top) ∧
      EdgeMove top bot ((s3.pipeUpdatePrevs top bot).modify top (fun g => g.removeNext bot)) s6
      ∧ LinkMove s top bot
        ((s3.pipeUpdatePrevs top bot).modify top (fun g => g.removeNext bot)) s6 := by
    unfold Fusioner.pipeFuseGroup
    have l1 : is_included top s.group_list = true := by simpa [is_included] using htop
    have l2 : is_included bot s.group_list = true := by simpa [is_included] using hbot
    simp only [l1, l2, hcan, Bool.not_true, Bool.or_self, Bool.false_eq_true, if_false, e3]
    exact ⟨_, rfl, r6, k6⟩
  obtain ⟨s6, hres, r6, k6⟩ := hres
  have r36 := (r4.edge_move_trans r5).edge_move_trans r6
  have r26 := r3.edge_move_trans r36
  have r16 := r2.edge_move_trans r26
  have k36 := (k4.lmove_trans k5).lmove_trans k6
  have k26 := k3.lmove_trans k36
  have k16 := k2.lmove_trans k26
  have hgl : (s6.removeGroup bot).group_list =
      s.group_list.filter (fun g => !decide (g = bot)) := by
    show List.filter _ s6.group_list = _
    rw [r16.1, m1.1]
  have hmem : ∀ g, g ∈ (s6.removeGroup bot).group_list ↔ g ∈ s.group_list ∧ g ≠ bot := by
    intro g
    rw [hgl, List.mem_filter]
    simp
  have hnoP : ∀ g, g ∈ s.group_list → g ≠ bot → bot ∉ (s6.groups g).prevList := by
    intro g hgs hgb hm
    by_cases h0 : bot ∈ (s.groups g).prevList
    · have hgn : g ∈ (s.groups bot).nextList := (hw.2.2 g hgs bot h0).2
      have := q3 g (by rw [hb2]; exact hgn)
      rcases r36.2.2.2.2.2 g bot hm with h | h
      · exact this h
      · exact h.1 rfl
    · rcases r16.2.2.2.2.2 g bot hm with h | h
      · rw [hP1] at h
        exact h0 h
      · exact h.1 rfl
  have hnoN : ∀ g, g ∈ s.group_list → g ≠ bot → bot ∉ (s6.groups g).nextList := by
    intro g hgs hgb hm
    by_cases h0 : bot ∈ (s.groups g).nextList
    · have hgp : g ∈ (s.groups bot).prevList := (hw.2.1 g hgs bot h0).2
      by_cases hgt : g = top
      · subst hgt
        rcases r6.2.2.2.2.1 g bot hm with h | h
        · exact q5 h
        · exact h.1 rfl
      · have := q2 g (by rw [hP1]; exact hgp) hgt
        rcases r26.2.2.2.2.1 g bot hm with h | h
        · exact this h
        · exact h.1 rfl
    · rcases r16.2.2.2.2.1 g bot hm with h | h
      · rw [hN1] at h
        exact h0 h
      · exact h.1 rfl
  have loN : ∀ g x, x ∈ (s.groups g).nextList → x ≠ bot → x ∈ (s6.groups g).nextList := by
    intro g x hx hb
    exact k16.2.2.1 g x (by rw [hN1]; exact hx) hb
  have loP : ∀ g x, x ∈ (s.groups g).prevList → x ≠ bot → x ∈ (s6.groups g).prevList := by
    intro g x hx hb
    exact k16.2.2.2.1 g x (by rw [hP1]; exact hx) hb
  have hwl : (s6.removeGroup bot).WellLinked := by
    refine ⟨?_, ?_, ?_⟩
    · intro a ha
      show a < s6.num_groups
      rw [k16.2.2.2.2.2, n1]
      exact hw.1 a ((hmem a).1 ha).1
    · intro a ha b hb
      obtain ⟨has, hab⟩ := (hmem a).1 ha
      have hb : b ∈ (s6.groups a).nextList := hb
      have hbb : b ≠ bot := fun e => hnoN a has hab (e ▸ hb)
      show b ∈ (s6.removeGroup bot).group_list ∧ a ∈ (s6.groups b).prevList
      rw [hmem]
      rcases k16.1 a b hb with h | ⟨h1, h2, h3⟩ | ⟨h1, h2⟩
      · rw [hN1] at h
        obtain ⟨w1, w2⟩ := hw.2.1 a has b h
        exact ⟨⟨w1, hbb⟩, loP b a w2 hab⟩
      · subst h1
        refine ⟨⟨htop, hbb⟩, ?_⟩
        rcases h3 with h3 | h3
        · exact k26.2.2.2.1 b a (c2 a h3 h2).1 hab
        · exact loP b a h3 hab
      · subst h1
        obtain ⟨w1, _⟩ := hw.2.1 bot hbot b h2
        exact ⟨⟨w1, hbb⟩, k36.2.2.2.1 b a (c3 b h2).1 hab⟩
    · intro a ha b hb
      obtain ⟨has, hab⟩ := (hmem a).1 ha
      have hb : b ∈ (s6.groups a).prevList := hb
      have hbb : b ≠ bot := fun e => hnoP a has hab (e ▸ hb)
      show b ∈ (s6.removeGroup bot).group_list ∧ a ∈ (s6.groups b).nextList
      rw [hmem]
      rcases k16.2.1 a b hb with h | ⟨h1, h2, h3⟩ | ⟨h1, h2⟩
      · rw [hP1] at h
        obtain ⟨w1, w2⟩ := hw.2.2 a has b h
        exact ⟨⟨w1, hbb⟩, loN b a w2 hab⟩
      · subst h1
        obtain ⟨w1, _⟩ := hw.2.2 bot hbot b h3
        exact ⟨⟨w1, hbb⟩, k26.2.2.1 b a (c2 b h3 h2).2 hab⟩
      · subst h1
        exact ⟨⟨htop, hbb⟩, k36.2.2.1 b a (c3 a h2).2 hab⟩
  obtain ⟨t2, r2e, e2e, hedge⟩ := pipeFuseGroup_edges env s top bot hw hac htop hbn hcan
  have ht2 : t2 = s6.removeGroup bot := by
    rw [hres] at e2e
    injection e2e with e2e
    injection e2e with e2e _
    exact e2e.symm
  subst ht2
  refine ⟨s6.removeGroup bot, hres, hwl, ?_, hgl, ?_, ?_, ?_⟩
  · refine contract_edge_acyclic top bot hac hedge ⟨htop, hbot, hbn⟩ ?_
    intro x hx hxb hreach
    have hnext := isNext_complete s hw hac x bot hreach
    have hcan2 := hcan
    unfold Fusioner.canPipeFuse at hcan2
    rw [if_neg hne] at hcan2
    split at hcan2
    · exact Bool.noConfusion hcan2
    · rename_i hany
      apply hany
      rw [List.any_eq_true]
      exact ⟨x, hx.2.2, by simp [hxb, hnext]⟩
  · show s6.visited = s.visited
    rw [k16.2.2.2.2.1, v1]
  · show s6.num_groups = s.num_groups
    rw [k16.2.2.2.2.2, n1]
  · intro R hR hRb a b hab hb
    rcases hedge a b hab with h | ⟨h1, h2, _⟩ | ⟨h1, h2⟩
    · exact hR a b h hb
    · exact hR a bot h2 hRb
    · subst h1
      exact hR a bot ⟨htop, hbot, hbn⟩ hRb

theorem unvisited_mono (s t : Fusioner) (hn : t.num_groups = s.num_groups)
    (hv : ∀ x ∈ s.visited, x ∈ t.visited) : t.unvisited ≤ s.unvisited := by
  unfold Fusioner.unvisited
  rw [hn]
  have e : (List.range s.num_groups).filter (fun x => !is_included x t.visited) =
      ((List.range s.num_groups).filter (fun x => !is_included x s.visited)).filter
        (fun x => !is_included x t.visited) := by
    rw [List.filter_filter]
    apply List.filter_congr
    intro x _
    by_cases h : x ∈ s.visited
    · simp [is_included, hv x h]
    · simp [is_included, h]
  rw [e]
  exact List.length_filter_le _ _

theorem unvisited_lt (s t : Fusioner) (hn : t.num_groups = s.num_groups)
    (hv : ∀ x ∈ s.visited, x ∈ t.visited) (g : Nat) (hg : g < s.num_groups)
    (h1 : g ∉ s.visited) (h2 : g ∈ t.visited) : t.unvisited < s.unvisited := by
  unfold Fusioner.unvisited
  rw [hn]
  have e : (List.range s.num_groups).filter (fun x => !is_included x t.visited) =
      ((List.range s.num_groups).filter (fun x => !is_included x s.visited)).filter
        (fun x => !is_included x t.visited) := by
    rw [List.filter_filter]
    apply List.filter_congr
    intro x _
    by_cases h : x ∈ s.visited
    · simp [is_included, hv x h]
    · simp [is_included, h]
  rw [e]
  apply List.length_filter_lt_length_iff_exists.2
  refine ⟨g, List.mem_filter.2 ⟨List.mem_range.2 hg, by simp [is_included, h1]⟩, ?_⟩
  simp [is_included, h2]

theorem pipeLoopBU_succ (env : Env) (fuel : Nat) (s : Fusioner) (group i : Nat) :
    Fusioner.pipeLoopBU env (fuel + 1) s group i =
      match (s.groups group).prevList.get? i with
      | none => some (s, group)
      | some top =>
        if (!(decide ((s.groups top).pattern ≠ FREE)
            && decide (env.groupNumdim (s.groups top) = D0)
            && decide (env.groupNumdim (s.groups group) ≠ D0))
            && s.canPipeFuse env top group) = true then
          match s.pipeFuseGroup env top group with
          | none => none
          | some (s1, ret) => Fusioner.pipeLoopBU env fuel s1 ret 0
        else Fusioner.pipeLoopBU env fuel s group (i + 1) := by
  rw [Fusioner.pipeLoopBU]

theorem upLoopBU_succ (recur : Fusioner → Nat → Option Fusioner) (group fuel : Nat)
    (s : Fusioner) (i sz : Nat) :
    Fusioner.upLoopBU recur group (fuel + 1) s i sz =
      if i < sz then
        match (s.groups group).prevList.get? i with
        | none => none
        | some prev =>
          match recur s prev with
          | none => none
          | some s1 =>
            if sz ≠ (s1.groups group).prevList.length then
              Fusioner.upLoopBU recur group fuel s1 0 (s1.groups group).prevList.length
            else Fusioner.upLoopBU recur group fuel s1 (i + 1) sz
      else some s := by
  rw [Fusioner.upLoopBU]

theorem processBU_succ (env : Env) (fuel : Nat) (s : Fusioner) (group : Nat)
    (hcf : env.code_fusion = true) (hv : group ∉ s.visited) :
    Fusioner.processBU env (fuel + 1) s group =
      match ({ s with visited := group :: s.visited } : Fusioner).pipeLoopBU env fuel group 0
        with
      | none => none
      | some (s2, group2) =>
        Fusioner.upLoopBU (Fusioner.processBU env fuel) group2 fuel s2 0
          (s2.groups group2).prevList.length := by
  unfold Fusioner.processBU
  have h2 : is_included group s.visited = false := by simp [is_included, hv]
  simp only [hcf, h2, Bool.not_true, Bool.false_eq_true, if_false]

theorem processBU_skip (env : Env) (fuel : Nat) (s : Fusioner) (group : Nat)
    (h : env.code_fusion = false ∨ group ∈ s.visited) :
    Fusioner.processBU env fuel s group = some s := by
  unfold Fusioner.processBU
  rcases h with h | h
  · simp [h]
  · have h2 : is_included group s.visited = true := by simp [is_included, h]
    simp [h2]

theorem pipeLoopBU_total (env : Env) : ∀ (n d : Nat) (s : Fusioner) (cur i : Nat),
    s.group_list.length ≤ n → (s.groups cur).prevList.length - i ≤ d →
    s.WellLinked → s.Acyclic → cur ∈ s.group_list →
    ∃ t cur2 F0, (∀ F, F0 ≤ F → Fusioner.pipeLoopBU env F s cur i = some (t, cur2)) ∧
      t.WellLinked ∧ t.Acyclic ∧ cur2 ∈ t.group_list ∧ t.visited = s.visited ∧
      t.num_groups = s.num_groups ∧
      (∀ R : Nat → Prop, Closed s R → R cur →
        Closed t R ∧ R cur2 ∧ ∀ x ∈ s.group_list, ¬ R x → x ∈ t.group_list) := by
  intro n
  induction n with
  | zero =>
    intro d s cur i hn _ _ _ hcur
    have : s.group_list.length = 0 := Nat.le_zero.1 hn
    rw [List.length_eq_zero] at this
    rw [this] at hcur
    exact absurd hcur (List.not_mem_nil cur)
  | succ n ihn =>
    intro d
    induction d with
    | zero =>
      intro s cur i _ hd hw hac hcur
      have hget : (s.groups cur).prevList.get? i = none := by
        rw [List.get?_eq_none]
        omega
      refine ⟨s, cur, 1, ?_, hw, hac, hcur, rfl, rfl, fun R hR hc => ⟨hR, hc, fun x hx _ => hx⟩⟩
      intro F hF
      obtain ⟨F2, rfl⟩ : ∃ F2, F = F2 + 1 := ⟨F - 1, by omega⟩
      rw [pipeLoopBU_succ, hget]
    | succ d ihd =>
      intro s cur i hn hd hw hac hcur
      cases hget : (s.groups cur).prevList.get? i with
      | none =>
        refine ⟨s, cur, 1, ?_, hw, hac, hcur, rfl, rfl,
          fun R hR hc => ⟨hR, hc, fun x hx _ => hx⟩⟩
        intro F hF
        obtain ⟨F2, rfl⟩ : ∃ F2, F = F2 + 1 := ⟨F - 1, by omega⟩
        rw [pipeLoopBU_succ, hget]
      | some top =>
        have hi : i < (s.groups cur).prevList.length := by
          by_contra hc
          rw [List.get?_eq_none.2 (by omega)] at hget
          exact Option.noConfusion hget
        have htp : top ∈ (s.groups cur).prevList := List.get?_mem hget
        by_cases hc : (!(decide ((s.groups top).pattern ≠ FREE)
            && decide (env.groupNumdim (s.groups top) = D0)
            && decide (env.groupNumdim (s.groups cur) ≠ D0))
            && s.canPipeFuse env top cur) = true
        · have hcan : s.canPipeFuse env top cur = true := by
            rw [Bool.and_eq_true] at hc
            exact hc.2
          obtain ⟨s1, e1, w1, a1, g1, v1, n1, c1⟩ :=
            pipeFuseGroup_wl env s top cur hw hac hcur htp hcan
          have htop : top ∈ s.group_list := (hw.2.2 cur hcur top htp).1
          have hne : top ≠ cur := canPipeFuse_ne env s top cur hcan
          have hlen : s1.group_list.length ≤ n := by
            have : s1.group_list.length < s.group_list.length := by
              rw [g1]
              apply List.length_filter_lt_length_iff_exists.2
              exact ⟨cur, hcur, by simp⟩
            omega
          have htop1 : top ∈ s1.group_list := by
            rw [g1, List.mem_filter]
            exact ⟨htop, by simpa using hne⟩
          obtain ⟨t, cur2, F0, hF, wt, at2, ct, vt, nt, ft⟩ :=
            ihn ((s1.groups top).prevList.length - 0) s1 top 0 hlen (Nat.le_refl _) w1 a1 htop1
          refine ⟨t, cur2, F0 + 1, ?_, wt, at2, ct, vt.trans v1, nt.trans n1, ?_⟩
          · intro F hF2
            obtain ⟨F2, rfl⟩ : ∃ F2, F = F2 + 1 := ⟨F - 1, by omega⟩
            rw [pipeLoopBU_succ, hget]
            simp only [hc, if_true, e1]
            exact hF F2 (by omega)
          · intro R hR hRc
            have hRt : R top := hR top cur ⟨htop, hcur, (hw.2.2 cur hcur top htp).2⟩ hRc
            obtain ⟨f1, f2, f3⟩ := ft R (c1 R hR hRc) hRt
            refine ⟨f1, f2, ?_⟩
            intro x hx hnx
            refine f3 x ?_ hnx
            rw [g1, List.mem_filter]
            refine ⟨hx, ?_⟩
            have : x ≠ cur := fun e => hnx (e ▸ hRc)
            simpa using this
        · obtain ⟨t, cur2, F0, hF, rest⟩ := ihd s cur (i + 1) hn (by omega) hw hac hcur
          refine ⟨t, cur2, F0 + 1, ?_, rest⟩
          intro F hF2
          obtain ⟨F2, rfl⟩ : ∃ F2, F = F2 + 1 := ⟨F - 1, by omega⟩
          rw [pipeLoopBU_succ, hget]
          simp only [hc, Bool.false_eq_true, if_false]
          exact hF F2 (by omega)

theorem upLoopBU_total (env : Env) (m : Nat)
    (hP : ∀ (s : Fusioner) (g : Nat), s.unvisited ≤ m → s.WellLinked → s.Acyclic →
      g ∈ s.group_list →
      ∃ t F0, (∀ F, F0 ≤ F → Fusioner.processBU env F s g = some t) ∧ BUPost s t g ∧
        (t = s ∨ t.unvisited < s.unvisited)) :
    ∀ (k d : Nat) (s : Fusioner) (cur i sz : Nat), s.unvisited ≤ k → k ≤ m → sz - i ≤ d →
      sz = (s.groups cur).prevList.length → s.WellLinked → s.Acyclic → cur ∈ s.group_list →
      ∃ t F0, (∀ F L, F0 ≤ F → F0 ≤ L →
        Fusioner.upLoopBU (Fusioner.processBU env F) cur L s i sz = some t) ∧
        BUPost s t cur := by
  have hexit : ∀ (s : Fusioner) (cur i sz : Nat), ¬ i < sz → s.WellLinked → s.Acyclic →
      ∃ t F0, (∀ F L, F0 ≤ F → F0 ≤ L →
        Fusioner.upLoopBU (Fusioner.processBU env F) cur L s i sz = some t) ∧
        BUPost s t cur := by
    intro s cur i sz hlt hw hac
    refine ⟨s, 1, ?_, hw, hac, rfl, fun _ h => h, fun R hR _ => ⟨hR, fun x hx _ => hx⟩⟩
    intro F L _ hL
    obtain ⟨L2, rfl⟩ : ∃ L2, L = L2 + 1 := ⟨L - 1, by omega⟩
    rw [upLoopBU_succ, if_neg hlt]
  intro k
  induction k using Nat.strong_induction_on with
  | _ k ihk =>
    intro d
    induction d with
    | zero =>
      intro s cur i sz _ _ hd _ hw hac _
      exact hexit s cur i sz (by omega) hw hac
    | succ d ihd =>
      intro s cur i sz hk hkm hd hsz hw hac hcur
      by_cases hlt : i < sz
      · cases hget : (s.groups cur).prevList.get? i with
        | none =>
          rw [List.get?_eq_none] at hget
          omega
        | some prev =>
          have hmem : prev ∈ (s.groups cur).prevList := List.get?_mem hget
          obtain ⟨hprev, hcn⟩ := hw.2.2 cur hcur prev hmem
          have hedge : s.nextEdge prev cur := ⟨hprev, hcur, hcn⟩
          obtain ⟨t1, F1, hF1, ⟨w1, a1, n1, v1, f1⟩, hdec⟩ :=
            hP s prev (by omega) hw hac hprev
          have hcur1 : cur ∈ t1.group_list := by
            refine (f1 (fun x => x = prev ∨ Relation.TransGen s.nextEdge x prev) ?_
              (Or.inl rfl)).2 cur hcur ?_
            · intro a b hab hb
              rcases hb with hb | hb
              · subst hb
                exact Or.inr (Relation.TransGen.single hab)
              · exact Or.inr (Relation.TransGen.head hab hb)
            · rintro (e | h)
              · rw [e] at hedge
                exact hac prev (Relation.TransGen.single hedge)
              · exact hac cur (h.tail hedge)
          have hle1 : t1.unvisited ≤ s.unvisited := by
            rcases hdec with e | e
            · rw [e]
            · omega
          by_cases hch : sz ≠ (t1.groups cur).prevList.length
          · have hlt1 : t1.unvisited < s.unvisited := by
              rcases hdec with e | e
              · exfalso
                apply hch
                rw [e, hsz]
              · exact e
            obtain ⟨t, F2, hF2, w2, a2, n2, v2, f2⟩ :=
              ihk t1.unvisited (by omega) ((t1.groups cur).prevList.length - 0) t1 cur 0
                (t1.groups cur).prevList.length (Nat.le_refl _) (by omega) (Nat.le_refl _) rfl
                w1 a1 hcur1
            refine ⟨t, max F1 F2 + 1, ?_, w2, a2, n2.trans n1, fun x hx => v2 x (v1 x hx), ?_⟩
            · intro F L hF hL
              obtain ⟨L2, rfl⟩ : ∃ L2, L = L2 + 1 := ⟨L - 1, by omega⟩
              rw [upLoopBU_succ, if_pos hlt, hget]
              simp only [hF1 F (by omega)]
              rw [if_pos hch]
              exact hF2 F L2 (by omega) (by omega)
            · intro R hR hRc
              obtain ⟨c1, g1⟩ := f1 R hR (hR prev cur hedge hRc)
              obtain ⟨c2, g2⟩ := f2 R c1 hRc
              exact ⟨c2, fun x hx hnx => g2 x (g1 x hx hnx) hnx⟩
          · have hsz1 : sz = (t1.groups cur).prevList.length := by
              by_contra hc
              exact hch hc
            obtain ⟨t, F2, hF2, w2, a2, n2, v2, f2⟩ :=
              ihd t1 cur (i + 1) sz (by omega) hkm (by omega) hsz1 w1 a1 hcur1
            refine ⟨t, max F1 F2 + 1, ?_, w2, a2, n2.trans n1, fun x hx => v2 x (v1 x hx), ?_⟩
            · intro F L hF hL
              obtain ⟨L2, rfl⟩ : ∃ L2, L = L2 + 1 := ⟨L - 1, by omega⟩
              rw [upLoopBU_succ, if_pos hlt, hget]
              simp only [hF1 F (by omega)]
              rw [if_neg hch]
              exact hF2 F L2 (by omega) (by omega)
            · intro R hR hRc
              obtain ⟨c1, g1⟩ := f1 R hR (hR prev cur hedge hRc)
              obtain ⟨c2, g2⟩ := f2 R c1 hRc
              exact ⟨c2, fun x hx hnx => g2 x (g1 x hx hnx) hnx⟩
      · exact hexit s cur i sz hlt hw hac

theorem processBU_total (env : Env) : ∀ (m : Nat) (s : Fusioner) (g : Nat),
    s.unvisited ≤ m → s.WellLinked → s.Acyclic → g ∈ s.group_list →
    ∃ t F0, (∀ F, F0 ≤ F → Fusioner.processBU env F s g = some t) ∧ BUPost s t g ∧
      (t = s ∨ t.unvisited < s.unvisited) := by
  intro m
  induction m using Nat.strong_induction_on with
  | _ m ih =>
    intro s g hm hw hac hg
    by_cases hskip : env.code_fusion = false ∨ g ∈ s.visited
    · refine ⟨s, 0, fun F _ => processBU_skip env F s g hskip,
        ⟨hw, hac, rfl, fun _ h => h, fun R hR _ => ⟨hR, fun x hx _ => hx⟩⟩, Or.inl rfl⟩
    · have hcf : env.code_fusion = true := by
        cases h : env.code_fusion with
        | true => rfl
        | false => exact absurd (Or.inl h) hskip
      have hv : g ∉ s.visited := fun h => hskip (Or.inr h)
      have hlt1 : ({ s with visited := g :: s.visited } : Fusioner).unvisited < s.unvisited :=
        unvisited_lt s { s with visited := g :: s.visited } rfl
          (fun x hx => List.mem_cons_of_mem _ hx) g (hw.1 g hg) hv (List.mem_cons_self _ _)
      have hw1 : ({ s with visited := g :: s.visited } : Fusioner).WellLinked := hw
      have hac1 : ({ s with visited := g :: s.visited } : Fusioner).Acyclic := hac
      obtain ⟨s2, g2, Fp, hFp, w2, a2, hg2, v2, n2, f2⟩ :=
        pipeLoopBU_total env _ _ { s with visited := g :: s.visited } g 0
          (Nat.le_refl _) (Nat.le_refl _) hw1 hac1 hg
      have hu2 : s2.unvisited =
          ({ s with visited := g :: s.visited } : Fusioner).unvisited := by
        unfold Fusioner.unvisited
        rw [n2, v2]
      obtain ⟨t, Fu, hFu, wt, at2, nt, vt, ft⟩ :=
        upLoopBU_total env (m - 1) (ih (m - 1) (by omega)) (m - 1)
          ((s2.groups g2).prevList.length - 0) s2 g2 0 (s2.groups g2).prevList.length
          (by omega) (Nat.le_refl _) (Nat.le_refl _) rfl w2 a2 hg2
      refine ⟨t, max Fp Fu + 1, ?_, ⟨wt, at2, nt.trans n2, ?_, ?_⟩, Or.inr ?_⟩
      · intro F hF
        obtain ⟨F2, rfl⟩ : ∃ F2, F = F2 + 1 := ⟨F - 1, by omega⟩
        rw [processBU_succ env F2 s g hcf hv, hFp F2 (by omega)]
        exact hFu F2 F2 (by omega) (by omega)
      · intro x hx
        refine vt x ?_
        rw [v2]
        exact List.mem_cons_of_mem _ hx
      · intro R hR hRg
        obtain ⟨c1, r1, g1⟩ := f2 R hR hRg
        obtain ⟨c2, g3⟩ := ft R c1 r1
        exact ⟨c2, fun x hx hnx => g3 x (g1 x hx hnx) hnx⟩
      · have := unvisited_mono s2 t nt vt
        omega

/-- C25: on a cluster graph that is acyclic and whose prev and next lists mirror each other,
`processBU` from a listed cluster terminates: some bound on the depth of the recursion and the
length of the loops is enough, and every larger bound gives the same final state, again
acyclic and mirrored.  A pipe fusion of a prev of a listed cluster strictly decreases the
number of listed clusters, a visited cluster is not expanded again (the call returns the state
unchanged), and a call on an unvisited cluster strictly decreases the number of unvisited
clusters. -/
theorem processBU_terminates (env : Env) (s : Fusioner) (group : Nat) (hw : s.WellLinked)
    (hac : s.Acyclic) (hg : group ∈ s.group_list) :
    (∃ t F0, (∀ F, F0 ≤ F → Fusioner.processBU env F s group = some t) ∧
      t.WellLinked ∧ t.Acyclic ∧ (t = s ∨ t.unvisited < s.unvisited)) ∧
    (∀ top ∈ (s.groups group).prevList, s.canPipeFuse env top group = true →
      ∃ t, s.pipeFuseGroup env top group = some (t, top) ∧
        t.group_list.length < s.group_list.length) ∧
    (group ∈ s.visited → ∀ F, Fusioner.processBU env F s group = some s) := by
  refine ⟨?_, ?_, ?_⟩
  · obtain ⟨t, F0, hF, ⟨wt, at2, _, _, _⟩, hdec⟩ :=
      processBU_total env s.unvisited s group (Nat.le_refl _) hw hac hg
    exact ⟨t, F0, hF, wt, at2, hdec⟩
  · intro top htp hcan
    obtain ⟨t, e, _, _, g1, _⟩ := pipeFuseGroup_wl env s top group hw hac hg htp hcan
    refine ⟨t, e, ?_⟩
    rw [g1]
    apply List.length_filter_lt_length_iff_exists.2
    exact ⟨group, hg, by simp⟩
  · intro hv F
    exact processBU_skip env F s group (Or.inr hv)

theorem processBU_terminates_witness :
    (Fusioner.processBU (Env.ofDag sortDag) 4 sortEx 2).isSome = true ∧
    ∃ t F0, (∀ F, F0 ≤ F → Fusioner.processBU (Env.ofDag sortDag) F sortEx 2 = some t) ∧
      t.WellLinked ∧ t.Acyclic ∧ (t = sortEx ∨ t.unvisited < sortEx.unvisited) := by
  have hw : sortEx.WellLinked := by
    unfold Fusioner.WellLinked
    decide
  exact ⟨rfl, (processBU_terminates (Env.ofDag sortDag) sortEx 2 hw sortEx_acyclic
    (by decide)).1⟩

/-! ## Guards of the focal kernel -/

/-- C40 (code): for the work-group (1, 2) of a 4x4 grid of work-groups, which is inside the
grid, neither the inner-part guard nor the outer-part guard holds, so the focal core is not
computed for it; the two guards do not partition the work-groups. -/
theorem focal_guards_miss_group :
    (0 ≤ (1 : Int) ∧ (1 : Int) < 4 ∧ 0 ≤ (2 : Int) ∧ (2 : Int) < 4) ∧
    focalInnerGuard 1 4 2 4 = false ∧ focalOuterGuard 1 4 2 4 = false := by
  decide

/-- The two guards of the focal core never hold together, and for a work-group inside the grid
one of them holds exactly when no coordinate that is off the border is equal to 1. -/
theorem focal_guards_exclusive (GC0 GN0 GC1 GN1 : Int) (h0 : 0 ≤ GC0) (h1 : GC0 < GN0)
    (h2 : 0 ≤ GC1) (h3 : GC1 < GN1) :
    ¬ (focalInnerGuard GC0 GN0 GC1 GN1 = true ∧ focalOuterGuard GC0 GN0 GC1 GN1 = true) ∧
    ((focalInnerGuard GC0 GN0 GC1 GN1 = true ∨ focalOuterGuard GC0 GN0 GC1 GN1 = true) ↔
      (GC0 = 0 ∨ GC0 = GN0 - 1 ∨ GC1 = 0 ∨ GC1 = GN1 - 1 ∨ (GC0 ≠ 1 ∧ GC1 ≠ 1))) := by
  unfold focalInnerGuard focalOuterGuard
  simp only [Bool.and_eq_true, Bool.or_eq_true, decide_eq_true_eq]
  constructor
  · omega
  · constructor
    · omega
    · omega

theorem focal_guards_exclusive_witness :
    ¬ (focalInnerGuard 2 5 2 5 = true ∧ focalOuterGuard 2 5 2 5 = true) ∧
    ((focalInnerGuard 2 5 2 5 = true ∨ focalOuterGuard 2 5 2 5 = true) ↔
      ((2 : Int) = 0 ∨ (2 : Int) = 5 - 1 ∨ (2 : Int) = 0 ∨ (2 : Int) = 5 - 1 ∨
        ((2 : Int) ≠ 1 ∧ (2 : Int) ≠ 1))) :=
  focal_guards_exclusive 2 5 2 5 (by decide) (by decide) (by decide) (by decide)

/-! ## The dependency counter of notify -/

theorem notify_positive (T : Task) (s : TaskState) (j : Job) (t : TaskState)
    (hpos : ∀ c d, s.dep_hash c = some d → 0 < d) (h : T.notify s j = some t) :
    ∀ c d, t.dep_hash c = some d → 0 < d := by
  unfold Task.notify at h
  dsimp only at h
  generalize (match s.dep_hash j.coord with
    | some d => d
    | none => T.prevDependencies j.coord) = d0 at h
  by_cases h1 : d0 - 1 < 0
  · rw [if_pos h1] at h
    exact Option.noConfusion h
  · rw [if_neg h1] at h
    by_cases h2 : d0 - 1 = 0
    · rw [if_pos h2] at h
      injection h with h
      subst h
      intro c d hc
      dsimp only at hc
      by_cases e : c = j.coord
      · subst e
        rw [Function.update_same] at hc
        exact Option.noConfusion hc
      · rw [Function.update_noteq e] at hc
        exact hpos c d hc
    · rw [if_neg h2] at h
      injection h with h
      subst h
      intro c d hc
      dsimp only at hc
      by_cases e : c = j.coord
      · subst e
        rw [Function.update_same] at hc
        injection hc with hc
        omega
      · rw [Function.update_noteq e] at hc
        exact hpos c d hc

theorem notifySeq_positive (T : Task) : ∀ (jobs : List Job) (s t : TaskState),
    (∀ c d, s.dep_hash c = some d → 0 < d) → T.notifySeq s jobs = some t →
    ∀ c d, t.dep_hash c = some d → 0 < d := by
  intro jobs
  induction jobs with
  | nil =>
    intro s t hpos ht
    injection ht with ht
    subst ht
    exact hpos
  | cons x xs ih =>
    intro s t hpos ht
    unfold Task.notifySeq at ht
    cases hx : T.notify s x with
    | none => rw [hx] at ht; exact Option.noConfusion ht
    | some s1 =>
      rw [hx] at ht
      exact ih s1 t (notify_positive T s x s1 hpos hx) ht

/-- C38: for a coordinate without entry in `dep_hash`, `notify` fails its assertion when
`prevDependencies` of the coordinate is 0 and no job is emitted; it succeeds exactly when
`prevDependencies` is at least 1; and when every entry of `dep_hash` is strictly positive, it
is so again after every sequence of calls of `notify` that succeeds. -/
theorem notify_fresh_needs_dependency (T : Task) (s : TaskState) (j : Job)
    (hfresh : s.dep_hash j.coord = none) :
    (T.prevDependencies j.coord = 0 → T.notify s j = none) ∧
    ((T.notify s j).isSome = true ↔ 1 ≤ T.prevDependencies j.coord) ∧
    ((∀ c d, s.dep_hash c = some d → 0 < d) →
      ∀ jobs t, T.notifySeq s jobs = some t → ∀ c d, t.dep_hash c = some d → 0 < d) := by
  refine ⟨?_, ?_, ?_⟩
  · intro h0
    unfold Task.notify
    simp [hfresh, h0]
  · unfold Task.notify
    simp only [hfresh]
    by_cases h : T.prevDependencies j.coord - 1 < 0
    · simp only [h, if_true]
      constructor
      · intro hs
        exact Bool.noConfusion hs
      · intro h1
        omega
    · simp only [h, if_false]
      constructor
      · intro _
        omega
      · intro _
        split <;> rfl
  · intro hpos jobs t ht
    exact notifySeq_positive T jobs s t hpos ht

theorem notify_fresh_needs_dependency_witness :
    exScalarProducer.notify emptyState ⟨12, [0, 0], 0⟩ = none ∧
    ((exTask.notify emptyState ⟨7, [0, 0], 0⟩).isSome = true ↔
      1 ≤ exTask.prevDependencies [0, 0]) :=
  ⟨(notify_fresh_needs_dependency exScalarProducer emptyState ⟨12, [0, 0], 0⟩ rfl).1
      (by decide),
    (notify_fresh_needs_dependency exTask emptyState ⟨7, [0, 0], 0⟩ rfl).2.1⟩

/-- C39: the effect of `notify` on `dep_hash` is the same for two jobs with the same
coordinate, whatever their iterations; and when the counter of the coordinate stands at 2
(an entry equal to 2, or no entry and `prevDependencies` equal to 2), two notifies of that
coordinate, of any two iterations, bring the one counter to zero: the second call emits its
own job, with its own iteration, and erases the entry. -/
theorem notify_keyed_by_coord (T : Task) (s : TaskState) (j1 j2 : Job)
    (h : j1.coord = j2.coord) :
    (T.notify s j1).map (fun t => t.dep_hash) = (T.notify s j2).map (fun t => t.dep_hash) ∧
    ((match s.dep_hash j1.coord with
        | some d => d
        | none => T.prevDependencies j1.coord) = 2 →
      ∃ t, T.notifySeq s [j1, j2] = some t ∧ t.job_vec = s.job_vec ++ [j2] ∧
        t.dep_hash j1.coord = none) := by
  refine ⟨?_, ?_⟩
  · unfold Task.notify
    dsimp only
    rw [h]
    generalize (match s.dep_hash j2.coord with
      | some d => d
      | none => T.prevDependencies j2.coord) = d0
    by_cases h1 : d0 - 1 < 0
    · simp [h1]
    · by_cases h2 : d0 - 1 = 0
      · simp [h1, h2]
      · simp [h1, h2]
  · intro hd
    have e1 := notify_of_dep (T := T) (s := s) (j := j1) (d := 2) hd (by decide)
    obtain ⟨s2, e2, e3, e4⟩ := notify_of_dep_one (T := T)
      (s := { s with dep_hash := Function.update s.dep_hash j1.coord (some ((2 : Int) - 1)) })
      (j := j2) (by
        dsimp only
        rw [← h, Function.update_same]
        rfl)
    refine ⟨s2, ?_, e4, ?_⟩
    · show (T.notify s j1).bind (fun s1 => (T.notify s1 j2).bind (fun s2 => some s2)) = some s2
      rw [e1]
      show (T.notify _ j2).bind (fun s2 => some s2) = some s2
      rw [e2]
      rfl
    · rw [e3, ← h]
      dsimp only
      rw [Function.update_same]

theorem notify_keyed_by_coord_witness :
    ∃ t, exTwoDepTask.notifySeq emptyState [⟨13, [0, 0], 0⟩, ⟨13, [0, 0], 1⟩] = some t ∧
      t.job_vec = emptyState.job_vec ++ [(⟨13, [0, 0], 1⟩ : Job)] ∧
      t.dep_hash [0, 0] = none :=
  (notify_keyed_by_coord exTwoDepTask emptyState ⟨13, [0, 0], 0⟩ ⟨13, [0, 0], 1⟩ rfl).2
    (by decide)

/-! ## The forward flag from preForward to postForward -/

theorem preForwardOutputs_marks (forward : ForwardMap) : ∀ (l : List Block) (taken : List Nat),
    (l.map (fun b => b.node.id)).Nodup → (∀ o ∈ l, o.node.id ∉ taken) →
    preForwardOutputs forward l taken =
      l.map (fun o => if (forward.find o.node.id).isSome then { o with forward := true }
        else o) := by
  intro l
  induction l with
  | nil => intro taken _ _; rfl
  | cons o rest ih =>
    intro taken hnd htk
    rw [List.map_cons, List.nodup_cons] at hnd
    have hfree : is_included o.node.id taken = false := by
      simp [is_included, htk o (List.mem_cons_self _ _)]
    have hrest : ∀ x ∈ rest, x.node.id ∉ taken := fun x hx =>
      htk x (List.mem_cons_of_mem _ hx)
    rw [preForwardOutputs]
    by_cases hf : (forward.find o.node.id).isSome = true
    · have hrest2 : ∀ x ∈ rest, x.node.id ∉ o.node.id :: taken := by
        intro x hx hm
        rcases List.mem_cons.1 hm with e | e
        · exact hnd.1 (List.mem_map.2 ⟨x, hx, e⟩)
        · exact hrest x hx e
      simp only [hf, hfree, Bool.not_false, Bool.and_self, if_true, List.map_cons]
      rw [ih (o.node.id :: taken) hnd.2 hrest2]
    · simp only [hf, Bool.false_and, Bool.false_eq_true, if_false, List.map_cons]
      rw [ih taken hnd.2 hrest]

theorem preForwardBody_values (in_blk : List Block) : ∀ (body_out : List Node)
    (f g : ForwardMap), (∀ n b, f.find n = some b → b ∈ in_blk) →
    preForwardBody body_out f = some g → ∀ n b, g.find n = some b → b ∈ in_blk := by
  intro body_out
  induction body_out with
  | nil =>
    intro f g hf hg
    injection hg with hg
    subst hg
    exact hf
  | cons x xs ih =>
    intro f g hf hg
    unfold preForwardBody at hg
    rw [List.foldlM_cons] at hg
    by_cases hc : x.canForward = true
    · simp only [hc, if_true] at hg
      cases hp : x.prevList.head? with
      | none => simp [hp] at hg
      | some prev =>
        cases hb : f.find prev with
        | none =>
          simp only [hp, hb, Option.bind_eq_bind, Option.some_bind] at hg
          exact ih f g hf hg
        | some blk =>
          simp only [hp, hb, Option.bind_eq_bind, Option.some_bind] at hg
          refine ih (f.set x.id blk) g ?_ hg
          intro n b hn
          rw [ForwardMap_find_set] at hn
          split at hn
          · injection hn with hn
            subst hn
            exact hf prev _ hb
          · exact hf n b hn
    · simp only [hc, Bool.false_eq_true, if_false, Option.bind_eq_bind, Option.some_bind] at hg
      exact ih f g hf hg

theorem preForwardInputs_values (body_out : List Node) : ∀ (in_blk : List Block)
    (f : ForwardMap) (all : List Block), (∀ b ∈ in_blk, b ∈ all) →
    (∀ n b, f.find n = some b → b ∈ all) →
    ∀ n b, (preForwardInputs body_out in_blk f).find n = some b → b ∈ all := by
  intro in_blk
  induction in_blk with
  | nil => intro f all _ hf; exact hf
  | cons x xs ih =>
    intro f all hsub hf
    unfold preForwardInputs
    rw [List.foldl_cons]
    refine ih _ all (fun b hb => hsub b (List.mem_cons_of_mem _ hb)) ?_
    split
    · exact hf
    · dsimp only
      split
      · intro n b hn
        rw [ForwardMap_find_set] at hn
        split at hn
        · injection hn with hn
          subst hn
          exact hsub _ (List.mem_cons_self _ _)
        · exact hf n b hn
      · exact hf

theorem postForwardOutputs_unmarks (sameStats : Block → Block → Bool) (forward : ForwardMap)
    (in_blk : List Block) (hin : ∀ n b, forward.find n = some b → b ∈ in_blk)
    (hstats : ∀ o i, (sameStats o i || o.node.pattern.is PatternTag.STATS) = true) :
    ∀ (l : List Block), (∀ o ∈ l, o.fixed = false) →
    postForwardOutputs sameStats forward in_blk
      (l.map (fun o => if (forward.find o.node.id).isSome then { o with forward := true }
        else o)) =
      some (l.map (fun o => if (forward.find o.node.id).isSome then { o with forward := false }
        else o)) := by
  intro l
  induction l with
  | nil => intro _; rfl
  | cons o rest ih =>
    intro hfix
    have ih := ih (fun x hx => hfix x (List.mem_cons_of_mem _ hx))
    have hof := hfix o (List.mem_cons_self _ _)
    rw [List.map_cons, List.map_cons]
    cases hf : forward.find o.node.id with
    | none =>
      simp only [Option.isSome_none, Bool.false_eq_true, if_false]
      rw [postForwardOutputs]
      simp only [hf, ih]
    | some iblk =>
      simp only [Option.isSome_some, if_true]
      rw [postForwardOutputs]
      have hm : is_included iblk in_blk = true := by
        simp [is_included, hin _ _ hf]
      simp only [hf, hm, hstats, hof, ih, Bool.not_true, Bool.false_eq_true, if_false,
        Bool.not_false, Bool.and_self]

theorem preForward_unfold (T : Task) (in_blk out_blk : List Block) (forward2 : ForwardMap)
    (out1 : List Block) (h : T.preForward [] in_blk out_blk = some (forward2, out1)) :
    preForwardBody (full_unique_join T.nodeList T.outputList)
      (preForwardInputs (full_unique_join T.nodeList T.outputList) in_blk []) = some forward2 ∧
    out1 = preForwardOutputs forward2 out_blk [] := by
  unfold Task.preForward at h
  simp only [ne_eq, not_true_eq_false, if_false] at h
  cases hb : preForwardBody (full_unique_join T.nodeList T.outputList)
      (preForwardInputs (full_unique_join T.nodeList T.outputList) in_blk []) with
  | none => rw [hb] at h; exact Option.noConfusion h
  | some f =>
    rw [hb] at h
    injection h with h
    injection h with h1 h2
    subst h1
    exact ⟨rfl, h2.symm⟩

theorem preForwardOutputs_rel (forward : ForwardMap) : ∀ (l : List Block) (taken : List Nat),
    List.Forall₂ (PreMarked forward) l (preForwardOutputs forward l taken) := by
  intro l
  induction l with
  | nil => intro taken; exact List.Forall₂.nil
  | cons o rest ih =>
    intro taken
    rw [preForwardOutputs]
    split
    · rename_i hc
      rw [Bool.and_eq_true] at hc
      exact List.Forall₂.cons (Or.inr ⟨hc.1, rfl⟩) (ih _)
    · exact List.Forall₂.cons (Or.inl rfl) (ih _)

theorem unsetForwarded_of_marked (forward : ForwardMap) (o o1 : Block)
    (h : PreMarked forward o o1) : o1.unsetForwarded forward = o.unsetForwarded forward := by
  rcases h with h | ⟨hf, h⟩
  · rw [h]
  · subst h
    unfold Block.unsetForwarded
    simp only [hf, if_true]

theorem map_unsetForwarded_of_marked (forward : ForwardMap) : ∀ (l l1 : List Block),
    List.Forall₂ (PreMarked forward) l l1 →
    l1.map (Block.unsetForwarded forward) = l.map (Block.unsetForwarded forward) := by
  intro l l1 h
  induction h with
  | nil => rfl
  | cons h1 _ ih =>
    rw [List.map_cons, List.map_cons, ih, unsetForwarded_of_marked forward _ _ h1]

theorem postForwardOutputs_of_asserts (sameStats : Block → Block → Bool) (forward : ForwardMap)
    (in_blk : List Block) (hin : ∀ n b, forward.find n = some b → b ∈ in_blk) :
    ∀ (l : List Block), (∀ o ∈ l, PostAsserts sameStats forward o) →
    postForwardOutputs sameStats forward in_blk l =
      some (l.map (Block.unsetForwarded forward)) := by
  intro l
  induction l with
  | nil => intro _; rfl
  | cons o rest ih =>
    intro ha
    have ih := ih (fun x hx => ha x (List.mem_cons_of_mem _ hx))
    have ho := ha o (List.mem_cons_self _ _)
    rw [List.map_cons, postForwardOutputs]
    unfold Block.unsetForwarded
    cases hf : forward.find o.node.id with
    | none =>
      simp only [ih, Option.isSome_none, Bool.false_eq_true, if_false]
      rfl
    | some iblk =>
      obtain ⟨a1, a2, a3⟩ := ho iblk hf
      have hm : is_included iblk in_blk = true := by
        simp [is_included, hin _ _ hf]
      simp only [hm, a1, a2, a3, ih, Bool.not_true, Bool.false_eq_true, if_false,
        Bool.not_false, Bool.and_self, Option.isSome_some, if_true]
      rfl

theorem postForwardOutputs_asserts (sameStats : Block → Block → Bool) (forward : ForwardMap)
    (in_blk : List Block) :
    ∀ (l r : List Block), postForwardOutputs sameStats forward in_blk l = some r →
    ∀ o ∈ l, PostAsserts sameStats forward o := by
  intro l
  induction l with
  | nil => intro _ _ o ho; exact absurd ho (List.not_mem_nil o)
  | cons x rest ih =>
    intro r h o ho
    rw [postForwardOutputs] at h
    cases hf : forward.find x.node.id with
    | none =>
      rw [hf] at h
      dsimp only at h
      cases hr : postForwardOutputs sameStats forward in_blk rest with
      | none => rw [hr] at h; exact Option.noConfusion h
      | some r1 =>
        rcases List.mem_cons.1 ho with e | e
        · subst e
          intro i hi
          rw [hf] at hi
          exact Option.noConfusion hi
        · exact ih r1 hr o e
    | some iblk =>
      rw [hf] at h
      dsimp only at h
      split at h
      · exact Option.noConfusion h
      · split at h
        · exact Option.noConfusion h
        · split at h
          · exact Option.noConfusion h
          · rename_i _ hs hff
            cases hr : postForwardOutputs sameStats forward in_blk rest with
            | none => rw [hr] at h; exact Option.noConfusion h
            | some r1 =>
              rcases List.mem_cons.1 ho with e | e
              · subst e
                intro i hi
                rw [hf] at hi
                injection hi with hi
                subst hi
                have hs2 : (sameStats o iblk || o.node.pattern.is PatternTag.STATS) = true := by
                  cases hx : (sameStats o iblk || o.node.pattern.is PatternTag.STATS) with
                  | true => rfl
                  | false => rw [hx] at hs; exact absurd rfl hs
                have hf2 : (o.forward && !o.fixed) = true := by
                  cases hx : (o.forward && !o.fixed) with
                  | true => rfl
                  | false => rw [hx] at hff; exact absurd rfl hff
                rw [Bool.and_eq_true] at hf2
                refine ⟨hs2, hf2.1, ?_⟩
                cases hz : o.fixed with
                | false => rfl
                | true => rw [hz] at hf2; exact absurd hf2.2 (by decide)
              · exact ih r1 hr o e

/-- C37 (failing input): with two output blocks of the same output node, whose node is in
the forward map, `preForward` marks only the first block (the second finds its node taken), so
in `postForward` the second block has its node in the forward map and is not marked forward:
the assertion fails. -/
theorem postForward_assertion_fails_on_second_block :
    ∃ forward out1,
      fwdTask.preForward [] [fwdInBlk] [fwdOutBlkA, fwdOutBlkA2] = some (forward, out1) ∧
      out1 = [{ fwdOutBlkA with forward := true }, fwdOutBlkA2] ∧
      (forward.find fwdOutBlkA2.node.id).isSome = true ∧ fwdOutBlkA2.forward = false ∧
      fwdTask.postForward (fun _ _ => true) forward [fwdInBlk] out1 = none := by
  refine ⟨_, _, rfl, ?_, ?_, ?_, ?_⟩ <;> decide

/-- With at most one block per output node in the output block list, after `preForward` every
output block whose node is in the forward map is marked forward. -/
theorem preForward_marks_every_forwarded (T : Task) (in_blk out_blk : List Block)
    (forward2 : ForwardMap) (out1 : List Block)
    (hnd : (out_blk.map (fun b => b.node.id)).Nodup)
    (h : T.preForward [] in_blk out_blk = some (forward2, out1)) :
    ∀ o ∈ out1, (forward2.find o.node.id).isSome = true → o.forward = true := by
  obtain ⟨_, h2⟩ := preForward_unfold T in_blk out_blk forward2 out1 h
  rw [h2, preForwardOutputs_marks forward2 out_blk [] hnd
    (fun o _ hm => absurd hm (List.not_mem_nil _))]
  intro o ho hf
  obtain ⟨o0, _, rfl⟩ := List.mem_map.1 ho
  by_cases hc : (forward2.find o0.node.id).isSome = true
  · simp only [hc, if_true]
  · rw [if_neg hc] at hf
    exact absurd hf hc

theorem preForward_marks_every_forwarded_witness :
    ∃ forward out1,
      fwdTask.preForward [] [fwdInBlk] [fwdOutBlkA, fwdOutBlkB] = some (forward, out1) ∧
      ∀ o ∈ out1, (forward.find o.node.id).isSome = true → o.forward = true :=
  ⟨_, _, rfl, preForward_marks_every_forwarded fwdTask [fwdInBlk] [fwdOutBlkA, fwdOutBlkB] _ _
    (by decide) rfl⟩

/-- C31: for every job on which `preForward` returns from the empty forward map of a worker,
`preForward` only marks output blocks whose node is in the forward map; `postForward` on the
same worker and block lists returns exactly when its assertions on the statistics and the
flags hold for the output blocks whose node is in the forward map; and whenever it returns,
the forward map is empty and every output block whose node is in the forward map is unmarked,
the other blocks being left as they were: every block that `preForward` set forward is unset,
and when no output block was marked before `preForward` the output blocks are back as they
were and none is marked forward.  It returns in particular when the output blocks belong to
distinct nodes and those whose node is in the forward map are not fixed and pass the statistics
assertion. -/
theorem forward_roundtrip (T : Task) (sameStats : Block → Block → Bool)
    (in_blk out_blk : List Block) (forward2 : ForwardMap) (out1 : List Block)
    (h : T.preForward [] in_blk out_blk = some (forward2, out1)) :
    List.Forall₂ (PreMarked forward2) out_blk out1 ∧
    ((∃ r, T.postForward sameStats forward2 in_blk out1 = some r) ↔
      ∀ o ∈ out1, PostAsserts sameStats forward2 o) ∧
    (∀ f3 out2, T.postForward sameStats forward2 in_blk out1 = some (f3, out2) →
      f3 = [] ∧ out2 = out1.map (Block.unsetForwarded forward2) ∧
      out2 = out_blk.map (Block.unsetForwarded forward2) ∧
      (∀ o ∈ out2, (forward2.find o.node.id).isSome = true → o.forward = false) ∧
      ((∀ o ∈ out_blk, o.forward = false) →
        out2 = out_blk ∧ ∀ o ∈ out2, o.forward = false)) ∧
    ((out_blk.map (fun b => b.node.id)).Nodup →
      (∀ o ∈ out_blk, ∀ i, forward2.find o.node.id = some i → o.fixed = false ∧
        (sameStats { o with forward := true } i || o.node.pattern.is PatternTag.STATS) = true) →
      T.postForward sameStats forward2 in_blk out1 =
        some ([], out_blk.map (Block.unsetForwarded forward2))) := by
  obtain ⟨h1, h2⟩ := preForward_unfold T in_blk out_blk forward2 out1 h
  have hin : ∀ n b, forward2.find n = some b → b ∈ in_blk := by
    refine preForwardBody_values in_blk _ _ forward2 ?_ h1
    refine preForwardInputs_values _ in_blk [] in_blk (fun _ hb => hb) ?_
    intro n b hn
    simp [ForwardMap.find] at hn
  have hrel : List.Forall₂ (PreMarked forward2) out_blk out1 := by
    rw [h2]
    exact preForwardOutputs_rel forward2 out_blk []
  have hmap := map_unsetForwarded_of_marked forward2 out_blk out1 hrel
  have hret : (∀ o ∈ out1, PostAsserts sameStats forward2 o) →
      T.postForward sameStats forward2 in_blk out1 =
        some ([], out_blk.map (Block.unsetForwarded forward2)) := by
    intro ha
    unfold Task.postForward
    rw [postForwardOutputs_of_asserts sameStats forward2 in_blk hin out1 ha, hmap]
  have hpost : ∀ f3 out2, T.postForward sameStats forward2 in_blk out1 = some (f3, out2) →
      ∀ o ∈ out1, PostAsserts sameStats forward2 o := by
    intro f3 out2 hp
    unfold Task.postForward at hp
    cases hr : postForwardOutputs sameStats forward2 in_blk out1 with
    | none => rw [hr] at hp; exact Option.noConfusion hp
    | some r => exact postForwardOutputs_asserts sameStats forward2 in_blk out1 r hr
  refine ⟨hrel, ⟨?_, fun ha => ⟨_, hret ha⟩⟩, ?_, ?_⟩
  · rintro ⟨⟨f3, out2⟩, hp⟩
    exact hpost f3 out2 hp
  · intro f3 out2 hp
    have he := hret (hpost f3 out2 hp)
    rw [hp] at he
    injection he with he
    injection he with e1 e2
    subst e1
    subst e2
    refine ⟨rfl, hmap.symm, rfl, ?_, ?_⟩
    · intro o ho hf
      obtain ⟨o0, _, rfl⟩ := List.mem_map.1 ho
      unfold Block.unsetForwarded at hf ⊢
      by_cases hc : (forward2.find o0.node.id).isSome = true
      · simp only [hc, if_true]
      · rw [if_neg hc] at hf
        exact absurd hf hc
    · intro hinit
      have hid : out_blk.map (Block.unsetForwarded forward2) = out_blk := by
        conv_rhs => rw [← List.map_id out_blk]
        apply List.map_congr_left
        intro o ho
        have hz := hinit o ho
        unfold Block.unsetForwarded
        split
        · cases o
          simp only at hz
          subst hz
          rfl
        · rfl
      rw [hid]
      exact ⟨rfl, hinit⟩
  · intro hnd hok
    apply hret
    rw [h2, preForwardOutputs_marks forward2 out_blk [] hnd
      (fun o _ hm => absurd hm (List.not_mem_nil _))]
    intro o ho i hi
    obtain ⟨o0, ho0, rfl⟩ := List.mem_map.1 ho
    have hs : (forward2.find o0.node.id).isSome = true := by
      by_cases hc : (forward2.find o0.node.id).isSome = true
      · exact hc
      · rw [if_neg hc] at hi
        rw [hi] at hc
        exact absurd rfl hc
    rw [if_pos hs] at hi ⊢
    obtain ⟨k1, k2⟩ := hok o0 ho0 i hi
    exact ⟨k2, rfl, k1⟩

theorem forward_roundtrip_witness :
    ∃ forward out1 out2,
      fwdTask.preForward [] [fwdInBlk] [fwdOutBlkA, fwdOutBlkFixed] = some (forward, out1) ∧
      out1 = [{ fwdOutBlkA with forward := true }, fwdOutBlkFixed] ∧
      fwdTask.postForward (fun _ _ => true) forward [fwdInBlk] out1 = some ([], out2) ∧
      out2 = [fwdOutBlkA, fwdOutBlkFixed] ∧ ∀ o ∈ out2, o.forward = false := by
  refine ⟨_, _, [fwdOutBlkA, fwdOutBlkFixed], rfl, by decide, by decide, rfl, ?_⟩
  exact (((forward_roundtrip fwdTask (fun _ _ => true) [fwdInBlk]
    [fwdOutBlkA, fwdOutBlkFixed] _ _ rfl).2.2.1 [] [fwdOutBlkA, fwdOutBlkFixed]
      (by decide)).2.2.2.2 (by decide)).2

/-! ## Clusters that reach sorting -/

/-- C36 (failing input): on a graph with an isolated scalar (D0) FREE node 0 and a LOCAL node 1,
`Fusioner::fuse` reaches `sorting` with two clusters of which the one of node 0 has an empty
body, because `linking` moved its only node to the input list; the comparator has no last
body node to read and `fuse` does not produce a result. -/
theorem sorting_reaches_empty_body :
    ∃ s5, loneScalarLinked = some s5 ∧ s5.group_list = [0, 1] ∧
      (s5.groups 0).node_list = [] ∧ (s5.groups 0).in_list = [0] ∧
      (s5.groups 1).node_list = [1] ∧
      (s5.groups 0).lastId (Env.ofDag loneScalarDag) = none ∧
      s5.less (Env.ofDag loneScalarDag) 0 1 = none ∧
      s5.sorting (Env.ofDag loneScalarDag) = none ∧
      Fusioner.init.fuse (Env.ofDag loneScalarDag) 4 [0, 1] = none := by
  have hs : loneScalarLinked.isSome = true := rfl
  obtain ⟨s5, h5⟩ := Option.isSome_iff_exists.1 hs
  have e : s5 = loneScalarLinked.get hs := by
    simp only [h5, Option.get_some]
  refine ⟨s5, h5, ?_, ?_, ?_, ?_, ?_, ?_, ?_, ?_⟩
  · rw [e]; rfl
  · rw [e]; rfl
  · rw [e]; rfl
  · rw [e]; rfl
  · rw [e]; rfl
  · rw [e]; rfl
  · rw [e]; rfl
  · rfl

/-! ## Accumulated input reach -/

theorem accuInReach_some {M : Type} (flat pipe : M → M → M) (inputReach : Nat → M)
    (m : ReachMap M) : ∀ (l : List Nat) (r : M), (∀ s ∈ l, (m s).isSome = true) →
      accuInReach flat pipe inputReach m l r =
        some (l.foldl (fun r s => flat r (pipe (inputReach s) ((m s).getD r))) r) ∧
      ∀ u, accuInReach flat pipe inputReach m l r =
        some (l.foldl (fun r s => flat r (pipe (inputReach s) ((m s).getD u))) r) := by
  intro l
  induction l with
  | nil => intro r _; exact ⟨rfl, fun _ => rfl⟩
  | cons x xs ih =>
    intro r h
    obtain ⟨a, ha⟩ := Option.isSome_iff_exists.1 (h x (List.mem_cons_self _ _))
    have hxs := fun s hs => h s (List.mem_cons_of_mem _ hs)
    have e : ∀ r0, accuInReach flat pipe inputReach m (x :: xs) r0 =
        accuInReach flat pipe inputReach m xs (flat r0 (pipe (inputReach x) a)) := by
      intro r0
      unfold accuInReach
      rw [List.foldlM_cons, ha]
      rfl
    constructor
    · rw [e, (ih _ hxs).1, List.foldl_cons, ha]
      rfl
    · intro u
      rw [e, (ih _ hxs).2 u, List.foldl_cons, ha]
      rfl

theorem accuInReach_entries {M : Type} (flat pipe : M → M → M) (inputReach : Nat → M)
    (m : ReachMap M) : ∀ (l : List Nat) (r t : M),
      accuInReach flat pipe inputReach m l r = some t → ∀ s ∈ l, (m s).isSome = true := by
  intro l
  induction l with
  | nil => intro _ _ _ s hs; exact absurd hs (List.not_mem_nil _)
  | cons x xs ih =>
    intro r t h s hs
    unfold accuInReach at h
    rw [List.foldlM_cons] at h
    cases hx : m x with
    | none => rw [hx] at h; exact Option.noConfusion h
    | some a =>
      rw [hx] at h
      rcases List.mem_cons.1 hs with e | e
      · rw [e, hx]; rfl
      · exact ih _ t h s e

theorem accuInReach_congr {M : Type} (flat pipe : M → M → M) (inputReach : Nat → M)
    (m m2 : ReachMap M) : ∀ (l : List Nat) (r : M), (∀ s ∈ l, m2 s = m s) →
      accuInReach flat pipe inputReach m2 l r = accuInReach flat pipe inputReach m l r := by
  intro l
  induction l with
  | nil => intro _ _; rfl
  | cons x xs ih =>
    intro r h
    unfold accuInReach
    rw [List.foldlM_cons, List.foldlM_cons, h x (List.mem_cons_self _ _)]
    cases m x with
    | none => rfl
    | some a => exact ih _ (fun s hs => h s (List.mem_cons_of_mem _ hs))

theorem ReachMap.insert_kept {M : Type} (m : ReachMap M) (node : Nat) (reach : M) (s : Nat)
    (h : (m s).isSome = true) : (m.insert node reach) s = m s := by
  unfold ReachMap.insert
  by_cases hn : (m node).isSome = true
  · rw [if_pos hn]
  · rw [if_neg hn]
    have : s ≠ node := fun e => hn (e ▸ h)
    exact Function.update_noteq this _ _

theorem ReachMap.insert_isSome {M : Type} (m : ReachMap M) (node : Nat) (reach : M) (s : Nat) :
    ((m.insert node reach) s).isSome = true ↔ (s = node ∨ (m s).isSome = true) := by
  unfold ReachMap.insert
  by_cases hn : (m node).isSome = true
  · rw [if_pos hn]
    constructor
    · exact Or.inr
    · rintro (e | e)
      · exact e ▸ hn
      · exact e
  · rw [if_neg hn]
    by_cases e : s = node
    · subst e
      simp
    · rw [Function.update_noteq e]
      simp [e]

theorem accuInStep_inv {M : Type} (unit : M) (flat pipe : M → M → M) (inputReach : Nat → M)
    (dag : Nat → Node) (nodeList : List Nat) (done : List Nat) (m m2 : ReachMap M)
    (node : Nat) (hinv : ReachInv unit flat pipe inputReach dag nodeList done m)
    (h : accuInStep unit flat pipe inputReach dag nodeList m node = some m2) :
    ReachInv unit flat pipe inputReach dag nodeList (node :: done) m2 := by
  unfold accuInStep at h
  cases hr : accuInReach flat pipe inputReach m (inner_join (dag node).nextList nodeList)
      unit with
  | none => rw [hr] at h; exact Option.noConfusion h
  | some reach =>
    rw [hr] at h
    injection h with h
    subst h
    have hkeep : ∀ n t, accuInReach flat pipe inputReach m
        (inner_join (dag n).nextList nodeList) unit = some t →
        accuInReach flat pipe inputReach (m.insert node reach)
          (inner_join (dag n).nextList nodeList) unit = some t := by
      intro n t ht
      rw [accuInReach_congr flat pipe inputReach m (m.insert node reach) _ unit
        (fun s hs => ReachMap.insert_kept m node reach s
          (accuInReach_entries flat pipe inputReach m _ unit t ht s hs))]
      exact ht
    constructor
    · intro n
      rw [ReachMap.insert_isSome, hinv.1 n, List.mem_cons]
    · intro n hn
      by_cases hd : n ∈ done
      · have hs : (m n).isSome = true := (hinv.1 n).2 hd
        obtain ⟨t, ht⟩ := Option.isSome_iff_exists.1 hs
        rw [ReachMap.insert_kept m node reach n hs, ht]
        apply hkeep
        rw [hinv.2 n hd, ht]
      · have e : n = node := by
          rcases List.mem_cons.1 hn with e | e
          · exact e
          · exact absurd e hd
        subst e
        have hnone : ¬ (m n).isSome = true := fun c => hd ((hinv.1 n).1 c)
        rw [hkeep n reach hr]
        unfold ReachMap.insert
        rw [if_neg hnone, Function.update_same]

theorem ctorAccuInReach_walk {M : Type} (unit : M) (flat pipe : M → M → M)
    (inputReach : Nat → M) (dag : Nat → Node) (nodeList : List Nat) :
    ∀ (l : List Nat),
      (∀ m, l.reverse.foldlM (accuInStep unit flat pipe inputReach dag nodeList)
          (fun _ => none) = some m →
        ReachInv unit flat pipe inputReach dag nodeList l m) ∧
      (reachOrdered dag nodeList l = true →
        ∃ m, l.reverse.foldlM (accuInStep unit flat pipe inputReach dag nodeList)
          (fun _ => none) = some m) := by
  intro l
  induction l with
  | nil =>
    constructor
    · intro m h
      injection h with h
      subst h
      exact ⟨fun n => by simp, fun n hn => absurd hn (List.not_mem_nil _)⟩
    · intro _
      exact ⟨_, rfl⟩
  | cons x xs ih =>
    have hcons : ∀ init : ReachMap M,
        (x :: xs).reverse.foldlM (accuInStep unit flat pipe inputReach dag nodeList) init
        = (xs.reverse.foldlM (accuInStep unit flat pipe inputReach dag nodeList) init).bind
            (fun m => accuInStep unit flat pipe inputReach dag nodeList m x) := by
      intro init
      rw [List.reverse_cons, List.foldlM_append]
      cases xs.reverse.foldlM (accuInStep unit flat pipe inputReach dag nodeList) init with
      | none => rfl
      | some m =>
        show (accuInStep unit flat pipe inputReach dag nodeList m x).bind some = _
        simp
    constructor
    · intro m h
      rw [hcons] at h
      cases h1 : xs.reverse.foldlM (accuInStep unit flat pipe inputReach dag nodeList)
          (fun _ => none) with
      | none => rw [h1] at h; exact Option.noConfusion h
      | some m1 =>
        rw [h1] at h
        exact accuInStep_inv unit flat pipe inputReach dag nodeList xs m1 m x (ih.1 m1 h1) h
    · intro hord
      unfold reachOrdered at hord
      rw [Bool.and_eq_true, List.all_eq_true] at hord
      obtain ⟨m1, h1⟩ := ih.2 hord.2
      have hinv := ih.1 m1 h1
      have hall : ∀ s ∈ inner_join (dag x).nextList nodeList, (m1 s).isSome = true := by
        intro s hs
        have := hord.1 s hs
        unfold is_included at this
        exact (hinv.1 s).2 (of_decide_eq_true this)
      rw [hcons, h1]
      show ∃ m, accuInStep unit flat pipe inputReach dag nodeList m1 x = some m
      unfold accuInStep
      rw [(accuInReach_some flat pipe inputReach m1 _ unit hall).1]
      exact ⟨_, rfl⟩

/-- C32: when every successor in the body of a node of `all_list` (the inputs followed by the
body and the outputs) comes later in `all_list`, the backward walk of the constructor of `Task`
returns a map with an entry for every node of `all_list` and for no other node, and the entry
of the node is the left fold over its successors `s` in the body of
`r -> flat(r, pipe(s.inputReach, accu_in(s)))` from the identity reach; the entry of a node
without successor in the body is the identity reach; and `accuInputReach` returns the entry
whatever the coordinate. -/
theorem ctor_accu_in_reach_is_fold {M : Type} (unit : M) (flat pipe : M → M → M)
    (inputReach : Nat → M) (dag : Nat → Node) (inputList nodeList outputList : List Nat)
    (hord : reachOrdered dag nodeList
      (full_join inputList (full_unique_join nodeList outputList)) = true) :
    ∃ m, Task.ctorAccuInReach unit flat pipe inputReach dag inputList nodeList outputList
        = some m ∧
      (∀ n, (m n).isSome = true ↔
        n ∈ full_join inputList (full_unique_join nodeList outputList)) ∧
      ∀ n ∈ full_join inputList (full_unique_join nodeList outputList),
        m n = some ((inner_join (dag n).nextList nodeList).foldl
          (fun r s => flat r (pipe (inputReach s) ((m s).getD unit))) unit) ∧
        (inner_join (dag n).nextList nodeList = [] → m n = some unit) ∧
        ∀ c1 c2 : Coord, m.accuInputReach n c1 = m.accuInputReach n c2 ∧
          m.accuInputReach n c1 = m n := by
  obtain ⟨hsound, htotal⟩ := ctorAccuInReach_walk unit flat pipe inputReach dag nodeList
    (full_join inputList (full_unique_join nodeList outputList))
  obtain ⟨m, hm⟩ := htotal hord
  obtain ⟨h1, h2⟩ := hsound m hm
  refine ⟨m, hm, h1, ?_⟩
  intro n hn
  have e := h2 n hn
  obtain ⟨t, ht⟩ := Option.isSome_iff_exists.1 ((h1 n).2 hn)
  rw [ht] at e
  have hall := accuInReach_entries flat pipe inputReach m _ unit t e
  have e2 := (accuInReach_some flat pipe inputReach m _ unit hall).2 unit
  refine ⟨?_, ?_, fun _ _ => ⟨rfl, rfl⟩⟩
  · rw [← e2, e, ht]
  · intro hnil
    rw [hnil] at e
    rw [ht, ← e]
    rfl

theorem ctor_accu_in_reach_is_fold_witness :
    reachOrdered linkDag [0, 1] (full_join [] (full_unique_join [0, 1] [1])) = true ∧
    ∃ m : ReachMap Nat, Task.ctorAccuInReach 0 max (· + ·) (fun _ => 1) linkDag [] [0, 1] [1]
        = some m ∧
      (∀ n, (m n).isSome = true ↔ n ∈ full_join [] (full_unique_join [0, 1] [1])) ∧
      ∀ n ∈ full_join [] (full_unique_join [0, 1] [1]),
        m n = some ((inner_join (linkDag n).nextList [0, 1]).foldl
          (fun r s => max r ((fun _ => 1) s + (m s).getD 0)) 0) ∧
        (inner_join (linkDag n).nextList [0, 1] = [] → m n = some 0) ∧
        ∀ c1 c2 : Coord, m.accuInputReach n c1 = m.accuInputReach n c2 ∧
          m.accuInputReach n c1 = m n :=
  ⟨by decide, ctor_accu_in_reach_is_fold 0 max (· + ·) (fun _ => 1) linkDag [] [0, 1] [1]
    (by decide)⟩

/-! ## The pattern imposed on an input -/

theorem Pattern.mem_add (a b : Pattern) (ha : a ≠ FREE) :
    Pattern.add a b ≠ FREE ∧ ∀ t, t ∈ Pattern.add a b ↔ (t ∈ a ∨ (b ≠ FREE ∧ t ∈ b)) := by
  by_cases hb : b = FREE
  · subst hb
    rw [Pattern.add_free_right]
    refine ⟨ha, fun t => ⟨Or.inl, ?_⟩⟩
    rintro (h | h)
    · exact h
    · exact absurd rfl h.1
  · obtain ⟨e, hne⟩ := Pattern.add_ne_free a b ha hb
    refine ⟨hne, fun t => ?_⟩
    rw [e, Finset.mem_union]
    constructor
    · rintro (h | h)
      · exact Or.inl h
      · exact Or.inr ⟨hb, h⟩
    · rintro (h | h)
      · exact Or.inl h
      · exact Or.inr h.2

theorem Pattern.empty_ne_free : Pattern.empty ≠ FREE := by decide

theorem isInputOf_fold_tags (dag : Nat → Node) (nodeList : List Nat)
    (rec : Nat → Option Pattern)
    (hrec : ∀ s p, rec s = some p → p ≠ FREE ∧
      ∀ t, t ∈ p ↔ ∃ m, Relation.TransGen (bodyEdge dag nodeList) s m ∧ tagOf dag m t) :
    ∀ (l : List Nat) (acc r : Pattern), acc ≠ FREE →
      l.foldlM (isInputOfStep dag nodeList rec) acc = some r →
      r ≠ FREE ∧ ∀ t, t ∈ r ↔ (t ∈ acc ∨ ∃ s ∈ l, s ∈ nodeList ∧
        ((∃ m, Relation.TransGen (bodyEdge dag nodeList) s m ∧ tagOf dag m t) ∨
          tagOf dag s t)) := by
  intro l
  induction l with
  | nil =>
    intro acc r hacc h
    injection h with h
    subst h
    refine ⟨hacc, fun t => ⟨Or.inl, ?_⟩⟩
    rintro (h | ⟨s, hs, _⟩)
    · exact h
    · exact absurd hs (List.not_mem_nil _)
  | cons x xs ih =>
    intro acc r hacc h
    rw [List.foldlM_cons] at h
    unfold isInputOfStep at h
    by_cases hx : is_included x nodeList = true
    · rw [if_pos hx] at h
      cases hp : rec x with
      | none => rw [hp] at h; exact Option.noConfusion h
      | some p =>
        rw [hp] at h
        obtain ⟨hpf, hpt⟩ := hrec x p hp
        obtain ⟨h1, t1⟩ := Pattern.mem_add acc p hacc
        obtain ⟨h2, t2⟩ := Pattern.mem_add (acc.add p) (dag x).pattern h1
        obtain ⟨hr, tr⟩ := ih _ r h2 h
        refine ⟨hr, fun t => ?_⟩
        have hxin : x ∈ nodeList := of_decide_eq_true hx
        rw [tr, t2, t1]
        constructor
        · rintro ((( h | h) | h) | ⟨s, hs, hsn, h⟩)
          · exact Or.inl h
          · exact Or.inr ⟨x, List.mem_cons_self _ _, hxin, Or.inl ((hpt t).1 h.2)⟩
          · exact Or.inr ⟨x, List.mem_cons_self _ _, hxin, Or.inr h⟩
          · exact Or.inr ⟨s, List.mem_cons_of_mem _ hs, hsn, h⟩
        · rintro (h1 | ⟨s, hs, hsn, h1⟩)
          · exact Or.inl (Or.inl (Or.inl h1))
          · rcases List.mem_cons.1 hs with e | e
            · subst e
              rcases h1 with h1 | h1
              · exact Or.inl (Or.inl (Or.inr ⟨hpf, (hpt t).2 h1⟩))
              · exact Or.inl (Or.inr h1)
            · exact Or.inr ⟨s, e, hsn, h1⟩
    · rw [if_neg hx] at h
      obtain ⟨hr, tr⟩ := ih _ r hacc h
      refine ⟨hr, fun t => ?_⟩
      rw [tr]
      constructor
      · rintro (h | ⟨s, hs, hsn, h⟩)
        · exact Or.inl h
        · exact Or.inr ⟨s, List.mem_cons_of_mem _ hs, hsn, h⟩
      · rintro (h | ⟨s, hs, hsn, h⟩)
        · exact Or.inl h
        · rcases List.mem_cons.1 hs with e | e
          · subst e
            exact absurd (decide_eq_true hsn) hx
          · exact Or.inr ⟨s, e, hsn, h⟩

theorem isInputOf_tags (dag : Nat → Node) (nodeList : List Nat) :
    ∀ (fuel node : Nat) (r : Pattern), isInputOf dag nodeList fuel node = some r →
      r ≠ FREE ∧
      ∀ t, t ∈ r ↔ ∃ m, Relation.TransGen (bodyEdge dag nodeList) node m ∧ tagOf dag m t := by
  intro fuel
  induction fuel with
  | zero => intro node r h; exact Option.noConfusion h
  | succ f ih =>
    intro node r h
    unfold isInputOf at h
    obtain ⟨hr, tr⟩ := isInputOf_fold_tags dag nodeList (isInputOf dag nodeList f)
      (fun s p hp => ih s p hp) _ _ r Pattern.empty_ne_free h
    refine ⟨hr, fun t => ?_⟩
    rw [tr]
    constructor
    · rintro (h0 | ⟨s, hs, hsn, h1 | h1⟩)
      · exact absurd h0 (Finset.not_mem_empty t)
      · obtain ⟨m, hm, hmt⟩ := h1
        exact ⟨m, Relation.TransGen.head ⟨hs, hsn⟩ hm, hmt⟩
      · exact ⟨s, Relation.TransGen.single ⟨hs, hsn⟩, h1⟩
    · rintro ⟨m, hm, hmt⟩
      obtain ⟨s, hs, hsm⟩ := Relation.TransGen.head'_iff.1 hm
      right
      refine ⟨s, hs.1, hs.2, ?_⟩
      rcases Relation.reflTransGen_iff_eq_or_transGen.1 hsm with e | e
      · subst e
        exact Or.inr hmt
      · exact Or.inl ⟨m, e, hmt⟩

theorem isInputOf_fold_none (dag : Nat → Node) (nodeList : List Nat)
    (rec : Nat → Option Pattern) :
    ∀ (l : List Nat) (acc : Pattern),
      l.foldlM (isInputOfStep dag nodeList rec) acc = none →
      ∃ s ∈ l, s ∈ nodeList ∧ rec s = none := by
  intro l
  induction l with
  | nil => intro acc h; exact Option.noConfusion h
  | cons x xs ih =>
    intro acc h
    rw [List.foldlM_cons] at h
    unfold isInputOfStep at h
    by_cases hx : is_included x nodeList = true
    · rw [if_pos hx] at h
      cases hp : rec x with
      | none => exact ⟨x, List.mem_cons_self _ _, of_decide_eq_true hx, hp⟩
      | some p =>
        rw [hp] at h
        obtain ⟨s, hs, h2⟩ := ih _ h
        exact ⟨s, List.mem_cons_of_mem _ hs, h2⟩
    · rw [if_neg hx] at h
      obtain ⟨s, hs, h2⟩ := ih _ h
      exact ⟨s, List.mem_cons_of_mem _ hs, h2⟩

theorem isInputOf_none_chain (dag : Nat → Node) (nodeList : List Nat) :
    ∀ (fuel node : Nat), isInputOf dag nodeList fuel node = none →
      ∃ l : List Nat, l.length = fuel ∧ List.Chain (bodyEdge dag nodeList) node l := by
  intro fuel
  induction fuel with
  | zero => intro node _; exact ⟨[], rfl, List.Chain.nil⟩
  | succ f ih =>
    intro node h
    unfold isInputOf at h
    obtain ⟨s, hs, hsn, hnone⟩ := isInputOf_fold_none dag nodeList _ _ _ h
    obtain ⟨l, hl, hch⟩ := ih s hnone
    exact ⟨s :: l, by simp [hl], List.Chain.cons ⟨hs, hsn⟩ hch⟩

theorem isInputOf_total (dag : Nat → Node) (nodeList : List Nat)
    (hac : ∀ n, ¬ Relation.TransGen (bodyEdge dag nodeList) n n) (fuel node : Nat)
    (hf : nodeList.length < fuel) : ∃ r, isInputOf dag nodeList fuel node = some r := by
  cases h : isInputOf dag nodeList fuel node with
  | some r => exact ⟨r, rfl⟩
  | none =>
    exfalso
    obtain ⟨l, hl, hch⟩ := isInputOf_none_chain dag nodeList fuel node h
    have hpw : List.Pairwise (Relation.TransGen (bodyEdge dag nodeList)) (node :: l) :=
      List.chain_iff_pairwise.1 (hch.imp (fun _ _ h => Relation.TransGen.single h))
    have hnd : l.Nodup := by
      refine (List.pairwise_cons.1 hpw).2.imp ?_
      intro a b hab e
      subst e
      exact hac _ hab
    have hsub : l ⊆ nodeList := by
      intro y hy
      obtain ⟨a, ha⟩ := chain_targets l node hch y hy
      exact ha.2
    have := (List.subperm_of_subset hnd hsub).length_le
    omega

theorem acyclic_of_increasing (E : Nat → Nat → Prop) (h : ∀ a b, E a b → a < b) :
    ∀ n, ¬ Relation.TransGen E n n := by
  have key : ∀ a b, Relation.TransGen E a b → a < b := by
    intro a b hab
    induction hab with
    | single e => exact h _ _ e
    | tail _ e ih => exact lt_trans ih (h _ _ e)
  intro n hn
  exact lt_irrefl n (key n n hn)

/-- C33: over a node graph without cycle, `isInputOf(node, cluster)` returns a pattern as soon
as the fuel exceeds the size of the body, always the same one; a tag is in it exactly when it
is a tag of the pattern of a node reached from `node` by a non-empty path whose every step
lands in the body of the cluster, where a node of pattern FREE, the identity of the sum,
contributes nothing: the result is the union of the patterns of these nodes; and it is the
empty pattern when `node` has no successor in the body. -/
theorem isInputOf_is_union (dag : Nat → Node) (nodeList : List Nat) (node : Nat)
    (hac : ∀ n, ¬ Relation.TransGen (fun a b => b ∈ (dag a).nextList) n n) :
    ∃ r, (∀ fuel, nodeList.length < fuel → isInputOf dag nodeList fuel node = some r) ∧
      (∀ t, t ∈ r ↔ ∃ m, Relation.TransGen (bodyEdge dag nodeList) node m ∧
        (dag m).pattern ≠ FREE ∧ t ∈ (dag m).pattern) ∧
      ((∀ s ∈ (dag node).nextList, s ∉ nodeList) → r = Pattern.empty) := by
  have hac2 : ∀ n, ¬ Relation.TransGen (bodyEdge dag nodeList) n n := by
    intro n hn
    exact hac n (hn.mono (fun _ _ e => e.1))
  obtain ⟨r, hr⟩ := isInputOf_total dag nodeList hac2 (nodeList.length + 1) node
    (Nat.lt_succ_self _)
  have htags := (isInputOf_tags dag nodeList _ node r hr).2
  refine ⟨r, ?_, htags, ?_⟩
  · intro fuel hf
    obtain ⟨r2, hr2⟩ := isInputOf_total dag nodeList hac2 fuel node hf
    have htags2 := (isInputOf_tags dag nodeList _ node r2 hr2).2
    rw [hr2]
    congr 1
    ext t
    rw [htags2, htags]
  · intro hno
    show r = ∅
    apply Finset.eq_empty_of_forall_not_mem
    intro t ht
    obtain ⟨m, hm, _⟩ := (htags t).1 ht
    obtain ⟨s, hs, _⟩ := Relation.TransGen.head'_iff.1 hm
    exact hno s hs.1 hs.2

theorem isInputOf_is_union_witness :
    isInputOf sortDag [3, 5] 3 1 = some {PatternTag.FOCAL} ∧
    ∃ r, (∀ fuel, [3, 5].length < fuel → isInputOf sortDag [3, 5] fuel 1 = some r) ∧
      (∀ t, t ∈ r ↔ ∃ m, Relation.TransGen (bodyEdge sortDag [3, 5]) 1 m ∧
        (sortDag m).pattern ≠ FREE ∧ t ∈ (sortDag m).pattern) ∧
      ((∀ s ∈ (sortDag 1).nextList, s ∉ [3, 5]) → r = Pattern.empty) :=
  ⟨by decide, isInputOf_is_union sortDag [3, 5] 1 (acyclic_of_increasing _ (by
    intro a b h
    unfold sortDag at h
    simp only at h
    split at h
    · rename_i e
      subst e
      simp only [List.mem_cons, List.mem_singleton, List.not_mem_nil, or_false] at h
      omega
    · exact absurd h (List.not_mem_nil _)))⟩

/-! ## The comparator of sorting -/

theorem isNextFuel_sound (s : Fusioner) (hw : s.WellLinked) : ∀ (fuel a b : Nat),
    a ∈ s.group_list → isNextFuel s.groups fuel a b = true →
    Relation.TransGen s.nextEdge a b := by
  intro fuel
  induction fuel with
  | zero => intro a b _ h; exact absurd h (by simp [isNextFuel])
  | succ f ih =>
    intro a b ha h
    unfold isNextFuel at h
    rw [Bool.or_eq_true] at h
    rcases h with h | h
    · have hb : b ∈ (s.groups a).nextList := of_decide_eq_true h
      exact Relation.TransGen.single ⟨ha, (hw.2.1 a ha b hb).1, hb⟩
    · rw [List.any_eq_true] at h
      obtain ⟨n, hn, h2⟩ := h
      have hng := (hw.2.1 a ha n hn).1
      exact Relation.TransGen.head ⟨ha, hng, hn⟩ (ih n b hng h2)

theorem isPrevFuel_sound (s : Fusioner) (hw : s.WellLinked) : ∀ (fuel a b : Nat),
    a ∈ s.group_list → isPrevFuel s.groups fuel a b = true →
    Relation.TransGen s.nextEdge b a := by
  intro fuel
  induction fuel with
  | zero => intro a b _ h; exact absurd h (by simp [isPrevFuel])
  | succ f ih =>
    intro a b ha h
    unfold isPrevFuel at h
    rw [Bool.or_eq_true] at h
    rcases h with h | h
    · have hb : b ∈ (s.groups a).prevList := of_decide_eq_true h
      obtain ⟨hbg, hab⟩ := hw.2.2 a ha b hb
      exact Relation.TransGen.single ⟨hbg, ha, hab⟩
    · rw [List.any_eq_true] at h
      obtain ⟨n, hn, h2⟩ := h
      obtain ⟨hng, han⟩ := hw.2.2 a ha n hn
      exact Relation.TransGen.tail (ih n b hng h2) ⟨hng, ha, han⟩

theorem isPrevFuel_of_chain (groups : Nat → Group) : ∀ (l : List Nat) (x fuel : Nat)
    (hne : l ≠ []), List.Chain (fun a b => b ∈ (groups a).prevList) x l → l.length ≤ fuel →
    isPrevFuel groups fuel x (l.getLast hne) = true := by
  intro l
  induction l with
  | nil => intro x fuel hne; exact absurd rfl hne
  | cons c rest ih =>
    intro x fuel hne hch hlen
    rw [List.chain_cons] at hch
    cases fuel with
    | zero => simp at hlen
    | succ f =>
      unfold isPrevFuel
      cases rest with
      | nil =>
        have : is_included c (groups x).prevList = true := by
          simpa [is_included] using hch.1
        simp [this]
      | cons d rest2 =>
        have hlen2 : (d :: rest2).length ≤ f := by
          simp only [List.length_cons] at hlen ⊢
          omega
        have h2 := ih c f (List.cons_ne_nil d rest2) hch.2 hlen2
        rw [Bool.or_eq_true]
        right
        rw [List.any_eq_true]
        refine ⟨c, hch.1, ?_⟩
        rw [List.getLast_cons (List.cons_ne_nil d rest2)]
        exact h2

theorem isPrev_complete (s : Fusioner) (hw : s.WellLinked) (hac : s.Acyclic) (x b : Nat)
    (h : Relation.TransGen s.nextEdge b x) : s.isPrev x b = true := by
  have hsw : Relation.TransGen (Function.swap s.nextEdge) x b := Relation.transGen_swap.2 h
  obtain ⟨c, hxc, hcb⟩ := Relation.TransGen.head'_iff.1 hsw
  obtain ⟨l, hl, hlast⟩ := List.exists_chain_of_relationReflTransGen hcb
  have hch : List.Chain (Function.swap s.nextEdge) x (c :: l) := List.Chain.cons hxc hl
  have hpw : List.Pairwise (Relation.TransGen (Function.swap s.nextEdge)) (x :: c :: l) :=
    List.chain_iff_pairwise.1 (hch.imp (fun _ _ h => Relation.TransGen.single h))
  have hnd : (c :: l).Nodup := by
    refine (List.pairwise_cons.1 hpw).2.imp ?_
    intro a b hab e
    subst e
    exact hac _ (Relation.transGen_swap.1 hab)
  have hlt : ∀ y ∈ c :: l, y < s.num_groups := by
    intro y hy
    obtain ⟨a, ha⟩ := chain_targets (c :: l) x hch y hy
    exact hw.1 y ha.1
  have hlen := length_le_of_nodup_lt (c :: l) s.num_groups hnd hlt
  have := isPrevFuel_of_chain s.groups (c :: l) x s.num_groups (List.cons_ne_nil c l)
    (hch.imp (fun a b h => (hw.2.1 b h.1 a h.2.2).2)) hlen
  rw [hlast] at this
  exact this

theorem lastId_of_body (env : Env) (g : Group) (hne : g.node_list ≠ []) :
    g.lastId env = some (g.lastIdD env) := by
  have : ∃ x, g.lastId env = some x := by
    simp [Group.lastId, Group.nodeList, List.getLast?_eq_getLast _ hne]
  obtain ⟨x, hx⟩ := this
  rw [Group.lastIdD, hx]
  rfl

theorem less_eval (env : Env) (s : Fusioner) (a b : Nat)
    (ha : (s.groups a).node_list ≠ []) (hb : (s.groups b).node_list ≠ []) :
    s.less env a b =
      if s.isNext a b = true then some true
      else if s.isPrev a b = true then some false
      else some (decide ((s.groups a).lastIdD env < (s.groups b).lastIdD env)) := by
  unfold Fusioner.less
  rw [lastId_of_body env _ ha, lastId_of_body env _ hb]

/-- C35 (failing input): on the acyclic cluster graph in which cluster 0, whose last body
node has id 5, is the predecessor of cluster 2, whose last body node has id 3, and cluster 1,
whose last body node has id 4, is unrelated to both, the comparator puts 0 before 2 and 2
before 1 but not 0 before 1: it is not transitive, so it is not a strict weak ordering; and
sorting the cluster list 2, 1, 0 by insertion with this comparator returns the list 2, 1, 0,
in which cluster 2 comes before its predecessor 0. -/
theorem comparator_not_transitive :
    sortEx.WellLinked ∧ sortEx.Acyclic ∧
    (sortEx.groups 0).lastId (Env.ofDag sortDag) = some 5 ∧
    (sortEx.groups 2).lastId (Env.ofDag sortDag) = some 3 ∧
    sortEx.less (Env.ofDag sortDag) 0 2 = some true ∧
    sortEx.less (Env.ofDag sortDag) 2 1 = some true ∧
    sortEx.less (Env.ofDag sortDag) 0 1 = some false ∧
    sortEx.less (Env.ofDag sortDag) 1 0 = some true ∧
    sortEx.isNext 0 2 = true ∧
    ∃ t, sortExRev.sorting (Env.ofDag sortDag) = some t ∧ t.group_list = [2, 1, 0] := by
  refine ⟨?_, sortEx_acyclic, ?_, ?_, ?_, ?_, ?_, ?_, ?_, ?_⟩
  · unfold Fusioner.WellLinked
    decide
  · decide
  · decide
  · decide
  · decide
  · decide
  · decide
  · decide
  · have hs : (sortExRev.sorting (Env.ofDag sortDag)).isSome = true := rfl
    obtain ⟨t, ht⟩ := Option.isSome_iff_exists.1 hs
    have e : t = (sortExRev.sorting (Env.ofDag sortDag)).get hs := by
      simp only [ht, Option.get_some]
    refine ⟨t, ht, ?_⟩
    rw [e]
    rfl

/-- Where the comparator of sorting behaves: on a cluster graph without cycle whose prev lists
mirror the next lists and whose clusters have a non-empty body it is defined, irreflexive and
asymmetric; when in addition the last body node id of every cluster is smaller than that of
each of its downstream clusters, it orders the clusters by their last body node id, so it is
transitive and its incomparability is transitive. -/
theorem comparator_strict_weak (env : Env) (s : Fusioner) (hw : s.WellLinked)
    (hac : s.Acyclic) (hne : ∀ g ∈ s.group_list, (s.groups g).node_list ≠ []) :
    (∀ a ∈ s.group_list, ∀ b ∈ s.group_list, ∃ r, s.less env a b = some r) ∧
    (∀ a ∈ s.group_list, s.less env a a = some false) ∧
    (∀ a ∈ s.group_list, ∀ b ∈ s.group_list,
      s.less env a b = some true → s.less env b a = some false) ∧
    ((∀ a ∈ s.group_list, ∀ b ∈ s.group_list, s.isNext a b = true →
        (s.groups a).lastIdD env < (s.groups b).lastIdD env) →
      (∀ a ∈ s.group_list, ∀ b ∈ s.group_list, s.less env a b =
        some (decide ((s.groups a).lastIdD env < (s.groups b).lastIdD env))) ∧
      (∀ a ∈ s.group_list, ∀ b ∈ s.group_list, ∀ c ∈ s.group_list,
        s.less env a b = some true → s.less env b c = some true →
        s.less env a c = some true) ∧
      (∀ a ∈ s.group_list, ∀ b ∈ s.group_list, ∀ c ∈ s.group_list,
        s.less env a b = some false → s.less env b a = some false →
        s.less env b c = some false → s.less env c b = some false →
        s.less env a c = some false ∧ s.less env c a = some false)) := by
  have hnn : ∀ a ∈ s.group_list, s.isNext a a = false := by
    intro a ha
    cases h : s.isNext a a with
    | false => rfl
    | true => exact absurd (isNextFuel_sound s hw _ a a ha h) (hac a)
  refine ⟨?_, ?_, ?_, ?_⟩
  · intro a ha b hb
    rw [less_eval env s a b (hne a ha) (hne b hb)]
    split
    · exact ⟨_, rfl⟩
    · split
      · exact ⟨_, rfl⟩
      · exact ⟨_, rfl⟩
  · intro a ha
    rw [less_eval env s a a (hne a ha) (hne a ha), hnn a ha]
    simp only [Bool.false_eq_true, if_false, lt_irrefl, decide_False]
    split <;> rfl
  · intro a ha b hb h
    rw [less_eval env s a b (hne a ha) (hne b hb)] at h
    rw [less_eval env s b a (hne b hb) (hne a ha)]
    by_cases h1 : s.isNext a b = true
    · have hab := isNextFuel_sound s hw _ a b ha h1
      have h2 : ¬ s.isNext b a = true := fun c =>
        hac a (hab.trans (isNextFuel_sound s hw _ b a hb c))
      rw [if_neg h2, if_pos (isPrev_complete s hw hac b a hab)]
    · rw [if_neg h1] at h
      by_cases h3 : s.isPrev a b = true
      · rw [if_pos h3] at h
        exact absurd h (by simp)
      · rw [if_neg h3] at h
        have h2 : ¬ s.isNext b a = true := fun c =>
          h3 (isPrev_complete s hw hac a b (isNextFuel_sound s hw _ b a hb c))
        rw [if_neg h2]
        have hlt : (s.groups a).lastIdD env < (s.groups b).lastIdD env := by
          injection h with h
          exact of_decide_eq_true h
        split
        · rfl
        · congr 1
          exact decide_eq_false (Nat.lt_asymm hlt)
  · intro hmono
    have hval : ∀ a ∈ s.group_list, ∀ b ∈ s.group_list, s.less env a b =
        some (decide ((s.groups a).lastIdD env < (s.groups b).lastIdD env)) := by
      intro a ha b hb
      rw [less_eval env s a b (hne a ha) (hne b hb)]
      by_cases h1 : s.isNext a b = true
      · rw [if_pos h1]
        congr 1
        exact (decide_eq_true (hmono a ha b hb h1)).symm
      · rw [if_neg h1]
        by_cases h3 : s.isPrev a b = true
        · rw [if_pos h3]
          have hba := isNext_complete s hw hac b a (isPrevFuel_sound s hw _ a b ha h3)
          congr 1
          exact (decide_eq_false (Nat.lt_asymm (hmono b hb a ha hba))).symm
        · rw [if_neg h3]
    refine ⟨hval, ?_, ?_⟩
    · intro a ha b hb c hc h1 h2
      rw [hval a ha b hb] at h1
      rw [hval b hb c hc] at h2
      rw [hval a ha c hc]
      injection h1 with h1
      injection h2 with h2
      congr 1
      exact decide_eq_true (lt_trans (of_decide_eq_true h1) (of_decide_eq_true h2))
    · intro a ha b hb c hc h1 h2 h3 h4
      rw [hval a ha b hb] at h1
      rw [hval b hb a ha] at h2
      rw [hval b hb c hc] at h3
      rw [hval c hc b hb] at h4
      rw [hval a ha c hc, hval c hc a ha]
      injection h1 with h1
      injection h2 with h2
      injection h3 with h3
      injection h4 with h4
      have k1 := of_decide_eq_false h1
      have k2 := of_decide_eq_false h2
      have k3 := of_decide_eq_false h3
      have k4 := of_decide_eq_false h4
      constructor
      · congr 1
        apply decide_eq_false
        omega
      · congr 1
        apply decide_eq_false
        omega

theorem comparator_strict_weak_witness :
    (∀ a ∈ sortOkEx.group_list, sortOkEx.less (Env.ofDag sortDag) a a = some false) ∧
    sortOkEx.less (Env.ofDag sortDag) 1 0 = some true ∧
    sortOkEx.less (Env.ofDag sortDag) 0 1 = some false := by
  have hw : sortOkEx.WellLinked := by
    unfold Fusioner.WellLinked
    decide
  have hac : sortOkEx.Acyclic := by
    refine acyclic_of_rank sortOkEx (fun g => 1 - g) ?_
    intro a b hab
    obtain ⟨ha, _, hb⟩ := hab
    have ha2 : a = 0 ∨ a = 1 := by
      have : a ∈ [0, 1] := ha
      simpa using this
    rcases ha2 with e | e
    · subst e
      exact absurd hb (List.not_mem_nil b)
    · subst e
      have : b ∈ [0] := hb
      have hb2 : b = 0 := by simpa using this
      subst hb2
      decide
  have h := comparator_strict_weak (Env.ofDag sortDag) sortOkEx hw hac (by decide)
  exact ⟨h.2.1, by decide, h.2.2.1 1 (by decide) 0 (by decide) (by decide)⟩

/-! ## One cluster per node in the fusion phases -/

theorem moveLoop_glo (src dst : Nat) (add : Group → Nat → Group) :
    ∀ (L : List Nat) (u : Fusioner), L.Nodup → (∀ n ∈ L, u.group_list_of n = [src]) →
      (∀ n ∈ L, (L.foldl (fun u node => u.moveNode src dst add node) u).group_list_of n
        = [dst]) ∧
      (∀ n, n ∉ L → (L.foldl (fun u node => u.moveNode src dst add node) u).group_list_of n
        = u.group_list_of n) := by
  intro L
  induction L with
  | nil =>
    intro u _ _
    exact ⟨fun n hn => absurd hn (List.not_mem_nil n), fun _ _ => rfl⟩
  | cons x xs ih =>
    intro u hnd hsrc
    rw [List.nodup_cons] at hnd
    have hl : (u.moveNode src dst add x).group_list_of = Function.update u.group_list_of x
        (remove_value src (u.group_list_of x) ++ [dst]) := rfl
    have hx : (u.moveNode src dst add x).group_list_of x = [dst] := by
      rw [hl, Function.update_same, hsrc x (List.mem_cons_self _ _)]
      simp [remove_value]
    have hrest : ∀ n ∈ xs, (u.moveNode src dst add x).group_list_of n = [src] := by
      intro n hn
      have : n ≠ x := fun e => hnd.1 (e ▸ hn)
      rw [hl, Function.update_noteq this]
      exact hsrc n (List.mem_cons_of_mem _ hn)
    obtain ⟨i1, i2⟩ := ih (u.moveNode src dst add x) hnd.2 hrest
    rw [List.foldl_cons]
    constructor
    · intro n hn
      rcases List.mem_cons.1 hn with e | e
      · subst e
        rw [i2 n hnd.1]
        exact hx
      · exact i1 n e
    · intro n hn
      have h1 : n ≠ x := fun e => hn (e ▸ List.mem_cons_self _ _)
      have h2 : n ∉ xs := fun e => hn (List.mem_cons_of_mem _ e)
      rw [i2 n h2, hl, Function.update_noteq h1]

theorem moveNodes_body_fold (env : Env) (s : Fusioner) (src dst : Nat) (hne : src ≠ dst)
    (hin : (s.groups src).in_list = []) (hout : (s.groups src).out_list = []) :
    s.moveNodes env src dst = (s.groups src).node_list.foldl
      (fun u node => u.moveNode src dst (fun g n => g.addNode n (env.dag n).pattern) node) s := by
  have hsame := (moveBody_pat env src dst (s.groups src).node_list s).2.1 src hne
  have h_in : (((s.groups src).nodeList.foldl
      (fun u node => u.moveNode src dst (fun g n => g.addNode n (env.dag n).pattern) node)
      s).groups src).inputList = [] := by
    show (((s.groups src).node_list.foldl _ s).groups src).in_list = []
    rw [hsame]; exact hin
  have h_out : (((s.groups src).nodeList.foldl
      (fun u node => u.moveNode src dst (fun g n => g.addNode n (env.dag n).pattern) node)
      s).groups src).outputList = [] := by
    show (((s.groups src).node_list.foldl _ s).groups src).out_list = []
    rw [hsame]; exact hout
  unfold Fusioner.moveNodes
  dsimp only
  rw [h_in, List.foldl_nil, h_out, List.foldl_nil]
  rfl

theorem glo_eq_of_mem {s : Fusioner} (hone : OneInv s) {n g : Nat}
    (h : g ∈ s.group_list_of n) : s.group_list_of n = [g] := by
  have hlen := hone.1 n
  cases hl : s.group_list_of n with
  | nil => rw [hl] at h; exact absurd h (List.not_mem_nil g)
  | cons a rest =>
    rw [hl] at h hlen
    cases rest with
    | nil =>
      have : g = a := by simpa using h
      rw [this]
    | cons b rest2 =>
      simp only [List.length_cons] at hlen
      omega

theorem fuseNodes_one (env : Env) (s : Fusioner) (src dst : Nat) (hs : src ∈ s.group_list)
    (hd : dst ∈ s.group_list) (hne : src ≠ dst) (hinv : CoverInv s) (hone : OneInv s)
    (t : Fusioner) (he : EdgeOnly (s.moveNodes env src dst) t) :
    OneInv (t.removeGroup src) ∧
    ∀ n, s.group_list_of n = [] → (t.removeGroup src).group_list_of n = [] := by
  obtain ⟨⟨e1, e2⟩, e3, _⟩ := he
  obtain ⟨_, n2, _, n4, _⟩ := hinv
  have hglo : (t.removeGroup src).group_list_of = (s.moveNodes env src dst).group_list_of := e1
  have hgr : (t.removeGroup src).groups = t.groups := rfl
  have hkey := moveNodes_body_fold env s src dst hne (n4 src hs).1 (n4 src hs).2
  obtain ⟨p1, p2, p3, _⟩ := moveNodes_pat env s src dst
  have hmem : ∀ g, g ∈ (t.removeGroup src).group_list ↔ g ∈ s.group_list ∧ g ≠ src := by
    intro g
    rw [mem_removeGroup, e3, p1]
  have hsrc : ∀ n ∈ (s.groups src).node_list, s.group_list_of n = [src] :=
    fun n hn => glo_eq_of_mem hone (n2 src hs n hn)
  obtain ⟨g1, g2⟩ := moveLoop_glo src dst
    (fun g n => g.addNode n (env.dag n).pattern) (s.groups src).node_list s
    (hone.2 src hs) hsrc
  rw [← hkey] at g1 g2
  refine ⟨⟨?_, ?_⟩, ?_⟩
  · intro n
    rw [hglo]
    by_cases hn : n ∈ (s.groups src).node_list
    · rw [g1 n hn]
      exact le_refl _
    · rw [g2 n hn]
      exact hone.1 n
  · intro g hg
    rw [hmem] at hg
    rw [hgr, (e2 g).1]
    by_cases hgd : g = dst
    · subst hgd
      rw [p3]
      refine List.Nodup.append (hone.2 g hg.1) (hone.2 src hs) ?_
      intro x hx1 hx2
      have a1 := glo_eq_of_mem hone (n2 g hg.1 x hx1)
      have a2 := hsrc x hx2
      rw [a1] at a2
      injection a2 with a2
      exact hne a2.symm
    · rw [(p2 g hgd).2]
      exact hone.2 g hg.1
  · intro n hn
    rw [hglo]
    have hnb : n ∉ (s.groups src).node_list := by
      intro hb
      have := n2 src hs n hb
      rw [hn] at this
      exact absurd this (List.not_mem_nil _)
    rw [g2 n hnb]
    exact hn

theorem SingleStep.single_refl (s : Fusioner) : SingleStep s s :=
  ⟨CoverStep.cover_refl s, fun _ h => ⟨h, fun _ h => h⟩⟩

theorem SingleStep.single_trans {a b c : Fusioner} (h1 : SingleStep a b)
    (h2 : SingleStep b c) : SingleStep a c :=
  ⟨h1.1.cover_trans h2.1, fun hi ho =>
    ⟨(h2.2 (h1.1 hi).1 (h1.2 hi ho).1).1,
      fun n hn => (h2.2 (h1.1 hi).1 (h1.2 hi ho).1).2 n ((h1.2 hi ho).2 n hn)⟩⟩

theorem SingleStep_edge {s t : Fusioner} (he : EdgeOnly s t) : SingleStep s t := by
  refine ⟨CoverStep_edge he, ?_⟩
  obtain ⟨⟨e1, e2⟩, e3, _⟩ := he
  intro _ hone
  refine ⟨⟨?_, ?_⟩, ?_⟩
  · intro n
    rw [e1]; exact hone.1 n
  · intro g hg
    rw [e3] at hg
    rw [(e2 g).1]; exact hone.2 g hg
  · intro n hn
    rw [e1]; exact hn

theorem pipeFuseGroup_single (env : Env) (s : Fusioner) (top bot : Nat) (t : Fusioner) (r : Nat)
    (h : s.pipeFuseGroup env top bot = some (t, r)) : SingleStep s t := by
  unfold Fusioner.pipeFuseGroup at h
  split at h
  · exact Option.noConfusion h
  rename_i hlive
  split at h
  · exact Option.noConfusion h
  rename_i hcan
  have htop : top ∈ s.group_list := by
    by_contra hc
    exact hlive (by simp [is_included, hc])
  have hbot : bot ∈ s.group_list := by
    by_contra hc
    exact hlive (by simp [is_included, hc])
  have hne : bot ≠ top := by
    have : s.canPipeFuse env top bot = true := by simpa using hcan
    exact Ne.symm (canPipeFuse_ne env s top bot this)
  dsimp only at h
  split at h
  · exact Option.noConfusion h
  rename_i s3 h3
  injection h with h
  injection h with h _
  subst h
  refine ⟨fun hinv => fuseNodes_cover env s bot top hbot htop hne hinv _ ?_,
    fun hinv hone => fuseNodes_one env s bot top hbot htop hne hinv hone _ ?_⟩
  · exact ((((pipeMovePrevs_edge _ top bot).edge_trans
      (pipeMoveNexts_edge _ top bot s3 h3)).edge_trans
      (pipeUpdatePrevs_edge s3 top bot)).edge_trans
      (EdgeOnly_modify _ _ _ ⟨rfl, rfl, rfl⟩)).edge_trans
      (EdgeOnly_modify _ _ _ ⟨rfl, rfl, rfl⟩)
  · exact ((((pipeMovePrevs_edge _ top bot).edge_trans
      (pipeMoveNexts_edge _ top bot s3 h3)).edge_trans
      (pipeUpdatePrevs_edge s3 top bot)).edge_trans
      (EdgeOnly_modify _ _ _ ⟨rfl, rfl, rfl⟩)).edge_trans
      (EdgeOnly_modify _ _ _ ⟨rfl, rfl, rfl⟩)

theorem flatFuseGroup_single (env : Env) (s : Fusioner) (left right : Nat) (t : Fusioner) (r : Nat)
    (h : s.flatFuseGroup env left right = some (t, r)) : SingleStep s t := by
  unfold Fusioner.flatFuseGroup at h
  split at h
  · exact Option.noConfusion h
  rename_i hlive
  split at h
  · exact Option.noConfusion h
  rename_i hcan
  have hl : left ∈ s.group_list := by
    by_contra hc
    exact hlive (by simp [is_included, hc])
  have hr : right ∈ s.group_list := by
    by_contra hc
    exact hlive (by simp [is_included, hc])
  have hne : right ≠ left := by
    have : s.canFlatFuse env left right = true := by simpa using hcan
    exact Ne.symm (canFlatFuse_ne env s left right this)
  dsimp only at h
  split at h
  · exact Option.noConfusion h
  rename_i s2 h2
  split at h
  · exact Option.noConfusion h
  rename_i s3 h3
  injection h with h
  injection h with h _
  subst h
  refine ⟨fun hinv => fuseNodes_cover env s right left hr hl hne hinv _ ?_,
    fun hinv hone => fuseNodes_one env s right left hr hl hne hinv hone _ ?_⟩
  · exact ((flatMovePrevs_edge _ left right s2 h2).edge_trans
      (flatMoveNexts_edge s2 left right s3 h3)).edge_trans
      (EdgeOnly_modify _ _ _ ⟨rfl, rfl, rfl⟩)
  · exact ((flatMovePrevs_edge _ left right s2 h2).edge_trans
      (flatMoveNexts_edge s2 left right s3 h3)).edge_trans
      (EdgeOnly_modify _ _ _ ⟨rfl, rfl, rfl⟩)

theorem pipeGentlyLoop_single (env : Env) : ∀ (fuel : Nat) (s : Fusioner) (g i : Nat)
    (t : Fusioner), Fusioner.pipeGentlyLoop env fuel s g i = some t → SingleStep s t := by
  intro fuel
  induction fuel with
  | zero => intro s g i t h; exact Option.noConfusion h
  | succ fuel ih =>
    intro s g i t h
    unfold Fusioner.pipeGentlyLoop at h
    split at h
    · injection h with h
      subst h
      exact SingleStep.single_refl s
    · dsimp only at h
      split at h
      · split at h
        · exact Option.noConfusion h
        · rename_i s1 ret h1
          exact (pipeFuseGroup_single env s _ _ s1 ret h1).single_trans (ih s1 ret 0 t h)
      · exact ih s g (i + 1) t h

theorem pipeGently_single (env : Env) (fuel : Nat) (s : Fusioner) (node : Nat) (t : Fusioner)
    (h : s.pipeGently env fuel node = some t) : SingleStep s t := by
  unfold Fusioner.pipeGently at h
  split at h
  · injection h with h
    subst h
    exact SingleStep.single_refl s
  · split at h
    · exact Option.noConfusion h
    · exact pipeGentlyLoop_single env fuel s _ 0 t h

theorem flatGentlyInner_single (env : Env) (node_group : Nat) : ∀ (l : List Nat) (s : Fusioner)
    (left : Nat) (t : Fusioner) (r : Nat),
    Fusioner.flatGentlyInner env node_group l s left = some (t, r) → SingleStep s t := by
  intro l
  induction l with
  | nil =>
    intro s left t r h
    unfold Fusioner.flatGentlyInner at h
    injection h with h
    injection h with h _
    subst h
    exact SingleStep.single_refl s
  | cons right rest ih =>
    intro s left t r h
    unfold Fusioner.flatGentlyInner at h
    split at h
    · exact Option.noConfusion h
    · split at h
      · exact ih s left t r h
      · split at h
        · split at h
          · exact Option.noConfusion h
          · rename_i s1 ret h1
            exact (flatFuseGroup_single env s _ _ s1 ret h1).single_trans (ih s1 ret t r h)
        · exact ih s left t r h

theorem flatGentlyOuter_single (env : Env) (node_group : Nat) : ∀ (l : List Nat) (s : Fusioner)
    (t : Fusioner), Fusioner.flatGentlyOuter env node_group l s = some t → SingleStep s t := by
  intro l
  induction l with
  | nil =>
    intro s t h
    unfold Fusioner.flatGentlyOuter at h
    injection h with h
    subst h
    exact SingleStep.single_refl s
  | cons left rest ih =>
    intro s t h
    unfold Fusioner.flatGentlyOuter at h
    split at h
    · exact Option.noConfusion h
    · split at h
      · exact ih s t h
      · split at h
        · exact Option.noConfusion h
        · rename_i s1 ret h1
          exact (flatGentlyInner_single env node_group rest s _ s1 ret h1).single_trans (ih s1 t h)

theorem flatGently_single (env : Env) (s : Fusioner) (node : Nat) (t : Fusioner)
    (h : s.flatGently env node = some t) : SingleStep s t := by
  unfold Fusioner.flatGently at h
  split at h
  · injection h with h
    subst h
    exact SingleStep.single_refl s
  · split at h
    · exact Option.noConfusion h
    · split at h
      · injection h with h
        subst h
        exact SingleStep.single_refl s
      · exact flatGentlyOuter_single env _ _ s t h

theorem pipeLoopBU_single (env : Env) : ∀ (fuel : Nat) (s : Fusioner) (g i : Nat)
    (t : Fusioner) (r : Nat), Fusioner.pipeLoopBU env fuel s g i = some (t, r) →
    SingleStep s t := by
  intro fuel
  induction fuel with
  | zero => intro s g i t r h; exact Option.noConfusion h
  | succ fuel ih =>
    intro s g i t r h
    unfold Fusioner.pipeLoopBU at h
    split at h
    · injection h with h
      injection h with h _
      subst h
      exact SingleStep.single_refl s
    · dsimp only at h
      split at h
      · split at h
        · exact Option.noConfusion h
        · rename_i s1 ret h1
          exact (pipeFuseGroup_single env s _ _ s1 ret h1).single_trans (ih s1 ret 0 t r h)
      · exact ih s g (i + 1) t r h

theorem upLoopBU_single (recur : Fusioner → Nat → Option Fusioner)
    (hrec : ∀ s g t, recur s g = some t → SingleStep s t) (group : Nat) :
    ∀ (fuel : Nat) (s : Fusioner) (i sz : Nat) (t : Fusioner),
    Fusioner.upLoopBU recur group fuel s i sz = some t → SingleStep s t := by
  intro fuel
  induction fuel with
  | zero => intro s i sz t h; exact Option.noConfusion h
  | succ fuel ih =>
    intro s i sz t h
    unfold Fusioner.upLoopBU at h
    split at h
    · split at h
      · exact Option.noConfusion h
      · split at h
        · exact Option.noConfusion h
        · rename_i s1 h1
          split at h
          · exact (hrec s _ s1 h1).single_trans (ih s1 _ _ t h)
          · exact (hrec s _ s1 h1).single_trans (ih s1 _ _ t h)
    · injection h with h
      subst h
      exact SingleStep.single_refl s

theorem processBU_single (env : Env) : ∀ (fuel : Nat) (s : Fusioner) (group : Nat)
    (t : Fusioner), Fusioner.processBU env fuel s group = some t → SingleStep s t := by
  intro fuel
  induction fuel with
  | zero =>
    intro s group t h
    unfold Fusioner.processBU at h
    split at h
    · injection h with h
      subst h
      exact SingleStep.single_refl s
    · split at h
      · injection h with h
        subst h
        exact SingleStep.single_refl s
      · exact Option.noConfusion h
  | succ fuel ih =>
    intro s group t h
    unfold Fusioner.processBU at h
    split at h
    · injection h with h
      subst h
      exact SingleStep.single_refl s
    · split at h
      · injection h with h
        subst h
        exact SingleStep.single_refl s
      · dsimp only at h
        split at h
        · exact Option.noConfusion h
        · rename_i s2 group2 h2
          have hv : SingleStep s { s with visited := group :: s.visited } :=
            ⟨fun hi => ⟨hi, fun _ hn => hn⟩, fun _ ho => ⟨ho, fun _ hn => hn⟩⟩
          exact (hv.single_trans (pipeLoopBU_single env fuel _ group 0 s2 group2 h2)).single_trans
            (upLoopBU_single _ ih group2 fuel s2 0 _ t h)

theorem fuseFlat_single (env : Env) (s : Fusioner) (list : List Nat) (t : Fusioner)
    (h : s.fuseFlat env list = some t) : SingleStep s t := by
  unfold Fusioner.fuseFlat at h
  exact foldlM_rel SingleStep SingleStep.single_refl (fun _ _ _ => SingleStep.single_trans) _
    (fun u x v hv => flatGently_single env u x v hv) _ _ _ h

theorem one_of_ne_nil {s : Fusioner} (hone : OneInv s) {n : Nat}
    (h : s.group_list_of n ≠ []) : ∃ g, s.group_list_of n = [g] := by
  obtain ⟨g, hg⟩ := List.exists_mem_of_ne_nil _ h
  exact ⟨g, glo_eq_of_mem hone hg⟩

theorem process_one (env : Env) (s : Fusioner) (node : Nat) (t : Fusioner)
    (h : s.process env node = some t) (hinv : CoverInv s) (hone : OneInv s)
    (hfresh : s.group_list_of node = []) :
    CoverInv t ∧ OneInv t ∧ t.group_list_of node ≠ [] ∧
    ∀ n, n ≠ node → t.group_list_of n = s.group_list_of n := by
  have hc := process_cover env s node t h
  unfold Fusioner.process at h
  have he := foldlM_rel EdgeOnly EdgeOnly.edge_refl (fun _ _ _ => EdgeOnly.edge_trans)
    (processLink s.newGroup.2) (fun u x v hv => processLink_edge _ u x v hv) _ _ _ h
  obtain ⟨e1, _, e3, e4, e5⟩ := processNew_fields env s node
  have hbody : ((s.processNew env node).groups s.num_groups).node_list = [node] := by
    rw [e4]; rfl
  have hnew : OneInv (s.processNew env node) := by
    refine ⟨?_, ?_⟩
    · intro n
      rw [e3, Function.update_apply]
      split
      · rename_i e
        rw [hfresh]
        exact le_refl _
      · exact hone.1 n
    · intro g hg
      rw [e1] at hg
      rcases List.mem_append.1 hg with hg | hg
      · have : g ≠ s.num_groups := Nat.ne_of_lt (hinv.2.2.2.2 g hg)
        rw [e5 g this]
        exact hone.2 g hg
      · have : g = s.num_groups := by simpa using hg
        rw [this, hbody]
        exact List.nodup_singleton _
  have hcn := ((processNew_cover env s node).1 hinv).1
  refine ⟨(hc.1 hinv).1, ((SingleStep_edge he).2 hcn hnew).1, hc.2, ?_⟩
  intro n hn
  rw [he.1.1, e3, Function.update_noteq hn]

theorem fuseGently_one (env : Env) (fuel : Nat) : ∀ (l : List Nat) (s t : Fusioner),
    l.Nodup → CoverInv s → OneInv s → (∀ n ∈ l, s.group_list_of n = []) →
    s.fuseGently env fuel l = some t →
    CoverInv t ∧ OneInv t ∧ (∀ n ∈ l, ∃ g, t.group_list_of n = [g]) ∧
    (∀ n, n ∉ l → s.group_list_of n = [] → t.group_list_of n = []) ∧
    (∀ n, s.group_list_of n ≠ [] → t.group_list_of n ≠ []) := by
  intro l
  induction l with
  | nil =>
    intro s t _ hinv hone _ h
    unfold Fusioner.fuseGently at h
    injection h with h
    subst h
    exact ⟨hinv, hone, fun n hn => absurd hn (List.not_mem_nil n), fun _ _ h => h,
      fun _ h => h⟩
  | cons x xs ih =>
    intro s t hnd hinv hone hfresh h
    rw [List.nodup_cons] at hnd
    unfold Fusioner.fuseGently at h
    rw [List.foldlM_cons] at h
    cases h1 : s.process env x with
    | none => rw [h1] at h; exact Option.noConfusion h
    | some s1 =>
      rw [h1] at h
      cases h2 : s1.pipeGently env fuel x with
      | none =>
        simp only [h2] at h
        exact Option.noConfusion h
      | some u =>
        simp only [h2] at h
        have hrest : u.fuseGently env fuel xs = some t := h
        obtain ⟨c1, o1, p1, q1⟩ := process_one env s x s1 h1 hinv hone
          (hfresh x (List.mem_cons_self _ _))
        have hstep := pipeGently_single env fuel s1 x u h2
        obtain ⟨c2, k2⟩ := hstep.1 c1
        obtain ⟨o2, z2⟩ := hstep.2 c1 o1
        have hfresh2 : ∀ n ∈ xs, u.group_list_of n = [] := by
          intro n hn
          have hne : n ≠ x := fun e => hnd.1 (e ▸ hn)
          apply z2
          rw [q1 n hne]
          exact hfresh n (List.mem_cons_of_mem _ hn)
        obtain ⟨c3, o3, p3, z3, k3⟩ := ih u t hnd.2 c2 o2 hfresh2 hrest
        refine ⟨c3, o3, ?_, ?_, ?_⟩
        · intro n hn
          rcases List.mem_cons.1 hn with e | e
          · subst e
            exact one_of_ne_nil o3 (k3 n (k2 n p1))
          · exact p3 n e
        · intro n hn hs
          have h1n : n ≠ x := fun e => hn (e ▸ List.mem_cons_self _ _)
          have h2n : n ∉ xs := fun e => hn (List.mem_cons_of_mem _ e)
          apply z3 n h2n
          apply z2
          rw [q1 n h1n]
          exact hs
        · intro n hs
          apply k3
          apply k2
          by_cases e : n = x
          · subst e
            exact p1
          · rw [q1 n e]
            exact hs

theorem fuseBU_single (env : Env) (fuel : Nat) (s : Fusioner) (list : List Nat) (t : Fusioner)
    (h : s.fuseBU env fuel list = some t) : SingleStep s t := by
  unfold Fusioner.fuseBU at h
  refine foldlM_rel SingleStep SingleStep.single_refl (fun _ _ _ => SingleStep.single_trans) _
    ?_ _ _ _ h
  intro u x v hv
  split at hv
  · exact processBU_single env fuel u _ v hv
  · exact Option.noConfusion hv

theorem clear_one (s : Fusioner) : OneInv s.clear :=
  ⟨fun _ => Nat.zero_le _, fun g hg => absurd hg (List.not_mem_nil g)⟩

/-- C34: when the node list has no repetition, after the first fusion stage (`process` and
`pipeGently` on every node, from the cleared state) every node of the list has exactly one
cluster and every other node has none; this is kept by the flat fusion of the first stage and
by any number of iterations of the bottom-up loop, so when the turn of a node comes in the
bottom-up loop, after the loop has treated the nodes that follow it in the list, the assertion
that the node has exactly one cluster holds. -/
theorem fuse_one_cluster_per_node (env : Env) (fuel : Nat) (s : Fusioner) (list : List Nat)
    (hnd : list.Nodup) (s1 : Fusioner)
    (h1 : s.clear.fuseGently env fuel list = some s1) :
    (∀ n ∈ list, ∃ g, s1.group_list_of n = [g]) ∧
    (∀ n, n ∉ list → s1.group_list_of n = []) ∧
    ∀ s2, s1.fuseFlat env list = some s2 →
      (∀ n ∈ list, ∃ g, s2.group_list_of n = [g]) ∧
      (∀ n, n ∉ list → s2.group_list_of n = []) ∧
      ∀ (pre : List Nat) (node : Nat) (post : List Nat) (u : Fusioner),
        list = pre ++ node :: post → s2.fuseBU env fuel post = some u →
        (∃ g, u.group_list_of node = [g]) ∧ ∀ n ∈ list, (u.group_list_of n).length = 1 := by
  obtain ⟨c1, o1, p1, z1, _⟩ := fuseGently_one env fuel list s.clear s1 hnd (clear_cover s)
    (clear_one s) (fun _ _ => rfl) h1
  refine ⟨p1, fun n hn => z1 n hn rfl, ?_⟩
  intro s2 h2
  have hflat := fuseFlat_single env s1 list s2 h2
  obtain ⟨c2, k2⟩ := hflat.1 c1
  obtain ⟨o2, z2⟩ := hflat.2 c1 o1
  have p2 : ∀ n ∈ list, ∃ g, s2.group_list_of n = [g] := by
    intro n hn
    obtain ⟨g, hg⟩ := p1 n hn
    exact one_of_ne_nil o2 (k2 n (by rw [hg]; exact List.cons_ne_nil _ _))
  refine ⟨p2, fun n hn => z2 n (z1 n hn rfl), ?_⟩
  intro pre node post u hl hu
  have hbu := fuseBU_single env fuel s2 post u hu
  obtain ⟨_, k3⟩ := hbu.1 c2
  obtain ⟨o3, _⟩ := hbu.2 c2 o2
  have p3 : ∀ n ∈ list, ∃ g, u.group_list_of n = [g] := by
    intro n hn
    obtain ⟨g, hg⟩ := p2 n hn
    exact one_of_ne_nil o3 (k3 n (by rw [hg]; exact List.cons_ne_nil _ _))
  refine ⟨p3 node (by rw [hl]; simp), ?_⟩
  intro n hn
  obtain ⟨g, hg⟩ := p3 n hn
  rw [hg]
  rfl

theorem fuse_one_cluster_per_node_witness :
    ∃ s1 s2 u, Fusioner.init.clear.fuseGently (Env.ofDag linkDag) 4 [0, 1] = some s1 ∧
      s1.fuseFlat (Env.ofDag linkDag) [0, 1] = some s2 ∧
      s2.fuseBU (Env.ofDag linkDag) 4 [1] = some u ∧
      (∃ g, u.group_list_of 0 = [g]) ∧ ∀ n ∈ [0, 1], ∃ g, s1.group_list_of n = [g] := by
  have hs1 : (Fusioner.init.clear.fuseGently (Env.ofDag linkDag) 4 [0, 1]).isSome = true := rfl
  obtain ⟨s1, h1⟩ := Option.isSome_iff_exists.1 hs1
  have e1 : s1 = (Fusioner.init.clear.fuseGently (Env.ofDag linkDag) 4 [0, 1]).get hs1 := by
    simp only [h1, Option.get_some]
  have hs2 : (s1.fuseFlat (Env.ofDag linkDag) [0, 1]).isSome = true := by
    rw [e1]; rfl
  obtain ⟨s2, h2⟩ := Option.isSome_iff_exists.1 hs2
  have e2 : s2 = (s1.fuseFlat (Env.ofDag linkDag) [0, 1]).get hs2 := by
    simp only [h2, Option.get_some]
  have hs3 : (s2.fuseBU (Env.ofDag linkDag) 4 [1]).isSome = true := by
    subst e2
    subst e1
    rfl
  obtain ⟨u, h3⟩ := Option.isSome_iff_exists.1 hs3
  have hw := fuse_one_cluster_per_node (Env.ofDag linkDag) 4 Fusioner.init [0, 1] (by decide)
    s1 h1
  exact ⟨s1, s2, u, h1, h2, h3, ((hw.2.2 s2 h2).2.2 [] 0 [1] u rfl h3).1, hw.1⟩

end MapRT
